import Mathlib

/-!
# B+ tree of `src/BTree.cpp`: shallow embedding

The in-memory B+ tree `BPTree<int>` of `src/BTree.cpp` is embedded as follows.

* `std::unique_ptr<BPTNode>` is an owned subtree: `BPTNode.null` or
  `BPTNode.node addr isLeaf size keys child`.  A `std::move` out of a slot leaves
  `null` behind, exactly as `unique_ptr` does.
* The arrays `keys[2B-1]` and `child[2B]` are total functions on `Int`; stale
  slot contents beyond `size` are kept, because the code reads and moves them.
* The raw, non-owning pointers `leftSibling_` / `rightSibling_` are addresses.
  Since they are written through other nodes, the two fields are kept as
  address-indexed tables (`Links`) beside the ownership tree.
* C++ `int` / `long long` values are `Int` (sizes stay far below `2^31`).
* The `while` descents of `insert` / `remove` recurse into the owned child and
  store the result back into the slot the child was taken from; they run on
  fuel.  Dereferencing a null pointer is the fault `Fault.nullDeref`.
-/

namespace BPT

/-! ## Keys -/

/-- The pair `std::pair<key_t, long long int>` with `key_t = int`: user key and pkey. -/
abbrev keyRNPair := Int × Int

/-- The comparison `a <= b` of `std::pair`: lexicographic on `(first, second)`. -/
def keyLe (a b : keyRNPair) : Prop := a.1 < b.1 ∨ (a.1 = b.1 ∧ a.2 ≤ b.2)

instance keyLeDecidable (a b : keyRNPair) : Decidable (keyLe a b) := by
  unfold keyLe; infer_instance

/-- Strict lexicographic order, the negation of `b <= a`. -/
def keyLt (a b : keyRNPair) : Prop := a.1 < b.1 ∨ (a.1 = b.1 ∧ a.2 < b.2)

instance keyLtDecidable (a b : keyRNPair) : Decidable (keyLt a b) := by
  unfold keyLt; infer_instance

/-! ## Arrays and loops -/

/-- Array store `f[i] = v`. -/
def setAt {α : Type} (f : Int → α) (i : Int) (v : α) : Int → α :=
  fun j => if j = i then v else f j

/-- The loop `for (i = start; ...; ++i) body`, run for `n` iterations. -/
def loopUp {σ : Type} (body : Int → σ → σ) : Nat → Int → σ → σ
  | 0, _, s => s
  | n + 1, i, s => loopUp body n (i + 1) (body i s)

/-- The loop `for (i = start; ...; --i) body`, run for `n` iterations. -/
def loopDown {σ : Type} (body : Int → σ → σ) : Nat → Int → σ → σ
  | 0, _, s => s
  | n + 1, i, s => loopDown body n (i - 1) (body i s)

/-! ## Nodes -/

/-- An owning pointer `std::unique_ptr<BPTNode<int>>`: null, or a node with its
address, `isLeaf`, `size`, `keys` and `child` arrays. -/
inductive BPTNode where
  | null : BPTNode
  | node (addr : Nat) (isLeaf : Bool) (size : Int) (keys : Int → keyRNPair)
      (child : Int → BPTNode) : BPTNode

instance : Inhabited BPTNode := ⟨BPTNode.null⟩

/-- Value-initialised `new keyRNPair[2 * branchingFactor - 1]`. -/
def zeroKeys : Int → keyRNPair := fun _ => (0, 0)

/-- Default-constructed `new std::unique_ptr<Node>[2 * branchingFactor]`. -/
def nullChild : Int → BPTNode := fun _ => BPTNode.null

namespace BPTNode

/-- Field `size` (0 for the null pointer, which has no fields). -/
def size : BPTNode → Int
  | null => 0
  | node _ _ s _ _ => s

/-- Field `isLeaf`. -/
def isLeaf : BPTNode → Bool
  | null => false
  | node _ l _ _ _ => l

/-- Field `keys`. -/
def keys : BPTNode → Int → keyRNPair
  | null => zeroKeys
  | node _ _ _ k _ => k

/-- Field `child`. -/
def child : BPTNode → Int → BPTNode
  | null => nullChild
  | node _ _ _ _ c => c

/-- The address held by the pointer (`get()`), `none` for null. -/
def addr? : BPTNode → Option Nat
  | null => none
  | node a _ _ _ _ => some a

/-- Whether the pointer is null. -/
def isNull : BPTNode → Bool
  | null => true
  | node _ _ _ _ _ => false

end BPTNode

/-- Faults of the embedding: a null pointer was dereferenced, or a descent ran
out of fuel. -/
inductive Fault where
  | nullDeref
  | fuel
  deriving DecidableEq

/-- The raw sibling pointers of all nodes, by node address, and the next unused
address of the allocator. -/
structure Links where
  leftSibling_ : Nat → Option Nat
  rightSibling_ : Nat → Option Nat
  next : Nat

/-- Table store `t[a] = v`. -/
def setLink (t : Nat → Option Nat) (a : Nat) (v : Option Nat) : Nat → Option Nat :=
  fun b => if b = a then v else t b

/-- The tree `BPTree<int>`: the owning `root` pointer and `branchingFactor`,
with the sibling tables. -/
structure BPTree where
  root : BPTNode
  branchingFactor : Int
  links : Links

/-- The constructor `BPTree(branchingFactor_)`: `root(nullptr)`. -/
def BPTree.empty (B : Int) : BPTree :=
  { root := BPTNode.null, branchingFactor := B,
    links := { leftSibling_ := fun _ => none, rightSibling_ := fun _ => none, next := 0 } }

/-! ## binarySearch -/

/-- The `while (l <= r)` loop of `binarySearch`. -/
def binarySearchLoop (keys : Int → keyRNPair) (key : keyRNPair) : Nat → Int → Int → Int → Int
  | 0, _, _, ans => ans
  | n + 1, l, r, ans =>
    if l ≤ r then
      let mid := (l + r) / 2
      if keyLe key (keys mid) then binarySearchLoop keys key n l (mid - 1) mid
      else binarySearchLoop keys key n (mid + 1) r ans
    else ans

/-- The function `binarySearch(node, key)` on the node's `size` and `keys`; the
interval `[l, r]` shrinks in every iteration, so `size` iterations suffice. -/
def binarySearch (size : Int) (keys : Int → keyRNPair) (key : keyRNPair) : Int :=
  binarySearchLoop keys key size.toNat 0 (size - 1) size

/-! ## The array loops of the source

Where a source loop assigns to `keys` and to `child` in one body, the two
assignments touch different arrays; the key part and the child part are given
as two loops over the same index range. -/

/-- The loop `for (i = size-1; i >= from; --i) keys[i+1] = keys[i];`. -/
def shiftRightK (start size : Int) (k : Int → keyRNPair) : Int → keyRNPair :=
  loopDown (fun i k => setAt k (i + 1) (k i)) (size - start).toNat (size - 1) k

/-- The loop `for (i = size-1; i >= from; --i) child[i+2] = std::move(child[i+1]);`. -/
def shiftRightC (start size : Int) (c : Int → BPTNode) : Int → BPTNode :=
  loopDown (fun i c => setAt (setAt c (i + 1) BPTNode.null) (i + 2) (c (i + 1)))
    (size - start).toNat (size - 1) c

/-- The loop `for (i = from; i < size-1; ++i) keys[i] = keys[i+1];`. -/
def shiftLeftK (start size : Int) (k : Int → keyRNPair) : Int → keyRNPair :=
  loopUp (fun i k => setAt k i (k (i + 1))) (size - 1 - start).toNat start k

/-- The loop `for (i = from; i < size-1; ++i) child[i+d] = std::move(child[i+d+1]);`
(`d = 0` in `borrowFromRightSibling`, `d = 1` in `mergeWithSibling`). -/
def shiftLeftC (d start size : Int) (c : Int → BPTNode) : Int → BPTNode :=
  loopUp (fun i c => setAt (setAt c (i + d + 1) BPTNode.null) (i + d) (c (i + d + 1)))
    (size - 1 - start).toNat start c

/-- The loop `for (i = 0; i < n; ++i) dst->keys[off+i] = src->keys[i];`. -/
def copyKeys (off n : Int) (src : Int → keyRNPair) (dst : Int → keyRNPair) : Int → keyRNPair :=
  loopUp (fun i k => setAt k (off + i) (src i)) n.toNat 0 dst

/-- The loop `for (i = 0; i < n; ++i) dst->child[off+i+1] = std::move(src->child[i+1]);`
on the state `(dst->child, src->child)`. -/
def moveChildren (off n : Int) (st : (Int → BPTNode) × (Int → BPTNode)) :
    (Int → BPTNode) × (Int → BPTNode) :=
  loopUp (fun i s => (setAt s.1 (off + i + 1) (s.2 (i + 1)), setAt s.2 (i + 1) BPTNode.null))
    n.toNat 0 st

/-- The key part of the split loop
`for (i = B; i < maxSize; ++i) dst->keys[i-B] = src->keys[i];`. -/
def splitCopyK (B : Int) (src : Int → keyRNPair) (dst : Int → keyRNPair) : Int → keyRNPair :=
  loopUp (fun i k => setAt k (i - B) (src i)) ((2 * B - 1) - B).toNat B dst

/-- The child part of the split loop
`for (i = B; i < maxSize; ++i) dst->child[i-B] = std::move(src->child[i]);`
on the state `(dst->child, src->child)`. -/
def splitCopyC (B : Int) (st : (Int → BPTNode) × (Int → BPTNode)) :
    (Int → BPTNode) × (Int → BPTNode) :=
  loopUp (fun i s => (setAt s.1 (i - B) (s.2 i), setAt s.2 i BPTNode.null))
    ((2 * B - 1) - B).toNat B st

/-! ## insert -/

/-- The allocation `std::make_unique<Node>(branchingFactor)`: the constructor
sets `isLeaf(false)`, `size(1)` and null sibling pointers; the arrays are fresh. -/
def Links.alloc (L : Links) : Nat × Links :=
  (L.next, { leftSibling_ := setLink L.leftSibling_ L.next none,
             rightSibling_ := setLink L.rightSibling_ L.next none,
             next := L.next + 1 })

/-- The function `splitRoot()`, on the (non-null) root and the sibling tables;
returns the new root. -/
def splitRoot (B : Int) (root : BPTNode) (L : Links) : Except Fault (BPTNode × Links) :=
  match root with
  | BPTNode.null => Except.error Fault.nullDeref
  | BPTNode.node ra rl _ rk rc =>
    let (newRootA, L1) := L.alloc
    let (newNodeA, L2) := L1.alloc
    let maxSize := 2 * B - 1
    let nk := splitCopyK B rk zeroKeys
    let st := splitCopyC B (nullChild, rc)
    let newRootKeys := setAt zeroKeys 0 (rk (B - 1))
    let nc := setAt st.1 (B - 1) (st.2 maxSize)
    let rc2 := setAt st.2 maxSize BPTNode.null
    let L3 : Links := { L2 with rightSibling_ := setLink L2.rightSibling_ ra (some newNodeA) }
    let L4 : Links := { L3 with leftSibling_ := setLink L3.leftSibling_ newNodeA (some ra) }
    let rsize : Int := if !rl then B - 1 else B
    let newNode := BPTNode.node newNodeA rl (B - 1) nk nc
    let oldRoot := BPTNode.node ra rl rsize rk rc2
    Except.ok (BPTNode.node newRootA false 1 newRootKeys
      (setAt (setAt nullChild 1 newNode) 0 oldRoot), L4)

/-- The function `splitNode(parent, child, indexFound)` with
`child = parent->child[indexFound].get()`; returns the updated parent. -/
def splitNode (B : Int) (parent : BPTNode) (indexFound : Int) (L : Links) :
    Except Fault (BPTNode × Links) :=
  match parent with
  | BPTNode.null => Except.error Fault.nullDeref
  | BPTNode.node pa pl ps pk pc =>
    match pc indexFound with
    | BPTNode.null => Except.error Fault.nullDeref
    | BPTNode.node ca cl _ ck cc =>
      let maxSize := 2 * B - 1
      let pk1 := shiftRightK indexFound ps pk
      let pc1 := shiftRightC indexFound ps pc
      let pk2 := setAt pk1 indexFound (ck (B - 1))
      let (newA, L1) := L.alloc
      let nk := splitCopyK B ck zeroKeys
      let st := splitCopyC B (nullChild, cc)
      let nc := setAt st.1 (B - 1) (st.2 maxSize)
      let cc2 := setAt st.2 maxSize BPTNode.null
      let csize : Int := if !cl then B - 1 else B
      let L2 : Links := { L1 with leftSibling_ := setLink L1.leftSibling_ newA (some ca) }
      let L3 : Links := { L2 with rightSibling_ := setLink L2.rightSibling_ newA (L2.rightSibling_ ca) }
      let L4 : Links := match L3.rightSibling_ newA with
        | some r => { L3 with leftSibling_ := setLink L3.leftSibling_ r (some newA) }
        | none => L3
      let L5 : Links := { L4 with rightSibling_ := setLink L4.rightSibling_ ca (some newA) }
      let newSibling := BPTNode.node newA cl (B - 1) nk nc
      let child2 := BPTNode.node ca cl csize ck cc2
      Except.ok (BPTNode.node pa pl (ps + 1) pk2
        (setAt (setAt pc1 indexFound child2) (indexFound + 1) newSibling), L5)

/-- The leaf loop of `insert`: `for (i = size-1; i >= 0; --i)` shifting every
key `>= key` one slot right and breaking at the first smaller one; returns the
keys and `insertAtIndex`. -/
def leafShift (key : keyRNPair) : Nat → Int → (Int → keyRNPair) → (Int → keyRNPair) × Int
  | 0, _, keys => (keys, 0)
  | n + 1, i, keys =>
    if keyLe key (keys i) then leafShift key n (i - 1) (setAt keys (i + 1) (keys i))
    else (keys, i + 1)

/-- The `while (!current->isLeaf)` descent of `insert` followed by the leaf
insertion, on the subtree owned by `current`; returns that subtree afterwards. -/
def insertLoop (B : Int) (key : keyRNPair) : Nat → BPTNode → Links → Except Fault (BPTNode × Links)
  | 0, _, _ => Except.error Fault.fuel
  | _ + 1, BPTNode.null, _ => Except.error Fault.nullDeref
  | _ + 1, BPTNode.node a true s k c, L =>
    let r := leafShift key s.toNat (s - 1) k
    Except.ok (BPTNode.node a true (s + 1) (setAt r.1 r.2 key) c, L)
  | fuel + 1, BPTNode.node a false s k c, L =>
    let indexFound := binarySearch s k key
    match c indexFound with
    | BPTNode.null => Except.error Fault.nullDeref
    | BPTNode.node ca cl cs ck cc =>
      if cs < 2 * B - 1 then
        match insertLoop B key fuel (BPTNode.node ca cl cs ck cc) L with
        | Except.error e => Except.error e
        | Except.ok (child2, L2) => Except.ok (BPTNode.node a false s k (setAt c indexFound child2), L2)
      else
        match splitNode B (BPTNode.node a false s k c) indexFound L with
        | Except.error e => Except.error e
        | Except.ok (cur, L2) =>
          let next : Int := if keyLe key (cur.keys indexFound) then indexFound else indexFound + 1
          match insertLoop B key fuel (cur.child next) L2 with
          | Except.error e => Except.error e
          | Except.ok (child2, L3) =>
            Except.ok (BPTNode.node a false cur.size cur.keys (setAt cur.child next child2), L3)

/-- The method `insert(key)`; the Boolean is its return value. -/
def insert (fuel : Nat) (t : BPTree) (key : keyRNPair) : Except Fault (Bool × BPTree) :=
  match t.root with
  | BPTNode.null =>
    let (a, L1) := t.links.alloc
    Except.ok (true, { t with root := BPTNode.node a true 1 (setAt zeroKeys 0 key) nullChild,
                              links := L1 })
  | BPTNode.node ra rl rs rk rc =>
    let B := t.branchingFactor
    let split : Except Fault (BPTNode × Links) :=
      if rs = 2 * B - 1 then splitRoot B (BPTNode.node ra rl rs rk rc) t.links
      else Except.ok (BPTNode.node ra rl rs rk rc, t.links)
    match split with
    | Except.error e => Except.error e
    | Except.ok (root1, L1) =>
      match insertLoop B key fuel root1 L1 with
      | Except.error e => Except.error e
      | Except.ok (root2, L2) => Except.ok (true, { t with root := root2, links := L2 })

/-! ## remove -/

/-- The function `borrowFromLeftSibling(indexFound, parent, child)` with
`child = parent->child[indexFound].get()`; returns the updated parent. -/
def borrowFromLeftSibling (indexFound : Int) (parent : BPTNode) : Except Fault BPTNode :=
  match parent with
  | BPTNode.null => Except.error Fault.nullDeref
  | BPTNode.node pa pl ps pk pc =>
    match pc indexFound, pc (indexFound - 1) with
    | BPTNode.node ca cl cs ck cc, BPTNode.node la ll ls lk lc =>
      if cl then
        let ck1 := shiftRightK 0 cs ck
        let ck2 := setAt ck1 0 (lk (ls - 1))
        let pk2 := setAt pk (indexFound - 1) (lk (ls - 2))
        let left2 := BPTNode.node la ll (ls - 1) lk lc
        let child2 := BPTNode.node ca cl (cs + 1) ck2 cc
        Except.ok (BPTNode.node pa pl ps pk2
          (setAt (setAt pc (indexFound - 1) left2) indexFound child2))
      else
        let ck1 := shiftRightK 0 cs ck
        let cc0 := shiftRightC 0 cs cc
        let cc1 := setAt (setAt cc0 0 BPTNode.null) 1 (cc0 0)
        let ck2 := setAt ck1 0 (lk (ls - 1))
        let cc2 := setAt cc1 0 (lc (ls - 1))
        let lc2 := setAt lc (ls - 1) BPTNode.null
        let pk2 := setAt pk (indexFound - 1) (lk (ls - 2))
        let left2 := BPTNode.node la ll (ls - 1) lk lc2
        let child2 := BPTNode.node ca cl (cs + 1) ck2 cc2
        Except.ok (BPTNode.node pa pl ps pk2
          (setAt (setAt pc (indexFound - 1) left2) indexFound child2))
    | _, _ => Except.error Fault.nullDeref

/-- The function `borrowFromRightSibling(indexFound, parent, child)` with
`child = parent->child[indexFound].get()`; returns the updated parent. -/
def borrowFromRightSibling (indexFound : Int) (parent : BPTNode) : Except Fault BPTNode :=
  match parent with
  | BPTNode.null => Except.error Fault.nullDeref
  | BPTNode.node pa pl ps pk pc =>
    match pc indexFound, pc (indexFound + 1) with
    | BPTNode.node ca cl cs ck cc, BPTNode.node ra rl rs rk rc =>
      if cl then
        let pk2 := setAt pk indexFound (rk 0)
        let ck2 := setAt ck cs (pk2 indexFound)
        let rk2 := shiftLeftK 0 rs rk
        let child2 := BPTNode.node ca cl (cs + 1) ck2 cc
        let right2 := BPTNode.node ra rl (rs - 1) rk2 rc
        Except.ok (BPTNode.node pa pl ps pk2
          (setAt (setAt pc indexFound child2) (indexFound + 1) right2))
      else
        let ck2 := setAt ck cs (pk indexFound)
        let cc2 := setAt cc (cs + 1) (rc 0)
        let rc1 := setAt rc 0 BPTNode.null
        let pk2 := setAt pk indexFound (rk 0)
        let rk2 := shiftLeftK 0 rs rk
        let rc0 := shiftLeftC 0 0 rs rc1
        let rc2 := setAt (setAt rc0 rs BPTNode.null) (rs - 1) (rc0 rs)
        let child2 := BPTNode.node ca cl (cs + 1) ck2 cc2
        let right2 := BPTNode.node ra rl (rs - 1) rk2 rc2
        Except.ok (BPTNode.node pa pl ps pk2
          (setAt (setAt pc indexFound child2) (indexFound + 1) right2))
    | _, _ => Except.error Fault.nullDeref

/-- What `mergeWithSibling` leaves behind: `kept parent i` when the parent keeps
at least one key and `current` becomes `parent->child[i]`; `collapsed n` when
the parent's size dropped to 0 and the merged node `n` was moved into
`this->root` (and `current` becomes it); `noop` when neither branch applies. -/
inductive MergeOut where
  | kept (parent : BPTNode) (i : Int)
  | collapsed (merged : BPTNode)
  | noop

/-- The function `mergeWithSibling(indexFound, parent, child)` with
`child = parent->child[indexFound].get()`. -/
def mergeWithSibling (B : Int) (indexFound : Int) (parent : BPTNode) (L : Links) :
    Except Fault (MergeOut × Links) :=
  match parent with
  | BPTNode.null => Except.error Fault.nullDeref
  | BPTNode.node pa pl ps pk pc =>
    let maxSize := 2 * B - 1
    if indexFound > 0 then
      match pc (indexFound - 1), pc indexFound with
      | BPTNode.node la ll _ lk lc, BPTNode.node ca cl cs ck cc =>
        let L1 : Links := { L with rightSibling_ := setLink L.rightSibling_ la (L.rightSibling_ ca) }
        let L2 : Links := match L1.rightSibling_ la with
          | some r => { L1 with leftSibling_ := setLink L1.leftSibling_ r (some la) }
          | none => L1
        let res : BPTNode × (Int → keyRNPair) × (Int → BPTNode) :=
          if ll then
            let lk2 := copyKeys (B - 1) cs ck lk
            (BPTNode.node la ll (maxSize - 1) lk2 lc,
             shiftLeftK (indexFound - 1) ps pk, shiftLeftC 1 (indexFound - 1) ps pc)
          else
            let lk1 := setAt lk (B - 1) (pk (indexFound - 1))
            let lc1 := setAt lc B (cc 0)
            let cc1 := setAt cc 0 BPTNode.null
            let lk2 := copyKeys B cs ck lk1
            let st := moveChildren B cs (lc1, cc1)
            let pc1 := setAt pc indexFound (BPTNode.node ca cl cs ck st.2)
            (BPTNode.node la ll maxSize lk2 st.1,
             shiftLeftK (indexFound - 1) ps pk, shiftLeftC 1 (indexFound - 1) ps pc1)
        let pc2 := setAt res.2.2 (indexFound - 1) res.1
        if ps - 1 = 0 then Except.ok (MergeOut.collapsed res.1, L2)
        else Except.ok (MergeOut.kept (BPTNode.node pa pl (ps - 1) res.2.1 pc2) (indexFound - 1), L2)
      | _, _ => Except.error Fault.nullDeref
    else if indexFound < ps then
      match pc indexFound, pc (indexFound + 1) with
      | BPTNode.node ca cl _ ck cc, BPTNode.node ra rl rs rk rc =>
        let pc0 := setAt pc (indexFound + 1) BPTNode.null
        let L1 : Links := { L with rightSibling_ := setLink L.rightSibling_ ca (L.rightSibling_ ra) }
        let L2 : Links := match L1.rightSibling_ ca with
          | some r => { L1 with leftSibling_ := setLink L1.leftSibling_ r (some ca) }
          | none => L1
        let res : BPTNode × (Int → keyRNPair) × (Int → BPTNode) :=
          if rl then
            let ck2 := copyKeys (B - 1) rs rk ck
            (BPTNode.node ca cl (maxSize - 1) ck2 cc,
             shiftLeftK indexFound ps pk, shiftLeftC 1 indexFound ps pc0)
          else
            let ck1 := setAt ck (B - 1) (pk indexFound)
            let cc1 := setAt cc B (rc 0)
            let rc1 := setAt rc 0 BPTNode.null
            let ck2 := copyKeys B rs rk ck1
            let st := moveChildren B rs (cc1, rc1)
            (BPTNode.node ca cl maxSize ck2 st.1,
             shiftLeftK indexFound ps pk, shiftLeftC 1 indexFound ps pc0)
        let pc2 := setAt res.2.2 indexFound res.1
        if ps - 1 = 0 then Except.ok (MergeOut.collapsed res.1, L2)
        else Except.ok (MergeOut.kept (BPTNode.node pa pl (ps - 1) res.2.1 pc2) indexFound, L2)
      | _, _ => Except.error Fault.nullDeref
    else Except.ok (MergeOut.noop, L)

/-- The function `deleteAtLeaf(leaf, index)` on the keys of the leaf, for the
case in which the root is not a leaf of size 1: shift left and decrement. -/
def deleteAtLeaf (s : Int) (k : Int → keyRNPair) (index : Int) : Int × (Int → keyRNPair) :=
  (s - 1, shiftLeftK index s k)

/-- The result of the descent of `remove`: the subtree that now stands where
`current` stood at loop entry (the new `this->root` when `rootMoved`), whether a
merge on the way moved a node into `this->root`, and the value returned. -/
structure RemoveOut where
  node : BPTNode
  rootMoved : Bool
  found : Bool
  links : Links

/-- Storing the result of a descent into `parent->child[i]` back into the
parent, unless the descent has replaced `this->root` (which destroys the old
root and all it owns). -/
def RemoveOut.into (parent : BPTNode) (i : Int) (out : RemoveOut) : RemoveOut :=
  if out.rootMoved then out
  else match parent with
    | BPTNode.null => out
    | BPTNode.node pa pl ps pk pc => { out with node := BPTNode.node pa pl ps pk (setAt pc i out.node) }

/-- The `while (!current->isLeaf)` descent of `remove` and the deletion at the
leaf.  `isRoot` says whether `current == root.get()`; every node above
`current` is internal, so `root->isLeaf` in `deleteAtLeaf` can only hold when
`current` is the root.  The source takes `leftSibling` and `rightSibling` from
`child[indexFound-1]` and `child[indexFound+1]` before its guards and
dereferences them only under `indexFound > 0` and `indexFound < current->size`;
the slots are read here where the pointers are dereferenced. -/
def removeLoop (B : Int) (key : keyRNPair) : Nat → Bool → BPTNode → Links → Except Fault RemoveOut
  | 0, _, _, _ => Except.error Fault.fuel
  | _ + 1, _, BPTNode.null, _ => Except.error Fault.nullDeref
  | _ + 1, isRoot, BPTNode.node a true s k c, L =>
    let indexFound := binarySearch s k key
    if indexFound < s ∧ k indexFound = key then
      if isRoot ∧ s = 1 then
        Except.ok { node := BPTNode.null, rootMoved := false, found := true, links := L }
      else
        let d := deleteAtLeaf s k indexFound
        Except.ok { node := BPTNode.node a true d.1 d.2 c, rootMoved := false, found := true, links := L }
    else
      Except.ok { node := BPTNode.node a true s k c, rootMoved := false, found := false, links := L }
  | fuel + 1, isRoot, BPTNode.node a false s k c, L =>
    let indexFound := binarySearch s k key
    match c indexFound with
    | BPTNode.null => Except.error Fault.nullDeref
    | BPTNode.node ca cl cs ck cc =>
      if cs ≠ B - 1 then
        match removeLoop B key fuel false (BPTNode.node ca cl cs ck cc) L with
        | Except.error e => Except.error e
        | Except.ok out => Except.ok (out.into (BPTNode.node a false s k c) indexFound)
      else
        let leftBig : Except Fault Bool :=
          if indexFound > 0 then
            match c (indexFound - 1) with
            | BPTNode.null => Except.error Fault.nullDeref
            | BPTNode.node _ _ ls _ _ => Except.ok (decide (ls > B - 1))
          else Except.ok false
        match leftBig with
        | Except.error e => Except.error e
        | Except.ok true =>
          match borrowFromLeftSibling indexFound (BPTNode.node a false s k c) with
          | Except.error e => Except.error e
          | Except.ok cur =>
            match removeLoop B key fuel false (cur.child indexFound) L with
            | Except.error e => Except.error e
            | Except.ok out => Except.ok (out.into cur indexFound)
        | Except.ok false =>
          let rightBig : Except Fault Bool :=
            if indexFound < s then
              match c (indexFound + 1) with
              | BPTNode.null => Except.error Fault.nullDeref
              | BPTNode.node _ _ rs _ _ => Except.ok (decide (rs > B - 1))
            else Except.ok false
          match rightBig with
          | Except.error e => Except.error e
          | Except.ok true =>
            match borrowFromRightSibling indexFound (BPTNode.node a false s k c) with
            | Except.error e => Except.error e
            | Except.ok cur =>
              match removeLoop B key fuel false (cur.child indexFound) L with
              | Except.error e => Except.error e
              | Except.ok out => Except.ok (out.into cur indexFound)
          | Except.ok false =>
            match mergeWithSibling B indexFound (BPTNode.node a false s k c) L with
            | Except.error e => Except.error e
            | Except.ok (MergeOut.kept cur i, L2) =>
              match removeLoop B key fuel false (cur.child i) L2 with
              | Except.error e => Except.error e
              | Except.ok out => Except.ok (out.into cur i)
            | Except.ok (MergeOut.collapsed m, L2) =>
              match removeLoop B key fuel true m L2 with
              | Except.error e => Except.error e
              | Except.ok out => Except.ok { out with rootMoved := true }
            | Except.ok (MergeOut.noop, L2) =>
              removeLoop B key fuel isRoot (BPTNode.node a false s k c) L2

/-- The method `remove(key)`; the Boolean is its return value. -/
def remove (fuel : Nat) (t : BPTree) (key : keyRNPair) : Except Fault (Bool × BPTree) :=
  match t.root with
  | BPTNode.null => Except.ok (false, t)
  | BPTNode.node ra rl rs rk rc =>
    match removeLoop t.branchingFactor key fuel true (BPTNode.node ra rl rs rk rc) t.links with
    | Except.error e => Except.error e
    | Except.ok out => Except.ok (out.found, { t with root := out.node, links := out.links })

/-! ## search -/

/-- The descent of `searchUtil` from a non-null node: the index found in the
leaf and the leaf. -/
def searchLoop (key : keyRNPair) : Nat → BPTNode → Except Fault (Int × BPTNode)
  | 0, _ => Except.error Fault.fuel
  | _ + 1, BPTNode.null => Except.error Fault.nullDeref
  | fuel + 1, BPTNode.node a l s k c =>
    if l then Except.ok (binarySearch s k key, BPTNode.node a l s k c)
    else searchLoop key fuel (c (binarySearch s k key))

/-- The function `searchUtil(key)`: `(index, node)`, which is `(-1, nullptr)` on
the empty tree. -/
def searchUtil (fuel : Nat) (t : BPTree) (key : keyRNPair) : Except Fault (Int × BPTNode) :=
  match t.root with
  | BPTNode.null => Except.ok (-1, BPTNode.null)
  | BPTNode.node ra rl rs rk rc => searchLoop key fuel (BPTNode.node ra rl rs rk rc)

/-- The method `search(key)`: probes `(key, -1)` and tests
`searchRes.node->size == searchRes.index`. -/
def search (fuel : Nat) (t : BPTree) (key : Int) : Except Fault Bool :=
  match searchUtil fuel t (key, -1) with
  | Except.error e => Except.error e
  | Except.ok (_, BPTNode.null) => Except.error Fault.nullDeref
  | Except.ok (index, BPTNode.node _ _ s _ _) => Except.ok (if s = index then false else true)

/-! ## Reading the tree -/

/-- The keys `keys[start], ..., keys[size-1]` of a node, in index order. -/
def keysFrom (k : Int → keyRNPair) (start size : Int) : List keyRNPair :=
  (List.range (size - start).toNat).map (fun (i : Nat) => k (start + (i : Int)))

namespace BPTNode

/-- The node with the given address among the nodes owned (through any of the
`cap` child slots, live or stale) by this pointer. -/
def find (cap : Nat) (target : Nat) : BPTNode → Option BPTNode
  | null => none
  | node a l s k c =>
    if a = target then some (node a l s k c)
    else (List.range cap).findSome? (fun (i : Nat) => find cap target (c (i : Int)))

/-- The entries reachable from the pointer: the keys of the leaves below it
through `child[0..size]`, left to right. -/
def entries : BPTNode → List keyRNPair
  | null => []
  | node _ l s k c =>
    if l then keysFrom k 0 s
    else (List.range (s + 1).toNat).flatMap (fun (i : Nat) => entries (c (i : Int)))

/-- The addresses of the leaves reachable from the pointer through
`child[0..size]`, left to right. -/
def leaves : BPTNode → List Nat
  | null => []
  | node a l s _ c =>
    if l then [a]
    else (List.range (s + 1).toNat).flatMap (fun (i : Nat) => leaves (c (i : Int)))

/-- The leftmost leaf: follow `child[0]` down to a leaf. -/
def leftMostLeaf : BPTNode → Option Nat
  | null => none
  | node a l _ _ c => if l then some a else leftMostLeaf (c 0)

end BPTNode

/-- The walk of `iterateRightLeaf(node, startIndex)`: the pairs of the leaf from
`startIndex` on, then those of every leaf reached along `rightSibling_`. -/
def chainFrom (t : BPTree) : Nat → Option Nat → Int → Except Fault (List keyRNPair)
  | 0, _, _ => Except.error Fault.fuel
  | _ + 1, none, _ => Except.ok []
  | fuel + 1, some a, startIndex =>
    match t.root.find (2 * t.branchingFactor).toNat a with
    | none => Except.error Fault.nullDeref
    | some n =>
      match chainFrom t fuel (t.links.rightSibling_ a) 0 with
      | Except.error e => Except.error e
      | Except.ok rest => Except.ok (keysFrom n.keys startIndex n.size ++ rest)

/-- The leaf chain: the pairs read from the leftmost leaf along `rightSibling_`. -/
def leafChain (fuel : Nat) (t : BPTree) : Except Fault (List keyRNPair) :=
  chainFrom t fuel t.root.leftMostLeaf 0

/-- The addresses of the leaves visited along `rightSibling_` from a leaf. -/
def chainAddrs (t : BPTree) : Nat → Option Nat → List Nat
  | 0, _ => []
  | _ + 1, none => []
  | fuel + 1, some a => a :: chainAddrs t fuel (t.links.rightSibling_ a)

/-! ## Call sequences and observations -/

/-- A call of the public interface. -/
inductive Call where
  | insert (key : keyRNPair)
  | remove (key : keyRNPair)

/-- One call on a tree: the value returned and the tree afterwards. -/
def BPTree.call (fuel : Nat) (t : BPTree) : Call → Except Fault (Bool × BPTree)
  | Call.insert key => insert fuel t key
  | Call.remove key => remove fuel t key

/-- A sequence of calls on a tree: the values returned, in order, and the final tree. -/
def BPTree.calls (fuel : Nat) (t : BPTree) : List Call → Except Fault (List Bool × BPTree)
  | [] => Except.ok ([], t)
  | c :: cs =>
    match t.call fuel c with
    | Except.error e => Except.error e
    | Except.ok (b, t2) =>
      match BPTree.calls fuel t2 cs with
      | Except.error e => Except.error e
      | Except.ok (bs, t3) => Except.ok (b :: bs, t3)

/-- The tree after a sequence of calls on the empty tree, `none` on a fault. -/
def treeAfter (fuel : Nat) (B : Int) (cs : List Call) : Option BPTree :=
  match (BPTree.empty B).calls fuel cs with
  | Except.error _ => none
  | Except.ok (_, t) => some t

/-- The values returned by a sequence of calls on the empty tree. -/
def returnsAfter (fuel : Nat) (B : Int) (cs : List Call) : Option (List Bool) :=
  match (BPTree.empty B).calls fuel cs with
  | Except.error _ => none
  | Except.ok (bs, _) => some bs

/-- The leaf chain after a sequence of calls on the empty tree. -/
def chainAfter (fuel : Nat) (B : Int) (cs : List Call) : Option (List keyRNPair) :=
  match treeAfter fuel B cs with
  | none => none
  | some t =>
    match leafChain fuel t with
    | Except.error _ => none
    | Except.ok l => some l

/-- The entries reachable from the root after a sequence of calls on the empty tree. -/
def entriesAfter (fuel : Nat) (B : Int) (cs : List Call) : Option (List keyRNPair) :=
  (treeAfter fuel B cs).map (fun t => t.root.entries)

/-- The value of `search(key)` after a sequence of calls on the empty tree. -/
def searchAfter (fuel : Nat) (B : Int) (cs : List Call) (key : Int) : Option Bool :=
  match treeAfter fuel B cs with
  | none => none
  | some t =>
    match search fuel t key with
    | Except.error _ => none
    | Except.ok b => some b

/-- Seven inserts that build a tree of height 3 with `B = 2`, followed by a
`remove` of the absent pair `(36, 36)`, whose descent borrows from the left
sibling of an internal node. -/
def borrowScenario : List Call :=
  [Call.insert (23, 23), Call.insert (7, 7), Call.insert (33, 33), Call.insert (4, 4),
   Call.insert (6, 6), Call.insert (3, 3), Call.insert (0, 0), Call.remove (36, 36)]

/-- The seven inserts of `borrowScenario` alone. -/
def sevenInserts : List Call := borrowScenario.take 7

/-- The child-count property: every internal node below the pointer has
non-null children in all of `child[0..size]`, and every leaf has only null
pointers in its `cap` child slots. -/
def BPTNode.childCountOK (cap : Nat) : BPTNode → Bool
  | BPTNode.null => false
  | BPTNode.node _ true _ _ c => (List.range cap).all (fun (i : Nat) => (c (i : Int)).isNull)
  | BPTNode.node _ false s _ c =>
    (List.range (s + 1).toNat).all (fun (i : Nat) => BPTNode.childCountOK cap (c (i : Int)))

/-- The addresses of the leaves along `rightSibling_` from the leftmost leaf,
after a sequence of calls on the empty tree. -/
def chainAddrsAfter (fuel : Nat) (B : Int) (cs : List Call) : Option (List Nat) :=
  (treeAfter fuel B cs).map (fun t => chainAddrs t fuel t.root.leftMostLeaf)

/-- The addresses of the leaves reachable from the root, after a sequence of
calls on the empty tree. -/
def leavesAfter (fuel : Nat) (B : Int) (cs : List Call) : Option (List Nat) :=
  (treeAfter fuel B cs).map (fun t => t.root.leaves)

/-- A run in which a separator outlives its entry: `(10, 1)` is copied up by
the root split and then removed from its leaf. -/
def staleSeparatorScenario : List Call :=
  [Call.insert (5, 3), Call.insert (10, 1), Call.insert (10, 2), Call.insert (20, 9),
   Call.remove (10, 1), Call.insert (10, 5)]

/-! ## The invariant -/

/-- What an entry below `child[i]` of a node with keys `k` and size `s` must
satisfy: the constraint `P` inherited from above and, when ordering is tracked,
`k[i-1] < e <= k[i]` as far as these separators exist. -/
def childP (ord : Bool) (P : keyRNPair → Prop) (k : Int → keyRNPair) (s i : Int) :
    keyRNPair → Prop :=
  fun e => P e ∧ (ord = true → (0 < i → keyLt (k (i - 1)) e) ∧ (i < s → keyLe e (k i)))

/-- What a separator below `child[i]` must satisfy: `Q` from above and, when
ordering is tracked, `k[i-1] <= e <= k[i]`. -/
def childQ (ord : Bool) (Q : keyRNPair → Prop) (k : Int → keyRNPair) (s i : Int) :
    keyRNPair → Prop :=
  fun e => Q e ∧ (ord = true → (0 < i → keyLe (k (i - 1)) e) ∧ (i < s → keyLe e (k i)))

/-- The structural invariant of a subtree of height `h` (leaves have height 0).
A null pointer satisfies it.  A leaf has at most `2B-1` entries, all satisfying
`P`, strictly increasing when `ord`.  An internal node has at most `2B-1`
separators, all satisfying `Q`, non-decreasing when `ord`; each of
`child[0..size]` is null or has at least `B-1` entries, and satisfies the
invariant at height `h-1` within the separators around it. -/
def WF (B : Int) (ord : Bool) : Nat → (keyRNPair → Prop) → (keyRNPair → Prop) → BPTNode → Prop
  | _, _, _, BPTNode.null => True
  | 0, P, _, BPTNode.node _ l s k _ =>
    l = true ∧ s ≤ 2 * B - 1 ∧ (∀ i, 0 ≤ i → i < s → P (k i)) ∧
    (ord = true → ∀ i j, 0 ≤ i → i < j → j < s → keyLt (k i) (k j))
  | h + 1, P, Q, BPTNode.node _ l s k c =>
    l = false ∧ s ≤ 2 * B - 1 ∧ (∀ i, 0 ≤ i → i < s → Q (k i)) ∧
    (ord = true → ∀ i j, 0 ≤ i → i ≤ j → j < s → keyLe (k i) (k j)) ∧
    ∀ i, 0 ≤ i → i ≤ s →
      (c i = BPTNode.null ∨ B - 1 ≤ (c i).size) ∧
      WF B ord h (childP ord P k s i) (childQ ord Q k s i) (c i)

/-- The invariant of a whole tree: the root is null, or it has at least one
entry and satisfies `WF` at some height with no outer constraint. -/
def TreeWF (ord : Bool) (t : BPTree) : Prop :=
  t.root = BPTNode.null ∨
    (1 ≤ t.root.size ∧ ∃ h, WF t.branchingFactor ord h (fun _ => True) (fun _ => True) t.root)

/-- What the descent of `remove` guarantees about its result, for a start node
of height `h` under the constraints `P`, `Q`: below the root no merge replaces
the root, and the node keeps the invariant with at least `B-1` entries; at the
root the new root is null or has at least one entry and satisfies the
invariant at some height. -/
def RemoveOK (B : Int) (ord : Bool) (isRoot : Bool) (h : Nat) (P Q : keyRNPair → Prop)
    (out : RemoveOut) : Prop :=
  (isRoot = false → out.rootMoved = false ∧ WF B ord h P Q out.node ∧
    out.node ≠ BPTNode.null ∧ B - 1 ≤ out.node.size) ∧
  (isRoot = true → out.node = BPTNode.null ∨
    (1 ≤ out.node.size ∧ ∃ h', WF B ord h' P Q out.node))

/-- The trees reachable from the empty tree of branching factor `B` by `insert`
and `remove` calls that return, each with any amount of fuel.  With
`distinct = true` the calls are on pairwise distinct pairs: a pair is only
inserted when it is not among the entries stored below the root, which covers
every sequence of calls whose inserted pairs are pairwise distinct
(`ReachableBy_of_distinct_inserts`). -/
inductive ReachableBy (distinct : Bool) (B : Int) : BPTree → Prop where
  | empty : ReachableBy distinct B (BPTree.empty B)
  | insert (fuel : Nat) (key : keyRNPair) {t t' : BPTree} {b : Bool} :
      ReachableBy distinct B t → (distinct = true → key ∉ t.root.entries) →
      insert fuel t key = Except.ok (b, t') → ReachableBy distinct B t'
  | remove (fuel : Nat) (key : keyRNPair) {t t' : BPTree} {b : Bool} :
      ReachableBy distinct B t → remove fuel t key = Except.ok (b, t') →
      ReachableBy distinct B t'

/-- The relation `Below r n`: `n` is a node other than `r` that `r` owns through
the live child slots `child[0..size]` of internal nodes. -/
inductive BPTNode.Below : BPTNode → BPTNode → Prop where
  | child {a : Nat} {s : Int} {k : Int → keyRNPair} {c : Int → BPTNode} (i : Int) :
      0 ≤ i → i ≤ s → c i ≠ BPTNode.null → BPTNode.Below (BPTNode.node a false s k c) (c i)
  | deeper {a : Nat} {s : Int} {k : Int → keyRNPair} {c : Int → BPTNode} (i : Int)
      {n : BPTNode} :
      0 ≤ i → i ≤ s → BPTNode.Below (c i) n → BPTNode.Below (BPTNode.node a false s k c) n

/-- A sequence of calls in which, when `distinct`, no pair is inserted while it
is stored below the root; `none` on a fault or on such an insert. -/
def checkedCalls (distinct : Bool) (fuel : Nat) : BPTree → List Call → Option BPTree
  | t, [] => some t
  | t, Call.insert key :: cs =>
    if distinct = true ∧ key ∈ t.root.entries then none
    else
      match insert fuel t key with
      | Except.error _ => none
      | Except.ok (_, t2) => checkedCalls distinct fuel t2 cs
  | t, Call.remove key :: cs =>
    match remove fuel t key with
    | Except.error _ => none
    | Except.ok (_, t2) => checkedCalls distinct fuel t2 cs

/-- The five inserts of the first concrete scenario of the specification. -/
def scenarioOne : List Call :=
  [Call.insert (10, 1), Call.insert (20, 2), Call.insert (5, 3), Call.insert (15, 4),
   Call.insert (11, 5)]

/-- The pairs inserted by a sequence of calls, in call order. -/
def insertedPairs : List Call → List keyRNPair
  | [] => []
  | Call.insert key :: cs => key :: insertedPairs cs
  | Call.remove _ :: cs => insertedPairs cs

/-- The tree built by `borrowScenario` with `B = 2`. -/
def sampleTree : BPTree :=
  (checkedCalls true 8 (BPTree.empty 2) borrowScenario).getD (BPTree.empty 2)

/-! ## Range scans -/

/-- The constant `LONG_MAX` (64-bit `long`). -/
def LONG_MAX : Int := 9223372036854775807

/-- The node a raw pointer points to: the node with that address among those
the root owns; `nullDeref` when there is none (null or dangling pointer). -/
def deref (t : BPTree) : Option Nat → Except Fault BPTNode
  | none => Except.error Fault.nullDeref
  | some a =>
    match t.root.find (2 * t.branchingFactor).toNat a with
    | none => Except.error Fault.nullDeref
    | some n => Except.ok n

/-- The function `rightPosition(currentPosition)` on `(index, node)`. -/
def rightPosition (t : BPTree) (pos : Int × Option Nat) : Except Fault (Int × Option Nat) :=
  match deref t pos.2 with
  | Except.error e => Except.error e
  | Except.ok n =>
    if pos.1 < n.size - 1 then Except.ok (pos.1 + 1, pos.2)
    else
      match pos.2.bind t.links.rightSibling_ with
      | some r => Except.ok (0, some r)
      | none => Except.ok (-1, none)

/-- The function `leftPosition(currentPosition)` on `(index, node)`. -/
def leftPosition (t : BPTree) (pos : Int × Option Nat) : Except Fault (Int × Option Nat) :=
  if pos.1 > 0 then Except.ok (pos.1 - 1, pos.2)
  else
    match pos.2 with
    | none => Except.error Fault.nullDeref
    | some a =>
      match t.links.leftSibling_ a with
      | some l =>
        match deref t (some l) with
        | Except.error e => Except.error e
        | Except.ok n => Except.ok (n.size - 1, some l)
      | none => Except.ok (-1, none)

/-- The function `iterateRightLeaf(node, startIndex)`: the user keys printed. -/
def iterateRightLeaf (t : BPTree) (fuel : Nat) (node : Option Nat) (startIndex : Int) :
    Except Fault (List Int) :=
  match chainFrom t fuel node startIndex with
  | Except.error e => Except.error e
  | Except.ok l => Except.ok (l.map Prod.fst)

/-- The loop `for (i = startIndex; i >= 0; i--)` over `keys[i].first`. -/
def keysDownFrom (k : Int → keyRNPair) (startIndex : Int) : List Int :=
  (List.range (startIndex + 1).toNat).map (fun (n : Nat) => (k (startIndex - (n : Int))).1)

/-- The function `iterateLeftLeaf(node, startIndex)`: the user keys printed. -/
def iterateLeftLeaf (t : BPTree) : Nat → Option Nat → Int → Except Fault (List Int)
  | 0, _, _ => Except.error Fault.fuel
  | _ + 1, none, _ => Except.ok []
  | fuel + 1, some a, startIndex =>
    match deref t (some a) with
    | Except.error e => Except.error e
    | Except.ok n =>
      match t.links.leftSibling_ a with
      | none => Except.ok (keysDownFrom n.keys startIndex)
      | some l =>
        match deref t (some l) with
        | Except.error e => Except.error e
        | Except.ok m =>
          match iterateLeftLeaf t fuel (some l) (m.size - 1) with
          | Except.error e => Except.error e
          | Except.ok rest => Except.ok (keysDownFrom n.keys startIndex ++ rest)

/-- The position `(index, node)` that `searchUtil(key)` returns, with the node
as a raw pointer; `nullDeref` stands for the dereference `searchRes.node->size`
that every caller makes first, which fails on the empty tree. -/
def searchPosition (fuel : Nat) (t : BPTree) (key : keyRNPair) :
    Except Fault (Int × Option Nat × Int) :=
  match searchUtil fuel t key with
  | Except.error e => Except.error e
  | Except.ok (_, BPTNode.null) => Except.error Fault.nullDeref
  | Except.ok (index, BPTNode.node a _ s _ _) => Except.ok (index, some a, s)

/-- The method `greaterThanEquals(key)`: the user keys printed. -/
def greaterThanEquals (fuel : Nat) (t : BPTree) (key : Int) : Except Fault (List Int) :=
  match searchPosition fuel t (key, -1) with
  | Except.error e => Except.error e
  | Except.ok (index, node, size) =>
    if size = index then
      match rightPosition t (index - 1, node) with
      | Except.error e => Except.error e
      | Except.ok pos => iterateRightLeaf t fuel pos.2 pos.1
    else iterateRightLeaf t fuel node index

/-- The method `smallerThanEquals(key)`: the user keys printed. -/
def smallerThanEquals (fuel : Nat) (t : BPTree) (key : Int) : Except Fault (List Int) :=
  match searchPosition fuel t (key, LONG_MAX) with
  | Except.error e => Except.error e
  | Except.ok (index, node, size) =>
    if size = index then iterateLeftLeaf t fuel node (index - 1)
    else
      match leftPosition t (index, node) with
      | Except.error e => Except.error e
      | Except.ok pos => iterateLeftLeaf t fuel pos.2 pos.1

/-- The method `greaterThan(key)`: the user keys printed. -/
def greaterThan (fuel : Nat) (t : BPTree) (key : Int) : Except Fault (List Int) :=
  match searchPosition fuel t (key, LONG_MAX) with
  | Except.error e => Except.error e
  | Except.ok (index, node, size) =>
    if size = index then
      match rightPosition t (index - 1, node) with
      | Except.error e => Except.error e
      | Except.ok pos => iterateRightLeaf t fuel pos.2 pos.1
    else iterateRightLeaf t fuel node index

/-- The method `smallerThan(key)`: the user keys printed. -/
def smallerThan (fuel : Nat) (t : BPTree) (key : Int) : Except Fault (List Int) :=
  match searchPosition fuel t (key, -1) with
  | Except.error e => Except.error e
  | Except.ok (index, node, size) =>
    if size = index then iterateLeftLeaf t fuel node (index - 1)
    else
      match leftPosition t (index, node) with
      | Except.error e => Except.error e
      | Except.ok pos => iterateLeftLeaf t fuel pos.2 pos.1

/-- A range scan after a sequence of calls on the empty tree. -/
def scanAfter (scan : Nat → BPTree → Int → Except Fault (List Int)) (fuel : Nat) (B : Int)
    (cs : List Call) (key : Int) : Option (List Int) :=
  match treeAfter fuel B cs with
  | none => none
  | some t =>
    match scan fuel t key with
    | Except.error _ => none
    | Except.ok l => some l

/-- The eleven inserts of the concrete scenarios 1 to 3 of the specification. -/
def scenarioTree : List Call :=
  scenarioOne ++ [Call.insert (71, 5), Call.insert (71, 6), Call.insert (71, 7),
    Call.insert (71, 8), Call.insert (71, 9), Call.insert (11, 10)]

/-- The position `(index, leaf address)` that `searchUtil(key)` returns after a
sequence of calls on the empty tree. -/
def searchUtilAfter (fuel : Nat) (B : Int) (cs : List Call) (key : keyRNPair) :
    Option (Int × Option Nat) :=
  match treeAfter fuel B cs with
  | none => none
  | some t =>
    match searchUtil fuel t key with
    | Except.error _ => none
    | Except.ok (index, n) => some (index, n.addr?)

/-- The entries `keys[0..size)` of the node at an address after a sequence of
calls on the empty tree. -/
def nodeKeysAfter (fuel : Nat) (B : Int) (cs : List Call) (a : Nat) : Option (List keyRNPair) :=
  match treeAfter fuel B cs with
  | none => none
  | some t =>
    match deref t (some a) with
    | Except.error _ => none
    | Except.ok n => some (keysFrom n.keys 0 n.size)

/-- The run of `borrowScenario` followed by the insert of `(6, 8)`. -/
def scanScenario : List Call := borrowScenario ++ [Call.insert (6, 8)]

/-- A node with the three sorted keys `(1, 0), (3, 0), (5, 0)`. -/
def sampleKeys : Int → keyRNPair :=
  setAt (setAt (setAt zeroKeys 0 (1, 0)) 1 (3, 0)) 2 (5, 0)

/-- The child array of a sample parent: a full leaf (for `B = 2`) holding
`sampleKeys` at `child[0]` and a leaf holding `(9, 0)` at `child[1]`. -/
def sampleChildren : Int → BPTNode :=
  setAt (setAt nullChild 0 (BPTNode.node 1 true (2 * 2 - 1) sampleKeys nullChild)) 1
    (BPTNode.node 2 true 1 (setAt zeroKeys 0 (9, 0)) nullChild)

/-! ## The descents of insert and remove, step by step -/

/-- What the descent of `insert` does, in order: `current` is set to a node
(given as it is at that moment), or `splitNode(current, child, indexFound)` is
called on the parent `current`. -/
inductive InsertStep where
  | current (n : BPTNode)
  | splitNode (parent : BPTNode) (indexFound : Int)

/-- The function `insertLoop` with the steps of the descent recorded: every node
entered is recorded as `current`, every call of `splitNode` with its parent. -/
def insertLoopT (B : Int) (key : keyRNPair) :
    Nat → BPTNode → Links → List InsertStep × Except Fault (BPTNode × Links)
  | 0, _, _ => ([], Except.error Fault.fuel)
  | _ + 1, BPTNode.null, _ => ([], Except.error Fault.nullDeref)
  | _ + 1, BPTNode.node a true s k c, L =>
    ([InsertStep.current (BPTNode.node a true s k c)],
      insertLoop B key 1 (BPTNode.node a true s k c) L)
  | fuel + 1, BPTNode.node a false s k c, L =>
    let indexFound := binarySearch s k key
    match c indexFound with
    | BPTNode.null =>
      ([InsertStep.current (BPTNode.node a false s k c)], Except.error Fault.nullDeref)
    | BPTNode.node ca cl cs ck cc =>
      if cs < 2 * B - 1 then
        let r := insertLoopT B key fuel (BPTNode.node ca cl cs ck cc) L
        (InsertStep.current (BPTNode.node a false s k c) :: r.1,
          match r.2 with
          | Except.error e => Except.error e
          | Except.ok (child2, L2) =>
            Except.ok (BPTNode.node a false s k (setAt c indexFound child2), L2))
      else
        match splitNode B (BPTNode.node a false s k c) indexFound L with
        | Except.error e =>
          ([InsertStep.current (BPTNode.node a false s k c),
            InsertStep.splitNode (BPTNode.node a false s k c) indexFound], Except.error e)
        | Except.ok (cur, L2) =>
          let next : Int := if keyLe key (cur.keys indexFound) then indexFound else indexFound + 1
          let r := insertLoopT B key fuel (cur.child next) L2
          (InsertStep.current (BPTNode.node a false s k c) ::
            InsertStep.splitNode (BPTNode.node a false s k c) indexFound :: r.1,
            match r.2 with
            | Except.error e => Except.error e
            | Except.ok (child2, L3) =>
              Except.ok (BPTNode.node a false cur.size cur.keys (setAt cur.child next child2), L3))

/-- The method `insert(key)` with the steps of its descent recorded. -/
def insertT (fuel : Nat) (t : BPTree) (key : keyRNPair) :
    List InsertStep × Except Fault (Bool × BPTree) :=
  match t.root with
  | BPTNode.null => ([], insert fuel t key)
  | BPTNode.node ra rl rs rk rc =>
    let B := t.branchingFactor
    let split : Except Fault (BPTNode × Links) :=
      if rs = 2 * B - 1 then splitRoot B (BPTNode.node ra rl rs rk rc) t.links
      else Except.ok (BPTNode.node ra rl rs rk rc, t.links)
    match split with
    | Except.error e => ([], Except.error e)
    | Except.ok (root1, L1) =>
      let r := insertLoopT B key fuel root1 L1
      (r.1,
        match r.2 with
        | Except.error e => Except.error e
        | Except.ok (root2, L2) => Except.ok (true, { t with root := root2, links := L2 }))

/-- What the descent of `remove` does, in order: `current` is set to a node
(given as it is at that moment, with whether it is the root), a borrow has
enlarged `parent->child[indexFound]` (given as it is after the borrow), or a
merge has produced a node (given as it is after the merge). -/
inductive RemoveStep where
  | current (isRoot : Bool) (n : BPTNode)
  | borrowed (child : BPTNode)
  | merged (n : BPTNode)

/-- The function `removeLoop` with the steps of the descent recorded. -/
def removeLoopT (B : Int) (key : keyRNPair) :
    Nat → Bool → BPTNode → Links → List RemoveStep × Except Fault RemoveOut
  | 0, _, _, _ => ([], Except.error Fault.fuel)
  | _ + 1, _, BPTNode.null, _ => ([], Except.error Fault.nullDeref)
  | _ + 1, isRoot, BPTNode.node a true s k c, L =>
    ([RemoveStep.current isRoot (BPTNode.node a true s k c)],
      removeLoop B key 1 isRoot (BPTNode.node a true s k c) L)
  | fuel + 1, isRoot, BPTNode.node a false s k c, L =>
    let here := RemoveStep.current isRoot (BPTNode.node a false s k c)
    let indexFound := binarySearch s k key
    match c indexFound with
    | BPTNode.null => ([here], Except.error Fault.nullDeref)
    | BPTNode.node ca cl cs ck cc =>
      if cs ≠ B - 1 then
        let r := removeLoopT B key fuel false (BPTNode.node ca cl cs ck cc) L
        (here :: r.1,
          match r.2 with
          | Except.error e => Except.error e
          | Except.ok out => Except.ok (out.into (BPTNode.node a false s k c) indexFound))
      else
        let leftBig : Except Fault Bool :=
          if indexFound > 0 then
            match c (indexFound - 1) with
            | BPTNode.null => Except.error Fault.nullDeref
            | BPTNode.node _ _ ls _ _ => Except.ok (decide (ls > B - 1))
          else Except.ok false
        match leftBig with
        | Except.error e => ([here], Except.error e)
        | Except.ok true =>
          match borrowFromLeftSibling indexFound (BPTNode.node a false s k c) with
          | Except.error e => ([here], Except.error e)
          | Except.ok cur =>
            let r := removeLoopT B key fuel false (cur.child indexFound) L
            (here :: RemoveStep.borrowed (cur.child indexFound) :: r.1,
              match r.2 with
              | Except.error e => Except.error e
              | Except.ok out => Except.ok (out.into cur indexFound))
        | Except.ok false =>
          let rightBig : Except Fault Bool :=
            if indexFound < s then
              match c (indexFound + 1) with
              | BPTNode.null => Except.error Fault.nullDeref
              | BPTNode.node _ _ rs _ _ => Except.ok (decide (rs > B - 1))
            else Except.ok false
          match rightBig with
          | Except.error e => ([here], Except.error e)
          | Except.ok true =>
            match borrowFromRightSibling indexFound (BPTNode.node a false s k c) with
            | Except.error e => ([here], Except.error e)
            | Except.ok cur =>
              let r := removeLoopT B key fuel false (cur.child indexFound) L
              (here :: RemoveStep.borrowed (cur.child indexFound) :: r.1,
                match r.2 with
                | Except.error e => Except.error e
                | Except.ok out => Except.ok (out.into cur indexFound))
          | Except.ok false =>
            match mergeWithSibling B indexFound (BPTNode.node a false s k c) L with
            | Except.error e => ([here], Except.error e)
            | Except.ok (MergeOut.kept cur i, L2) =>
              let r := removeLoopT B key fuel false (cur.child i) L2
              (here :: RemoveStep.merged (cur.child i) :: r.1,
                match r.2 with
                | Except.error e => Except.error e
                | Except.ok out => Except.ok (out.into cur i))
            | Except.ok (MergeOut.collapsed m, L2) =>
              let r := removeLoopT B key fuel true m L2
              (here :: RemoveStep.merged m :: r.1,
                match r.2 with
                | Except.error e => Except.error e
                | Except.ok out => Except.ok { out with rootMoved := true })
            | Except.ok (MergeOut.noop, L2) =>
              removeLoopT B key fuel isRoot (BPTNode.node a false s k c) L2

/-- The method `remove(key)` with the steps of its descent recorded. -/
def removeT (fuel : Nat) (t : BPTree) (key : keyRNPair) :
    List RemoveStep × Except Fault (Bool × BPTree) :=
  match t.root with
  | BPTNode.null => ([], Except.ok (false, t))
  | BPTNode.node ra rl rs rk rc =>
    let r := removeLoopT t.branchingFactor key fuel true (BPTNode.node ra rl rs rk rc) t.links
    (r.1,
      match r.2 with
      | Except.error e => Except.error e
      | Except.ok out => Except.ok (out.found, { t with root := out.node, links := out.links }))

/-- What the descent of `remove` guarantees about its steps: every non-root
node that becomes `current` has at least `B` entries, a borrow leaves the
child with `B` entries, and a merge leaves a node with `2B-2` entries (leaf)
or `2B-1` entries (internal node). -/
def RemoveStepsOK (B : Int) (steps : List RemoveStep) : Prop :=
  (∀ m, RemoveStep.current false m ∈ steps → B ≤ m.size) ∧
  (∀ m, RemoveStep.borrowed m ∈ steps → m.size = B) ∧
  (∀ m, RemoveStep.merged m ∈ steps →
    m.size = if m.isLeaf = true then 2 * B - 2 else 2 * B - 1)

/-- The tree built by the seven inserts of `borrowScenario` with `B = 2`. -/
def sevenTree : BPTree :=
  (checkedCalls true 8 (BPTree.empty 2) sevenInserts).getD (BPTree.empty 2)

/-- The sizes recorded by the steps of a descent of `remove`: `(0, size)` for
a node that becomes `current` as the root, `(1, size)` for one that becomes
`current` below the root, `(2, size)` after a borrow, `(3, size)` after a
merge. -/
def RemoveStep.summary : RemoveStep → Nat × Int
  | RemoveStep.current true n => (0, n.size)
  | RemoveStep.current false n => (1, n.size)
  | RemoveStep.borrowed n => (2, n.size)
  | RemoveStep.merged n => (3, n.size)

/-- The sizes recorded by the steps of a descent of `insert`: `(0, size)` for
a node that becomes `current`, `(1, size)` for the parent of a `splitNode`
call. -/
def InsertStep.summary : InsertStep → Nat × Int
  | InsertStep.current n => (0, n.size)
  | InsertStep.splitNode p _ => (1, p.size)

/-! ## bfsTraverse -/

/-- The function `bfsTraverseUtil(start)`: the nodes printed, in print order
(the node itself, then, for an internal node, the calls on `child[0..size]`). -/
def bfsTraverseUtil : BPTNode → List BPTNode
  | BPTNode.null => []
  | BPTNode.node a l s k c =>
    BPTNode.node a l s k c ::
      (if l then []
       else (List.range (s + 1).toNat).flatMap (fun (i : Nat) => bfsTraverseUtil (c (i : Int))))

/-- The method `bfsTraverse()`. -/
def bfsTraverse (t : BPTree) : List BPTNode := bfsTraverseUtil t.root

/-- The line `bfsTraverseUtil` prints for a node: its size and its entries. -/
def printedLine (n : BPTNode) : Int × List keyRNPair := (n.size, keysFrom n.keys 0 n.size)

/-- The depth below this pointer (0 for the node itself) of the node with the
given address, through `child[0..size]` of internal nodes. -/
def BPTNode.depthOf (target : Nat) : BPTNode → Option Nat
  | BPTNode.null => none
  | BPTNode.node a l s _ c =>
    if a = target then some 0
    else if l then none
    else ((List.range (s + 1).toNat).findSome?
      (fun (i : Nat) => BPTNode.depthOf target (c (i : Int)))).map (fun d => d + 1)

/-- The ten inserts of the concrete scenarios 1 and 2 of the specification. -/
def tenInserts : List Call := scenarioTree.take 10

/-- The five removes of the concrete scenario 6 of the specification. -/
def removeAll71 : List Call :=
  [Call.remove (71, 5), Call.remove (71, 6), Call.remove (71, 7), Call.remove (71, 8),
   Call.remove (71, 9)]

/-- The number of levels from the pointer down to a leaf along `child[0]`
(0 for a null pointer, 1 for a leaf). -/
def BPTNode.depth : BPTNode → Nat
  | BPTNode.null => 0
  | BPTNode.node _ l _ _ c => if l then 1 else BPTNode.depth (c 0) + 1

/-- The tree that holds the single pair `(10, 1)`, with `B = 2`. -/
def oneLeafTree : BPTree :=
  (checkedCalls true 8 (BPTree.empty 2) [Call.insert (10, 1)]).getD (BPTree.empty 2)

/-- The child array of a second sample parent: a leaf holding `(0, 5)` at
`child[0]` and a full leaf (for `B = 2`) holding `sampleKeys` at `child[1]`. -/
def sampleChildrenR : Int → BPTNode :=
  setAt (setAt nullChild 0 (BPTNode.node 2 true (2 - 1) (setAt zeroKeys 0 (0, 5)) nullChild)) (0 + 1)
    (BPTNode.node 1 true (2 * 2 - 1) sampleKeys nullChild)

/-- The child array of a sample parent for the merge (`B = 2`): two leaves of
size `B - 1`, holding `(1, 0)` at `child[0]` and `(3, 0)` at `child[1]`. -/
def sampleChildrenM : Int → BPTNode :=
  setAt (setAt nullChild 0 (BPTNode.node 1 true (2 - 1) (setAt zeroKeys 0 (1, 0)) nullChild)) (0 + 1)
    (BPTNode.node 2 true (2 - 1) (setAt zeroKeys 0 (3, 0)) nullChild)

/-! ## The nodes in use and their sibling links -/

/-- The relation `n.Owns b`: `b` is the address of `n` or of a node that `n`
owns through the live child slots `child[0..size]` of internal nodes. -/
inductive BPTNode.Owns : BPTNode → Nat → Prop where
  | here {a : Nat} {l : Bool} {s : Int} {k : Int → keyRNPair} {c : Int → BPTNode} :
      BPTNode.Owns (BPTNode.node a l s k c) a
  | under {a : Nat} {s : Int} {k : Int → keyRNPair} {c : Int → BPTNode} (i : Int) {b : Nat} :
      0 ≤ i → i ≤ s → BPTNode.Owns (c i) b → BPTNode.Owns (BPTNode.node a false s k c) b

/-- The relation `n.OnLeft b`: `b` is the address of a node on the left edge
below `n`: `n`, `n->child[0]`, `n->child[0]->child[0]`, and so on, through
internal nodes of size at least 0. -/
inductive BPTNode.OnLeft : BPTNode → Nat → Prop where
  | here {a : Nat} {l : Bool} {s : Int} {k : Int → keyRNPair} {c : Int → BPTNode} :
      BPTNode.OnLeft (BPTNode.node a l s k c) a
  | under {a : Nat} {s : Int} {k : Int → keyRNPair} {c : Int → BPTNode} {b : Nat} :
      0 ≤ s → BPTNode.OnLeft (c 0) b → BPTNode.OnLeft (BPTNode.node a false s k c) b

/-- The relation `n.OnRight b`: `b` is the address of a node on the right edge
below `n`: `n`, `n->child[n->size]`, and so on. -/
inductive BPTNode.OnRight : BPTNode → Nat → Prop where
  | here {a : Nat} {l : Bool} {s : Int} {k : Int → keyRNPair} {c : Int → BPTNode} :
      BPTNode.OnRight (BPTNode.node a l s k c) a
  | under {a : Nat} {s : Int} {k : Int → keyRNPair} {c : Int → BPTNode} {b : Nat} :
      0 ≤ s → BPTNode.OnRight (c s) b → BPTNode.OnRight (BPTNode.node a false s k c) b

/-- The nodes in use below the pointer have pairwise distinct addresses: an
internal node's address is not used below it, and no address is used below two
of its live child slots. -/
def BPTNode.Uniq : BPTNode → Prop
  | BPTNode.null => True
  | BPTNode.node a l s _ c =>
    l = true ∨
      ((∀ i, 0 ≤ i → i ≤ s → BPTNode.Uniq (c i)) ∧
       (∀ i, 0 ≤ i → i ≤ s → ¬ (c i).Owns a) ∧
       ∀ i j b, 0 ≤ i → i ≤ s → 0 ≤ j → j ≤ s → (c i).Owns b → (c j).Owns b → i = j)

/-- What surrounds a subtree inside the whole tree: the addresses in use
outside it (`out`), those of them on the left and on the right edge of the
whole tree (`outL`, `outR`), and whether the subtree itself lies on the left
edge and on the right edge (`onL`, `onR`). -/
structure LinkCtx where
  out : Nat → Prop
  outL : Nat → Prop
  outR : Nat → Prop
  onL : Prop
  onR : Prop

/-- The surroundings of the root: nothing outside, on both edges. -/
def LinkCtx.top : LinkCtx :=
  ⟨fun _ => False, fun _ => False, fun _ => False, True, True⟩

/-- The surroundings of `child[i]` of the internal node with address `a`, size
`s` and children `c`, itself surrounded by `X`. -/
def LinkCtx.down (X : LinkCtx) (a : Nat) (s : Int) (c : Int → BPTNode) (i : Int) : LinkCtx :=
  ⟨fun b => X.out b ∨ b = a ∨ ∃ j, 0 ≤ j ∧ j ≤ s ∧ j ≠ i ∧ (c j).Owns b,
   fun b => X.outL b ∨ (X.onL ∧ (b = a ∨ (i ≠ 0 ∧ (c 0).OnLeft b))),
   fun b => X.outR b ∨ (X.onR ∧ (b = a ∨ (i ≠ s ∧ (c s).OnRight b))),
   X.onL ∧ i = 0, X.onR ∧ i = s⟩

/-- The invariant of the sibling links, for the subtree `n` surrounded by `X`:
the addresses in use are pairwise distinct and were handed out by the
allocator, every `rightSibling_` holds such an address, the `leftSibling_` of
the `rightSibling_` of a node in use is that node, the nodes on the left edge
of the tree have no `leftSibling_` and those on the right edge have no
`rightSibling_`. -/
structure LinkInvAt (X : LinkCtx) (n : BPTNode) (L : Links) : Prop where
  uniq : n.Uniq
  apart : ∀ b, n.Owns b → ¬ X.out b
  subL : ∀ b, X.outL b → X.out b
  subR : ∀ b, X.outR b → X.out b
  fresh : ∀ b, X.out b ∨ n.Owns b → b < L.next
  freshR : ∀ a r, L.rightSibling_ a = some r → r < L.next
  back : ∀ a r, X.out a ∨ n.Owns a → L.rightSibling_ a = some r → L.leftSibling_ r = some a
  left : ∀ a, X.outL a ∨ (X.onL ∧ n.OnLeft a) → L.leftSibling_ a = none
  right : ∀ a, X.outR a ∨ (X.onR ∧ n.OnRight a) → L.rightSibling_ a = none

/-- The invariant of the sibling links of a whole tree. -/
def TreeLinks (t : BPTree) : Prop := LinkInvAt LinkCtx.top t.root t.links

/-! ## The merges that replace the root -/

/-- A call of `mergeWithSibling` in `remove` that has left its parent with size
0: whether the parent was `root.get()`, the parent before the call, the merged
node, which the call moves into `this->root`, and the sibling tables after the
call. -/
structure Collapse where
  atRoot : Bool
  parent : BPTNode
  merged : BPTNode
  links : Links

/-- The function `removeLoop` with the merges that leave their parent with
size 0 recorded. -/
def removeLoopC (B : Int) (key : keyRNPair) :
    Nat → Bool → BPTNode → Links → List Collapse × Except Fault RemoveOut
  | 0, _, _, _ => ([], Except.error Fault.fuel)
  | _ + 1, _, BPTNode.null, _ => ([], Except.error Fault.nullDeref)
  | _ + 1, isRoot, BPTNode.node a true s k c, L =>
    ([], removeLoop B key 1 isRoot (BPTNode.node a true s k c) L)
  | fuel + 1, isRoot, BPTNode.node a false s k c, L =>
    let indexFound := binarySearch s k key
    match c indexFound with
    | BPTNode.null => ([], Except.error Fault.nullDeref)
    | BPTNode.node ca cl cs ck cc =>
      if cs ≠ B - 1 then
        let r := removeLoopC B key fuel false (BPTNode.node ca cl cs ck cc) L
        (r.1,
          match r.2 with
          | Except.error e => Except.error e
          | Except.ok out => Except.ok (out.into (BPTNode.node a false s k c) indexFound))
      else
        let leftBig : Except Fault Bool :=
          if indexFound > 0 then
            match c (indexFound - 1) with
            | BPTNode.null => Except.error Fault.nullDeref
            | BPTNode.node _ _ ls _ _ => Except.ok (decide (ls > B - 1))
          else Except.ok false
        match leftBig with
        | Except.error e => ([], Except.error e)
        | Except.ok true =>
          match borrowFromLeftSibling indexFound (BPTNode.node a false s k c) with
          | Except.error e => ([], Except.error e)
          | Except.ok cur =>
            let r := removeLoopC B key fuel false (cur.child indexFound) L
            (r.1,
              match r.2 with
              | Except.error e => Except.error e
              | Except.ok out => Except.ok (out.into cur indexFound))
        | Except.ok false =>
          let rightBig : Except Fault Bool :=
            if indexFound < s then
              match c (indexFound + 1) with
              | BPTNode.null => Except.error Fault.nullDeref
              | BPTNode.node _ _ rs _ _ => Except.ok (decide (rs > B - 1))
            else Except.ok false
          match rightBig with
          | Except.error e => ([], Except.error e)
          | Except.ok true =>
            match borrowFromRightSibling indexFound (BPTNode.node a false s k c) with
            | Except.error e => ([], Except.error e)
            | Except.ok cur =>
              let r := removeLoopC B key fuel false (cur.child indexFound) L
              (r.1,
                match r.2 with
                | Except.error e => Except.error e
                | Except.ok out => Except.ok (out.into cur indexFound))
          | Except.ok false =>
            match mergeWithSibling B indexFound (BPTNode.node a false s k c) L with
            | Except.error e => ([], Except.error e)
            | Except.ok (MergeOut.kept cur i, L2) =>
              let r := removeLoopC B key fuel false (cur.child i) L2
              (r.1,
                match r.2 with
                | Except.error e => Except.error e
                | Except.ok out => Except.ok (out.into cur i))
            | Except.ok (MergeOut.collapsed m, L2) =>
              let r := removeLoopC B key fuel true m L2
              (Collapse.mk isRoot (BPTNode.node a false s k c) m L2 :: r.1,
                match r.2 with
                | Except.error e => Except.error e
                | Except.ok out => Except.ok { out with rootMoved := true })
            | Except.ok (MergeOut.noop, L2) =>
              removeLoopC B key fuel isRoot (BPTNode.node a false s k c) L2

/-- The method `remove(key)` with the merges that leave their parent with size
0 recorded. -/
def removeC (fuel : Nat) (t : BPTree) (key : keyRNPair) :
    List Collapse × Except Fault (Bool × BPTree) :=
  match t.root with
  | BPTNode.null => ([], Except.ok (false, t))
  | BPTNode.node ra rl rs rk rc =>
    let r := removeLoopC t.branchingFactor key fuel true (BPTNode.node ra rl rs rk rc) t.links
    (r.1,
      match r.2 with
      | Except.error e => Except.error e
      | Except.ok out => Except.ok (out.found, { t with root := out.node, links := out.links }))

/-- The calls that build, with `B = 2`, a root with one key over two leaves
of one entry each. -/
def twoLeafCalls : List Call :=
  [Call.insert (1, 1), Call.insert (2, 2), Call.insert (3, 3), Call.insert (4, 4),
   Call.remove (4, 4), Call.remove (2, 2)]

/-- The tree built by `twoLeafCalls` with `B = 2`. -/
def twoLeafTree : BPTree :=
  (checkedCalls true 8 (BPTree.empty 2) twoLeafCalls).getD (BPTree.empty 2)

/-! ## Parser.cpp: comparison operators -/

/-- Enum `ComparisonType` of src/Parser.cpp (lines 73-81), in declaration order. -/
inductive ComparisonType
  | equal
  | notEqual
  | lessThan
  | greaterThan
  | lessThanOrEqual
  | greaterThanOrEqual
  | error
  deriving DecidableEq, Repr

/-- The C library function `strcmp` on two NUL-terminated strings, each given as the list of its
characters before the terminator: 0 when they agree, otherwise the sign of the first difference
(a proper prefix is smaller). -/
def strcmp : List Char → List Char → Int
  | [], [] => 0
  | [], _ :: _ => -1
  | _ :: _, [] => 1
  | a :: as, b :: bs => if a = b then strcmp as bs else if a.toNat < b.toNat then -1 else 1

/-- Function `findComparisonType` (src/Parser.cpp lines 83-103): a chain of six `strcmp` tests,
tried in the order of the source, falling through to `ComparisonType::error`. -/
def findComparisonType (op : String) : ComparisonType :=
  if strcmp op.toList ("==".toList) = 0 then ComparisonType.equal
  else if strcmp op.toList ("!=".toList) = 0 then ComparisonType.notEqual
  else if strcmp op.toList (">".toList) = 0 then ComparisonType.greaterThan
  else if strcmp op.toList ("<".toList) = 0 then ComparisonType.lessThan
  else if strcmp op.toList (">=".toList) = 0 then ComparisonType.greaterThanOrEqual
  else if strcmp op.toList ("<=".toList) = 0 then ComparisonType.lessThanOrEqual
  else ComparisonType.error

/-! ## Cursor.cpp -/

/-- Modelled from the spec: the fields of `Table` that `Cursor` reads. The header declaring
`Table` and `Cursor` is not among the sources; the three counters are taken to be `uint32_t`,
the type `Cursor::value` gives to the quantities it computes from them. -/
structure Table where
  numRows : Nat
  rowsPerPage : Nat
  rowSize : Nat
  deriving DecidableEq, Repr

/-- Modelled from the spec: the members of `Cursor` assigned by its constructor
(src/Cursor.cpp lines 3-8). `page` holds the number of the page whose buffer the cursor points
at, `none` for `nullptr`; `row` is taken to be `uint32_t`. -/
structure Cursor where
  table : Table
  page : Option Nat
  row : Nat
  endOfTable : Bool
  deriving DecidableEq, Repr

/-- A call the cursor makes on the pager of its table, with the page number passed. -/
inductive PagerCall
  | read (pageNum : Nat)
  | flush (pageNum : Nat)
  deriving DecidableEq, Repr

/-- Width of `uint32_t`. -/
def UINT32 : Nat := 2 ^ 32

/-- Constructor `Cursor::Cursor(Table*)` (src/Cursor.cpp lines 3-8). -/
def Cursor.init (table : Table) : Cursor :=
  Cursor.mk table none 0 false

/-- Method `Cursor::operator++` (src/Cursor.cpp lines 10-18); `numRows - 1` and `++row` are
unsigned 32-bit operations. -/
def Cursor.increment (c : Cursor) : Cursor :=
  if c.row < (c.table.numRows + UINT32 - 1) % UINT32 then
    Cursor.mk c.table c.page ((c.row + 1) % UINT32) c.endOfTable
  else
    Cursor.mk c.table c.page c.row true

/-- Method `Cursor::value` (src/Cursor.cpp lines 20-29). `pagerRead n` tells whether
`pager->read(n)` returns a page. The result is the cursor afterwards, the pager calls made, and
the returned pointer as page number and byte offset (`none` for `nullptr`). Division by
`rowsPerPage = 0` is undefined in the source; the callers of the model keep `rowsPerPage ≥ 1`. -/
def Cursor.value (pagerRead : Nat → Bool) (c : Cursor) :
    Cursor × List PagerCall × Option (Nat × Nat) :=
  let pageNum := (c.row / c.table.rowsPerPage + 1) % UINT32
  if pagerRead pageNum then
    let rowOffset := c.row % c.table.rowsPerPage
    let byteOffset := (rowOffset * c.table.rowSize) % UINT32
    (Cursor.mk c.table (some pageNum) c.row c.endOfTable, [PagerCall.read pageNum],
      some (pageNum, byteOffset))
  else
    (Cursor.mk c.table none c.row c.endOfTable, [PagerCall.read pageNum], none)

/-- Method `Cursor::commitChanges` (src/Cursor.cpp lines 35-41): the pager calls made. -/
def Cursor.commitChanges (c : Cursor) : List PagerCall :=
  match c.page with
  | some _ => [PagerCall.flush ((c.row / c.table.rowsPerPage) % UINT32)]
  | none => []

/-! ## The prototype tree of btreemain.cpp

The file holds an earlier, self-contained tree over plain `int` keys (`RowData`), with raw
child pointers and no sibling links.  Its declarations reuse the names of `BTree.cpp`, so they
live in a namespace of their own.  A node modified through one of the raw pointers is stored
back into the slot of its parent that points to it. -/

namespace btreemain

/-- A raw pointer `BPTNode*` of the prototype: null, or a node with `isLeaf`, `size` and the
arrays `data` (the `x` of each `RowData`) and `ptr`. -/
inductive BPTNode where
  | null
  | node (isLeaf : Bool) (size : Int) (data : Int → Int) (ptr : Int → BPTNode)

instance : Inhabited BPTNode := ⟨BPTNode.null⟩

/-- Field `size` (0 for null, which the callers never ask for). -/
def BPTNode.size : BPTNode → Int
  | BPTNode.null => 0
  | BPTNode.node _ s _ _ => s

/-- The class `BPTree` of the prototype: `root` and the minimum degree `t`. -/
structure BPTree where
  root : BPTNode
  t : Int

/-- The constructor `BPTree(int t_)`. -/
def BPTree.empty (t : Int) : BPTree := BPTree.mk BPTNode.null t

/-- A fresh `data` array: every `RowData` is value-initialised. -/
def zeroData : Int → Int := fun _ => 0

/-- A fresh `ptr` array, set to null by the constructor of `BPTNode`. -/
def nullPtr : Int → BPTNode := fun _ => BPTNode.null

/-- The `while (l <= r)` loop of `binSearch` (lines 84-93). -/
def binSearchLoop (data : Int → Int) (key : Int) : Nat → Int → Int → Int → Int
  | 0, _, _, ans => ans
  | n + 1, l, r, ans =>
    if l ≤ r then
      let mid := (l + r) / 2
      if key ≤ data mid then binSearchLoop data key n l (mid - 1) mid
      else binSearchLoop data key n (mid + 1) r ans
    else ans

/-- The function `binSearch(temp, keyData)` (lines 78-95). -/
def binSearch (size : Int) (data : Int → Int) (key : Int) : Int :=
  binSearchLoop data key size.toNat 0 (size - 1) size

/-- The descent of `search` (lines 105-117) from a non-null node: `(index, bptNode)`, which
stays `(-1, nullptr)` when the key is not found in the leaf. -/
def searchLoop (key : Int) : Nat → BPTNode → Except Fault (Int × BPTNode)
  | 0, _ => Except.error Fault.fuel
  | _ + 1, BPTNode.null => Except.error Fault.nullDeref
  | fuel + 1, BPTNode.node l s d p =>
    if l then
      let indexFound := binSearch s d key
      if indexFound ≠ s ∧ d indexFound = key then Except.ok (indexFound, BPTNode.node l s d p)
      else Except.ok (-1, BPTNode.null)
    else searchLoop key fuel (p (binSearch s d key))

/-- The method `search(keyData)` (lines 101-120): the fields `index` and `bptNode` of the
`SearchResult` returned. -/
def search (fuel : Nat) (tr : BPTree) (key : Int) : Except Fault (Int × BPTNode) :=
  match tr.root with
  | BPTNode.null => Except.ok (-1, BPTNode.null)
  | BPTNode.node l s d p => searchLoop key fuel (BPTNode.node l s d p)

/-- The split loop `for (i = t; i <= 2*t-2; ++i)` of `insert` (lines 138-141 and 183-186),
`nBnode->data[i-t] = src->data[i]; nBnode->ptr[i-t] = src->ptr[i];`, on the arrays of
`nBnode`. -/
def splitCopy (t : Int) (sd : Int → Int) (sp : Int → BPTNode)
    (st : (Int → Int) × (Int → BPTNode)) : (Int → Int) × (Int → BPTNode) :=
  loopUp (fun i s => (setAt s.1 (i - t) (sd i), setAt s.2 (i - t) (sp i))) (t - 1).toNat t st

/-- The loop `for (i = temp->size-1; i >= indexFound; i--)` of `insert` (lines 174-177),
`temp->data[i+1] = temp->data[i]; temp->ptr[i+2] = temp->ptr[i+1];`. -/
def shiftRight (start size : Int) (st : (Int → Int) × (Int → BPTNode)) :
    (Int → Int) × (Int → BPTNode) :=
  loopDown (fun i s => (setAt s.1 (i + 1) (s.1 i), setAt s.2 (i + 2) (s.2 (i + 1))))
    (size - start).toNat (size - 1) st

/-- The leaf loop of `insert` (lines 210-219): shifts every key `>= key` one slot right and
breaks at the first smaller one; returns the data and `insertAtIndex`. -/
def leafShift (key : Int) : Nat → Int → (Int → Int) → (Int → Int) × Int
  | 0, _, d => (d, 0)
  | n + 1, i, d =>
    if key ≤ d i then leafShift key n (i - 1) (setAt d (i + 1) (d i))
    else (d, i + 1)

/-- The `while (!temp->isLeaf)` descent of `insert` (lines 164-208) and the leaf insertion
(lines 210-222), on the subtree `temp` points to; returns that subtree afterwards. -/
def insertLoop (t : Int) (key : Int) : Nat → BPTNode → Except Fault BPTNode
  | 0, _ => Except.error Fault.fuel
  | _ + 1, BPTNode.null => Except.error Fault.nullDeref
  | _ + 1, BPTNode.node true s d p =>
    let r := leafShift key s.toNat (s - 1) d
    Except.ok (BPTNode.node true (s + 1) (setAt r.1 r.2 key) p)
  | fuel + 1, BPTNode.node false s d p =>
    let indexFound := binSearch s d key
    match p indexFound with
    | BPTNode.null => Except.error Fault.nullDeref
    | BPTNode.node cl cs cd cp =>
      if cs < 2 * t - 1 then
        match insertLoop t key fuel (BPTNode.node cl cs cd cp) with
        | Except.error e => Except.error e
        | Except.ok child2 => Except.ok (BPTNode.node false s d (setAt p indexFound child2))
      else
        let sh := shiftRight indexFound s (d, p)
        let d2 := setAt sh.1 indexFound (cd (t - 1))
        let nb := splitCopy t cd cp (zeroData, nullPtr)
        let nBnode := BPTNode.node cl (t - 1) nb.1 (setAt nb.2 (t - 1) (cp (2 * t - 1)))
        let child2 := BPTNode.node cl (if !cl then t - 1 else t) cd (setAt cp t BPTNode.null)
        let p2 := setAt (setAt sh.2 (indexFound + 1) nBnode) indexFound child2
        let next : Int := if key ≤ d2 indexFound then indexFound else indexFound + 1
        match insertLoop t key fuel (p2 next) with
        | Except.error e => Except.error e
        | Except.ok child3 => Except.ok (BPTNode.node false (s + 1) d2 (setAt p2 next child3))

/-- The method `insert(keyData)` (lines 122-224); the Boolean is its return value. -/
def insert (fuel : Nat) (tr : BPTree) (key : Int) : Except Fault (Bool × BPTree) :=
  match tr.root with
  | BPTNode.null =>
    Except.ok (true, BPTree.mk (BPTNode.node true 1 (setAt zeroData 0 key) nullPtr) tr.t)
  | BPTNode.node rl rs rd rp =>
    let t := tr.t
    let root1 : BPTNode :=
      if rs = 2 * t - 1 then
        let nb := splitCopy t rd rp (zeroData, nullPtr)
        let nBnode := BPTNode.node rl (t - 1) nb.1 (setAt nb.2 (t - 1) (rp (2 * t - 1)))
        let oldRoot :=
          if !rl then BPTNode.node rl (t - 1) rd (setAt rp t BPTNode.null)
          else BPTNode.node rl t rd rp
        BPTNode.node false 1 (setAt zeroData 0 (rd (t - 1)))
          (setAt (setAt nullPtr 1 nBnode) 0 oldRoot)
      else BPTNode.node rl rs rd rp
    match insertLoop t key fuel root1 with
    | Except.error e => Except.error e
    | Except.ok root2 => Except.ok (true, BPTree.mk root2 tr.t)

/-- The result of the descent of `findAndDelete`: the subtree that now stands where `temp`
stood at loop entry (the new `root` when `rootMoved`), whether a merge on the way has assigned
`root`, and the value returned. -/
structure DeleteOut where
  node : BPTNode
  rootMoved : Bool
  found : Bool

/-- Storing the result of a descent into `parent->ptr[i]` back into the parent, unless the
descent has assigned `root`. -/
def DeleteOut.into (ps : Int) (pd : Int → Int) (pp : Int → BPTNode) (i : Int)
    (out : DeleteOut) : DeleteOut :=
  if out.rootMoved then out
  else DeleteOut.mk (BPTNode.node false ps pd (setAt pp i out.node)) false out.found

/-- The loop `for (i = size-1; i >= 0; i--) data[i+1] = data[i];` (lines 284-286). -/
def shiftDataRight (size : Int) (d : Int → Int) : Int → Int :=
  loopDown (fun i d => setAt d (i + 1) (d i)) size.toNat (size - 1) d

/-- The loop of lines 292-295, `data[i+1] = data[i]; ptr[i+2] = ptr[i+1];` for
`i = size-1` down to 0. -/
def shiftBothRight (size : Int) (st : (Int → Int) × (Int → BPTNode)) :
    (Int → Int) × (Int → BPTNode) :=
  loopDown (fun i s => (setAt s.1 (i + 1) (s.1 i), setAt s.2 (i + 2) (s.2 (i + 1))))
    size.toNat (size - 1) st

/-- The loop `for (i = start; i < size-1; i++) data[i] = data[i+1];` (lines 236-238 and
318-320). -/
def shiftDataLeft (start size : Int) (d : Int → Int) : Int → Int :=
  loopUp (fun i d => setAt d i (d (i + 1))) (size - 1 - start).toNat start d

/-- The loop of lines 327-330, `data[i] = data[i+1]; ptr[i] = ptr[i+1];` for
`i = 0` up to `size-2`. -/
def shiftBothLeft (size : Int) (st : (Int → Int) × (Int → BPTNode)) :
    (Int → Int) × (Int → BPTNode) :=
  loopUp (fun i s => (setAt s.1 i (s.1 (i + 1)), setAt s.2 i (s.2 (i + 1))))
    (size - 1).toNat 0 st

/-- The merge loop of lines 349-352 and 374-377, `dst->data[t+i-1] = src->data[i];
dst->ptr[t+i] = src->ptr[i+1];` for `i = 0` up to `n-1`, on the arrays of `dst`. -/
def mergeCopy (t n : Int) (sd : Int → Int) (sp : Int → BPTNode)
    (st : (Int → Int) × (Int → BPTNode)) : (Int → Int) × (Int → BPTNode) :=
  loopUp (fun i s => (setAt s.1 (t + i - 1) (sd i), setAt s.2 (t + i) (sp (i + 1)))) n.toNat 0 st

/-- The loop of lines 354-357 and 381-384 on the parent, `data[i] = data[i+1];
ptr[i+1] = ptr[i+2];` for `i = start` up to `size-2`. -/
def closeGap (start size : Int) (st : (Int → Int) × (Int → BPTNode)) :
    (Int → Int) × (Int → BPTNode) :=
  loopUp (fun i s => (setAt s.1 i (s.1 (i + 1)), setAt s.2 (i + 1) (s.2 (i + 2))))
    (size - 1 - start).toNat start st

/-- The `while (!(temp->isLeaf))` descent of `findAndDelete` (lines 270-407) and the deletion
at the leaf (lines 410-418 with `deleteAtLeaf`, lines 226-241).  `isRoot` says whether `temp`
is `root`; every node above `temp` is internal, so `root->isLeaf` in `deleteAtLeaf` can only
hold when `temp` is the root.  An iteration that ends with `flag == 0` leaves `temp` as it
was, and the loop does not end: `Fault.fuel`. -/
def findAndDeleteLoop (t : Int) (key : Int) : Nat → Bool → BPTNode → Except Fault DeleteOut
  | 0, _, _ => Except.error Fault.fuel
  | _ + 1, _, BPTNode.null => Except.error Fault.nullDeref
  | _ + 1, isRoot, BPTNode.node true s d p =>
    let indexFound := binSearch s d key
    if indexFound < s ∧ d indexFound = key then
      if isRoot ∧ s = 1 then Except.ok (DeleteOut.mk BPTNode.null false true)
      else Except.ok (DeleteOut.mk (BPTNode.node true (s - 1) (shiftDataLeft indexFound s d) p)
        false true)
    else Except.ok (DeleteOut.mk (BPTNode.node true s d p) false false)
  | fuel + 1, _, BPTNode.node false s d p =>
    let indexFound := binSearch s d key
    match p indexFound with
    | BPTNode.null => Except.error Fault.nullDeref
    | BPTNode.node cl cs cd cp =>
      if cs ≠ t - 1 then
        match findAndDeleteLoop t key fuel false (BPTNode.node cl cs cd cp) with
        | Except.error e => Except.error e
        | Except.ok out => Except.ok (out.into s d p indexFound)
      else
        let leftBig : Except Fault Bool :=
          if indexFound > 0 then
            match p (indexFound - 1) with
            | BPTNode.null => Except.error Fault.nullDeref
            | BPTNode.node _ ls _ _ => Except.ok (decide (ls > t - 1))
          else Except.ok false
        match leftBig with
        | Except.error e => Except.error e
        | Except.ok true =>
          match p (indexFound - 1) with
          | BPTNode.null => Except.error Fault.nullDeref
          | BPTNode.node ll ls ld lp =>
            let d2 := setAt d (indexFound - 1) (ld (ls - 1))
            let child2 : BPTNode :=
              if cl then
                BPTNode.node cl (cs + 1) (setAt (shiftDataRight cs cd) 0 (d2 (indexFound - 1))) cp
              else
                let sh := shiftBothRight cs (cd, cp)
                BPTNode.node cl (cs + 1) (setAt sh.1 0 (d (indexFound - 1)))
                  (setAt (setAt sh.2 1 (sh.2 0)) 0 (lp ls))
            let lp2 := if cl then lp else setAt lp ls BPTNode.null
            let lsibling2 := BPTNode.node ll (ls - 1) ld lp2
            let p2 := setAt (setAt p (indexFound - 1) lsibling2) indexFound child2
            match findAndDeleteLoop t key fuel false child2 with
            | Except.error e => Except.error e
            | Except.ok out => Except.ok (out.into s d2 p2 indexFound)
        | Except.ok false =>
          let rightBig : Except Fault Bool :=
            if indexFound < s then
              match p (indexFound + 1) with
              | BPTNode.null => Except.error Fault.nullDeref
              | BPTNode.node _ rs _ _ => Except.ok (decide (rs > t - 1))
            else Except.ok false
          match rightBig with
          | Except.error e => Except.error e
          | Except.ok true =>
            match p (indexFound + 1) with
            | BPTNode.null => Except.error Fault.nullDeref
            | BPTNode.node rl rs rd rp =>
              let d2 := setAt d indexFound (rd 0)
              let child2 : BPTNode :=
                if cl then BPTNode.node cl (cs + 1) (setAt cd cs (d2 indexFound)) cp
                else BPTNode.node cl (cs + 1) (setAt cd cs (d indexFound))
                  (setAt cp (cs + 1) (rp 0))
              let rsibling2 : BPTNode :=
                if cl then BPTNode.node rl (rs - 1) (shiftDataLeft 0 rs rd) rp
                else
                  let sh := shiftBothLeft rs (rd, rp)
                  BPTNode.node rl (rs - 1) sh.1 (setAt sh.2 (rs - 1) (sh.2 rs))
              let p2 := setAt (setAt p (indexFound + 1) rsibling2) indexFound child2
              match findAndDeleteLoop t key fuel false child2 with
              | Except.error e => Except.error e
              | Except.ok out => Except.ok (out.into s d2 p2 indexFound)
          | Except.ok false =>
            if indexFound > 0 then
              match p (indexFound - 1) with
              | BPTNode.null => Except.error Fault.nullDeref
              | BPTNode.node ll _ ld lp =>
                let m := mergeCopy t cs cd cp (ld, setAt lp (t - 1) (cp 0))
                let lsibling2 := BPTNode.node ll (2 * t - 2) m.1 m.2
                let g := closeGap (indexFound - 1) s (d, setAt p (indexFound - 1) lsibling2)
                let p2 := setAt g.2 s BPTNode.null
                if s - 1 = 0 then
                  match findAndDeleteLoop t key fuel true lsibling2 with
                  | Except.error e => Except.error e
                  | Except.ok out => Except.ok (DeleteOut.mk out.node true out.found)
                else
                  match findAndDeleteLoop t key fuel false lsibling2 with
                  | Except.error e => Except.error e
                  | Except.ok out => Except.ok (out.into (s - 1) g.1 p2 (indexFound - 1))
            else if indexFound < s then
              match p (indexFound + 1) with
              | BPTNode.null => Except.error Fault.nullDeref
              | BPTNode.node _ rs rd rp =>
                let m := mergeCopy t rs rd rp (cd, setAt cp (t - 1) (rp 0))
                let child2 := BPTNode.node cl (2 * t - 2) m.1 m.2
                let g := closeGap indexFound s (d, setAt p indexFound child2)
                let p2 := setAt g.2 s BPTNode.null
                if s - 1 = 0 then
                  match findAndDeleteLoop t key fuel true child2 with
                  | Except.error e => Except.error e
                  | Except.ok out => Except.ok (DeleteOut.mk out.node true out.found)
                else
                  match findAndDeleteLoop t key fuel false child2 with
                  | Except.error e => Except.error e
                  | Except.ok out => Except.ok (out.into (s - 1) g.1 p2 indexFound)
            else Except.error Fault.fuel

/-- The method `findAndDelete(keyData)` (lines 261-419); the Boolean is its return value. -/
def findAndDelete (fuel : Nat) (tr : BPTree) (key : Int) : Except Fault (Bool × BPTree) :=
  match tr.root with
  | BPTNode.null => Except.ok (false, tr)
  | BPTNode.node rl rs rd rp =>
    match findAndDeleteLoop tr.t key fuel true (BPTNode.node rl rs rd rp) with
    | Except.error e => Except.error e
    | Except.ok out => Except.ok (out.found, BPTree.mk out.node tr.t)

/-- A call of the public interface of the prototype. -/
inductive Call where
  | insert (key : Int)
  | findAndDelete (key : Int)

/-- A sequence of calls from a tree: the values returned and the tree afterwards. -/
def calls (fuel : Nat) : BPTree → List Call → Except Fault (List Bool × BPTree)
  | tr, [] => Except.ok ([], tr)
  | tr, Call.insert key :: cs =>
    match insert fuel tr key with
    | Except.error e => Except.error e
    | Except.ok (b, tr2) =>
      match calls fuel tr2 cs with
      | Except.error e => Except.error e
      | Except.ok (bs, tr3) => Except.ok (b :: bs, tr3)
  | tr, Call.findAndDelete key :: cs =>
    match findAndDelete fuel tr key with
    | Except.error e => Except.error e
    | Except.ok (b, tr2) =>
      match calls fuel tr2 cs with
      | Except.error e => Except.error e
      | Except.ok (bs, tr3) => Except.ok (b :: bs, tr3)

/-- The values returned by a sequence of calls on the empty tree of minimum degree `t`. -/
def returnsAfter (fuel : Nat) (t : Int) (cs : List Call) : Option (List Bool) :=
  match calls fuel (BPTree.empty t) cs with
  | Except.error _ => none
  | Except.ok (bs, _) => some bs

/-- Whether `search(key)` returns a hit after a sequence of calls on the empty tree: a
non-null `bptNode` whose `data[index]` is the key. -/
def searchHitAfter (fuel : Nat) (t : Int) (cs : List Call) (key : Int) : Option Bool :=
  match calls fuel (BPTree.empty t) cs with
  | Except.error _ => none
  | Except.ok (_, tr) =>
    match search fuel tr key with
    | Except.error _ => none
    | Except.ok (_, BPTNode.null) => some false
    | Except.ok (index, BPTNode.node _ _ d _) => some (decide (d index = key))

/-- The keys stored after a sequence of calls on the empty tree: those inserted and not
deleted since by a `findAndDelete` that returned true. -/
def storedAfter : List Call → List Bool → List Int → List Int
  | Call.insert key :: cs, _ :: bs, acc => storedAfter cs bs (acc ++ [key])
  | Call.findAndDelete key :: cs, b :: bs, acc =>
    storedAfter cs bs (if b then acc.erase key else acc)
  | _, _, acc => acc

/-- The nine inserts and four deletions of `main` (lines 460-507). -/
def mainCalls : List Call :=
  [Call.insert 10, Call.insert 20, Call.insert 5, Call.insert 15, Call.insert 11,
   Call.insert 21, Call.insert 51, Call.insert 17, Call.insert 71,
   Call.findAndDelete 51, Call.findAndDelete 71, Call.findAndDelete 51,
   Call.findAndDelete 21]

/-- Six inserts and two deletions after which the right leaf borrows from the left one. -/
def leafBorrowCalls : List Call :=
  [Call.insert 1, Call.insert 2, Call.insert 3, Call.insert 4, Call.insert 5, Call.insert 6,
   Call.findAndDelete 6, Call.findAndDelete 5]

end btreemain

/-! ## The child slots read by remove -/

/-- One read `current->child[index]` made by the loop of `remove`, with `current->size` at
that moment. -/
structure ChildRead where
  size : Int
  index : Int
  deriving DecidableEq, Repr

/-- The reads of `current->child[...]` made by the statements of the loop of `remove`
(src/BTree.cpp lines 122-147), in order: `child[indexFound]` (line 124) in every iteration
and, when the child has `branchingFactor - 1` entries, `child[indexFound-1]` and
`child[indexFound+1]` (lines 133-134), which the source evaluates before the tests
`indexFound > 0` and `indexFound < current->size`.  The descent itself is that of
`removeLoop`. -/
def removeLoopR (B : Int) (key : keyRNPair) : Nat → Bool → BPTNode → Links → List ChildRead
  | 0, _, _, _ => []
  | _ + 1, _, BPTNode.null, _ => []
  | _ + 1, _, BPTNode.node _ true _ _ _, _ => []
  | fuel + 1, isRoot, BPTNode.node a false s k c, L =>
    let indexFound := binarySearch s k key
    match c indexFound with
    | BPTNode.null => [ChildRead.mk s indexFound]
    | BPTNode.node ca cl cs ck cc =>
      if cs ≠ B - 1 then
        ChildRead.mk s indexFound :: removeLoopR B key fuel false (BPTNode.node ca cl cs ck cc) L
      else
        let here := [ChildRead.mk s indexFound, ChildRead.mk s (indexFound - 1),
          ChildRead.mk s (indexFound + 1)]
        let leftBig : Except Fault Bool :=
          if indexFound > 0 then
            match c (indexFound - 1) with
            | BPTNode.null => Except.error Fault.nullDeref
            | BPTNode.node _ _ ls _ _ => Except.ok (decide (ls > B - 1))
          else Except.ok false
        match leftBig with
        | Except.error _ => here
        | Except.ok true =>
          match borrowFromLeftSibling indexFound (BPTNode.node a false s k c) with
          | Except.error _ => here
          | Except.ok cur => here ++ removeLoopR B key fuel false (cur.child indexFound) L
        | Except.ok false =>
          let rightBig : Except Fault Bool :=
            if indexFound < s then
              match c (indexFound + 1) with
              | BPTNode.null => Except.error Fault.nullDeref
              | BPTNode.node _ _ rs _ _ => Except.ok (decide (rs > B - 1))
            else Except.ok false
          match rightBig with
          | Except.error _ => here
          | Except.ok true =>
            match borrowFromRightSibling indexFound (BPTNode.node a false s k c) with
            | Except.error _ => here
            | Except.ok cur => here ++ removeLoopR B key fuel false (cur.child indexFound) L
          | Except.ok false =>
            match mergeWithSibling B indexFound (BPTNode.node a false s k c) L with
            | Except.error _ => here
            | Except.ok (MergeOut.kept cur i, L2) =>
              here ++ removeLoopR B key fuel false (cur.child i) L2
            | Except.ok (MergeOut.collapsed m, L2) => here ++ removeLoopR B key fuel true m L2
            | Except.ok (MergeOut.noop, L2) =>
              here ++ removeLoopR B key fuel isRoot (BPTNode.node a false s k c) L2

/-- The reads of `current->child[...]` made by the loop of `remove(key)`. -/
def removeR (fuel : Nat) (t : BPTree) (key : keyRNPair) : List ChildRead :=
  removeLoopR t.branchingFactor key fuel true t.root t.links

/-! ## Depths of the leaves -/

/-- The depths of the leaves reachable from the pointer through `child[0..size]`, left to
right, the pointer itself being at depth 0. -/
def BPTNode.leafDepths : BPTNode → List Nat
  | BPTNode.null => []
  | BPTNode.node _ l s _ c =>
    if l then [0]
    else (List.range (s + 1).toNat).flatMap
      (fun (i : Nat) => (BPTNode.leafDepths (c (i : Int))).map (fun d => d + 1))

/-! ## The leaves in tree order and their links -/

/-- The leaves reachable from the pointer through `child[0..size]`, left to right. -/
def BPTNode.leafNodes : BPTNode → List BPTNode
  | BPTNode.null => []
  | BPTNode.node a l s k c =>
    if l then [BPTNode.node a l s k c]
    else (List.range (s + 1).toNat).flatMap (fun (i : Nat) => BPTNode.leafNodes (c (i : Int)))

/-- What a scan reads of a leaf: `size` and `keys[0..size)`. -/
def BPTNode.view (n : BPTNode) : Int × List keyRNPair := (n.size, keysFrom n.keys 0 n.size)

/-- The leaf-chain property along a list of leaves in tree order, `prev` being the address of
the leaf before the list: the `leftSibling_` of each leaf is the leaf before it, its
`rightSibling_` is the leaf after it (null at the two ends), and dereferencing its address
gives a node with its size and keys. -/
def linkedB (t : BPTree) : Option Nat → List BPTNode → Bool
  | _, [] => true
  | prev, n :: rest =>
    match n.addr? with
    | none => false
    | some a =>
      decide (t.links.leftSibling_ a = prev) &&
      decide (t.links.rightSibling_ a = rest.head?.bind BPTNode.addr?) &&
      decide ((t.root.find (2 * t.branchingFactor).toNat a).map BPTNode.view = some n.view) &&
      linkedB t (some a) rest

/-- A tree whose structure is intact: every internal node has all the children
`child[0..size]` (the child-count property), and the sibling pointers link the leaves below
the root in tree order. -/
def Intact (t : BPTree) : Prop :=
  t.root.childCountOK (2 * t.branchingFactor).toNat = true ∧
  linkedB t none t.root.leafNodes = true

/-- The user keys a walk to the left emits for the leaves `pre` (given in tree order) once it
has entered the last of them: each leaf from its last key down to its first. -/
def leftOut (pre : List BPTNode) : List Int :=
  pre.reverse.flatMap (fun l => keysDownFrom l.keys (l.size - 1))

/-- The address of the last leaf of `pre`, or `prev` when `pre` is empty. -/
def lastAddr (prev : Option Nat) (pre : List BPTNode) : Option Nat :=
  match pre.getLast? with
  | none => prev
  | some n => n.addr?

/-! ## Closed forms of the array loops -/

theorem setAt_apply {α : Type} (f : Int → α) (i j : Int) (v : α) :
    setAt f i v j = if j = i then v else f j := rfl

theorem loopDown_shiftK (n : Nat) (hi : Int) (k : Int → keyRNPair) (j : Int) :
    loopDown (fun i k => setAt k (i + 1) (k i)) n hi k j
      = if hi - n + 1 < j ∧ j ≤ hi + 1 then k (j - 1) else k j := by
  induction n generalizing hi k with
  | zero =>
    simp only [loopDown]
    rw [if_neg]; push_cast; omega
  | succ n ih =>
    simp only [loopDown]
    rw [ih]
    simp only [setAt_apply]
    push_cast
    split_ifs <;> first | rfl | omega | (congr 1; omega)

theorem shiftRightK_apply (start size : Int) (k : Int → keyRNPair) (j : Int) (h : start ≤ size) :
    shiftRightK start size k j = if start < j ∧ j ≤ size then k (j - 1) else k j := by
  unfold shiftRightK
  rw [loopDown_shiftK]
  have : ((size - start).toNat : Int) = size - start := by omega
  rw [this]
  split_ifs <;> first | rfl | omega

theorem loopDown_shiftC (n : Nat) (hi : Int) (c : Int → BPTNode) (j : Int) :
    loopDown (fun i c => setAt (setAt c (i + 1) BPTNode.null) (i + 2) (c (i + 1))) n hi c j
      = if hi - n + 2 < j ∧ j ≤ hi + 2 then c (j - 1)
        else if j = hi - n + 2 ∧ 0 < n then BPTNode.null else c j := by
  induction n generalizing hi c with
  | zero =>
    simp only [loopDown]
    rw [if_neg (by omega), if_neg (by omega)]
  | succ n ih =>
    simp only [loopDown]
    rw [ih]
    simp only [setAt_apply]
    push_cast
    split_ifs <;> first | rfl | omega | (congr 1; omega)

theorem shiftRightC_apply (start size : Int) (c : Int → BPTNode) (j : Int) (h : start ≤ size) :
    shiftRightC start size c j
      = if start + 1 < j ∧ j ≤ size + 1 then c (j - 1)
        else if j = start + 1 ∧ start < size then BPTNode.null else c j := by
  unfold shiftRightC
  rw [loopDown_shiftC]
  have : ((size - start).toNat : Int) = size - start := by omega
  rw [this]
  split_ifs <;> first | rfl | omega

theorem loopUp_shiftK (n : Nat) (lo : Int) (k : Int → keyRNPair) (j : Int) :
    loopUp (fun i k => setAt k i (k (i + 1))) n lo k j
      = if lo ≤ j ∧ j < lo + n then k (j + 1) else k j := by
  induction n generalizing lo k with
  | zero =>
    simp only [loopUp]
    rw [if_neg]; push_cast; omega
  | succ n ih =>
    simp only [loopUp]
    rw [ih]
    simp only [setAt_apply]
    push_cast
    split_ifs <;> first | rfl | omega | (congr 1; omega)

theorem shiftLeftK_apply (start size : Int) (k : Int → keyRNPair) (j : Int) :
    shiftLeftK start size k j = if start ≤ j ∧ j < size - 1 then k (j + 1) else k j := by
  unfold shiftLeftK
  rw [loopUp_shiftK]
  split_ifs <;> first | rfl | omega

theorem loopUp_shiftC (d : Int) (n : Nat) (lo : Int) (c : Int → BPTNode) (j : Int) :
    loopUp (fun i c => setAt (setAt c (i + d + 1) BPTNode.null) (i + d) (c (i + d + 1))) n lo c j
      = if lo + d ≤ j ∧ j < lo + d + n then c (j + 1)
        else if j = lo + d + n ∧ 0 < n then BPTNode.null else c j := by
  induction n generalizing lo c with
  | zero =>
    simp only [loopUp]
    rw [if_neg (by omega), if_neg (by omega)]
  | succ n ih =>
    simp only [loopUp]
    rw [ih]
    simp only [setAt_apply]
    push_cast
    split_ifs <;> first | rfl | omega | (congr 1; omega)

theorem shiftLeftC_apply (d start size : Int) (c : Int → BPTNode) (j : Int) :
    shiftLeftC d start size c j
      = if start + d ≤ j ∧ j < size - 1 + d then c (j + 1)
        else if j = size - 1 + d ∧ start < size - 1 then BPTNode.null else c j := by
  unfold shiftLeftC
  rw [loopUp_shiftC]
  split_ifs <;> first | rfl | omega

theorem loopUp_copyK (off : Int) (src : Int → keyRNPair) (n : Nat) (lo : Int)
    (k : Int → keyRNPair) (j : Int) :
    loopUp (fun i k => setAt k (off + i) (src i)) n lo k j
      = if lo ≤ j - off ∧ j - off < lo + n then src (j - off) else k j := by
  induction n generalizing lo k with
  | zero =>
    simp only [loopUp]
    rw [if_neg]; push_cast; omega
  | succ n ih =>
    simp only [loopUp]
    rw [ih]
    simp only [setAt_apply]
    push_cast
    split_ifs <;> first | rfl | omega | (congr 1; omega)

theorem copyKeys_apply (off n : Int) (src dst : Int → keyRNPair) (j : Int) :
    copyKeys off n src dst j = if 0 ≤ j - off ∧ j - off < n then src (j - off) else dst j := by
  unfold copyKeys
  rw [loopUp_copyK]
  split_ifs <;> first | rfl | omega

theorem loopUp_moveC (off : Int) (n : Nat) (lo : Int) (dc sc : Int → BPTNode) (j : Int) :
    (loopUp (fun i (s : (Int → BPTNode) × (Int → BPTNode)) =>
        (setAt s.1 (off + i + 1) (s.2 (i + 1)), setAt s.2 (i + 1) BPTNode.null)) n lo (dc, sc)).1 j
      = (if lo ≤ j - off - 1 ∧ j - off - 1 < lo + n then sc (j - off) else dc j) ∧
    (loopUp (fun i (s : (Int → BPTNode) × (Int → BPTNode)) =>
        (setAt s.1 (off + i + 1) (s.2 (i + 1)), setAt s.2 (i + 1) BPTNode.null)) n lo (dc, sc)).2 j
      = (if lo + 1 ≤ j ∧ j < lo + 1 + n then BPTNode.null else sc j) := by
  induction n generalizing lo dc sc with
  | zero =>
    simp only [loopUp]
    constructor <;> (rw [if_neg]; push_cast; omega)
  | succ n ih =>
    simp only [loopUp]
    obtain ⟨h1, h2⟩ := ih (lo + 1) (setAt dc (off + lo + 1) (sc (lo + 1))) (setAt sc (lo + 1) BPTNode.null)
    rw [h1, h2]
    simp only [setAt_apply]
    push_cast
    constructor <;> split_ifs <;> first | rfl | omega | (congr 1; omega)

theorem moveChildren_fst (off n : Int) (dc sc : Int → BPTNode) (j : Int) :
    (moveChildren off n (dc, sc)).1 j
      = if 0 ≤ j - off - 1 ∧ j - off - 1 < n then sc (j - off) else dc j := by
  unfold moveChildren
  rw [(loopUp_moveC off n.toNat 0 dc sc j).1]
  split_ifs <;> first | rfl | omega

theorem moveChildren_snd (off n : Int) (dc sc : Int → BPTNode) (j : Int) :
    (moveChildren off n (dc, sc)).2 j
      = if 1 ≤ j ∧ j ≤ n then BPTNode.null else sc j := by
  unfold moveChildren
  rw [(loopUp_moveC off n.toNat 0 dc sc j).2]
  split_ifs <;> first | rfl | omega

theorem loopUp_splitK (B : Int) (src : Int → keyRNPair) (n : Nat) (lo : Int)
    (k : Int → keyRNPair) (j : Int) :
    loopUp (fun i k => setAt k (i - B) (src i)) n lo k j
      = if lo ≤ j + B ∧ j + B < lo + n then src (j + B) else k j := by
  induction n generalizing lo k with
  | zero =>
    simp only [loopUp]
    rw [if_neg]; push_cast; omega
  | succ n ih =>
    simp only [loopUp]
    rw [ih]
    simp only [setAt_apply]
    push_cast
    split_ifs <;> first | rfl | omega | (congr 1; omega)

theorem splitCopyK_apply (B : Int) (src dst : Int → keyRNPair) (j : Int) :
    splitCopyK B src dst j = if 0 ≤ j ∧ j < B - 1 then src (j + B) else dst j := by
  unfold splitCopyK
  rw [loopUp_splitK]
  split_ifs <;> first | rfl | omega

theorem loopUp_splitC (B : Int) (n : Nat) (lo : Int) (dc sc : Int → BPTNode) (j : Int) :
    (loopUp (fun i (s : (Int → BPTNode) × (Int → BPTNode)) =>
        (setAt s.1 (i - B) (s.2 i), setAt s.2 i BPTNode.null)) n lo (dc, sc)).1 j
      = (if lo ≤ j + B ∧ j + B < lo + n then sc (j + B) else dc j) ∧
    (loopUp (fun i (s : (Int → BPTNode) × (Int → BPTNode)) =>
        (setAt s.1 (i - B) (s.2 i), setAt s.2 i BPTNode.null)) n lo (dc, sc)).2 j
      = (if lo ≤ j ∧ j < lo + n then BPTNode.null else sc j) := by
  induction n generalizing lo dc sc with
  | zero =>
    simp only [loopUp]
    constructor <;> (rw [if_neg]; push_cast; omega)
  | succ n ih =>
    simp only [loopUp]
    obtain ⟨h1, h2⟩ := ih (lo + 1) (setAt dc (lo - B) (sc lo)) (setAt sc lo BPTNode.null)
    rw [h1, h2]
    simp only [setAt_apply]
    push_cast
    constructor <;> split_ifs <;> first | rfl | omega | (congr 1; omega)

theorem splitCopyC_fst (B : Int) (dc sc : Int → BPTNode) (j : Int) :
    (splitCopyC B (dc, sc)).1 j = if 0 ≤ j ∧ j < B - 1 then sc (j + B) else dc j := by
  unfold splitCopyC
  rw [(loopUp_splitC B _ B dc sc j).1]
  split_ifs <;> first | rfl | omega

theorem splitCopyC_snd (B : Int) (dc sc : Int → BPTNode) (j : Int) :
    (splitCopyC B (dc, sc)).2 j = if B ≤ j ∧ j < 2 * B - 1 then BPTNode.null else sc j := by
  unfold splitCopyC
  rw [(loopUp_splitC B _ B dc sc j).2]
  split_ifs <;> first | rfl | omega

/-! ## Order facts -/

theorem keyLt_iff_not_keyLe (a b : keyRNPair) : keyLt a b ↔ ¬ keyLe b a := by
  simp only [keyLt, keyLe]; omega

theorem keyLe_refl (a : keyRNPair) : keyLe a a :=
  Or.inr ⟨rfl, le_refl _⟩

theorem keyLe_trans {a b c : keyRNPair} (h1 : keyLe a b) (h2 : keyLe b c) : keyLe a c := by
  simp only [keyLe] at *; omega

theorem keyLt_of_lt_of_le {a b c : keyRNPair} (h1 : keyLt a b) (h2 : keyLe b c) : keyLt a c := by
  simp only [keyLe, keyLt] at *; omega

theorem keyLt_of_le_of_lt {a b c : keyRNPair} (h1 : keyLe a b) (h2 : keyLt b c) : keyLt a c := by
  simp only [keyLe, keyLt] at *; omega

theorem keyLt_trans {a b c : keyRNPair} (h1 : keyLt a b) (h2 : keyLt b c) : keyLt a c := by
  simp only [keyLt] at *; omega

theorem keyLe_of_keyLt {a b : keyRNPair} (h : keyLt a b) : keyLe a b := by
  simp only [keyLe, keyLt] at *; omega

theorem keyLt_of_le_of_ne {a b : keyRNPair} (h : keyLe a b) (hne : a ≠ b) : keyLt a b := by
  obtain ⟨a1, a2⟩ := a
  obtain ⟨b1, b2⟩ := b
  simp only [keyLe, keyLt, ne_eq, Prod.mk.injEq] at *
  omega

/-! ## binarySearch -/

theorem binarySearchLoop_spec (k : Int → keyRNPair) (key : keyRNPair) (s : Int) (n : Nat) :
    ∀ (l r ans : Int), 0 ≤ l → l ≤ r + 1 → r + 1 ≤ s → ans = r + 1 →
      (ans < s → keyLe key (k ans)) → (0 < l → ¬ keyLe key (k (l - 1))) → r - l + 1 ≤ n →
      0 ≤ binarySearchLoop k key n l r ans ∧ binarySearchLoop k key n l r ans ≤ s ∧
      (binarySearchLoop k key n l r ans < s → keyLe key (k (binarySearchLoop k key n l r ans))) ∧
      (0 < binarySearchLoop k key n l r ans →
        ¬ keyLe key (k (binarySearchLoop k key n l r ans - 1))) := by
  induction n with
  | zero =>
    intro l r ans h0 h1 h2 h3 h4 h5 h6
    simp only [binarySearchLoop]
    have hl : l = ans := by omega
    subst hl
    exact ⟨by omega, by omega, h4, h5⟩
  | succ n ih =>
    intro l r ans h0 h1 h2 h3 h4 h5 h6
    simp only [binarySearchLoop]
    by_cases hlr : l ≤ r
    · rw [if_pos hlr]
      by_cases hk : keyLe key (k ((l + r) / 2))
      · rw [if_pos hk]
        apply ih
        · exact h0
        · omega
        · omega
        · omega
        · intro _; exact hk
        · exact h5
        · push_cast at h6; omega
      · rw [if_neg hk]
        apply ih
        · omega
        · omega
        · exact h2
        · exact h3
        · exact h4
        · intro _
          have : (l + r) / 2 + 1 - 1 = (l + r) / 2 := by omega
          rw [this]; exact hk
        · push_cast at h6; omega
    · rw [if_neg hlr]
      have hl : l = ans := by omega
      subst hl
      exact ⟨by omega, by omega, h4, h5⟩

theorem binarySearch_spec (s : Int) (k : Int → keyRNPair) (key : keyRNPair) (hs : 0 ≤ s) :
    0 ≤ binarySearch s k key ∧ binarySearch s k key ≤ s ∧
    (binarySearch s k key < s → keyLe key (k (binarySearch s k key))) ∧
    (0 < binarySearch s k key → keyLt (k (binarySearch s k key - 1)) key) := by
  unfold binarySearch
  have := binarySearchLoop_spec k key s s.toNat 0 (s - 1) s (by omega) (by omega) (by omega)
    (by omega) (by omega) (by omega) (by omega)
  refine ⟨this.1, this.2.1, this.2.2.1, fun h => ?_⟩
  rw [keyLt_iff_not_keyLe]
  exact this.2.2.2 h

/-! ## The leaf loop of insert -/

theorem leafShift_spec (key : keyRNPair) (n : Nat) :
    ∀ (k : Int → keyRNPair),
      0 ≤ (leafShift key n ((n : Int) - 1) k).2 ∧ (leafShift key n ((n : Int) - 1) k).2 ≤ n ∧
      (∀ j, (leafShift key n ((n : Int) - 1) k).1 j =
        if (leafShift key n ((n : Int) - 1) k).2 < j ∧ j ≤ n then k (j - 1) else k j) ∧
      (∀ j, (leafShift key n ((n : Int) - 1) k).2 ≤ j → j < n → keyLe key (k j)) ∧
      (0 < (leafShift key n ((n : Int) - 1) k).2 →
        keyLt (k ((leafShift key n ((n : Int) - 1) k).2 - 1)) key) := by
  induction n with
  | zero =>
    intro k
    simp only [leafShift]
    refine ⟨by omega, by omega, fun j => ?_, fun j h1 h2 => ?_, fun h => ?_⟩
    · rw [if_neg]; push_cast; omega
    · push_cast at h2; omega
    · omega
  | succ n ih =>
    intro k
    have e1 : ((n + 1 : Nat) : Int) - 1 = n := by push_cast; omega
    rw [e1]
    simp only [leafShift]
    by_cases hk : keyLe key (k n)
    · simp only [if_pos hk]
      obtain ⟨h1, h2, h3, h4, h5⟩ := ih (setAt k ((n : Int) + 1) (k n))
      refine ⟨h1, by push_cast; omega, fun j => ?_, fun j hj1 hj2 => ?_, fun h => ?_⟩
      · rw [h3 j]
        simp only [setAt_apply]
        push_cast
        split_ifs <;> first | rfl | omega | (congr 1; omega)
      · by_cases hjn : j = n
        · subst hjn; exact hk
        · have := h4 j hj1 (by push_cast at hj2; omega)
          simp only [setAt_apply] at this
          rw [if_neg (by omega)] at this
          exact this
      · have := h5 h
        simp only [setAt_apply] at this
        rw [if_neg (by omega)] at this
        exact this
    · simp only [if_neg hk]
      refine ⟨by omega, by push_cast; omega, fun j => ?_, fun j hj1 hj2 => ?_, fun _ => ?_⟩
      · rw [if_neg]; push_cast; omega
      · push_cast at hj2; omega
      · have : (n : Int) + 1 - 1 = n := by omega
        simp only [this]
        rw [keyLt_iff_not_keyLe]; exact hk

/-! ## Basic facts about the invariant -/

theorem WF_mono (B : Int) (ord : Bool) (h : Nat) :
    ∀ (P Q P' Q' : keyRNPair → Prop) (n : BPTNode),
      (∀ e, P e → P' e) → (∀ e, Q e → Q' e) → WF B ord h P Q n → WF B ord h P' Q' n := by
  induction h with
  | zero =>
    intro P Q P' Q' n hP hQ hwf
    cases n with
    | null => trivial
    | node a l s k c =>
      simp only [WF] at hwf ⊢
      exact ⟨hwf.1, hwf.2.1, fun i h0 h1 => hP _ (hwf.2.2.1 i h0 h1), hwf.2.2.2⟩
  | succ h ih =>
    intro P Q P' Q' n hP hQ hwf
    cases n with
    | null => trivial
    | node a l s k c =>
      simp only [WF] at hwf ⊢
      refine ⟨hwf.1, hwf.2.1, fun i h0 h1 => hQ _ (hwf.2.2.1 i h0 h1), hwf.2.2.2.1, ?_⟩
      intro i h0 h1
      refine ⟨(hwf.2.2.2.2 i h0 h1).1, ?_⟩
      apply ih _ _ _ _ _ _ _ (hwf.2.2.2.2 i h0 h1).2
      · intro e he; exact ⟨hP e he.1, he.2⟩
      · intro e he; exact ⟨hQ e he.1, he.2⟩

theorem WF_leaf_height {B : Int} {ord : Bool} {h : Nat} {P Q : keyRNPair → Prop} {a : Nat} {s : Int}
    {k : Int → keyRNPair} {c : Int → BPTNode} (hwf : WF B ord h P Q (BPTNode.node a true s k c)) :
    h = 0 := by
  cases h with
  | zero => rfl
  | succ h => simp only [WF] at hwf; exact absurd hwf.1 (by decide)

theorem WF_internal_height {B : Int} {ord : Bool} {h : Nat} {P Q : keyRNPair → Prop} {a : Nat}
    {s : Int} {k : Int → keyRNPair} {c : Int → BPTNode}
    (hwf : WF B ord h P Q (BPTNode.node a false s k c)) : ∃ h', h = h' + 1 := by
  cases h with
  | zero => simp only [WF] at hwf; exact absurd hwf.1 (by decide)
  | succ h => exact ⟨h, rfl⟩

theorem WF_null (B : Int) (ord : Bool) (h : Nat) (P Q : keyRNPair → Prop) :
    WF B ord h P Q BPTNode.null := by
  cases h <;> simp [WF]

theorem WF_size_le {B : Int} {ord : Bool} {h : Nat} {P Q : keyRNPair → Prop} {a : Nat} {l : Bool}
    {s : Int} {k : Int → keyRNPair} {c : Int → BPTNode}
    (hwf : WF B ord h P Q (BPTNode.node a l s k c)) : s ≤ 2 * B - 1 := by
  cases h with
  | zero => simp only [WF] at hwf; exact hwf.2.1
  | succ h => simp only [WF] at hwf; exact hwf.2.1

theorem WF_size_le_of_ne {B : Int} {ord : Bool} {h : Nat} {P Q : keyRNPair → Prop} {n : BPTNode}
    (hwf : WF B ord h P Q n) (hnn : n ≠ BPTNode.null) : n.size ≤ 2 * B - 1 := by
  cases n with
  | null => exact absurd rfl hnn
  | node a l s k c => exact WF_size_le hwf

/-- Replacing one child of an internal node by a subtree that satisfies the
invariant of that slot. -/
theorem WF_setChild {B : Int} {ord : Bool} {h : Nat} {P Q : keyRNPair → Prop} {a : Nat} {l : Bool}
    {s : Int} {k : Int → keyRNPair} {c : Int → BPTNode} (i : Int) (x : BPTNode)
    (hwf : WF B ord (h + 1) P Q (BPTNode.node a l s k c))
    (hx : WF B ord h (childP ord P k s i) (childQ ord Q k s i) x)
    (hsz : x = BPTNode.null ∨ B - 1 ≤ x.size) :
    WF B ord (h + 1) P Q (BPTNode.node a l s k (setAt c i x)) := by
  simp only [WF] at hwf ⊢
  refine ⟨hwf.1, hwf.2.1, hwf.2.2.1, hwf.2.2.2.1, ?_⟩
  intro j h0 h1
  simp only [setAt_apply]
  by_cases hj : j = i
  · subst hj; simp only [if_true]; exact ⟨hsz, hx⟩
  · simp only [if_neg hj]; exact hwf.2.2.2.2 j h0 h1

theorem leafInsert_WF {B : Int} {ord : Bool} {P P' Q : keyRNPair → Prop} {a : Nat} {s : Int}
    {k : Int → keyRNPair} {c : Int → BPTNode} (key : keyRNPair)
    (hwf : WF B ord 0 P Q (BPTNode.node a true s k c)) (hs0 : 0 ≤ s) (hs : s < 2 * B - 1)
    (hP : ∀ e, P e → P' e) (hkey : P' key) (hne : ord = true → ∀ e, P e → e ≠ key) :
    WF B ord 0 P' Q (BPTNode.node a true (s + 1)
      (setAt (leafShift key s.toNat (s - 1) k).1 (leafShift key s.toNat (s - 1) k).2 key) c) := by
  have hsp := leafShift_spec key s.toNat k
  have e1 : ((s.toNat : Nat) : Int) = s := by omega
  rw [e1] at hsp
  obtain ⟨h1, h2, h3, h4, h5⟩ := hsp
  generalize (leafShift key s.toNat (s - 1) k).2 = idx at *
  generalize (leafShift key s.toNat (s - 1) k).1 = k1 at *
  simp only [WF] at hwf ⊢
  obtain ⟨hl, _, hPk, hsorted⟩ := hwf
  have hk' : ∀ j, setAt k1 idx key j =
      if j = idx then key else if idx < j ∧ j ≤ s then k (j - 1) else k j := by
    intro j; simp only [setAt_apply, h3 j]
  have hlt_below : ord = true → ∀ i, 0 ≤ i → i < idx → keyLt (k i) key := by
    intro ho i hi0 hi1
    have hlast := h5 (by omega)
    by_cases hi : i = idx - 1
    · subst hi; exact hlast
    · exact keyLt_trans (hsorted ho i (idx - 1) hi0 (by omega) (by omega)) hlast
  have hgt_above : ord = true → ∀ i, idx ≤ i → i < s → keyLt key (k i) := by
    intro ho i hi0 hi1
    exact keyLt_of_le_of_ne (h4 i hi0 hi1) (fun he => hne ho _ (hPk i (by omega) hi1) he.symm)
  refine ⟨hl, by omega, ?_, ?_⟩
  · intro i hi0 hi1
    rw [hk' i]
    split_ifs with c1 c2
    · exact hkey
    · exact hP _ (hPk _ (by omega) (by omega))
    · exact hP _ (hPk _ (by omega) (by omega))
  · intro ho i j hi0 hij hj
    rw [hk' i, hk' j]
    split_ifs with c1 c2 c3 c4 c5 c6 c7 c8
    all_goals first
      | omega
      | exact hlt_below ho _ (by omega) (by omega)
      | exact hgt_above ho _ (by omega) (by omega)
      | exact hsorted ho _ _ (by omega) (by omega) (by omega)

/-- The left half kept by a split of a full node satisfies the invariant below
the promoted key `ck[B-1]`. -/
theorem split_left_WF {B : Int} {ord : Bool} (hB : 2 ≤ B) (h : Nat) (cc2 : Int → BPTNode)
    {P1 Q1 : keyRNPair → Prop}
    {ca : Nat} {cl : Bool} {cs : Int} {ck : Int → keyRNPair} {cc : Int → BPTNode}
    (hwf : WF B ord h P1 Q1 (BPTNode.node ca cl cs ck cc)) (hcs : cs = 2 * B - 1)
    (hcc2 : ∀ j, 0 ≤ j → j < B → cc2 j = cc j) :
    WF B ord h (fun e => P1 e ∧ (ord = true → keyLe e (ck (B - 1))))
      (fun e => Q1 e ∧ (ord = true → keyLe e (ck (B - 1))))
      (BPTNode.node ca cl (if !cl then B - 1 else B) ck cc2) := by
  subst hcs
  cases h with
  | zero =>
    simp only [WF] at hwf ⊢
    obtain ⟨hl, _, hP, hsorted⟩ := hwf
    subst hl
    simp only [Bool.not_true, if_false, Bool.false_eq_true]
    refine ⟨trivial, by omega, ?_, ?_⟩
    · intro i hi0 hi1
      refine ⟨hP i hi0 (by omega), fun ho => ?_⟩
      by_cases hi : i = B - 1
      · subst hi; exact keyLe_refl _
      · exact keyLe_of_keyLt (hsorted ho i (B - 1) hi0 (by omega) (by omega))
    · intro ho i j hi0 hij hj
      exact hsorted ho i j hi0 hij (by omega)
  | succ h =>
    simp only [WF] at hwf ⊢
    obtain ⟨hl, _, hQ, hsorted, hch⟩ := hwf
    subst hl
    simp only [Bool.not_false, if_true]
    refine ⟨trivial, by omega, ?_, ?_, ?_⟩
    · intro i hi0 hi1
      exact ⟨hQ i hi0 (by omega), fun ho => hsorted ho i (B - 1) hi0 (by omega) (by omega)⟩
    · intro ho i j hi0 hij hj
      exact hsorted ho i j hi0 hij (by omega)
    · intro i hi0 hi1
      rw [hcc2 i hi0 (by omega)]
      refine ⟨(hch i hi0 (by omega)).1, ?_⟩
      apply WF_mono _ _ _ _ _ _ _ _ ?_ ?_ (hch i hi0 (by omega)).2
      · intro e he
        refine ⟨⟨he.1, fun ho => ?_⟩, fun ho => ⟨(he.2 ho).1, fun hi => (he.2 ho).2 (by omega)⟩⟩
        exact keyLe_trans ((he.2 ho).2 (by omega)) (hsorted ho i (B - 1) hi0 (by omega) (by omega))
      · intro e he
        refine ⟨⟨he.1, fun ho => ?_⟩, fun ho => ⟨(he.2 ho).1, fun hi => (he.2 ho).2 (by omega)⟩⟩
        exact keyLe_trans ((he.2 ho).2 (by omega)) (hsorted ho i (B - 1) hi0 (by omega) (by omega))

/-- The right half created by a split of a full node satisfies the invariant
above the promoted key `ck[B-1]`. -/
theorem split_right_WF {B : Int} {ord : Bool} (hB : 2 ≤ B) (h : Nat) (na : Nat)
    (nk : Int → keyRNPair) (nc : Int → BPTNode) {P1 Q1 : keyRNPair → Prop}
    {ca : Nat} {cl : Bool} {cs : Int} {ck : Int → keyRNPair} {cc : Int → BPTNode}
    (hwf : WF B ord h P1 Q1 (BPTNode.node ca cl cs ck cc)) (hcs : cs = 2 * B - 1)
    (hnk : ∀ j, 0 ≤ j → j < B - 1 → nk j = ck (j + B))
    (hnc : ∀ j, 0 ≤ j → j ≤ B - 1 → nc j = cc (j + B)) :
    WF B ord h (fun e => P1 e ∧ (ord = true → keyLt (ck (B - 1)) e))
      (fun e => Q1 e ∧ (ord = true → keyLe (ck (B - 1)) e))
      (BPTNode.node na cl (B - 1) nk nc) := by
  subst hcs
  cases h with
  | zero =>
    simp only [WF] at hwf ⊢
    obtain ⟨hl, _, hP, hsorted⟩ := hwf
    refine ⟨hl, by omega, ?_, ?_⟩
    · intro i hi0 hi1
      rw [hnk i hi0 hi1]
      exact ⟨hP _ (by omega) (by omega), fun ho => hsorted ho _ _ (by omega) (by omega) (by omega)⟩
    · intro ho i j hi0 hij hj
      rw [hnk i hi0 (by omega), hnk j (by omega) hj]
      exact hsorted ho _ _ (by omega) (by omega) (by omega)
  | succ h =>
    simp only [WF] at hwf ⊢
    obtain ⟨hl, _, hQ, hsorted, hch⟩ := hwf
    refine ⟨hl, by omega, ?_, ?_, ?_⟩
    · intro i hi0 hi1
      rw [hnk i hi0 hi1]
      exact ⟨hQ _ (by omega) (by omega), fun ho => hsorted ho _ _ (by omega) (by omega) (by omega)⟩
    · intro ho i j hi0 hij hj
      rw [hnk i hi0 (by omega), hnk j (by omega) hj]
      exact hsorted ho _ _ (by omega) (by omega) (by omega)
    · intro i hi0 hi1
      rw [hnc i hi0 hi1]
      refine ⟨(hch (i + B) (by omega) (by omega)).1, ?_⟩
      apply WF_mono _ _ _ _ _ _ _ _ ?_ ?_ (hch (i + B) (by omega) (by omega)).2
      · intro e he
        have e1 : i + B - 1 = (i - 1) + B := by omega
        refine ⟨⟨he.1, fun ho => ?_⟩, fun ho => ⟨fun hi => ?_, fun hi => ?_⟩⟩
        · exact keyLt_of_le_of_lt (hsorted ho (B - 1) (i + B - 1) (by omega) (by omega) (by omega))
            ((he.2 ho).1 (by omega))
        · rw [hnk (i - 1) (by omega) (by omega), ← e1]; exact (he.2 ho).1 (by omega)
        · rw [hnk i hi0 hi]; exact (he.2 ho).2 (by omega)
      · intro e he
        have e1 : i + B - 1 = (i - 1) + B := by omega
        refine ⟨⟨he.1, fun ho => ?_⟩, fun ho => ⟨fun hi => ?_, fun hi => ?_⟩⟩
        · exact keyLe_trans (hsorted ho (B - 1) (i + B - 1) (by omega) (by omega) (by omega))
            ((he.2 ho).1 (by omega))
        · rw [hnk (i - 1) (by omega) (by omega), ← e1]; exact (he.2 ho).1 (by omega)
        · rw [hnk i hi0 hi]; exact (he.2 ho).2 (by omega)

/-- The promoted key of a full node satisfies the separator constraint of the
level above. -/
theorem split_key_Q {B : Int} {ord : Bool} (hB : 2 ≤ B) (h : Nat) {P1 Q1 : keyRNPair → Prop}
    {ca : Nat} {cl : Bool} {cs : Int} {ck : Int → keyRNPair} {cc : Int → BPTNode}
    (hwf : WF B ord h P1 Q1 (BPTNode.node ca cl cs ck cc)) (hcs : cs = 2 * B - 1)
    (hPQ : ∀ e, P1 e → Q1 e) : Q1 (ck (B - 1)) := by
  subst hcs
  cases h with
  | zero =>
    simp only [WF] at hwf
    exact hPQ _ (hwf.2.2.1 _ (by omega) (by omega))
  | succ h =>
    simp only [WF] at hwf
    exact hwf.2.2.1 _ (by omega) (by omega)

theorem childPQ {ord : Bool} {P Q : keyRNPair → Prop} (hPQ : ∀ e, P e → Q e)
    (k : Int → keyRNPair) (s i : Int) : ∀ e, childP ord P k s i e → childQ ord Q k s i e := by
  intro e he
  exact ⟨hPQ e he.1, fun ho => ⟨fun hi => keyLe_of_keyLt ((he.2 ho).1 hi), (he.2 ho).2⟩⟩

theorem splitNode_WF {B : Int} {ord : Bool} (hB : 2 ≤ B) (h : Nat) {P Q : keyRNPair → Prop}
    (hPQ : ∀ e, P e → Q e) {pa : Nat} {ps : Int} {pk : Int → keyRNPair} {pc : Int → BPTNode}
    (idx : Int) (L : Links) {cur : BPTNode} {L' : Links}
    (hwf : WF B ord (h + 1) P Q (BPTNode.node pa false ps pk pc))
    (hi0 : 0 ≤ idx) (hi1 : idx ≤ ps) (hps : ps < 2 * B - 1)
    (hfull : (pc idx).size = 2 * B - 1)
    (hres : splitNode B (BPTNode.node pa false ps pk pc) idx L = Except.ok (cur, L')) :
    ∃ k' c', cur = BPTNode.node pa false (ps + 1) k' c' ∧ WF B ord (h + 1) P Q cur ∧
      k' idx = (pc idx).keys (B - 1) ∧
      (∀ j, j < idx → k' j = pk j) ∧ (∀ j, idx < j → j ≤ ps → k' j = pk (j - 1)) ∧
      (c' idx ≠ BPTNode.null ∧ (c' idx).size < 2 * B - 1 ∧ B - 1 ≤ (c' idx).size) ∧
      (c' (idx + 1) ≠ BPTNode.null ∧ (c' (idx + 1)).size < 2 * B - 1 ∧
        B - 1 ≤ (c' (idx + 1)).size) := by
  cases hc : pc idx with
  | null => simp [splitNode, hc] at hres
  | node ca cl cs ck cc =>
    rw [hc] at hfull
    simp only [BPTNode.size] at hfull
    simp only [splitNode, hc, Links.alloc, Except.ok.injEq, Prod.mk.injEq] at hres
    obtain ⟨hcur, _⟩ := hres
    have hwf' := hwf
    simp only [WF] at hwf'
    obtain ⟨_, _, hQ, hsorted, hch⟩ := hwf'
    have hcwf := (hch idx hi0 hi1).2
    rw [hc] at hcwf
    have hk2 : ∀ j, setAt (shiftRightK idx ps pk) idx (ck (B - 1)) j =
        if j = idx then ck (B - 1) else if idx < j ∧ j ≤ ps then pk (j - 1) else pk j := by
      intro j; simp only [setAt_apply, shiftRightK_apply idx ps pk j hi1]
    have hsep := split_key_Q hB h hcwf hfull (childPQ hPQ pk ps idx)
    have hleft := split_left_WF hB h (setAt (splitCopyC B (nullChild, cc)).2 (2 * B - 1)
      BPTNode.null) hcwf hfull (by
        intro j hj0 hj1
        simp only [setAt_apply, splitCopyC_snd]
        rw [if_neg (by omega), if_neg (by omega)])
    have hright := split_right_WF hB h L.next (splitCopyK B ck zeroKeys)
      (setAt (splitCopyC B (nullChild, cc)).1 (B - 1)
        ((splitCopyC B (nullChild, cc)).2 (2 * B - 1))) hcwf hfull (by
        intro j hj0 hj1
        rw [splitCopyK_apply, if_pos ⟨hj0, hj1⟩]) (by
        intro j hj0 hj1
        simp only [setAt_apply, splitCopyC_snd, splitCopyC_fst]
        by_cases hj : j = B - 1
        · subst hj
          rw [if_pos rfl, if_neg (by omega)]
          congr 1; omega
        · rw [if_neg hj, if_pos ⟨hj0, by omega⟩])
    refine ⟨_, _, hcur.symm, ?_, ?_, ?_, ?_, ?_, ?_⟩
    · rw [← hcur]
      simp only [WF]
      refine ⟨trivial, by omega, ?_, ?_, ?_⟩
      · intro i hi0' hi1'
        rw [hk2 i]
        split_ifs with c1 c2
        · exact hsep.1
        · exact hQ _ (by omega) (by omega)
        · exact hQ _ (by omega) (by omega)
      · intro ho i j hi0' hij hj
        have hs1 := (hsep.2 ho).1
        have hs2 := (hsep.2 ho).2
        rw [hk2 i, hk2 j]
        split_ifs with c1 c2 c3 c4 c5 c6 c7 c8
        all_goals first
          | omega
          | exact keyLe_refl _
          | exact hsorted ho _ _ (by omega) (by omega) (by omega)
          | exact keyLe_trans (hsorted ho _ (idx - 1) (by omega) (by omega) (by omega))
              (hs1 (by omega))
          | exact keyLe_trans (hs2 (by omega)) (hsorted ho idx _ (by omega) (by omega) (by omega))
      · intro i hi0' hi1'
        simp only [setAt_apply]
        by_cases c1 : i = idx + 1
        · subst c1
          simp only [if_true]
          refine ⟨Or.inr (by simp [BPTNode.size]), ?_⟩
          apply WF_mono _ _ _ _ _ _ _ _ ?_ ?_ hright
          · intro e he
            refine ⟨he.1.1, fun ho => ⟨fun _ => ?_, fun hlt => ?_⟩⟩
            · have : idx + 1 - 1 = idx := by omega
              rw [this, hk2 idx, if_pos rfl]; exact he.2 ho
            · rw [hk2 (idx + 1), if_neg (by omega), if_pos (by omega)]
              have : idx + 1 - 1 = idx := by omega
              rw [this]; exact (he.1.2 ho).2 (by omega)
          · intro e he
            refine ⟨he.1.1, fun ho => ⟨fun _ => ?_, fun hlt => ?_⟩⟩
            · have : idx + 1 - 1 = idx := by omega
              rw [this, hk2 idx, if_pos rfl]; exact he.2 ho
            · rw [hk2 (idx + 1), if_neg (by omega), if_pos (by omega)]
              have : idx + 1 - 1 = idx := by omega
              rw [this]; exact (he.1.2 ho).2 (by omega)
        · simp only [if_neg c1]
          by_cases c2 : i = idx
          · subst c2
            simp only [if_true]
            refine ⟨Or.inr (by simp only [BPTNode.size]; split_ifs <;> omega), ?_⟩
            apply WF_mono _ _ _ _ _ _ _ _ ?_ ?_ hleft
            · intro e he
              refine ⟨he.1.1, fun ho => ⟨fun hlt => ?_, fun _ => ?_⟩⟩
              · rw [hk2 (i - 1), if_neg (by omega), if_neg (by omega)]
                exact (he.1.2 ho).1 hlt
              · rw [hk2 i, if_pos rfl]; exact he.2 ho
            · intro e he
              refine ⟨he.1.1, fun ho => ⟨fun hlt => ?_, fun _ => ?_⟩⟩
              · rw [hk2 (i - 1), if_neg (by omega), if_neg (by omega)]
                exact (he.1.2 ho).1 hlt
              · rw [hk2 i, if_pos rfl]; exact he.2 ho
          · simp only [if_neg c2]
            rw [shiftRightC_apply idx ps pc i hi1]
            by_cases c3 : idx + 1 < i
            · rw [if_pos ⟨c3, hi1'⟩]
              refine ⟨(hch (i - 1) (by omega) (by omega)).1, ?_⟩
              apply WF_mono _ _ _ _ _ _ _ _ ?_ ?_ (hch (i - 1) (by omega) (by omega)).2
              · intro e he
                refine ⟨he.1, fun ho => ⟨fun _ => ?_, fun hlt => ?_⟩⟩
                · rw [hk2 (i - 1), if_neg (by omega), if_pos (by omega)]
                  exact (he.2 ho).1 (by omega)
                · rw [hk2 i, if_neg (by omega), if_pos (by omega)]
                  exact (he.2 ho).2 (by omega)
              · intro e he
                refine ⟨he.1, fun ho => ⟨fun _ => ?_, fun hlt => ?_⟩⟩
                · rw [hk2 (i - 1), if_neg (by omega), if_pos (by omega)]
                  exact (he.2 ho).1 (by omega)
                · rw [hk2 i, if_neg (by omega), if_pos (by omega)]
                  exact (he.2 ho).2 (by omega)
            · rw [if_neg (by omega), if_neg (by omega)]
              refine ⟨(hch i hi0' (by omega)).1, ?_⟩
              apply WF_mono _ _ _ _ _ _ _ _ ?_ ?_ (hch i hi0' (by omega)).2
              · intro e he
                refine ⟨he.1, fun ho => ⟨fun hlt => ?_, fun _ => ?_⟩⟩
                · rw [hk2 (i - 1), if_neg (by omega), if_neg (by omega)]
                  exact (he.2 ho).1 hlt
                · rw [hk2 i, if_neg (by omega), if_neg (by omega)]
                  exact (he.2 ho).2 (by omega)
              · intro e he
                refine ⟨he.1, fun ho => ⟨fun hlt => ?_, fun _ => ?_⟩⟩
                · rw [hk2 (i - 1), if_neg (by omega), if_neg (by omega)]
                  exact (he.2 ho).1 hlt
                · rw [hk2 i, if_neg (by omega), if_neg (by omega)]
                  exact (he.2 ho).2 (by omega)
    · show _ = ck (B - 1)
      rw [hk2 idx, if_pos rfl]
    · intro j hj; rw [hk2 j, if_neg (by omega), if_neg (by omega)]
    · intro j hj1 hj2; rw [hk2 j, if_neg (by omega), if_pos ⟨hj1, hj2⟩]
    · rw [setAt_apply, if_neg (by omega), setAt_apply, if_pos rfl]
      refine ⟨by simp, ?_, ?_⟩ <;> (simp only [BPTNode.size]; split_ifs <;> omega)
    · rw [setAt_apply, if_pos rfl]
      refine ⟨by simp, ?_, ?_⟩ <;> (simp only [BPTNode.size]; omega)

theorem splitRoot_WF {B : Int} {ord : Bool} (hB : 2 ≤ B) (h : Nat) {P Q : keyRNPair → Prop}
    (hPQ : ∀ e, P e → Q e) {ra : Nat} {rl : Bool} {rs : Int} {rk : Int → keyRNPair}
    {rc : Int → BPTNode} (L : Links) {cur : BPTNode} {L' : Links}
    (hwf : WF B ord h P Q (BPTNode.node ra rl rs rk rc)) (hfull : rs = 2 * B - 1)
    (hres : splitRoot B (BPTNode.node ra rl rs rk rc) L = Except.ok (cur, L')) :
    WF B ord (h + 1) P Q cur ∧ cur ≠ BPTNode.null ∧ cur.size = 1 := by
  simp only [splitRoot, Links.alloc, Except.ok.injEq, Prod.mk.injEq] at hres
  obtain ⟨hcur, _⟩ := hres
  have hsep := split_key_Q hB h hwf hfull hPQ
  have hleft := split_left_WF hB h (setAt (splitCopyC B (nullChild, rc)).2 (2 * B - 1)
    BPTNode.null) hwf hfull (by
      intro j hj0 hj1
      simp only [setAt_apply, splitCopyC_snd]
      rw [if_neg (by omega), if_neg (by omega)])
  have hright := split_right_WF hB h (L.next + 1) (splitCopyK B rk zeroKeys)
    (setAt (splitCopyC B (nullChild, rc)).1 (B - 1)
      ((splitCopyC B (nullChild, rc)).2 (2 * B - 1))) hwf hfull (by
      intro j hj0 hj1
      rw [splitCopyK_apply, if_pos ⟨hj0, hj1⟩]) (by
      intro j hj0 hj1
      simp only [setAt_apply, splitCopyC_snd, splitCopyC_fst]
      by_cases hj : j = B - 1
      · subst hj
        rw [if_pos rfl, if_neg (by omega)]
        congr 1; omega
      · rw [if_neg hj, if_pos ⟨hj0, by omega⟩])
  rw [← hcur]
  refine ⟨?_, by simp, rfl⟩
  simp only [WF]
  refine ⟨trivial, by omega, ?_, ?_, ?_⟩
  · intro i hi0 hi1
    have : i = 0 := by omega
    subst this
    rw [setAt_apply, if_pos rfl]; exact hsep
  · intro ho i j hi0 hij hj
    have : i = 0 := by omega
    have : j = 0 := by omega
    subst i; subst j
    exact keyLe_refl _
  · intro i hi0 hi1
    by_cases c0 : i = 0
    · subst c0
      rw [setAt_apply, if_pos rfl]
      refine ⟨Or.inr (by simp only [BPTNode.size]; split_ifs <;> omega), ?_⟩
      apply WF_mono _ _ _ _ _ _ _ _ ?_ ?_ hleft
      · intro e he
        refine ⟨he.1, fun ho => ⟨fun hlt => absurd hlt (by omega), fun _ => ?_⟩⟩
        rw [setAt_apply, if_pos rfl]; exact he.2 ho
      · intro e he
        refine ⟨he.1, fun ho => ⟨fun hlt => absurd hlt (by omega), fun _ => ?_⟩⟩
        rw [setAt_apply, if_pos rfl]; exact he.2 ho
    · have c1 : i = 1 := by omega
      subst c1
      rw [setAt_apply, if_neg (by omega), setAt_apply, if_pos rfl]
      refine ⟨Or.inr (by simp only [BPTNode.size]; omega), ?_⟩
      apply WF_mono _ _ _ _ _ _ _ _ ?_ ?_ hright
      · intro e he
        refine ⟨he.1, fun ho => ⟨fun _ => ?_, fun hlt => absurd hlt (by omega)⟩⟩
        rw [setAt_apply, if_pos (by omega)]; exact he.2 ho
      · intro e he
        refine ⟨he.1, fun ho => ⟨fun _ => ?_, fun hlt => absurd hlt (by omega)⟩⟩
        rw [setAt_apply, if_pos (by omega)]; exact he.2 ho

theorem insertLoop_WF {B : Int} {ord : Bool} (hB : 2 ≤ B) (key : keyRNPair) (fuel : Nat) :
    ∀ (h : Nat) (P P' Q : keyRNPair → Prop) (n : BPTNode) (L : Links) (n' : BPTNode) (L' : Links),
      WF B ord h P Q n → 0 ≤ n.size → n.size < 2 * B - 1 →
      (∀ e, P e → P' e) → (∀ e, P e → Q e) → P' key →
      (ord = true → ∀ e, P e → e ≠ key) →
      insertLoop B key fuel n L = Except.ok (n', L') →
      WF B ord h P' Q n' ∧ n' ≠ BPTNode.null ∧ n.size ≤ n'.size := by
  induction fuel with
  | zero =>
    intro h P P' Q n L n' L' _ _ _ _ _ _ _ hres
    simp [insertLoop] at hres
  | succ fuel ih =>
    intro h P P' Q n L n' L' hwf hs0 hs hPP hPQ hkey hne hres
    cases n with
    | null => simp [insertLoop] at hres
    | node a l s k c =>
      simp only [BPTNode.size] at hs0 hs
      cases l with
      | true =>
        have h0 := WF_leaf_height hwf
        subst h0
        simp only [insertLoop, Except.ok.injEq, Prod.mk.injEq] at hres
        rw [← hres.1]
        refine ⟨leafInsert_WF key hwf hs0 hs hPP hkey hne, by simp, ?_⟩
        simp only [BPTNode.size]; omega
      | false =>
        obtain ⟨h', hh⟩ := WF_internal_height hwf
        subst hh
        have hbs := binarySearch_spec s k key hs0
        obtain ⟨hb0, hb1, hb2, hb3⟩ := hbs
        have hwf' := hwf
        simp only [WF] at hwf'
        obtain ⟨_, _, hQk, hsorted, hch⟩ := hwf'
        have hwfP' : WF B ord (h' + 1) P' Q (BPTNode.node a false s k c) :=
          WF_mono _ _ _ _ _ _ _ _ hPP (fun e he => he) hwf
        cases hc : c (binarySearch s k key) with
        | null => simp [insertLoop, hc] at hres
        | node ca cl cs ck cc =>
          have hcs := hch _ hb0 hb1
          rw [hc] at hcs
          have hcsz : B - 1 ≤ cs := by
            rcases hcs.1 with h1 | h1
            · exact absurd h1 (by simp)
            · exact h1
          simp only [insertLoop, hc] at hres
          by_cases hfull : cs < 2 * B - 1
          · simp only [if_pos hfull] at hres
            cases hrec : insertLoop B key fuel (BPTNode.node ca cl cs ck cc) L with
            | error e => simp [hrec] at hres
            | ok r =>
              obtain ⟨child2, L2⟩ := r
              simp only [hrec, Except.ok.injEq, Prod.mk.injEq] at hres
              have hih := ih h' (childP ord P k s (binarySearch s k key))
                (childP ord P' k s (binarySearch s k key))
                (childQ ord Q k s (binarySearch s k key)) _ L child2 L2 hcs.2
                (by simp only [BPTNode.size]; omega) (by simp only [BPTNode.size]; omega)
                (fun e he => ⟨hPP e he.1, he.2⟩) (childPQ hPQ k s _)
                ⟨hkey, fun _ => ⟨hb3, hb2⟩⟩ (fun ho e he => hne ho e he.1) hrec
              rw [← hres.1]
              refine ⟨WF_setChild _ _ hwfP' hih.1 (Or.inr ?_), by simp, le_refl _⟩
              have h3 : cs ≤ child2.size := hih.2.2
              omega
          · simp only [if_neg hfull] at hres
            cases hsp : splitNode B (BPTNode.node a false s k c) (binarySearch s k key) L with
            | error e => simp [hsp] at hres
            | ok r =>
              obtain ⟨cur, L2⟩ := r
              simp only [hsp] at hres
              have hcfull : (c (binarySearch s k key)).size = 2 * B - 1 := by
                rw [hc]; simp only [BPTNode.size]
                have := WF_size_le hcs.2
                omega
              obtain ⟨k', c', hcur, hwfcur, hkidx, hklo, hkhi, hci, hci1⟩ :=
                splitNode_WF hB h' hPQ (binarySearch s k key) L hwf hb0 hb1 hs hcfull hsp
              subst hcur
              simp only [BPTNode.keys, BPTNode.child, BPTNode.size] at hres
              have hwfcurP' : WF B ord (h' + 1) P' Q (BPTNode.node a false (s + 1) k' c') :=
                WF_mono _ _ _ _ _ _ _ _ hPP (fun e he => he) hwfcur
              have hwfcur' := hwfcur
              simp only [WF] at hwfcur'
              obtain ⟨_, _, _, _, hch'⟩ := hwfcur'
              by_cases hle : keyLe key (k' (binarySearch s k key))
              · simp only [if_pos hle] at hres
                cases hrec : insertLoop B key fuel (c' (binarySearch s k key)) L2 with
                | error e => simp [hrec] at hres
                | ok r =>
                  obtain ⟨child2, L3⟩ := r
                  simp only [hrec, Except.ok.injEq, Prod.mk.injEq] at hres
                  have hih := ih h' (childP ord P k' (s + 1) (binarySearch s k key))
                    (childP ord P' k' (s + 1) (binarySearch s k key))
                    (childQ ord Q k' (s + 1) (binarySearch s k key)) _ L2 child2 L3
                    (hch' _ hb0 (by omega)).2 (by omega) hci.2.1
                    (fun e he => ⟨hPP e he.1, he.2⟩) (childPQ hPQ k' (s + 1) _)
                    ⟨hkey, fun _ => ⟨fun hlt => by rw [hklo _ (by omega)]; exact hb3 hlt,
                      fun _ => hle⟩⟩
                    (fun ho e he => hne ho e he.1) hrec
                  rw [← hres.1]
                  refine ⟨WF_setChild _ _ hwfcurP' hih.1 (Or.inr ?_), by simp, ?_⟩
                  · have := hih.2.2; omega
                  · simp only [BPTNode.size]; omega
              · simp only [if_neg hle] at hres
                cases hrec : insertLoop B key fuel (c' (binarySearch s k key + 1)) L2 with
                | error e => simp [hrec] at hres
                | ok r =>
                  obtain ⟨child2, L3⟩ := r
                  simp only [hrec, Except.ok.injEq, Prod.mk.injEq] at hres
                  have hih := ih h' (childP ord P k' (s + 1) (binarySearch s k key + 1))
                    (childP ord P' k' (s + 1) (binarySearch s k key + 1))
                    (childQ ord Q k' (s + 1) (binarySearch s k key + 1)) _ L2 child2 L3
                    (hch' _ (by omega) (by omega)).2 (by omega) hci1.2.1
                    (fun e he => ⟨hPP e he.1, he.2⟩) (childPQ hPQ k' (s + 1) _)
                    ⟨hkey, fun _ => ⟨fun _ => by
                        have : binarySearch s k key + 1 - 1 = binarySearch s k key := by omega
                        rw [this, keyLt_iff_not_keyLe]; exact hle,
                      fun hlt => by
                        rw [hkhi _ (by omega) (by omega)]
                        have : binarySearch s k key + 1 - 1 = binarySearch s k key := by omega
                        rw [this]; exact hb2 (by omega)⟩⟩
                    (fun ho e he => hne ho e he.1) hrec
                  rw [← hres.1]
                  refine ⟨WF_setChild _ _ hwfcurP' hih.1 (Or.inr ?_), by simp, ?_⟩
                  · have := hih.2.2; omega
                  · simp only [BPTNode.size]; omega

/-! ## Entries -/

theorem mem_keysFrom (k : Int → keyRNPair) (start size : Int) (e : keyRNPair) :
    e ∈ keysFrom k start size ↔ ∃ i, start ≤ i ∧ i < size ∧ k i = e := by
  simp only [keysFrom, List.mem_map, List.mem_range]
  constructor
  · rintro ⟨n, hn, rfl⟩
    exact ⟨start + n, by omega, by omega, rfl⟩
  · rintro ⟨i, h1, h2, rfl⟩
    refine ⟨(i - start).toNat, by omega, ?_⟩
    congr 1; omega

theorem mem_entries_leaf (a : Nat) (s : Int) (k : Int → keyRNPair) (c : Int → BPTNode)
    (e : keyRNPair) :
    e ∈ (BPTNode.node a true s k c).entries ↔ ∃ i, 0 ≤ i ∧ i < s ∧ k i = e := by
  simp only [BPTNode.entries, if_true]
  exact mem_keysFrom k 0 s e

theorem mem_entries_internal (a : Nat) (s : Int) (k : Int → keyRNPair) (c : Int → BPTNode)
    (e : keyRNPair) :
    e ∈ (BPTNode.node a false s k c).entries ↔ ∃ i, 0 ≤ i ∧ i ≤ s ∧ e ∈ (c i).entries := by
  simp only [BPTNode.entries, Bool.false_eq_true, if_false, List.mem_flatMap, List.mem_range]
  constructor
  · rintro ⟨n, hn, he⟩
    exact ⟨n, by omega, by omega, he⟩
  · rintro ⟨i, h1, h2, he⟩
    refine ⟨i.toNat, by omega, ?_⟩
    have : ((i.toNat : Nat) : Int) = i := by omega
    rw [this]; exact he

/-- Every entry below a node that satisfies the invariant satisfies `P`. -/
theorem WF_entries (B : Int) (ord : Bool) (h : Nat) :
    ∀ (P Q : keyRNPair → Prop) (n : BPTNode), WF B ord h P Q n → ∀ e ∈ n.entries, P e := by
  induction h with
  | zero =>
    intro P Q n hwf e he
    cases n with
    | null => simp [BPTNode.entries] at he
    | node a l s k c =>
      simp only [WF] at hwf
      obtain ⟨hl, _, hP, _⟩ := hwf
      subst hl
      rw [mem_entries_leaf] at he
      obtain ⟨i, h0, h1, rfl⟩ := he
      exact hP i h0 h1
  | succ h ih =>
    intro P Q n hwf e he
    cases n with
    | null => simp [BPTNode.entries] at he
    | node a l s k c =>
      simp only [WF] at hwf
      obtain ⟨hl, _, _, _, hch⟩ := hwf
      subst hl
      rw [mem_entries_internal] at he
      obtain ⟨i, h0, h1, hi⟩ := he
      exact (ih _ _ _ (hch i h0 h1).2 e hi).1

/-- A property of all entries below a node can be added to the constraint of
the invariant. -/
theorem WF_of_entries (B : Int) (ord : Bool) (R : keyRNPair → Prop) (h : Nat) :
    ∀ (P Q : keyRNPair → Prop) (n : BPTNode), WF B ord h P Q n → (∀ e ∈ n.entries, R e) →
      WF B ord h (fun e => P e ∧ R e) Q n := by
  induction h with
  | zero =>
    intro P Q n hwf hR
    cases n with
    | null => trivial
    | node a l s k c =>
      simp only [WF] at hwf ⊢
      obtain ⟨hl, hs, hP, hsorted⟩ := hwf
      subst hl
      refine ⟨rfl, hs, fun i h0 h1 => ⟨hP i h0 h1, hR _ ?_⟩, hsorted⟩
      rw [mem_entries_leaf]; exact ⟨i, h0, h1, rfl⟩
  | succ h ih =>
    intro P Q n hwf hR
    cases n with
    | null => trivial
    | node a l s k c =>
      simp only [WF] at hwf ⊢
      obtain ⟨hl, hs, hQ, hsorted, hch⟩ := hwf
      subst hl
      refine ⟨rfl, hs, hQ, hsorted, fun i h0 h1 => ⟨(hch i h0 h1).1, ?_⟩⟩
      have := ih _ _ _ (hch i h0 h1).2 (fun e he => hR e (by
        rw [mem_entries_internal]; exact ⟨i, h0, h1, he⟩))
      exact WF_mono _ _ _ _ _ _ _ _ (fun e he => ⟨⟨he.1.1, he.2⟩, he.1.2⟩) (fun e he => he) this

/-! ## insert preserves the invariant -/

theorem insert_TreeWF {ord : Bool} {t t' : BPTree} {key : keyRNPair} {fuel : Nat} {b : Bool}
    (hB : 2 ≤ t.branchingFactor) (htw : TreeWF ord t)
    (hne : ord = true → key ∉ t.root.entries)
    (hres : insert fuel t key = Except.ok (b, t')) :
    TreeWF ord t' ∧ t'.branchingFactor = t.branchingFactor := by
  unfold insert at hres
  cases hr : t.root with
  | null =>
    simp only [hr, Links.alloc, Except.ok.injEq, Prod.mk.injEq] at hres
    rw [← hres.2]
    refine ⟨Or.inr ⟨by simp [BPTNode.size], 0, ?_⟩, rfl⟩
    simp only [WF]
    refine ⟨trivial, by omega, fun _ _ _ => trivial, fun _ i j h0 h1 h2 => by omega⟩
  | node ra rl rs rk rc =>
    simp only [hr] at hres
    rcases htw with hnull | ⟨hsz, h, hwf⟩
    · rw [hr] at hnull; exact absurd hnull (by simp)
    rw [hr] at hsz hwf hne
    simp only [BPTNode.size] at hsz
    have hwfR := WF_of_entries _ ord (fun e => ord = true → e ≠ key) h _ _ _ hwf
      (fun e he ho hek => hne ho (hek ▸ he))
    have key1 : ∀ (root1 : BPTNode) (L1 : Links) (h1 : Nat),
        WF t.branchingFactor ord h1 (fun e => True ∧ (ord = true → e ≠ key)) (fun _ => True) root1 →
        1 ≤ root1.size → root1.size < 2 * t.branchingFactor - 1 →
        (match insertLoop t.branchingFactor key fuel root1 L1 with
          | Except.error e => Except.error e
          | Except.ok (root2, L2) =>
            (Except.ok (true, { t with root := root2, links := L2 }) : Except Fault (Bool × BPTree)))
          = Except.ok (b, t') →
        TreeWF ord t' ∧ t'.branchingFactor = t.branchingFactor := by
      intro root1 L1 h1 hw1 hs1 hs2 hres1
      cases hrec : insertLoop t.branchingFactor key fuel root1 L1 with
      | error e => simp [hrec] at hres1
      | ok r =>
        obtain ⟨root2, L2⟩ := r
        simp only [hrec, Except.ok.injEq, Prod.mk.injEq] at hres1
        have hih := insertLoop_WF hB key fuel h1 _ (fun _ => True) (fun _ => True) root1 L1 root2 L2
          hw1 (by omega) hs2 (fun _ _ => trivial) (fun _ _ => trivial) trivial
          (fun ho e he => he.2 ho) hrec
        rw [← hres1.2]
        refine ⟨Or.inr ⟨?_, h1, hih.1⟩, rfl⟩
        have := hih.2.2
        show 1 ≤ root2.size
        omega
    by_cases hfull : rs = 2 * t.branchingFactor - 1
    · simp only [if_pos hfull] at hres
      cases hsp : splitRoot t.branchingFactor (BPTNode.node ra rl rs rk rc) t.links with
      | error e => simp [hsp] at hres
      | ok r =>
        obtain ⟨root1, L1⟩ := r
        simp only [hsp] at hres
        have hs := splitRoot_WF hB h (fun e he => trivial) t.links hwfR hfull hsp
        exact key1 root1 L1 (h + 1) hs.1 (by omega) (by omega) hres
    · simp only [if_neg hfull] at hres
      have := WF_size_le hwf
      exact key1 _ _ h hwfR (by simp only [BPTNode.size]; omega)
        (by simp only [BPTNode.size]; omega) hres

/-! ## remove: the leaf deletion and the parent-level steps -/

theorem deleteAtLeaf_WF {B : Int} {ord : Bool} {P Q : keyRNPair → Prop} {a : Nat} {s : Int}
    {k : Int → keyRNPair} {c : Int → BPTNode} (index : Int)
    (hwf : WF B ord 0 P Q (BPTNode.node a true s k c)) (_hi0 : 0 ≤ index) :
    WF B ord 0 P Q (BPTNode.node a true (deleteAtLeaf s k index).1 (deleteAtLeaf s k index).2 c) := by
  simp only [WF, deleteAtLeaf] at hwf ⊢
  obtain ⟨hl, hs, hP, hsorted⟩ := hwf
  refine ⟨hl, by omega, ?_, ?_⟩
  · intro i h0 h1
    rw [shiftLeftK_apply]
    split_ifs
    · exact hP _ (by omega) (by omega)
    · exact hP _ (by omega) (by omega)
  · intro ho i j h0 hij hj
    rw [shiftLeftK_apply, shiftLeftK_apply]
    split_ifs <;> first
      | omega
      | exact hsorted ho _ _ (by omega) (by omega) (by omega)

/-- Replacing the separator `k[i]` and the two children around it. -/
theorem WF_rotate {B : Int} {ord : Bool} {h : Nat} {P Q : keyRNPair → Prop} {a : Nat} {s : Int}
    {k : Int → keyRNPair} {c : Int → BPTNode} (i j : Int) (S : keyRNPair) (x y : BPTNode)
    (hwf : WF B ord (h + 1) P Q (BPTNode.node a false s k c))
    (hi0 : 0 ≤ i) (hij : j = i + 1) (his : i < s)
    (hS : Q S) (hSlo : ord = true → 0 < i → keyLe (k (i - 1)) S)
    (hShi : ord = true → i + 1 < s → keyLe S (k (i + 1)))
    (hx : WF B ord h (childP ord P (setAt k i S) s i) (childQ ord Q (setAt k i S) s i) x)
    (hy : WF B ord h (childP ord P (setAt k i S) s j) (childQ ord Q (setAt k i S) s j) y)
    (hxs : x = BPTNode.null ∨ B - 1 ≤ x.size) (hys : y = BPTNode.null ∨ B - 1 ≤ y.size) :
    WF B ord (h + 1) P Q (BPTNode.node a false s (setAt k i S) (setAt (setAt c i x) j y)) := by
  subst hij
  simp only [WF] at hwf ⊢
  obtain ⟨hl, hs, hQ, hsorted, hch⟩ := hwf
  refine ⟨hl, hs, ?_, ?_, ?_⟩
  · intro m h0 h1
    rw [setAt_apply]
    split_ifs
    · exact hS
    · exact hQ m h0 h1
  · intro ho m n h0 hmn hn
    rw [setAt_apply, setAt_apply]
    split_ifs with c1 c2 c2
    · exact keyLe_refl _
    · subst c1
      by_cases hn1 : n = m + 1
      · subst hn1; exact hShi ho hn
      · exact keyLe_trans (hShi ho (by omega)) (hsorted ho _ _ (by omega) (by omega) hn)
    · subst c2
      by_cases hm1 : m = n - 1
      · subst hm1; exact hSlo ho (by omega)
      · exact keyLe_trans (hsorted ho _ _ h0 (by omega) (by omega)) (hSlo ho (by omega))
    · exact hsorted ho m n h0 hmn hn
  · intro m h0 h1
    rw [setAt_apply]
    by_cases c1 : m = i + 1
    · subst c1; rw [if_pos rfl]; exact ⟨hys, hy⟩
    · rw [if_neg c1, setAt_apply]
      by_cases c2 : m = i
      · subst c2; rw [if_pos rfl]; exact ⟨hxs, hx⟩
      · rw [if_neg c2]
        refine ⟨(hch m h0 h1).1, ?_⟩
        apply WF_mono _ _ _ _ _ _ _ _ ?_ ?_ (hch m h0 h1).2
        · intro e he
          refine ⟨he.1, fun ho => ⟨fun hlt => ?_, fun hlt => ?_⟩⟩
          · rw [setAt_apply, if_neg (by omega)]; exact (he.2 ho).1 hlt
          · rw [setAt_apply, if_neg (by omega)]; exact (he.2 ho).2 hlt
        · intro e he
          refine ⟨he.1, fun ho => ⟨fun hlt => ?_, fun hlt => ?_⟩⟩
          · rw [setAt_apply, if_neg (by omega)]; exact (he.2 ho).1 hlt
          · rw [setAt_apply, if_neg (by omega)]; exact (he.2 ho).2 hlt

/-- Removing the separator `k[i]` and the child `c[i+1]`, with a merged node in
slot `i`. -/
theorem WF_contract {B : Int} {ord : Bool} {h : Nat} {P Q : keyRNPair → Prop} {a : Nat} {s : Int}
    {k k' : Int → keyRNPair} {c c' : Int → BPTNode} (i : Int) (m : BPTNode)
    (hwf : WF B ord (h + 1) P Q (BPTNode.node a false s k c))
    (_hi0 : 0 ≤ i) (his : i < s)
    (hk1 : ∀ j, j < i → k' j = k j) (hk2 : ∀ j, i ≤ j → j < s - 1 → k' j = k (j + 1))
    (hc1 : ∀ j, 0 ≤ j → j < i → c' j = c j) (hc2 : c' i = m)
    (hc3 : ∀ j, i < j → j ≤ s - 1 → c' j = c (j + 1))
    (hm : WF B ord h (childP ord P k' (s - 1) i) (childQ ord Q k' (s - 1) i) m)
    (hms : m = BPTNode.null ∨ B - 1 ≤ m.size) :
    WF B ord (h + 1) P Q (BPTNode.node a false (s - 1) k' c') := by
  simp only [WF] at hwf ⊢
  obtain ⟨hl, hs, hQ, hsorted, hch⟩ := hwf
  refine ⟨hl, by omega, ?_, ?_, ?_⟩
  · intro n h0 h1
    by_cases c1 : n < i
    · rw [hk1 n c1]; exact hQ n h0 (by omega)
    · rw [hk2 n (by omega) h1]; exact hQ _ (by omega) (by omega)
  · intro ho n p h0 hnp hp
    by_cases c1 : n < i
    · by_cases c2 : p < i
      · rw [hk1 n c1, hk1 p c2]; exact hsorted ho _ _ h0 hnp (by omega)
      · rw [hk1 n c1, hk2 p (by omega) hp]; exact hsorted ho _ _ h0 (by omega) (by omega)
    · rw [hk2 n (by omega) (by omega), hk2 p (by omega) hp]
      exact hsorted ho _ _ (by omega) (by omega) (by omega)
  · intro n h0 h1
    by_cases c1 : n < i
    · rw [hc1 n h0 c1]
      refine ⟨(hch n h0 (by omega)).1, ?_⟩
      apply WF_mono _ _ _ _ _ _ _ _ ?_ ?_ (hch n h0 (by omega)).2
      · intro e he
        refine ⟨he.1, fun ho => ⟨fun hlt => ?_, fun hlt => ?_⟩⟩
        · rw [hk1 _ (by omega)]; exact (he.2 ho).1 hlt
        · rw [hk1 _ (by omega)]; exact (he.2 ho).2 (by omega)
      · intro e he
        refine ⟨he.1, fun ho => ⟨fun hlt => ?_, fun hlt => ?_⟩⟩
        · rw [hk1 _ (by omega)]; exact (he.2 ho).1 hlt
        · rw [hk1 _ (by omega)]; exact (he.2 ho).2 (by omega)
    · by_cases c2 : n = i
      · subst c2; rw [hc2]; exact ⟨hms, hm⟩
      · rw [hc3 n (by omega) h1]
        refine ⟨(hch (n + 1) (by omega) (by omega)).1, ?_⟩
        apply WF_mono _ _ _ _ _ _ _ _ ?_ ?_ (hch (n + 1) (by omega) (by omega)).2
        · intro e he
          have e1 : n + 1 - 1 = n - 1 + 1 := by omega
          refine ⟨he.1, fun ho => ⟨fun hlt => ?_, fun hlt => ?_⟩⟩
          · rw [hk2 _ (by omega) (by omega), ← e1]; exact (he.2 ho).1 (by omega)
          · rw [hk2 _ (by omega) (by omega)]; exact (he.2 ho).2 (by omega)
        · intro e he
          have e1 : n + 1 - 1 = n - 1 + 1 := by omega
          refine ⟨he.1, fun ho => ⟨fun hlt => ?_, fun hlt => ?_⟩⟩
          · rw [hk2 _ (by omega) (by omega), ← e1]; exact (he.2 ho).1 (by omega)
          · rw [hk2 _ (by omega) (by omega)]; exact (he.2 ho).2 (by omega)

theorem borrowFromLeftSibling_WF {B : Int} {ord : Bool} (hB : 2 ≤ B) (h : Nat)
    {P Q : keyRNPair → Prop} (hPQ : ∀ e, P e → Q e) {pa : Nat} {ps : Int}
    {pk : Int → keyRNPair} {pc : Int → BPTNode} (idx : Int) {cur : BPTNode}
    (hwf : WF B ord (h + 1) P Q (BPTNode.node pa false ps pk pc))
    (hi0 : 0 < idx) (hi1 : idx ≤ ps)
    (hcs : (pc idx).size = B - 1) (hls : B - 1 < (pc (idx - 1)).size)
    (hres : borrowFromLeftSibling idx (BPTNode.node pa false ps pk pc) = Except.ok cur) :
    ∃ k' c', cur = BPTNode.node pa false ps k' c' ∧ WF B ord (h + 1) P Q cur ∧
      c' idx ≠ BPTNode.null ∧ (c' idx).size = B := by
  have hwf' := hwf
  simp only [WF] at hwf'
  obtain ⟨_, _, hQ, hsorted, hch⟩ := hwf'
  cases hc : pc idx with
  | null => simp [borrowFromLeftSibling, hc] at hres
  | node ca cl cs ck cc =>
    cases hl : pc (idx - 1) with
    | null => simp [borrowFromLeftSibling, hc, hl] at hres
    | node la ll ls lk lc =>
      rw [hc] at hcs
      rw [hl] at hls
      simp only [BPTNode.size] at hcs hls
      have hcwf := (hch idx (by omega) hi1).2
      have hlwf := (hch (idx - 1) (by omega) (by omega)).2
      rw [hc] at hcwf
      rw [hl] at hlwf
      have hck2 : ∀ j, setAt (shiftRightK 0 cs ck) 0 (lk (ls - 1)) j =
          if j = 0 then lk (ls - 1) else if 0 < j ∧ j ≤ cs then ck (j - 1) else ck j := by
        intro j; simp only [setAt_apply, shiftRightK_apply 0 cs ck j (by omega)]
      have hpk2 : ∀ j, j ≠ idx - 1 → setAt pk (idx - 1) (lk (ls - 2)) j = pk j := by
        intro j hj; rw [setAt_apply, if_neg hj]
      have hpk2' : setAt pk (idx - 1) (lk (ls - 2)) (idx - 1) = lk (ls - 2) := by
        rw [setAt_apply, if_pos rfl]
      have e1 : idx - 1 - 1 = idx - 2 := by omega
      cases cl with
      | true =>
        have h0 := WF_leaf_height hcwf
        subst h0
        simp only [WF] at hcwf hlwf
        obtain ⟨_, _, hcP, hcsorted⟩ := hcwf
        obtain ⟨hll, _, hlP, hlsorted⟩ := hlwf
        simp only [borrowFromLeftSibling, hc, hl, if_true, Except.ok.injEq] at hres
        have hS := hlP (ls - 2) (by omega) (by omega)
        have hK := hlP (ls - 1) (by omega) (by omega)
        refine ⟨_, _, hres.symm, ?_, ?_, ?_⟩
        · rw [← hres]
          apply WF_rotate (idx - 1) idx (lk (ls - 2)) _ _ hwf (by omega) (by omega) (by omega)
            (hPQ _ hS.1)
          · intro ho hlt; exact keyLe_of_keyLt ((hS.2 ho).1 hlt)
          · intro ho hlt
            have e2 : idx - 1 + 1 = idx := by omega
            rw [e2]
            exact keyLe_trans ((hS.2 ho).2 (by omega)) (hsorted ho _ _ (by omega) (by omega) (by omega))
          · simp only [WF]
            refine ⟨hll, by omega, ?_, ?_⟩
            · intro i h0 h1
              have hi := hlP i h0 (by omega)
              refine ⟨hi.1, fun ho => ⟨fun hlt => ?_, fun _ => ?_⟩⟩
              · rw [hpk2 _ (by omega)]; exact (hi.2 ho).1 hlt
              · rw [hpk2']
                by_cases hi2 : i = ls - 2
                · subst hi2; exact keyLe_refl _
                · exact keyLe_of_keyLt (hlsorted ho _ _ h0 (by omega) (by omega))
            · intro ho i j h0 hij hj
              exact hlsorted ho i j h0 hij (by omega)
          · simp only [WF]
            refine ⟨trivial, by omega, ?_, ?_⟩
            · intro i h0 h1
              rw [hck2 i]
              have e3 : idx - 1 = idx - 1 := rfl
              split_ifs with c1 c2
              · refine ⟨hK.1, fun ho => ⟨fun _ => ?_, fun hlt => ?_⟩⟩
                · rw [hpk2']; exact hlsorted ho _ _ (by omega) (by omega) (by omega)
                · rw [hpk2 _ (by omega)]
                  exact keyLe_trans ((hK.2 ho).2 (by omega))
                    (hsorted ho _ _ (by omega) (by omega) (by omega))
              · have hi := hcP (i - 1) (by omega) (by omega)
                refine ⟨hi.1, fun ho => ⟨fun _ => ?_, fun hlt => ?_⟩⟩
                · rw [hpk2']
                  exact keyLt_of_le_of_lt ((hS.2 ho).2 (by omega)) ((hi.2 ho).1 (by omega))
                · rw [hpk2 _ (by omega)]; exact (hi.2 ho).2 hlt
              · omega
            · intro ho i j h0 hij hj
              rw [hck2 i, hck2 j]
              split_ifs with c1 c2 c3 c4 c5 c6 c7 c8
              all_goals first
                | omega
                | exact hcsorted ho _ _ (by omega) (by omega) (by omega)
                | exact keyLt_of_le_of_lt ((hK.2 ho).2 (by omega))
                    (((hcP (j - 1) (by omega) (by omega)).2 ho).1 (by omega))
          · exact Or.inr (by simp only [BPTNode.size]; omega)
          · exact Or.inr (by simp only [BPTNode.size]; omega)
        · rw [setAt_apply, if_pos rfl]; simp
        · rw [setAt_apply, if_pos rfl]; simp only [BPTNode.size]; omega
      | false =>
        obtain ⟨h', hh⟩ := WF_internal_height hcwf
        subst hh
        simp only [WF] at hcwf hlwf
        obtain ⟨_, _, hcQ, hcsorted, hcch⟩ := hcwf
        obtain ⟨hll, _, hlQ, hlsorted, hlch⟩ := hlwf
        simp only [borrowFromLeftSibling, hc, hl, Bool.false_eq_true, if_false,
          Except.ok.injEq] at hres
        have hS := hlQ (ls - 2) (by omega) (by omega)
        have hK := hlQ (ls - 1) (by omega) (by omega)
        have hcc2 : ∀ j, 1 ≤ j → j ≤ cs + 1 →
            setAt (setAt (setAt (shiftRightC 0 cs cc) 0 BPTNode.null) 1 (shiftRightC 0 cs cc 0)) 0
              (lc (ls - 1)) j = cc (j - 1) := by
          intro j hj1 hj2
          simp only [setAt_apply]
          rw [if_neg (by omega)]
          by_cases c1 : j = 1
          · subst c1
            rw [if_pos rfl, shiftRightC_apply 0 cs cc 0 (by omega), if_neg (by omega),
              if_neg (by omega)]
            rfl
          · rw [if_neg c1, if_neg (by omega), shiftRightC_apply 0 cs cc j (by omega),
              if_pos (by omega)]
        refine ⟨_, _, hres.symm, ?_, ?_, ?_⟩
        · rw [← hres]
          apply WF_rotate (idx - 1) idx (lk (ls - 2)) _ _ hwf (by omega) (by omega) (by omega)
            hS.1
          · intro ho hlt; exact (hS.2 ho).1 hlt
          · intro ho hlt
            have e2 : idx - 1 + 1 = idx := by omega
            rw [e2]
            exact keyLe_trans ((hS.2 ho).2 (by omega)) (hsorted ho _ _ (by omega) (by omega) (by omega))
          · simp only [WF]
            refine ⟨hll, by omega, ?_, ?_, ?_⟩
            · intro i h0 h1
              have hi := hlQ i h0 (by omega)
              refine ⟨hi.1, fun ho => ⟨fun hlt => ?_, fun _ => ?_⟩⟩
              · rw [hpk2 _ (by omega)]; exact (hi.2 ho).1 hlt
              · rw [hpk2']
                exact hlsorted ho _ _ h0 (by omega) (by omega)
            · intro ho i j h0 hij hj
              exact hlsorted ho i j h0 hij (by omega)
            · intro i h0 h1
              rw [setAt_apply]
              by_cases c1 : i = ls - 1
              · rw [if_pos c1]; exact ⟨Or.inl rfl, WF_null _ _ _ _ _⟩
              · rw [if_neg c1]
                refine ⟨(hlch i h0 (by omega)).1, ?_⟩
                apply WF_mono _ _ _ _ _ _ _ _ ?_ ?_ (hlch i h0 (by omega)).2
                · intro e he
                  refine ⟨⟨he.1.1, fun ho => ⟨fun hlt => ?_, fun _ => ?_⟩⟩,
                    fun ho => ⟨(he.2 ho).1, fun _ => (he.2 ho).2 (by omega)⟩⟩
                  · rw [hpk2 _ (by omega)]; exact (he.1.2 ho).1 hlt
                  · rw [hpk2']
                    exact keyLe_trans ((he.2 ho).2 (by omega))
                      (hlsorted ho _ _ h0 (by omega) (by omega))
                · intro e he
                  refine ⟨⟨he.1.1, fun ho => ⟨fun hlt => ?_, fun _ => ?_⟩⟩,
                    fun ho => ⟨(he.2 ho).1, fun _ => (he.2 ho).2 (by omega)⟩⟩
                  · rw [hpk2 _ (by omega)]; exact (he.1.2 ho).1 hlt
                  · rw [hpk2']
                    exact keyLe_trans ((he.2 ho).2 (by omega))
                      (hlsorted ho _ _ h0 (by omega) (by omega))
          · simp only [WF]
            refine ⟨trivial, by omega, ?_, ?_, ?_⟩
            · intro i h0 h1
              rw [hck2 i]
              split_ifs with c1 c2
              · refine ⟨hK.1, fun ho => ⟨fun _ => ?_, fun hlt => ?_⟩⟩
                · rw [hpk2']; exact hlsorted ho _ _ (by omega) (by omega) (by omega)
                · rw [hpk2 _ (by omega)]
                  exact keyLe_trans ((hK.2 ho).2 (by omega))
                    (hsorted ho _ _ (by omega) (by omega) (by omega))
              · have hi := hcQ (i - 1) (by omega) (by omega)
                refine ⟨hi.1, fun ho => ⟨fun _ => ?_, fun hlt => ?_⟩⟩
                · rw [hpk2']
                  exact keyLe_trans ((hS.2 ho).2 (by omega)) ((hi.2 ho).1 (by omega))
                · rw [hpk2 _ (by omega)]; exact (hi.2 ho).2 hlt
              · omega
            · intro ho i j h0 hij hj
              rw [hck2 i, hck2 j]
              split_ifs with c1 c2 c3 c4 c5 c6 c7 c8
              all_goals first
                | omega
                | exact keyLe_refl _
                | exact hcsorted ho _ _ (by omega) (by omega) (by omega)
                | exact keyLe_trans ((hK.2 ho).2 (by omega))
                    (((hcQ (j - 1) (by omega) (by omega)).2 ho).1 (by omega))
            · intro i h0 h1
              by_cases c0 : i = 0
              · subst c0
                rw [setAt_apply, if_pos rfl]
                refine ⟨(hlch (ls - 1) (by omega) (by omega)).1, ?_⟩
                apply WF_mono _ _ _ _ _ _ _ _ ?_ ?_ (hlch (ls - 1) (by omega) (by omega)).2
                · intro e he
                  have e3 : ls - 1 - 1 = ls - 2 := by omega
                  refine ⟨⟨he.1.1, fun ho => ⟨fun _ => ?_, fun hlt => ?_⟩⟩,
                    fun ho => ⟨fun hlt => absurd hlt (by omega), fun _ => ?_⟩⟩
                  · rw [hpk2', ← e3]; exact (he.2 ho).1 (by omega)
                  · rw [hpk2 _ (by omega)]
                    exact keyLe_trans ((he.1.2 ho).2 (by omega))
                      (hsorted ho _ _ (by omega) (by omega) (by omega))
                  · rw [hck2 0, if_pos rfl]; exact (he.2 ho).2 (by omega)
                · intro e he
                  have e3 : ls - 1 - 1 = ls - 2 := by omega
                  refine ⟨⟨he.1.1, fun ho => ⟨fun _ => ?_, fun hlt => ?_⟩⟩,
                    fun ho => ⟨fun hlt => absurd hlt (by omega), fun _ => ?_⟩⟩
                  · rw [hpk2', ← e3]; exact (he.2 ho).1 (by omega)
                  · rw [hpk2 _ (by omega)]
                    exact keyLe_trans ((he.1.2 ho).2 (by omega))
                      (hsorted ho _ _ (by omega) (by omega) (by omega))
                  · rw [hck2 0, if_pos rfl]; exact (he.2 ho).2 (by omega)
              · rw [hcc2 i (by omega) (by omega)]
                refine ⟨(hcch (i - 1) (by omega) (by omega)).1, ?_⟩
                apply WF_mono _ _ _ _ _ _ _ _ ?_ ?_ (hcch (i - 1) (by omega) (by omega)).2
                · intro e he
                  refine ⟨⟨he.1.1, fun ho => ⟨fun _ => ?_, fun hlt => ?_⟩⟩,
                    fun ho => ⟨fun _ => ?_, fun hlt => ?_⟩⟩
                  · rw [hpk2']
                    exact keyLt_of_le_of_lt ((hS.2 ho).2 (by omega)) ((he.1.2 ho).1 (by omega))
                  · rw [hpk2 _ (by omega)]; exact (he.1.2 ho).2 hlt
                  · rw [hck2 (i - 1)]
                    by_cases c1 : i = 1
                    · rw [if_pos (by omega)]
                      exact keyLt_of_le_of_lt ((hK.2 ho).2 (by omega)) ((he.1.2 ho).1 (by omega))
                    · rw [if_neg (by omega), if_pos (by omega)]
                      exact (he.2 ho).1 (by omega)
                  · rw [hck2 i, if_neg c0, if_pos (by omega)]
                    exact (he.2 ho).2 (by omega)
                · intro e he
                  refine ⟨⟨he.1.1, fun ho => ⟨fun _ => ?_, fun hlt => ?_⟩⟩,
                    fun ho => ⟨fun _ => ?_, fun hlt => ?_⟩⟩
                  · rw [hpk2']
                    exact keyLe_trans ((hS.2 ho).2 (by omega)) ((he.1.2 ho).1 (by omega))
                  · rw [hpk2 _ (by omega)]; exact (he.1.2 ho).2 hlt
                  · rw [hck2 (i - 1)]
                    by_cases c1 : i = 1
                    · rw [if_pos (by omega)]
                      exact keyLe_trans ((hK.2 ho).2 (by omega)) ((he.1.2 ho).1 (by omega))
                    · rw [if_neg (by omega), if_pos (by omega)]
                      exact (he.2 ho).1 (by omega)
                  · rw [hck2 i, if_neg c0, if_pos (by omega)]
                    exact (he.2 ho).2 (by omega)
          · exact Or.inr (by simp only [BPTNode.size]; omega)
          · exact Or.inr (by simp only [BPTNode.size]; omega)
        · rw [setAt_apply, if_pos rfl]; simp
        · rw [setAt_apply, if_pos rfl]; simp only [BPTNode.size]; omega

theorem borrowFromRightSibling_WF {B : Int} {ord : Bool} (hB : 2 ≤ B) (h : Nat)
    {P Q : keyRNPair → Prop} (hPQ : ∀ e, P e → Q e) {pa : Nat} {ps : Int}
    {pk : Int → keyRNPair} {pc : Int → BPTNode} (idx : Int) {cur : BPTNode}
    (hwf : WF B ord (h + 1) P Q (BPTNode.node pa false ps pk pc))
    (hi0 : 0 ≤ idx) (hi1 : idx < ps)
    (hcs : (pc idx).size = B - 1) (hrs : B - 1 < (pc (idx + 1)).size)
    (hres : borrowFromRightSibling idx (BPTNode.node pa false ps pk pc) = Except.ok cur) :
    ∃ k' c', cur = BPTNode.node pa false ps k' c' ∧ WF B ord (h + 1) P Q cur ∧
      c' idx ≠ BPTNode.null ∧ (c' idx).size = B := by
  have hwf' := hwf
  simp only [WF] at hwf'
  obtain ⟨_, _, hQ, hsorted, hch⟩ := hwf'
  cases hc : pc idx with
  | null => simp [borrowFromRightSibling, hc] at hres
  | node ca cl cs ck cc =>
    cases hr : pc (idx + 1) with
    | null => simp [borrowFromRightSibling, hc, hr] at hres
    | node ra rl rs rk rc =>
      rw [hc] at hcs
      rw [hr] at hrs
      simp only [BPTNode.size] at hcs hrs
      have hcwf := (hch idx hi0 (by omega)).2
      have hrwf := (hch (idx + 1) (by omega) (by omega)).2
      rw [hc] at hcwf
      rw [hr] at hrwf
      have hpk2 : ∀ j, j ≠ idx → setAt pk idx (rk 0) j = pk j := by
        intro j hj; rw [setAt_apply, if_neg hj]
      have hpk2' : setAt pk idx (rk 0) idx = rk 0 := by
        rw [setAt_apply, if_pos rfl]
      have e1 : idx + 1 - 1 = idx := by omega
      have hrk2 : ∀ j, 0 ≤ j → j < rs - 1 → shiftLeftK 0 rs rk j = rk (j + 1) := by
        intro j h0 h1; rw [shiftLeftK_apply, if_pos ⟨h0, h1⟩]
      cases cl with
      | true =>
        have h0 := WF_leaf_height hcwf
        subst h0
        simp only [WF] at hcwf hrwf
        obtain ⟨_, _, hcP, hcsorted⟩ := hcwf
        obtain ⟨hrl, _, hrP, hrsorted⟩ := hrwf
        simp only [borrowFromRightSibling, hc, hr, if_true, Except.ok.injEq, hpk2'] at hres
        have hS := hrP 0 (by omega) (by omega)
        have hSlt : ord = true → keyLt (pk idx) (rk 0) := fun ho => by
          have := (hS.2 ho).1 (by omega); rw [e1] at this; exact this
        refine ⟨_, _, hres.symm, ?_, ?_, ?_⟩
        · rw [← hres]
          apply WF_rotate idx (idx + 1) (rk 0) _ _ hwf hi0 rfl hi1 (hPQ _ hS.1)
          · intro ho hlt
            exact keyLe_trans (hsorted ho _ _ (by omega) (by omega) (by omega))
              (keyLe_of_keyLt (hSlt ho))
          · intro ho hlt; exact (hS.2 ho).2 hlt
          · simp only [WF]
            refine ⟨trivial, by omega, ?_, ?_⟩
            · intro i h0 h1
              rw [setAt_apply]
              by_cases c1 : i = cs
              · rw [if_pos c1]
                refine ⟨hS.1, fun ho => ⟨fun hlt => ?_, fun _ => ?_⟩⟩
                · rw [hpk2 _ (by omega)]
                  exact keyLt_of_le_of_lt (hsorted ho _ _ (by omega) (by omega) (by omega))
                    (hSlt ho)
                · rw [hpk2']; exact keyLe_refl _
              · rw [if_neg c1]
                have hi := hcP i h0 (by omega)
                refine ⟨hi.1, fun ho => ⟨fun hlt => ?_, fun _ => ?_⟩⟩
                · rw [hpk2 _ (by omega)]; exact (hi.2 ho).1 hlt
                · rw [hpk2']
                  exact keyLe_of_keyLt (keyLt_of_le_of_lt ((hi.2 ho).2 hi1) (hSlt ho))
            · intro ho i j h0 hij hj
              rw [setAt_apply, setAt_apply, if_neg (by omega)]
              by_cases c1 : j = cs
              · rw [if_pos c1]
                exact keyLt_of_le_of_lt (((hcP i h0 (by omega)).2 ho).2 hi1) (hSlt ho)
              · rw [if_neg c1]
                exact hcsorted ho i j h0 hij (by omega)
          · simp only [WF]
            refine ⟨hrl, by omega, ?_, ?_⟩
            · intro i h0 h1
              rw [hrk2 i h0 h1]
              have hi := hrP (i + 1) (by omega) (by omega)
              refine ⟨hi.1, fun ho => ⟨fun _ => ?_, fun hlt => ?_⟩⟩
              · rw [e1, hpk2']; exact hrsorted ho _ _ (by omega) (by omega) (by omega)
              · rw [hpk2 _ (by omega)]; exact (hi.2 ho).2 hlt
            · intro ho i j h0 hij hj
              rw [hrk2 i h0 (by omega), hrk2 j (by omega) hj]
              exact hrsorted ho _ _ (by omega) (by omega) (by omega)
          · exact Or.inr (by simp only [BPTNode.size]; omega)
          · exact Or.inr (by simp only [BPTNode.size]; omega)
        · rw [setAt_apply, if_neg (by omega), setAt_apply, if_pos rfl]; simp
        · rw [setAt_apply, if_neg (by omega), setAt_apply, if_pos rfl]
          simp only [BPTNode.size]; omega
      | false =>
        obtain ⟨h', hh⟩ := WF_internal_height hcwf
        subst hh
        simp only [WF] at hcwf hrwf
        obtain ⟨_, _, hcQ, hcsorted, hcch⟩ := hcwf
        obtain ⟨hrl, _, hrQ, hrsorted, hrch⟩ := hrwf
        simp only [borrowFromRightSibling, hc, hr, Bool.false_eq_true, if_false,
          Except.ok.injEq] at hres
        have hS := hrQ 0 (by omega) (by omega)
        have hSle : ord = true → keyLe (pk idx) (rk 0) := fun ho => by
          have := (hS.2 ho).1 (by omega); rw [e1] at this; exact this
        have hrc2 : ∀ j, 0 ≤ j → j ≤ rs - 1 →
            setAt (setAt (shiftLeftC 0 0 rs (setAt rc 0 BPTNode.null)) rs BPTNode.null) (rs - 1)
              (shiftLeftC 0 0 rs (setAt rc 0 BPTNode.null) rs) j = rc (j + 1) := by
          intro j hj0 hj1
          rw [setAt_apply]
          by_cases c1 : j = rs - 1
          · rw [if_pos c1, shiftLeftC_apply, if_neg (by omega), if_neg (by omega), setAt_apply,
              if_neg (by omega)]
            congr 1; omega
          · rw [if_neg c1, setAt_apply, if_neg (by omega), shiftLeftC_apply, if_pos (by omega),
              setAt_apply, if_neg (by omega)]
        refine ⟨_, _, hres.symm, ?_, ?_, ?_⟩
        · rw [← hres]
          apply WF_rotate idx (idx + 1) (rk 0) _ _ hwf hi0 rfl hi1 hS.1
          · intro ho hlt
            exact keyLe_trans (hsorted ho _ _ (by omega) (by omega) (by omega)) (hSle ho)
          · intro ho hlt; exact (hS.2 ho).2 hlt
          · simp only [WF]
            refine ⟨trivial, by omega, ?_, ?_, ?_⟩
            · intro i h0 h1
              rw [setAt_apply]
              by_cases c1 : i = cs
              · rw [if_pos c1]
                refine ⟨hQ idx hi0 hi1, fun ho => ⟨fun hlt => ?_, fun _ => ?_⟩⟩
                · rw [hpk2 _ (by omega)]
                  exact hsorted ho _ _ (by omega) (by omega) (by omega)
                · rw [hpk2']; exact hSle ho
              · rw [if_neg c1]
                have hi := hcQ i h0 (by omega)
                refine ⟨hi.1, fun ho => ⟨fun hlt => ?_, fun _ => ?_⟩⟩
                · rw [hpk2 _ (by omega)]; exact (hi.2 ho).1 hlt
                · rw [hpk2']
                  exact keyLe_trans ((hi.2 ho).2 hi1) (hSle ho)
            · intro ho i j h0 hij hj
              rw [setAt_apply, setAt_apply]
              by_cases c1 : j = cs
              · rw [if_pos c1]
                by_cases c2 : i = cs
                · rw [if_pos c2]; exact keyLe_refl _
                · rw [if_neg c2]; exact ((hcQ i h0 (by omega)).2 ho).2 hi1
              · rw [if_neg c1, if_neg (by omega)]
                exact hcsorted ho i j h0 hij (by omega)
            · intro i h0 h1
              rw [setAt_apply]
              by_cases c1 : i = cs + 1
              · rw [if_pos c1]
                refine ⟨(hrch 0 (by omega) (by omega)).1, ?_⟩
                apply WF_mono _ _ _ _ _ _ _ _ ?_ ?_ (hrch 0 (by omega) (by omega)).2
                · intro e he
                  have hlow : ord = true → keyLt (pk idx) e := fun ho => by
                    have := (he.1.2 ho).1 (by omega); rw [e1] at this; exact this
                  refine ⟨⟨he.1.1, fun ho => ⟨fun hlt => ?_, fun _ => ?_⟩⟩,
                    fun ho => ⟨fun _ => ?_, fun hlt => absurd hlt (by omega)⟩⟩
                  · rw [hpk2 _ (by omega)]
                    exact keyLt_of_le_of_lt (hsorted ho _ _ (by omega) (by omega) (by omega))
                      (hlow ho)
                  · rw [hpk2']; exact (he.2 ho).2 (by omega)
                  · rw [setAt_apply, if_pos (by omega)]; exact hlow ho
                · intro e he
                  have hlow : ord = true → keyLe (pk idx) e := fun ho => by
                    have := (he.1.2 ho).1 (by omega); rw [e1] at this; exact this
                  refine ⟨⟨he.1.1, fun ho => ⟨fun hlt => ?_, fun _ => ?_⟩⟩,
                    fun ho => ⟨fun _ => ?_, fun hlt => absurd hlt (by omega)⟩⟩
                  · rw [hpk2 _ (by omega)]
                    exact keyLe_trans (hsorted ho _ _ (by omega) (by omega) (by omega))
                      (hlow ho)
                  · rw [hpk2']; exact (he.2 ho).2 (by omega)
                  · rw [setAt_apply, if_pos (by omega)]; exact hlow ho
              · rw [if_neg c1]
                refine ⟨(hcch i h0 (by omega)).1, ?_⟩
                apply WF_mono _ _ _ _ _ _ _ _ ?_ ?_ (hcch i h0 (by omega)).2
                · intro e he
                  refine ⟨⟨he.1.1, fun ho => ⟨fun hlt => ?_, fun _ => ?_⟩⟩,
                    fun ho => ⟨fun hlt => ?_, fun hlt => ?_⟩⟩
                  · rw [hpk2 _ (by omega)]; exact (he.1.2 ho).1 hlt
                  · rw [hpk2']; exact keyLe_trans ((he.1.2 ho).2 hi1) (hSle ho)
                  · rw [setAt_apply, if_neg (by omega)]; exact (he.2 ho).1 hlt
                  · rw [setAt_apply]
                    by_cases c2 : i = cs
                    · rw [if_pos c2]; exact (he.1.2 ho).2 hi1
                    · rw [if_neg c2]; exact (he.2 ho).2 (by omega)
                · intro e he
                  refine ⟨⟨he.1.1, fun ho => ⟨fun hlt => ?_, fun _ => ?_⟩⟩,
                    fun ho => ⟨fun hlt => ?_, fun hlt => ?_⟩⟩
                  · rw [hpk2 _ (by omega)]; exact (he.1.2 ho).1 hlt
                  · rw [hpk2']; exact keyLe_trans ((he.1.2 ho).2 hi1) (hSle ho)
                  · rw [setAt_apply, if_neg (by omega)]; exact (he.2 ho).1 hlt
                  · rw [setAt_apply]
                    by_cases c2 : i = cs
                    · rw [if_pos c2]; exact (he.1.2 ho).2 hi1
                    · rw [if_neg c2]; exact (he.2 ho).2 (by omega)
          · simp only [WF]
            refine ⟨hrl, by omega, ?_, ?_, ?_⟩
            · intro i h0 h1
              rw [hrk2 i h0 h1]
              have hi := hrQ (i + 1) (by omega) (by omega)
              refine ⟨hi.1, fun ho => ⟨fun _ => ?_, fun hlt => ?_⟩⟩
              · rw [e1, hpk2']; exact hrsorted ho _ _ (by omega) (by omega) (by omega)
              · rw [hpk2 _ (by omega)]; exact (hi.2 ho).2 hlt
            · intro ho i j h0 hij hj
              rw [hrk2 i h0 (by omega), hrk2 j (by omega) hj]
              exact hrsorted ho _ _ (by omega) (by omega) (by omega)
            · intro i h0 h1
              rw [hrc2 i h0 h1]
              refine ⟨(hrch (i + 1) (by omega) (by omega)).1, ?_⟩
              apply WF_mono _ _ _ _ _ _ _ _ ?_ ?_ (hrch (i + 1) (by omega) (by omega)).2
              · intro e he
                have e2 : i + 1 - 1 = i := by omega
                have hloc : ord = true → keyLt (rk i) e := fun ho => by
                  have := (he.2 ho).1 (by omega); rw [e2] at this; exact this
                refine ⟨⟨he.1.1, fun ho => ⟨fun _ => ?_, fun hlt => ?_⟩⟩,
                  fun ho => ⟨fun hlt => ?_, fun hlt => ?_⟩⟩
                · rw [e1, hpk2']
                  exact keyLt_of_le_of_lt (hrsorted ho _ _ (by omega) (by omega) (by omega))
                    (hloc ho)
                · rw [hpk2 _ (by omega)]; exact (he.1.2 ho).2 hlt
                · rw [hrk2 _ (by omega) (by omega)]
                  have : i - 1 + 1 = i := by omega
                  rw [this]; exact hloc ho
                · rw [hrk2 _ h0 hlt]; exact (he.2 ho).2 (by omega)
              · intro e he
                have e2 : i + 1 - 1 = i := by omega
                have hloc : ord = true → keyLe (rk i) e := fun ho => by
                  have := (he.2 ho).1 (by omega); rw [e2] at this; exact this
                refine ⟨⟨he.1.1, fun ho => ⟨fun _ => ?_, fun hlt => ?_⟩⟩,
                  fun ho => ⟨fun hlt => ?_, fun hlt => ?_⟩⟩
                · rw [e1, hpk2']
                  exact keyLe_trans (hrsorted ho _ _ (by omega) (by omega) (by omega))
                    (hloc ho)
                · rw [hpk2 _ (by omega)]; exact (he.1.2 ho).2 hlt
                · rw [hrk2 _ (by omega) (by omega)]
                  have : i - 1 + 1 = i := by omega
                  rw [this]; exact hloc ho
                · rw [hrk2 _ h0 hlt]; exact (he.2 ho).2 (by omega)
          · exact Or.inr (by simp only [BPTNode.size]; omega)
          · exact Or.inr (by simp only [BPTNode.size]; omega)
        · rw [setAt_apply, if_neg (by omega), setAt_apply, if_pos rfl]; simp
        · rw [setAt_apply, if_neg (by omega), setAt_apply, if_pos rfl]
          simp only [BPTNode.size]; omega

/-- The leaf produced by a merge: the `B-1` entries of the left leaf followed by
the `B-1` entries of the right leaf. -/
theorem merge_leaf_WF {B : Int} {ord : Bool} (_hB : 2 ≤ B)
    {PL QL PR QR PM QM : keyRNPair → Prop} {la ra : Nat} {ll rl ml : Bool}
    {lk rk mk : Int → keyRNPair} {lc rc mc : Int → BPTNode}
    (hlwf : WF B ord 0 PL QL (BPTNode.node la ll (B - 1) lk lc))
    (hrwf : WF B ord 0 PR QR (BPTNode.node ra rl (B - 1) rk rc)) (hml : ml = true)
    (hLM : ∀ e, PL e → PM e) (hRM : ∀ e, PR e → PM e)
    (hLR : ord = true → ∀ e e', PL e → PR e' → keyLt e e')
    (hmk1 : ∀ j, j < B - 1 → mk j = lk j)
    (hmk2 : ∀ j, B - 1 ≤ j → j < 2 * B - 2 → mk j = rk (j - (B - 1))) :
    WF B ord 0 PM QM (BPTNode.node la ml (2 * B - 1 - 1) mk mc) := by
  simp only [WF] at hlwf hrwf ⊢
  obtain ⟨_, _, hlP, hlsorted⟩ := hlwf
  obtain ⟨_, _, hrP, hrsorted⟩ := hrwf
  refine ⟨hml, by omega, ?_, ?_⟩
  · intro i h0 h1
    by_cases c1 : i < B - 1
    · rw [hmk1 i c1]; exact hLM _ (hlP i h0 c1)
    · rw [hmk2 i (by omega) (by omega)]; exact hRM _ (hrP _ (by omega) (by omega))
  · intro ho i j h0 hij hj
    by_cases c1 : i < B - 1
    · by_cases c2 : j < B - 1
      · rw [hmk1 i c1, hmk1 j c2]; exact hlsorted ho i j h0 hij c2
      · rw [hmk1 i c1, hmk2 j (by omega) (by omega)]
        exact hLR ho _ _ (hlP i h0 c1) (hrP _ (by omega) (by omega))
    · rw [hmk2 i (by omega) (by omega), hmk2 j (by omega) (by omega)]
      exact hrsorted ho _ _ (by omega) (by omega) (by omega)

/-- The internal node produced by a merge: the `B-1` keys of the left node, the
parent separator `S`, the `B-1` keys of the right node, and the `B + B`
children. -/
theorem merge_internal_WF {B : Int} {ord : Bool} (hB : 2 ≤ B) (h : Nat)
    {PL QL PR QR PM QM : keyRNPair → Prop} {la ra : Nat} {ll rl ml : Bool}
    {lk rk mk : Int → keyRNPair} {lc rc mc : Int → BPTNode} (S : keyRNPair)
    (hlwf : WF B ord (h + 1) PL QL (BPTNode.node la ll (B - 1) lk lc))
    (hrwf : WF B ord (h + 1) PR QR (BPTNode.node ra rl (B - 1) rk rc)) (hml : ml = false)
    (hLM : ∀ e, PL e → PM e) (hRM : ∀ e, PR e → PM e)
    (hLMq : ∀ e, QL e → QM e) (hRMq : ∀ e, QR e → QM e) (hS : QM S)
    (hPL : ord = true → ∀ e, PL e → keyLe e S) (hQL : ord = true → ∀ e, QL e → keyLe e S)
    (hPR : ord = true → ∀ e, PR e → keyLt S e) (hQR : ord = true → ∀ e, QR e → keyLe S e)
    (hmk1 : ∀ j, j < B - 1 → mk j = lk j) (hmkS : mk (B - 1) = S)
    (hmk2 : ∀ j, B ≤ j → j < 2 * B - 1 → mk j = rk (j - B))
    (hmc1 : ∀ j, 0 ≤ j → j < B → mc j = lc j)
    (hmc2 : ∀ j, B ≤ j → j ≤ 2 * B - 1 → mc j = rc (j - B)) :
    WF B ord (h + 1) PM QM (BPTNode.node la ml (2 * B - 1) mk mc) := by
  simp only [WF] at hlwf hrwf ⊢
  obtain ⟨_, _, hlQ, hlsorted, hlch⟩ := hlwf
  obtain ⟨_, _, hrQ, hrsorted, hrch⟩ := hrwf
  have hmkcases : ∀ j, 0 ≤ j → j < 2 * B - 1 →
      (j < B - 1 ∧ mk j = lk j ∧ QL (lk j)) ∨ (j = B - 1 ∧ mk j = S) ∨
      (B ≤ j ∧ mk j = rk (j - B) ∧ QR (rk (j - B))) := by
    intro j h0 h1
    by_cases c1 : j < B - 1
    · exact Or.inl ⟨c1, hmk1 j c1, hlQ j h0 c1⟩
    · by_cases c2 : j = B - 1
      · exact Or.inr (Or.inl ⟨c2, by rw [c2]; exact hmkS⟩)
      · exact Or.inr (Or.inr ⟨by omega, hmk2 j (by omega) h1, hrQ _ (by omega) (by omega)⟩)
  refine ⟨hml, by omega, ?_, ?_, ?_⟩
  · intro i h0 h1
    rcases hmkcases i h0 h1 with ⟨_, e, q⟩ | ⟨_, e⟩ | ⟨_, e, q⟩
    · rw [e]; exact hLMq _ q
    · rw [e]; exact hS
    · rw [e]; exact hRMq _ q
  · intro ho i j h0 hij hj
    rcases hmkcases i h0 (by omega) with ⟨ci, ei, qi⟩ | ⟨ci, ei⟩ | ⟨ci, ei, qi⟩ <;>
      rcases hmkcases j (by omega) hj with ⟨cj, ej, qj⟩ | ⟨cj, ej⟩ | ⟨cj, ej, qj⟩ <;>
      rw [ei, ej]
    · exact hlsorted ho i j h0 hij cj
    · exact hQL ho _ qi
    · exact keyLe_trans (hQL ho _ qi) (hQR ho _ qj)
    · omega
    · exact keyLe_refl _
    · exact hQR ho _ qj
    · omega
    · omega
    · exact hrsorted ho _ _ (by omega) (by omega) (by omega)
  · intro i h0 h1
    by_cases c1 : i < B
    · rw [hmc1 i h0 c1]
      refine ⟨(hlch i h0 (by omega)).1, ?_⟩
      apply WF_mono _ _ _ _ _ _ _ _ ?_ ?_ (hlch i h0 (by omega)).2
      · intro e he
        refine ⟨hLM _ he.1, fun ho => ⟨fun hlt => ?_, fun _ => ?_⟩⟩
        · rw [hmk1 _ (by omega)]; exact (he.2 ho).1 hlt
        · by_cases c2 : i = B - 1
          · rw [c2, hmkS]; exact hPL ho _ he.1
          · rw [hmk1 _ (by omega)]; exact (he.2 ho).2 (by omega)
      · intro e he
        refine ⟨hLMq _ he.1, fun ho => ⟨fun hlt => ?_, fun _ => ?_⟩⟩
        · rw [hmk1 _ (by omega)]; exact (he.2 ho).1 hlt
        · by_cases c2 : i = B - 1
          · rw [c2, hmkS]; exact hQL ho _ he.1
          · rw [hmk1 _ (by omega)]; exact (he.2 ho).2 (by omega)
    · rw [hmc2 i (by omega) h1]
      refine ⟨(hrch (i - B) (by omega) (by omega)).1, ?_⟩
      apply WF_mono _ _ _ _ _ _ _ _ ?_ ?_ (hrch (i - B) (by omega) (by omega)).2
      · intro e he
        refine ⟨hRM _ he.1, fun ho => ⟨fun _ => ?_, fun hlt => ?_⟩⟩
        · by_cases c2 : i = B
          · have : i - 1 = B - 1 := by omega
            rw [this, hmkS]; exact hPR ho _ he.1
          · rw [hmk2 _ (by omega) (by omega)]
            have : i - 1 - B = i - B - 1 := by omega
            rw [this]; exact (he.2 ho).1 (by omega)
        · rw [hmk2 _ (by omega) hlt]; exact (he.2 ho).2 (by omega)
      · intro e he
        refine ⟨hRMq _ he.1, fun ho => ⟨fun _ => ?_, fun hlt => ?_⟩⟩
        · by_cases c2 : i = B
          · have : i - 1 = B - 1 := by omega
            rw [this, hmkS]; exact hQR ho _ he.1
          · rw [hmk2 _ (by omega) (by omega)]
            have : i - 1 - B = i - B - 1 := by omega
            rw [this]; exact (he.2 ho).1 (by omega)
        · rw [hmk2 _ (by omega) hlt]; exact (he.2 ho).2 (by omega)

/-- The facts about the two merged slots `i` and `i+1` of a parent that the
merge lemmas need. -/
theorem merge_slot_facts {B : Int} {ord : Bool} {h : Nat} {P Q : keyRNPair → Prop} {pa : Nat}
    {ps : Int} {pk k' : Int → keyRNPair} {pc : Int → BPTNode} (i : Int)
    (hwf : WF B ord (h + 1) P Q (BPTNode.node pa false ps pk pc))
    (hi0 : 0 ≤ i) (his : i < ps)
    (hk1 : ∀ j, j < i → k' j = pk j) (hk2 : ∀ j, i ≤ j → j < ps - 1 → k' j = pk (j + 1)) :
    (∀ e, childP ord P pk ps i e → childP ord P k' (ps - 1) i e) ∧
    (∀ e, childP ord P pk ps (i + 1) e → childP ord P k' (ps - 1) i e) ∧
    (∀ e, childQ ord Q pk ps i e → childQ ord Q k' (ps - 1) i e) ∧
    (∀ e, childQ ord Q pk ps (i + 1) e → childQ ord Q k' (ps - 1) i e) ∧
    childQ ord Q k' (ps - 1) i (pk i) ∧
    (ord = true → ∀ e, childP ord P pk ps i e → keyLe e (pk i)) ∧
    (ord = true → ∀ e, childQ ord Q pk ps i e → keyLe e (pk i)) ∧
    (ord = true → ∀ e, childP ord P pk ps (i + 1) e → keyLt (pk i) e) ∧
    (ord = true → ∀ e, childQ ord Q pk ps (i + 1) e → keyLe (pk i) e) := by
  simp only [WF] at hwf
  obtain ⟨_, _, hQ, hsorted, _⟩ := hwf
  have e1 : i + 1 - 1 = i := by omega
  refine ⟨?_, ?_, ?_, ?_, ?_, ?_, ?_, ?_, ?_⟩
  · intro e he
    refine ⟨he.1, fun ho => ⟨fun hlt => ?_, fun hlt => ?_⟩⟩
    · rw [hk1 _ (by omega)]; exact (he.2 ho).1 hlt
    · rw [hk2 _ (by omega) hlt]
      exact keyLe_trans ((he.2 ho).2 his) (hsorted ho _ _ hi0 (by omega) (by omega))
  · intro e he
    refine ⟨he.1, fun ho => ⟨fun hlt => ?_, fun hlt => ?_⟩⟩
    · rw [hk1 _ (by omega)]
      have := (he.2 ho).1 (by omega)
      rw [e1] at this
      exact keyLt_of_le_of_lt (hsorted ho _ _ (by omega) (by omega) his) this
    · rw [hk2 _ (by omega) hlt]; exact (he.2 ho).2 (by omega)
  · intro e he
    refine ⟨he.1, fun ho => ⟨fun hlt => ?_, fun hlt => ?_⟩⟩
    · rw [hk1 _ (by omega)]; exact (he.2 ho).1 hlt
    · rw [hk2 _ (by omega) hlt]
      exact keyLe_trans ((he.2 ho).2 his) (hsorted ho _ _ hi0 (by omega) (by omega))
  · intro e he
    refine ⟨he.1, fun ho => ⟨fun hlt => ?_, fun hlt => ?_⟩⟩
    · rw [hk1 _ (by omega)]
      have := (he.2 ho).1 (by omega)
      rw [e1] at this
      exact keyLe_trans (hsorted ho _ _ (by omega) (by omega) his) this
    · rw [hk2 _ (by omega) hlt]; exact (he.2 ho).2 (by omega)
  · refine ⟨hQ i hi0 his, fun ho => ⟨fun hlt => ?_, fun hlt => ?_⟩⟩
    · rw [hk1 _ (by omega)]; exact hsorted ho _ _ (by omega) (by omega) his
    · rw [hk2 _ (by omega) hlt]; exact hsorted ho _ _ hi0 (by omega) (by omega)
  · intro ho e he; exact (he.2 ho).2 his
  · intro ho e he; exact (he.2 ho).2 his
  · intro ho e he
    have := (he.2 ho).1 (by omega)
    rw [e1] at this; exact this
  · intro ho e he
    have := (he.2 ho).1 (by omega)
    rw [e1] at this; exact this

/-- The parent after a merge of the slots `i` and `i+1`: the merged node has
the left node's address and flag, the keys `mk` and the children `mc`. -/
theorem merge_parent_WF {B : Int} {ord : Bool} (hB : 2 ≤ B) (h : Nat) {P Q : keyRNPair → Prop}
    {pa : Nat} {ps : Int} {pk k' : Int → keyRNPair} {pc c' : Int → BPTNode} (i : Int)
    (mk : Int → keyRNPair) (mc : Int → BPTNode)
    {la ra : Nat} {ll rl : Bool} {lk rk : Int → keyRNPair} {lc rc : Int → BPTNode}
    (hwf : WF B ord (h + 1) P Q (BPTNode.node pa false ps pk pc))
    (hi0 : 0 ≤ i) (his : i < ps)
    (hL : pc i = BPTNode.node la ll (B - 1) lk lc)
    (hR : pc (i + 1) = BPTNode.node ra rl (B - 1) rk rc)
    (hk1 : ∀ j, j < i → k' j = pk j) (hk2 : ∀ j, i ≤ j → j < ps - 1 → k' j = pk (j + 1))
    (hc1 : ∀ j, 0 ≤ j → j < i → c' j = pc j)
    (hc2 : c' i = BPTNode.node la ll (if ll then 2 * B - 1 - 1 else 2 * B - 1) mk mc)
    (hc3 : ∀ j, i < j → j ≤ ps - 1 → c' j = pc (j + 1))
    (hleaf : ll = true → (∀ j, j < B - 1 → mk j = lk j) ∧
      (∀ j, B - 1 ≤ j → j < 2 * B - 2 → mk j = rk (j - (B - 1))))
    (hint : ll = false → (∀ j, j < B - 1 → mk j = lk j) ∧ mk (B - 1) = pk i ∧
      (∀ j, B ≤ j → j < 2 * B - 1 → mk j = rk (j - B)) ∧
      (∀ j, 0 ≤ j → j < B → mc j = lc j) ∧
      (∀ j, B ≤ j → j ≤ 2 * B - 1 → mc j = rc (j - B))) :
    WF B ord (h + 1) P Q (BPTNode.node pa false (ps - 1) k' c') ∧
    WF B ord h P Q (c' i) := by
  have hf := merge_slot_facts i hwf hi0 his hk1 hk2
  obtain ⟨f1, f2, f3, f4, f5, f6, f7, f8, f9⟩ := hf
  have hwf' := hwf
  simp only [WF] at hwf'
  obtain ⟨_, _, _, _, hch⟩ := hwf'
  have hlwf := (hch i hi0 (by omega)).2
  have hrwf := (hch (i + 1) (by omega) (by omega)).2
  rw [hL] at hlwf
  rw [hR] at hrwf
  have hm : WF B ord h (childP ord P k' (ps - 1) i) (childQ ord Q k' (ps - 1) i) (c' i) := by
    rw [hc2]
    cases ll with
    | true =>
      have h0 := WF_leaf_height hlwf
      subst h0
      simp only [if_true]
      obtain ⟨g1, g2⟩ := hleaf rfl
      exact merge_leaf_WF hB hlwf hrwf rfl f1 f2
        (fun ho e e' he he' => keyLt_of_le_of_lt (f6 ho e he) (f8 ho e' he')) g1 g2
    | false =>
      obtain ⟨h', hh⟩ := WF_internal_height hlwf
      subst hh
      simp only [Bool.false_eq_true, if_false]
      obtain ⟨g1, g2, g3, g4, g5⟩ := hint rfl
      exact merge_internal_WF hB h' (pk i) hlwf hrwf rfl f1 f2 f3 f4 f5 f6 f7 f8 f9 g1 g2 g3 g4 g5
  refine ⟨WF_contract i (c' i) hwf hi0 his hk1 hk2 hc1 rfl hc3 hm ?_, ?_⟩
  · rw [hc2]; right; simp only [BPTNode.size]; split_ifs <;> omega
  · exact WF_mono _ _ _ _ _ _ _ _ (fun e he => he.1) (fun e he => he.1) hm

theorem mergeKeysLeaf_spec (B : Int) (src dst : Int → keyRNPair) :
    (∀ j, j < B - 1 → copyKeys (B - 1) (B - 1) src dst j = dst j) ∧
    (∀ j, B - 1 ≤ j → j < 2 * B - 2 → copyKeys (B - 1) (B - 1) src dst j = src (j - (B - 1))) := by
  constructor
  · intro j hj; rw [copyKeys_apply, if_neg (by omega)]
  · intro j h1 h2; rw [copyKeys_apply, if_pos (by omega)]

theorem mergeKeysInternal_spec (B : Int) (S : keyRNPair) (src dst : Int → keyRNPair) :
    (∀ j, j < B - 1 → copyKeys B (B - 1) src (setAt dst (B - 1) S) j = dst j) ∧
    copyKeys B (B - 1) src (setAt dst (B - 1) S) (B - 1) = S ∧
    (∀ j, B ≤ j → j < 2 * B - 1 → copyKeys B (B - 1) src (setAt dst (B - 1) S) j = src (j - B)) := by
  refine ⟨?_, ?_, ?_⟩
  · intro j hj; rw [copyKeys_apply, if_neg (by omega), setAt_apply, if_neg (by omega)]
  · rw [copyKeys_apply, if_neg (by omega), setAt_apply, if_pos rfl]
  · intro j h1 h2; rw [copyKeys_apply, if_pos (by omega)]

theorem mergeChildren_spec (B : Int) (dc sc : Int → BPTNode) :
    (∀ j, 0 ≤ j → j < B →
      (moveChildren B (B - 1) (setAt dc B (sc 0), setAt sc 0 BPTNode.null)).1 j = dc j) ∧
    (∀ j, B ≤ j → j ≤ 2 * B - 1 →
      (moveChildren B (B - 1) (setAt dc B (sc 0), setAt sc 0 BPTNode.null)).1 j = sc (j - B)) := by
  constructor
  · intro j h0 h1
    rw [moveChildren_fst, if_neg (by omega), setAt_apply, if_neg (by omega)]
  · intro j h0 h1
    rw [moveChildren_fst]
    by_cases c1 : j = B
    · rw [if_neg (by omega), setAt_apply, if_pos c1]
      congr 1; omega
    · rw [if_pos (by omega), setAt_apply, if_neg (by omega)]

theorem mergeWithSibling_WF {B : Int} {ord : Bool} (hB : 2 ≤ B) (h : Nat)
    {P Q : keyRNPair → Prop} {pa : Nat} {ps : Int}
    {pk : Int → keyRNPair} {pc : Int → BPTNode} (idx : Int) (L : Links) {out : MergeOut}
    {L' : Links}
    (hwf : WF B ord (h + 1) P Q (BPTNode.node pa false ps pk pc))
    (hi0 : 0 ≤ idx) (hi1 : idx ≤ ps) (hps : 1 ≤ ps)
    (hcs : (pc idx).size = B - 1)
    (hleft : 0 < idx → (pc (idx - 1)).size ≤ B - 1)
    (hright : ¬ 0 < idx → (pc (idx + 1)).size ≤ B - 1)
    (hres : mergeWithSibling B idx (BPTNode.node pa false ps pk pc) L = Except.ok (out, L')) :
    (ps ≠ 1 ∧ ∃ k' c' i, out = MergeOut.kept (BPTNode.node pa false (ps - 1) k' c') i ∧
        WF B ord (h + 1) P Q (BPTNode.node pa false (ps - 1) k' c') ∧
        c' i ≠ BPTNode.null ∧ B ≤ (c' i).size ∧ 0 ≤ i ∧ i ≤ ps - 1) ∨
    (ps = 1 ∧ ∃ m, out = MergeOut.collapsed m ∧ m ≠ BPTNode.null ∧ B ≤ m.size ∧
        WF B ord h P Q m) := by
  have hwf' := hwf
  simp only [WF] at hwf'
  obtain ⟨_, _, hQ, hsorted, hch⟩ := hwf'
  -- the common conclusion from the parent-level lemma
  have finish : ∀ (i : Int) (k' : Int → keyRNPair) (c' : Int → BPTNode) (m : BPTNode)
      (Lx : Links), 0 ≤ i → i ≤ ps - 1 → c' i = m → m ≠ BPTNode.null → B ≤ m.size →
      WF B ord (h + 1) P Q (BPTNode.node pa false (ps - 1) k' c') ∧ WF B ord h P Q (c' i) →
      (if ps - 1 = 0 then Except.ok (MergeOut.collapsed m, Lx)
        else (Except.ok (MergeOut.kept (BPTNode.node pa false (ps - 1) k' c') i, Lx) :
          Except Fault (MergeOut × Links))) = Except.ok (out, L') →
      (ps ≠ 1 ∧ ∃ k' c' i, out = MergeOut.kept (BPTNode.node pa false (ps - 1) k' c') i ∧
          WF B ord (h + 1) P Q (BPTNode.node pa false (ps - 1) k' c') ∧
          c' i ≠ BPTNode.null ∧ B ≤ (c' i).size ∧ 0 ≤ i ∧ i ≤ ps - 1) ∨
      (ps = 1 ∧ ∃ m, out = MergeOut.collapsed m ∧ m ≠ BPTNode.null ∧ B ≤ m.size ∧
          WF B ord h P Q m) := by
    intro i k' c' m Lx h0 h1 hm hnn hsz hw hr
    by_cases hp : ps - 1 = 0
    · rw [if_pos hp] at hr
      simp only [Except.ok.injEq, Prod.mk.injEq] at hr
      right
      refine ⟨by omega, m, hr.1.symm, hnn, hsz, ?_⟩
      rw [← hm]; exact hw.2
    · rw [if_neg hp] at hr
      simp only [Except.ok.injEq, Prod.mk.injEq] at hr
      left
      refine ⟨by omega, k', c', i, hr.1.symm, hw.1, ?_, ?_, h0, h1⟩
      · rw [hm]; exact hnn
      · rw [hm]; exact hsz
  by_cases hpos : 0 < idx
  · -- merge with the left sibling
    cases hl : pc (idx - 1) with
    | null => simp [mergeWithSibling, hpos, hl] at hres
    | node la ll ls lk lc =>
      cases hc : pc idx with
      | null => simp [mergeWithSibling, hpos, hl, hc] at hres
      | node ca cl cs ck cc =>
        have hls1 := hleft hpos
        have hls2 := (hch (idx - 1) (by omega) (by omega)).1
        rw [hl] at hls1 hls2
        rw [hc] at hcs
        simp only [BPTNode.size] at hls1 hcs
        have hls : ls = B - 1 := by
          rcases hls2 with h1 | h1
          · exact absurd h1 (by simp)
          · simp only [BPTNode.size] at h1; omega
        subst hls
        subst hcs
        have e1 : idx - 1 + 1 = idx := by omega
        have hk1 : ∀ j, j < idx - 1 → shiftLeftK (idx - 1) ps pk j = pk j := by
          intro j hj; rw [shiftLeftK_apply, if_neg (by omega)]
        have hk2 : ∀ j, idx - 1 ≤ j → j < ps - 1 → shiftLeftK (idx - 1) ps pk j = pk (j + 1) := by
          intro j h1 h2; rw [shiftLeftK_apply, if_pos ⟨h1, h2⟩]
        simp only [mergeWithSibling, hl, hc, gt_iff_lt, hpos, if_true] at hres
        cases ll with
        | true =>
          simp only [if_true] at hres
          obtain ⟨g1, g2⟩ := mergeKeysLeaf_spec B ck lk
          refine finish (idx - 1) _ _ _ _ (by omega) (by omega) ?_ ?_ ?_ ?_ hres
          · rw [setAt_apply, if_pos rfl]
          · simp
          · simp only [BPTNode.size]; omega
          · apply merge_parent_WF hB h (idx - 1) (copyKeys (B - 1) (B - 1) ck lk) lc
              hwf (by omega) (by omega) hl (by rw [e1]; exact hc) hk1 hk2
            · intro j h0 hj
              rw [setAt_apply, if_neg (by omega), shiftLeftC_apply, if_neg (by omega),
                if_neg (by omega)]
            · rw [setAt_apply, if_pos rfl]; rfl
            · intro j h1 h2
              rw [setAt_apply, if_neg (by omega), shiftLeftC_apply, if_pos (by omega)]
            · intro _; exact ⟨g1, g2⟩
            · intro hf; exact absurd hf (by decide)
        | false =>
          simp only [Bool.false_eq_true, if_false] at hres
          obtain ⟨g1, g2, g3⟩ := mergeKeysInternal_spec B (pk (idx - 1)) ck lk
          obtain ⟨g4, g5⟩ := mergeChildren_spec B lc cc
          refine finish (idx - 1) _ _ _ _ (by omega) (by omega) ?_ ?_ ?_ ?_ hres
          · rw [setAt_apply, if_pos rfl]
          · simp
          · simp only [BPTNode.size]; omega
          · apply merge_parent_WF hB h (idx - 1)
              (copyKeys B (B - 1) ck (setAt lk (B - 1) (pk (idx - 1))))
              ((moveChildren B (B - 1) (setAt lc B (cc 0), setAt cc 0 BPTNode.null)).1)
              hwf (by omega) (by omega) hl (by rw [e1]; exact hc) hk1 hk2
            · intro j h0 hj
              rw [setAt_apply, if_neg (by omega), shiftLeftC_apply, if_neg (by omega),
                if_neg (by omega), setAt_apply, if_neg (by omega)]
            · rw [setAt_apply, if_pos rfl]; rfl
            · intro j h1 h2
              rw [setAt_apply, if_neg (by omega), shiftLeftC_apply, if_pos (by omega),
                setAt_apply, if_neg (by omega)]
            · intro hf; exact absurd hf (by decide)
            · intro _; exact ⟨g1, g2, g3, g4, g5⟩
  · -- merge with the right sibling
    have hidx : idx < ps := by omega
    cases hc : pc idx with
    | null => simp [mergeWithSibling, hpos, hidx, hc] at hres
    | node ca cl cs ck cc =>
      cases hr : pc (idx + 1) with
      | null => simp [mergeWithSibling, hpos, hidx, hc, hr] at hres
      | node ra rl rs rk rc =>
        have hrs1 := hright hpos
        have hrs2 := (hch (idx + 1) (by omega) (by omega)).1
        have hcwf := (hch idx hi0 hi1).2
        have hrwf := (hch (idx + 1) (by omega) (by omega)).2
        rw [hr] at hrs1 hrs2 hrwf
        rw [hc] at hcs hcwf
        simp only [BPTNode.size] at hrs1 hcs
        have hrs : rs = B - 1 := by
          rcases hrs2 with h1 | h1
          · exact absurd h1 (by simp)
          · simp only [BPTNode.size] at h1; omega
        subst hrs
        subst hcs
        have hk1 : ∀ j, j < idx → shiftLeftK idx ps pk j = pk j := by
          intro j hj; rw [shiftLeftK_apply, if_neg (by omega)]
        have hk2 : ∀ j, idx ≤ j → j < ps - 1 → shiftLeftK idx ps pk j = pk (j + 1) := by
          intro j h1 h2; rw [shiftLeftK_apply, if_pos ⟨h1, h2⟩]
        simp only [mergeWithSibling, hc, hr, gt_iff_lt, hpos, if_false, hidx, if_true] at hres
        have hflag : rl = cl := by
          cases cl with
          | true =>
            have h0 := WF_leaf_height hcwf
            subst h0
            simp only [WF] at hrwf
            exact hrwf.1
          | false =>
            obtain ⟨h', hh⟩ := WF_internal_height hcwf
            subst hh
            simp only [WF] at hrwf
            exact hrwf.1
        subst hflag
        cases rl with
        | true =>
          simp only [if_true] at hres
          obtain ⟨g1, g2⟩ := mergeKeysLeaf_spec B rk ck
          refine finish idx _ _ _ _ (by omega) (by omega) ?_ ?_ ?_ ?_ hres
          · rw [setAt_apply, if_pos rfl]
          · simp
          · simp only [BPTNode.size]; omega
          · apply merge_parent_WF hB h idx (copyKeys (B - 1) (B - 1) rk ck) cc
              hwf (by omega) (by omega) hc hr hk1 hk2
            · intro j h0 hj
              rw [setAt_apply, if_neg (by omega), shiftLeftC_apply, if_neg (by omega),
                if_neg (by omega), setAt_apply, if_neg (by omega)]
            · rw [setAt_apply, if_pos rfl]; rfl
            · intro j h1 h2
              rw [setAt_apply, if_neg (by omega), shiftLeftC_apply, if_pos (by omega),
                setAt_apply, if_neg (by omega)]
            · intro _; exact ⟨g1, g2⟩
            · intro hf; exact absurd hf (by decide)
        | false =>
          simp only [Bool.false_eq_true, if_false] at hres
          obtain ⟨g1, g2, g3⟩ := mergeKeysInternal_spec B (pk idx) rk ck
          obtain ⟨g4, g5⟩ := mergeChildren_spec B cc rc
          refine finish idx _ _ _ _ (by omega) (by omega) ?_ ?_ ?_ ?_ hres
          · rw [setAt_apply, if_pos rfl]
          · simp
          · simp only [BPTNode.size]; omega
          · apply merge_parent_WF hB h idx
              (copyKeys B (B - 1) rk (setAt ck (B - 1) (pk idx)))
              ((moveChildren B (B - 1) (setAt cc B (rc 0), setAt rc 0 BPTNode.null)).1)
              hwf (by omega) (by omega) hc hr hk1 hk2
            · intro j h0 hj
              rw [setAt_apply, if_neg (by omega), shiftLeftC_apply, if_neg (by omega),
                if_neg (by omega), setAt_apply, if_neg (by omega)]
            · rw [setAt_apply, if_pos rfl]; rfl
            · intro j h1 h2
              rw [setAt_apply, if_neg (by omega), shiftLeftC_apply, if_pos (by omega),
                setAt_apply, if_neg (by omega)]
            · intro hf; exact absurd hf (by decide)
            · intro _; exact ⟨g1, g2, g3, g4, g5⟩

theorem remove_descend {B : Int} {ord : Bool} (isRoot : Bool) (h' : Nat) {P Q : keyRNPair → Prop}
    {pa : Nat} {s' : Int} {k' : Int → keyRNPair} {c' : Int → BPTNode} (i : Int)
    (out0 : RemoveOut)
    (hwf : WF B ord (h' + 1) P Q (BPTNode.node pa false s' k' c'))
    (hsz : if isRoot = true then 1 ≤ s' else B - 1 ≤ s')
    (hrec : RemoveOK B ord false h' (childP ord P k' s' i) (childQ ord Q k' s' i) out0) :
    RemoveOK B ord isRoot (h' + 1) P Q (out0.into (BPTNode.node pa false s' k' c') i) := by
  obtain ⟨hm, hw, hnn, hs⟩ := hrec.1 rfl
  have hinto : out0.into (BPTNode.node pa false s' k' c') i =
      { out0 with node := BPTNode.node pa false s' k' (setAt c' i out0.node) } := by
    simp [RemoveOut.into, hm]
  rw [hinto]
  have hw2 : WF B ord (h' + 1) P Q (BPTNode.node pa false s' k' (setAt c' i out0.node)) :=
    WF_setChild i _ hwf hw (Or.inr hs)
  constructor
  · intro hr
    subst hr
    simp only [Bool.false_eq_true, if_false] at hsz
    exact ⟨hm, hw2, by simp, hsz⟩
  · intro hr
    subst hr
    simp only [if_true] at hsz
    exact Or.inr ⟨hsz, h' + 1, hw2⟩

theorem removeLoop_WF {B : Int} {ord : Bool} (hB : 2 ≤ B) (key : keyRNPair) (fuel : Nat) :
    ∀ (isRoot : Bool) (h : Nat) (P Q : keyRNPair → Prop) (n : BPTNode) (L : Links)
      (out : RemoveOut),
      (∀ e, P e → Q e) → WF B ord h P Q n →
      (if isRoot = true then 1 ≤ n.size else B ≤ n.size) →
      removeLoop B key fuel isRoot n L = Except.ok out →
      RemoveOK B ord isRoot h P Q out := by
  induction fuel with
  | zero =>
    intro isRoot h P Q n L out _ _ _ hres
    simp [removeLoop] at hres
  | succ fuel ih =>
    intro isRoot h P Q n L out hPQ hwf hsz hres
    cases n with
    | null => simp [removeLoop] at hres
    | node a l s k c =>
      simp only [BPTNode.size] at hsz
      have hs1 : 1 ≤ s := by
        cases isRoot <;> simp at hsz <;> omega
      cases l with
      | true =>
        have h0 := WF_leaf_height hwf
        subst h0
        simp only [removeLoop] at hres
        have hbs := binarySearch_spec s k key (by omega)
        by_cases hfound : binarySearch s k key < s ∧ k (binarySearch s k key) = key
        · rw [if_pos hfound] at hres
          by_cases hlast : isRoot = true ∧ s = 1
          · rw [if_pos hlast] at hres
            simp only [Except.ok.injEq] at hres
            rw [← hres]
            exact ⟨fun hr => by rw [hlast.1] at hr; exact absurd hr (by decide),
              fun _ => Or.inl rfl⟩
          · rw [if_neg hlast] at hres
            simp only [Except.ok.injEq] at hres
            rw [← hres]
            have hd := deleteAtLeaf_WF (binarySearch s k key) hwf hbs.1
            constructor
            · intro hr
              subst hr
              simp only [Bool.false_eq_true, if_false] at hsz
              refine ⟨rfl, hd, by simp, ?_⟩
              simp only [BPTNode.size, deleteAtLeaf]; omega
            · intro hr
              subst hr
              refine Or.inr ⟨?_, 0, hd⟩
              simp only [BPTNode.size, deleteAtLeaf]
              have : s ≠ 1 := fun h1 => hlast ⟨rfl, h1⟩
              omega
        · rw [if_neg hfound] at hres
          simp only [Except.ok.injEq] at hres
          rw [← hres]
          constructor
          · intro hr
            subst hr
            simp only [Bool.false_eq_true, if_false] at hsz
            exact ⟨rfl, hwf, by simp, by simp only [BPTNode.size]; omega⟩
          · intro _
            exact Or.inr ⟨hs1, 0, hwf⟩
      | false =>
        obtain ⟨h', hh⟩ := WF_internal_height hwf
        subst hh
        have hbs := binarySearch_spec s k key (by omega)
        obtain ⟨hb0, hb1, _, _⟩ := hbs
        have hwf' := hwf
        simp only [WF] at hwf'
        obtain ⟨_, _, _, _, hch⟩ := hwf'
        have hszB : if isRoot = true then 1 ≤ s else B - 1 ≤ s := by
          cases isRoot <;> simp at hsz ⊢ <;> omega
        cases hc : c (binarySearch s k key) with
        | null => simp [removeLoop, hc] at hres
        | node ca cl cs ck cc =>
          have hcs := hch _ hb0 hb1
          rw [hc] at hcs
          have hcsz : B - 1 ≤ cs := by
            rcases hcs.1 with h1 | h1
            · exact absurd h1 (by simp)
            · exact h1
          simp only [removeLoop, hc] at hres
          by_cases hmin : cs ≠ B - 1
          · rw [if_pos hmin] at hres
            cases hrec : removeLoop B key fuel false (BPTNode.node ca cl cs ck cc) L with
            | error e => simp [hrec] at hres
            | ok out0 =>
              simp only [hrec, Except.ok.injEq] at hres
              rw [← hres]
              apply remove_descend isRoot h' _ out0 hwf hszB
              exact ih false h' _ _ _ L out0 (childPQ hPQ k s _) hcs.2
                (by simp only [BPTNode.size, Bool.false_eq_true, if_false]; omega) hrec
          · rw [if_neg hmin] at hres
            have hcsEq : (c (binarySearch s k key)).size = B - 1 := by
              rw [hc]; simp only [BPTNode.size]; omega
            -- the test on the left sibling
            have descend : ∀ (cur : BPTNode) (i : Int) (L1 : Links) (s' : Int)
                (k' : Int → keyRNPair) (c' : Int → BPTNode),
                cur = BPTNode.node a false s' k' c' →
                WF B ord (h' + 1) P Q cur → c' i ≠ BPTNode.null → B ≤ (c' i).size →
                0 ≤ i → i ≤ s' → (if isRoot = true then 1 ≤ s' else B - 1 ≤ s') →
                (match removeLoop B key fuel false (cur.child i) L1 with
                  | Except.error e => Except.error e
                  | Except.ok out => Except.ok (out.into cur i)) = Except.ok out →
                RemoveOK B ord isRoot (h' + 1) P Q out := by
              intro cur i L1 s' k' c' hcur hw hnn hsz' hi0 hi1 hs' hr
              subst hcur
              simp only [BPTNode.child] at hr
              cases hrec : removeLoop B key fuel false (c' i) L1 with
              | error e => simp [hrec] at hr
              | ok out0 =>
                simp only [hrec, Except.ok.injEq] at hr
                rw [← hr]
                have hw' := hw
                simp only [WF] at hw'
                apply remove_descend isRoot h' _ out0 hw hs'
                exact ih false h' _ _ _ L1 out0 (childPQ hPQ k' s' _) (hw'.2.2.2.2 i hi0 hi1).2
                  (by simp only [Bool.false_eq_true, if_false]; exact hsz') hrec
            by_cases hbigL : 0 < binarySearch s k key ∧
                B - 1 < (c (binarySearch s k key - 1)).size
            · -- borrow from the left sibling
              have hleftBig : (if binarySearch s k key > 0 then
                  (match c (binarySearch s k key - 1) with
                    | BPTNode.null => Except.error Fault.nullDeref
                    | BPTNode.node _ _ ls _ _ => Except.ok (decide (ls > B - 1)))
                  else (Except.ok false : Except Fault Bool)) = Except.ok true := by
                rw [if_pos hbigL.1]
                cases hl : c (binarySearch s k key - 1) with
                | null => rw [hl] at hbigL; simp [BPTNode.size] at hbigL; omega
                | node la ll ls lk lc =>
                  rw [hl] at hbigL
                  simp only [BPTNode.size] at hbigL
                  simp only [Except.ok.injEq, decide_eq_true_eq]
                  omega
              simp only [hleftBig] at hres
              cases hbl : borrowFromLeftSibling (binarySearch s k key) (BPTNode.node a false s k c) with
              | error e => simp [hbl] at hres
              | ok cur =>
                simp only [hbl] at hres
                obtain ⟨k', c', hcur, hw, hnn, hsz'⟩ :=
                  borrowFromLeftSibling_WF hB h' hPQ _ hwf hbigL.1 hb1 hcsEq hbigL.2 hbl
                exact descend cur _ L s k' c' hcur hw hnn (by omega) hb0 hb1 hszB hres
            · have hleftBig : (if binarySearch s k key > 0 then
                  (match c (binarySearch s k key - 1) with
                    | BPTNode.null => Except.error Fault.nullDeref
                    | BPTNode.node _ _ ls _ _ => Except.ok (decide (ls > B - 1)))
                  else (Except.ok false : Except Fault Bool)) = Except.ok false ∨
                  ∃ e, (if binarySearch s k key > 0 then
                  (match c (binarySearch s k key - 1) with
                    | BPTNode.null => Except.error Fault.nullDeref
                    | BPTNode.node _ _ ls _ _ => Except.ok (decide (ls > B - 1)))
                  else (Except.ok false : Except Fault Bool)) = Except.error e := by
                by_cases hp : binarySearch s k key > 0
                · rw [if_pos hp]
                  cases hl : c (binarySearch s k key - 1) with
                  | null => exact Or.inr ⟨_, rfl⟩
                  | node la ll ls lk lc =>
                    left
                    rw [hl] at hbigL
                    simp only [BPTNode.size] at hbigL
                    simp only [Except.ok.injEq, decide_eq_false_iff_not]
                    omega
                · rw [if_neg hp]; exact Or.inl rfl
              rcases hleftBig with hlb | ⟨e, hlb⟩
              swap
              · simp [hlb] at hres
              simp only [hlb] at hres
              by_cases hbigR : binarySearch s k key < s ∧
                  B - 1 < (c (binarySearch s k key + 1)).size
              · have hrightBig : (if binarySearch s k key < s then
                    (match c (binarySearch s k key + 1) with
                      | BPTNode.null => Except.error Fault.nullDeref
                      | BPTNode.node _ _ rs _ _ => Except.ok (decide (rs > B - 1)))
                    else (Except.ok false : Except Fault Bool)) = Except.ok true := by
                  rw [if_pos hbigR.1]
                  cases hr : c (binarySearch s k key + 1) with
                  | null => rw [hr] at hbigR; simp [BPTNode.size] at hbigR; omega
                  | node ra rl rs rk rc =>
                    rw [hr] at hbigR
                    simp only [BPTNode.size] at hbigR
                    simp only [Except.ok.injEq, decide_eq_true_eq]
                    omega
                simp only [hrightBig] at hres
                cases hbr : borrowFromRightSibling (binarySearch s k key)
                    (BPTNode.node a false s k c) with
                | error e => simp [hbr] at hres
                | ok cur =>
                  simp only [hbr] at hres
                  obtain ⟨k', c', hcur, hw, hnn, hsz'⟩ :=
                    borrowFromRightSibling_WF hB h' hPQ _ hwf hb0 hbigR.1 hcsEq hbigR.2 hbr
                  exact descend cur _ L s k' c' hcur hw hnn (by omega) hb0 hb1 hszB hres
              · have hrightBig : (if binarySearch s k key < s then
                    (match c (binarySearch s k key + 1) with
                      | BPTNode.null => Except.error Fault.nullDeref
                      | BPTNode.node _ _ rs _ _ => Except.ok (decide (rs > B - 1)))
                    else (Except.ok false : Except Fault Bool)) = Except.ok false ∨
                    ∃ e, (if binarySearch s k key < s then
                    (match c (binarySearch s k key + 1) with
                      | BPTNode.null => Except.error Fault.nullDeref
                      | BPTNode.node _ _ rs _ _ => Except.ok (decide (rs > B - 1)))
                    else (Except.ok false : Except Fault Bool)) = Except.error e := by
                  by_cases hp : binarySearch s k key < s
                  · rw [if_pos hp]
                    cases hr : c (binarySearch s k key + 1) with
                    | null => exact Or.inr ⟨_, rfl⟩
                    | node ra rl rs rk rc =>
                      left
                      rw [hr] at hbigR
                      simp only [BPTNode.size] at hbigR
                      simp only [Except.ok.injEq, decide_eq_false_iff_not]
                      omega
                  · rw [if_neg hp]; exact Or.inl rfl
                rcases hrightBig with hrb | ⟨e, hrb⟩
                swap
                · simp [hrb] at hres
                simp only [hrb] at hres
                -- merge
                have hleft : 0 < binarySearch s k key →
                    (c (binarySearch s k key - 1)).size ≤ B - 1 := by
                  intro hp
                  by_contra hcon
                  exact hbigL ⟨hp, by omega⟩
                have hright : ¬ 0 < binarySearch s k key →
                    (c (binarySearch s k key + 1)).size ≤ B - 1 := by
                  intro hp
                  by_contra hcon
                  exact hbigR ⟨by omega, by omega⟩
                cases hmg : mergeWithSibling B (binarySearch s k key) (BPTNode.node a false s k c) L with
                | error e => simp [hmg] at hres
                | ok r =>
                  obtain ⟨mo, L2⟩ := r
                  rcases mergeWithSibling_WF hB h' _ L hwf hb0 hb1 hs1 hcsEq hleft hright hmg with
                    ⟨hne, k', c', i, hmo, hw, hnn, hsz', hi0, hi1⟩ | ⟨hs1', m, hmo, hnn, hsz', hw⟩
                  · subst hmo
                    simp only [hmg] at hres
                    have hs'' : if isRoot = true then 1 ≤ s - 1 else B - 1 ≤ s - 1 := by
                      cases isRoot <;> simp at hsz ⊢ <;> omega
                    exact descend _ i L2 (s - 1) k' c' rfl hw hnn hsz' hi0 hi1 hs'' hres
                  · subst hmo
                    simp only [hmg] at hres
                    have hroot : isRoot = true := by
                      cases isRoot with
                      | true => rfl
                      | false => simp at hsz; omega
                    subst hroot
                    cases hrec : removeLoop B key fuel true m L2 with
                    | error e => simp [hrec] at hres
                    | ok out0 =>
                      simp only [hrec, Except.ok.injEq] at hres
                      rw [← hres]
                      have := ih true h' P Q m L2 out0 hPQ hw
                        (by simp only [if_true]; omega) hrec
                      exact ⟨fun hr => absurd hr (by decide), fun _ => this.2 rfl⟩

/-! ## remove preserves the invariant; reachable trees -/

theorem remove_TreeWF {ord : Bool} {t t' : BPTree} {key : keyRNPair} {fuel : Nat} {b : Bool}
    (hB : 2 ≤ t.branchingFactor) (htw : TreeWF ord t)
    (hres : remove fuel t key = Except.ok (b, t')) :
    TreeWF ord t' ∧ t'.branchingFactor = t.branchingFactor := by
  unfold remove at hres
  cases hr : t.root with
  | null =>
    simp only [hr, Except.ok.injEq, Prod.mk.injEq] at hres
    rw [← hres.2]
    exact ⟨htw, rfl⟩
  | node ra rl rs rk rc =>
    simp only [hr] at hres
    rcases htw with hnull | ⟨hsz, h, hwf⟩
    · rw [hr] at hnull; exact absurd hnull (by simp)
    rw [hr] at hsz hwf
    cases hrec : removeLoop t.branchingFactor key fuel true (BPTNode.node ra rl rs rk rc)
        t.links with
    | error e => simp [hrec] at hres
    | ok out =>
      simp only [hrec, Except.ok.injEq, Prod.mk.injEq] at hres
      rw [← hres.2]
      have := removeLoop_WF hB key fuel true h _ _ _ t.links out (fun _ _ => trivial) hwf
        (by simp only [if_true]; exact hsz) hrec
      refine ⟨?_, rfl⟩
      rcases this.2 rfl with h1 | ⟨h1, h2⟩
      · exact Or.inl h1
      · exact Or.inr ⟨h1, h2⟩

theorem ReachableBy_TreeWF {d : Bool} {B : Int} (hB : 2 ≤ B) {t : BPTree}
    (hr : ReachableBy d B t) : TreeWF d t ∧ t.branchingFactor = B := by
  induction hr with
  | empty => exact ⟨Or.inl rfl, rfl⟩
  | insert fuel key _ hd hi ih =>
    have := insert_TreeWF (by rw [ih.2]; exact hB) ih.1 hd hi
    exact ⟨this.1, by rw [this.2, ih.2]⟩
  | remove fuel key _ hi ih =>
    have := remove_TreeWF (by rw [ih.2]; exact hB) ih.1 hi
    exact ⟨this.1, by rw [this.2, ih.2]⟩

theorem ReachableBy_checkedCalls (d : Bool) (B : Int) (fuel : Nat) (cs : List Call) :
    ∀ (t t' : BPTree), ReachableBy d B t → checkedCalls d fuel t cs = some t' →
      ReachableBy d B t' := by
  induction cs with
  | nil =>
    intro t t' hr h
    simp only [checkedCalls, Option.some.injEq] at h
    rw [← h]; exact hr
  | cons c cs ih =>
    intro t t' hr h
    cases c with
    | insert key =>
      simp only [checkedCalls] at h
      by_cases hd : d = true ∧ key ∈ t.root.entries
      · rw [if_pos hd] at h; exact absurd h (by simp)
      · rw [if_neg hd] at h
        cases hi : insert fuel t key with
        | error e => simp [hi] at h
        | ok r =>
          obtain ⟨b, t2⟩ := r
          simp only [hi] at h
          exact ih t2 t' (ReachableBy.insert fuel key hr (fun hdt hm => hd ⟨hdt, hm⟩) hi) h
    | remove key =>
      simp only [checkedCalls] at h
      cases hi : remove fuel t key with
      | error e => simp [hi] at h
      | ok r =>
        obtain ⟨b, t2⟩ := r
        simp only [hi] at h
        exact ih t2 t' (ReachableBy.remove fuel key hr hi) h

theorem ReachableBy_of_false {d : Bool} {B : Int} {t : BPTree} (hr : ReachableBy d B t) :
    ReachableBy false B t := by
  induction hr with
  | empty => exact ReachableBy.empty
  | insert fuel key _ _ hi ih =>
    exact ReachableBy.insert fuel key ih (fun h => absurd h (by decide)) hi
  | remove fuel key _ hi ih => exact ReachableBy.remove fuel key ih hi

theorem sampleTree_reachable : ReachableBy true 2 sampleTree := by
  unfold sampleTree
  cases h : checkedCalls true 8 (BPTree.empty 2) borrowScenario with
  | none => exact ReachableBy.empty
  | some t => exact ReachableBy_checkedCalls true 2 8 _ _ _ ReachableBy.empty h

/-- Every node below a node that satisfies the invariant has between `B-1` and
`2B-1` entries and satisfies the invariant itself, at some height and under
some constraints. -/
theorem Below_WF {B : Int} {ord : Bool} {r n : BPTNode} (hb : BPTNode.Below r n) :
    ∀ (h : Nat) (P Q : keyRNPair → Prop), WF B ord h P Q r →
      n ≠ BPTNode.null ∧ B - 1 ≤ n.size ∧ n.size ≤ 2 * B - 1 ∧
      ∃ h' P' Q', WF B ord h' P' Q' n := by
  induction hb with
  | child i h0 h1 hnn =>
    intro h P Q hwf
    obtain ⟨h', hh⟩ := WF_internal_height hwf
    subst hh
    simp only [WF] at hwf
    have hc := hwf.2.2.2.2 i h0 h1
    refine ⟨hnn, ?_, ?_, h', _, _, hc.2⟩
    · rcases hc.1 with h2 | h2
      · exact absurd h2 hnn
      · exact h2
    · exact WF_size_le_of_ne hc.2 hnn
  | deeper i h0 h1 _ ih =>
    intro h P Q hwf
    obtain ⟨h', hh⟩ := WF_internal_height hwf
    subst hh
    simp only [WF] at hwf
    exact ih h' _ _ (hwf.2.2.2.2 i h0 h1).2

theorem sampleTree_entries :
    sampleTree.root.entries = [(0, 0), (3, 3), (4, 4), (6, 6), (23, 23), (33, 33)] := by
  decide!

/-- In an internal node that satisfies the ordered invariant, the entries below
`child[i]` are at most `keys[i]` and those below `child[i+1]` are greater. -/
theorem WF_separators {B : Int} {h : Nat} {P Q : keyRNPair → Prop} {a : Nat} {s : Int}
    {k : Int → keyRNPair} {c : Int → BPTNode}
    (hwf : WF B true h P Q (BPTNode.node a false s k c)) (i : Int) (hi0 : 0 ≤ i) (hi1 : i < s) :
    (∀ e ∈ (c i).entries, keyLe e (k i)) ∧ (∀ e ∈ (c (i + 1)).entries, keyLt (k i) e) := by
  obtain ⟨h', hh⟩ := WF_internal_height hwf
  subst hh
  simp only [WF] at hwf
  obtain ⟨_, _, _, _, hch⟩ := hwf
  constructor
  · intro e he
    exact ((WF_entries _ _ _ _ _ _ (hch i hi0 (by omega)).2 e he).2 rfl).2 hi1
  · intro e he
    have := ((WF_entries _ _ _ _ _ _ (hch (i + 1) (by omega) (by omega)).2 e he).2 rfl).1
      (by omega)
    have e1 : i + 1 - 1 = i := by omega
    rw [e1] at this
    exact this

/-- The entries below the root after `insert(key)` were there before the call,
or are `key`. -/
theorem insert_entries {ord : Bool} {t t' : BPTree} {key : keyRNPair} {fuel : Nat} {b : Bool}
    (hB : 2 ≤ t.branchingFactor) (htw : TreeWF ord t)
    (hne : ord = true → key ∉ t.root.entries)
    (hres : insert fuel t key = Except.ok (b, t')) :
    ∀ e ∈ t'.root.entries, e ∈ t.root.entries ∨ e = key := by
  unfold insert at hres
  cases hr : t.root with
  | null =>
    simp only [hr, Links.alloc, Except.ok.injEq, Prod.mk.injEq] at hres
    rw [← hres.2]
    intro e he
    rw [mem_entries_leaf] at he
    obtain ⟨i, h0, h1, rfl⟩ := he
    have hi : i = 0 := by omega
    subst hi
    exact Or.inr rfl
  | node ra rl rs rk rc =>
    simp only [hr] at hres
    rcases htw with hnull | ⟨hsz, h, hwf⟩
    · rw [hr] at hnull; exact absurd hnull (by simp)
    rw [hr] at hsz hwf hne
    simp only [BPTNode.size] at hsz
    have hwfR := WF_of_entries _ ord
      (fun e => e ∈ (BPTNode.node ra rl rs rk rc).entries ∧ (ord = true → e ≠ key)) h _ _ _ hwf
      (fun e he => ⟨he, fun ho hek => hne ho (hek ▸ he)⟩)
    have key1 : ∀ (root1 : BPTNode) (L1 : Links) (h1 : Nat),
        WF t.branchingFactor ord h1
          (fun e => True ∧ (e ∈ (BPTNode.node ra rl rs rk rc).entries ∧ (ord = true → e ≠ key)))
          (fun _ => True) root1 →
        1 ≤ root1.size → root1.size < 2 * t.branchingFactor - 1 →
        (match insertLoop t.branchingFactor key fuel root1 L1 with
          | Except.error e => Except.error e
          | Except.ok (root2, L2) =>
            (Except.ok (true, { t with root := root2, links := L2 }) : Except Fault (Bool × BPTree)))
          = Except.ok (b, t') →
        ∀ e ∈ t'.root.entries, e ∈ (BPTNode.node ra rl rs rk rc).entries ∨ e = key := by
      intro root1 L1 h1 hw1 hs1 hs2 hres1
      cases hrec : insertLoop t.branchingFactor key fuel root1 L1 with
      | error e => simp [hrec] at hres1
      | ok r =>
        obtain ⟨root2, L2⟩ := r
        simp only [hrec, Except.ok.injEq, Prod.mk.injEq] at hres1
        have hih := insertLoop_WF hB key fuel h1 _
          (fun e => e ∈ (BPTNode.node ra rl rs rk rc).entries ∨ e = key) (fun _ => True)
          root1 L1 root2 L2 hw1 (by omega) hs2 (fun e he => Or.inl he.2.1) (fun _ _ => trivial)
          (Or.inr rfl) (fun ho e he => he.2.2 ho) hrec
        rw [← hres1.2]
        exact WF_entries _ _ _ _ _ _ hih.1
    by_cases hfull : rs = 2 * t.branchingFactor - 1
    · simp only [if_pos hfull] at hres
      cases hsp : splitRoot t.branchingFactor (BPTNode.node ra rl rs rk rc) t.links with
      | error e => simp [hsp] at hres
      | ok r =>
        obtain ⟨root1, L1⟩ := r
        simp only [hsp] at hres
        have hs := splitRoot_WF hB h (fun e he => trivial) t.links hwfR hfull hsp
        exact key1 root1 L1 (h + 1) hs.1 (by omega) (by omega) hres
    · simp only [if_neg hfull] at hres
      have := WF_size_le hwf
      exact key1 _ _ h hwfR (by simp only [BPTNode.size]; omega)
        (by simp only [BPTNode.size]; omega) hres

/-- The entries below the root after `remove(key)` were there before the call. -/
theorem remove_entries {ord : Bool} {t t' : BPTree} {key : keyRNPair} {fuel : Nat} {b : Bool}
    (hB : 2 ≤ t.branchingFactor) (htw : TreeWF ord t)
    (hres : remove fuel t key = Except.ok (b, t')) :
    ∀ e ∈ t'.root.entries, e ∈ t.root.entries := by
  unfold remove at hres
  cases hr : t.root with
  | null =>
    simp only [hr, Except.ok.injEq, Prod.mk.injEq] at hres
    rw [← hres.2, hr]
    intro e he; exact he
  | node ra rl rs rk rc =>
    simp only [hr] at hres
    rcases htw with hnull | ⟨hsz, h, hwf⟩
    · rw [hr] at hnull; exact absurd hnull (by simp)
    rw [hr] at hsz hwf
    have hwfR := WF_of_entries _ ord (fun e => e ∈ (BPTNode.node ra rl rs rk rc).entries)
      h _ _ _ hwf (fun e he => he)
    cases hrec : removeLoop t.branchingFactor key fuel true (BPTNode.node ra rl rs rk rc)
        t.links with
    | error e => simp [hrec] at hres
    | ok out =>
      simp only [hrec, Except.ok.injEq, Prod.mk.injEq] at hres
      rw [← hres.2]
      have := removeLoop_WF hB key fuel true h _ _ _ t.links out (fun _ _ => trivial) hwfR
        (by simp only [if_true]; exact hsz) hrec
      rcases this.2 rfl with h1 | ⟨_, h', h2⟩
      · intro e he
        have h3 : out.node.entries = [] := by rw [h1]; rfl
        rw [show ({ t with root := out.node, links := out.links } : BPTree).root = out.node from rfl,
          h3] at he
        exact absurd he (by simp)
      · intro e he
        exact (WF_entries _ _ _ _ _ _ h2 e he).2

/-- A sequence of calls that return, in which the inserted pairs are pairwise
distinct and none of them is in the list `S` that holds all entries stored at
the start, leads from a reachable tree to a reachable tree: no pair is inserted
while it is stored below the root. -/
theorem ReachableBy_calls (B : Int) (hB : 2 ≤ B) (fuel : Nat) (cs : List Call) :
    ∀ (t t' : BPTree) (bs : List Bool) (S : List keyRNPair), ReachableBy true B t →
      (∀ e ∈ t.root.entries, e ∈ S) → (∀ e ∈ insertedPairs cs, e ∉ S) →
      (insertedPairs cs).Nodup → t.calls fuel cs = Except.ok (bs, t') →
      ReachableBy true B t' := by
  induction cs with
  | nil =>
    intro t t' bs S hr _ _ _ h
    simp only [BPTree.calls, Except.ok.injEq, Prod.mk.injEq] at h
    rw [← h.2]; exact hr
  | cons c cs ih =>
    intro t t' bs S hr hS hfresh hnd h
    obtain ⟨htw, hBt⟩ := ReachableBy_TreeWF hB hr
    cases c with
    | insert key =>
      simp only [insertedPairs, List.mem_cons, forall_eq_or_imp, List.nodup_cons] at hfresh hnd
      simp only [BPTree.calls, BPTree.call] at h
      have hkey : key ∉ t.root.entries := fun hm => hfresh.1 (hS key hm)
      cases hi : insert fuel t key with
      | error e => simp [hi] at h
      | ok r =>
        obtain ⟨b, t2⟩ := r
        simp only [hi] at h
        cases hc : BPTree.calls fuel t2 cs with
        | error e => simp [hc] at h
        | ok r2 =>
          obtain ⟨bs2, t3⟩ := r2
          simp only [hc, Except.ok.injEq, Prod.mk.injEq] at h
          rw [← h.2]
          have hent := insert_entries (by rw [hBt]; exact hB) htw (fun _ => hkey) hi
          refine ih t2 t3 bs2 (key :: S) (ReachableBy.insert fuel key hr (fun _ => hkey) hi)
            ?_ ?_ hnd.2 hc
          · intro e he
            rcases hent e he with h1 | h1
            · exact List.mem_cons_of_mem _ (hS e h1)
            · rw [h1]; exact List.mem_cons_self _ _
          · intro e he hm
            rcases List.mem_cons.mp hm with h1 | h1
            · rw [h1] at he; exact hnd.1 he
            · exact hfresh.2 e he h1
    | remove key =>
      simp only [insertedPairs] at hfresh hnd
      simp only [BPTree.calls, BPTree.call] at h
      cases hi : remove fuel t key with
      | error e => simp [hi] at h
      | ok r =>
        obtain ⟨b, t2⟩ := r
        simp only [hi] at h
        cases hc : BPTree.calls fuel t2 cs with
        | error e => simp [hc] at h
        | ok r2 =>
          obtain ⟨bs2, t3⟩ := r2
          simp only [hc, Except.ok.injEq, Prod.mk.injEq] at h
          rw [← h.2]
          have hent := remove_entries (by rw [hBt]; exact hB) htw hi
          exact ih t2 t3 bs2 S (ReachableBy.remove fuel key hr hi)
            (fun e he => hS e (hent e he)) hfresh hnd hc

/-- Every tree obtained from the empty tree by a sequence of calls that return
and whose inserted pairs are pairwise distinct is reachable in the sense of
`ReachableBy true`. -/
theorem ReachableBy_of_distinct_inserts (B : Int) (hB : 2 ≤ B) (fuel : Nat) (cs : List Call)
    (t : BPTree) (h : treeAfter fuel B cs = some t) (hd : (insertedPairs cs).Nodup) :
    ReachableBy true B t := by
  unfold treeAfter at h
  cases hc : (BPTree.empty B).calls fuel cs with
  | error e => simp [hc] at h
  | ok r =>
    obtain ⟨bs, t2⟩ := r
    simp only [hc, Option.some.injEq] at h
    rw [← h]
    exact ReachableBy_calls B hB fuel cs _ _ bs [] ReachableBy.empty
      (fun e he => by simp [BPTree.empty, BPTNode.entries] at he) (fun _ _ => by simp) hd hc

/-- C7: for every `B >= 2` and every tree reachable from the empty tree by
`insert` and `remove` calls, the root is null, or the root has between 1 and
`2B-1` entries and every node below the root has between `B-1` and `2B-1`
entries. -/
theorem C7_occupancy_bounds (B : Int) (hB : 2 ≤ B) (t : BPTree) (hr : ReachableBy false B t) :
    t.root = BPTNode.null ∨
      (1 ≤ t.root.size ∧ t.root.size ≤ 2 * B - 1 ∧
        ∀ n, BPTNode.Below t.root n → B - 1 ≤ n.size ∧ n.size ≤ 2 * B - 1) := by
  obtain ⟨htw, hBt⟩ := ReachableBy_TreeWF hB hr
  rcases htw with h0 | ⟨h1, h, hwf⟩
  · exact Or.inl h0
  · right
    rw [hBt] at hwf
    refine ⟨h1, WF_size_le_of_ne hwf ?_, ?_⟩
    · intro hn; rw [hn] at h1; simp [BPTNode.size] at h1
    · intro n hn
      have := Below_WF hn h _ _ hwf
      exact ⟨this.2.1, this.2.2.1⟩

theorem C7_occupancy_bounds_witness :
    (2 : Int) ≤ 2 ∧ ReachableBy false 2 sampleTree ∧
    (sampleTree.root = BPTNode.null ∨
      (1 ≤ sampleTree.root.size ∧ sampleTree.root.size ≤ 2 * 2 - 1 ∧
        ∀ n, BPTNode.Below sampleTree.root n → 2 - 1 ≤ n.size ∧ n.size ≤ 2 * 2 - 1)) :=
  ⟨by decide, ReachableBy_of_false sampleTree_reachable,
    C7_occupancy_bounds 2 (by decide) sampleTree (ReachableBy_of_false sampleTree_reachable)⟩

/-- C8: for every `B >= 2` and every tree reachable from the empty tree by
`insert` and `remove` calls on pairwise distinct pairs, in every internal node
(the root or a node below it) and for every `i < size`, every pair stored below
`child[i]` is `<= keys[i]` and every pair stored below `child[i+1]` is
`> keys[i]`, lexicographically on `(key, pkey)`. -/
theorem C8_separator_invariant (B : Int) (hB : 2 ≤ B) (t : BPTree) (hr : ReachableBy true B t) :
    ∀ n, (n = t.root ∨ BPTNode.Below t.root n) →
      ∀ (a : Nat) (s : Int) (k : Int → keyRNPair) (c : Int → BPTNode),
        n = BPTNode.node a false s k c → ∀ i, 0 ≤ i → i < s →
          (∀ e ∈ (c i).entries, keyLe e (k i)) ∧
          (∀ e ∈ (c (i + 1)).entries, keyLt (k i) e) := by
  obtain ⟨htw, hBt⟩ := ReachableBy_TreeWF hB hr
  intro n hn a s k c hnode i hi0 hi1
  rcases htw with h0 | ⟨_, h, hwf⟩
  · rw [h0] at hn
    rcases hn with hn | hn
    · rw [hn] at hnode; exact absurd hnode (by simp)
    · cases hn
  · rw [hBt] at hwf
    rcases hn with hn | hn
    · rw [← hn, hnode] at hwf
      exact WF_separators hwf i hi0 hi1
    · obtain ⟨_, _, _, h', P', Q', hw⟩ := Below_WF hn h _ _ hwf
      rw [hnode] at hw
      exact WF_separators hw i hi0 hi1

theorem C8_separator_invariant_witness :
    (2 : Int) ≤ 2 ∧ ReachableBy true 2 sampleTree ∧
    (∀ n, (n = sampleTree.root ∨ BPTNode.Below sampleTree.root n) →
      ∀ (a : Nat) (s : Int) (k : Int → keyRNPair) (c : Int → BPTNode),
        n = BPTNode.node a false s k c → ∀ i, 0 ≤ i → i < s →
          (∀ e ∈ (c i).entries, keyLe e (k i)) ∧
          (∀ e ∈ (c (i + 1)).entries, keyLt (k i) e)) :=
  ⟨by decide, sampleTree_reachable,
    C8_separator_invariant 2 (by decide) sampleTree sampleTree_reachable⟩

/-! ## Concrete runs -/

set_option maxRecDepth 100000 in
/-- With `B = 2`, the five inserts of the first scenario leave the leaf chain
`5(3), 10(1), 11(5), 15(4), 20(2)`. -/
theorem scenarioOne_chain :
    chainAfter 8 2 scenarioOne = some [(5, 3), (10, 1), (11, 5), (15, 4), (20, 2)] := by
  decide!

set_option maxRecDepth 100000 in
/-- C1: with `B = 2`, after the seven inserts, the remove of the absent pair
`(36, 36)` and the insert of `(7, 1)`, the leaves read from the leftmost leaf
along `rightSibling_` hold `(7, 7)` before `(7, 1)`: the chain is not in
non-decreasing `(key, pkey)` order. -/
theorem C1_leaf_chain_out_of_order :
    chainAfter 8 2 (borrowScenario ++ [Call.insert (7, 1)]) =
      some [(0, 0), (3, 3), (4, 4), (6, 6), (7, 7), (7, 1), (23, 23), (33, 33)] ∧
    ¬ List.Pairwise keyLe
      [(0, 0), (3, 3), (4, 4), (6, 6), (7, 7), (7, 1), (23, 23), (33, 33)] := by
  decide!

set_option maxRecDepth 100000 in
/-- C2: with `B = 2`, after the seven inserts, the remove of the absent pair
`(36, 36)` and the insert of `(7, 1)`, the two entries inserted with user key 7
stand in the leaf chain as `(7, 7), (7, 1)`, not in ascending pkey order, and
only one of them is reachable from the root. -/
theorem C2_equal_keys_out_of_pkey_order :
    (chainAfter 8 2 (borrowScenario ++ [Call.insert (7, 1)])).map
        (List.filter (fun e => decide (e.1 = 7))) = some [(7, 7), (7, 1)] ∧
    (entriesAfter 8 2 (borrowScenario ++ [Call.insert (7, 1)])).map
        (List.filter (fun e => decide (e.1 = 7))) = some [(7, 1)] := by
  decide!

set_option maxRecDepth 100000 in
/-- C3: with `B = 2`, the pair `(7, 7)` is inserted by the second call and never
removed, and it is still in the leaf chain after the remove of the absent pair
`(36, 36)`; the following `remove((7, 7))` nevertheless returns false. -/
theorem C3_remove_misses_stored_pair :
    (chainAfter 8 2 borrowScenario).map (fun l => decide ((7, 7) ∈ l)) = some true ∧
    returnsAfter 8 2 (borrowScenario ++ [Call.remove (7, 7)]) =
      some [true, true, true, true, true, true, true, false, false] := by
  decide!

set_option maxRecDepth 100000 in
/-- C4: with `B = 2`, after the seven inserts `remove((33, 33))` returns true,
and the entries reachable from the root afterwards have lost `(7, 7)` as well
as `(33, 33)`. -/
theorem C4_successful_remove_loses_second_entry :
    entriesAfter 8 2 sevenInserts =
      some [(0, 0), (3, 3), (4, 4), (6, 6), (7, 7), (23, 23), (33, 33)] ∧
    returnsAfter 8 2 (sevenInserts ++ [Call.remove (33, 33)]) =
      some [true, true, true, true, true, true, true, true] ∧
    entriesAfter 8 2 (sevenInserts ++ [Call.remove (33, 33)]) =
      some [(0, 0), (3, 3), (4, 4), (6, 6), (23, 23)] := by
  decide!

set_option maxRecDepth 100000 in
/-- C5: with `B = 2`, after inserting `(5, 3), (10, 1), (10, 2), (20, 9)`,
removing `(10, 1)` and inserting `(10, 5)` (every call returns true), the tree
holds `(10, 2)` and `(10, 5)` but `search(10)` returns false. -/
theorem C5_search_false_after_insert :
    returnsAfter 8 2 staleSeparatorScenario = some [true, true, true, true, true, true] ∧
    chainAfter 8 2 staleSeparatorScenario = some [(5, 3), (10, 2), (10, 5), (20, 9)] ∧
    searchAfter 8 2 staleSeparatorScenario 10 = some false := by
  decide!

set_option maxRecDepth 100000 in
/-- C6: with `B = 2`, on the tree holding only `(10, 1)` the call `search(5)`
returns true although no entry has user key 5; and after inserting `(10, 1)`
and `(5, 3)` and removing `(5, 3)`, `search(5)` still returns true. -/
theorem C6_search_true_for_absent_key :
    entriesAfter 8 2 [Call.insert (10, 1)] = some [(10, 1)] ∧
    searchAfter 8 2 [Call.insert (10, 1)] 5 = some true ∧
    entriesAfter 8 2 [Call.insert (10, 1), Call.insert (5, 3), Call.remove (5, 3)] =
      some [(10, 1)] ∧
    searchAfter 8 2 [Call.insert (10, 1), Call.insert (5, 3), Call.remove (5, 3)] 5 =
      some true := by
  decide!

set_option maxRecDepth 100000 in
/-- C9: with `B = 2`, after the seven inserts and the remove of the absent pair
`(36, 36)`, the walk along `rightSibling_` from the leftmost leaf visits four
leaves (addresses 0, 7, 4, 3) while only three leaves (0, 7, 3) are reachable
from the root. -/
theorem C9_chain_visits_unreachable_leaf :
    chainAddrsAfter 8 2 borrowScenario = some [0, 7, 4, 3] ∧
    leavesAfter 8 2 borrowScenario = some [0, 7, 3] := by
  decide!

set_option maxRecDepth 100000 in
/-- C10: with `B = 2`, after the seven inserts and the remove of the absent pair
`(36, 36)`, the first child of the root is an internal node of size 1 whose
`child[1]` is null, so the child-count property fails; it holds before the
remove. -/
theorem C10_internal_node_with_null_child :
    (treeAfter 8 2 sevenInserts).map (fun t => t.root.childCountOK 4) = some true ∧
    (treeAfter 8 2 borrowScenario).map (fun t => t.root.childCountOK 4) = some false ∧
    (treeAfter 8 2 borrowScenario).map
        (fun t => ((t.root.child 0).isLeaf, (t.root.child 0).size,
                   ((t.root.child 0).child 0).isNull, ((t.root.child 0).child 1).isNull)) =
      some (false, 1, false, true) := by
  decide!

/-! ## binarySearch is a lower bound -/

/-- C11: on keys `keys[0..size)` sorted in non-decreasing `(key, pkey)` order,
`binarySearch` returns the smallest index `i` in `[0, size)` with
`probe <= keys[i]`, and returns `size` when there is no such index. -/
theorem C11_binarySearch_lower_bound (s : Int) (k : Int → keyRNPair) (key : keyRNPair)
    (hsorted : ∀ i j, 0 ≤ i → i ≤ j → j < s → keyLe (k i) (k j)) :
    ((∃ i, 0 ≤ i ∧ i < s ∧ keyLe key (k i)) →
      0 ≤ binarySearch s k key ∧ binarySearch s k key < s ∧
      keyLe key (k (binarySearch s k key)) ∧
      ∀ i, 0 ≤ i → i < s → keyLe key (k i) → binarySearch s k key ≤ i) ∧
    ((∀ i, 0 ≤ i → i < s → ¬ keyLe key (k i)) → binarySearch s k key = s) := by
  by_cases hs : 0 ≤ s
  · obtain ⟨h0, h1, h2, h3⟩ := binarySearch_spec s k key hs
    have hsmall : ∀ i, 0 ≤ i → i < s → keyLe key (k i) → binarySearch s k key ≤ i := by
      intro i hi0 hi1 hle
      by_contra hlt
      have hpos : 0 < binarySearch s k key := by omega
      have h4 := h3 hpos
      have h5 := hsorted i (binarySearch s k key - 1) hi0 (by omega) (by omega)
      have h6 := keyLt_of_le_of_lt h5 h4
      exact (keyLt_iff_not_keyLe _ _).mp h6 hle
    constructor
    · rintro ⟨i, hi0, hi1, hle⟩
      have := hsmall i hi0 hi1 hle
      exact ⟨h0, by omega, h2 (by omega), hsmall⟩
    · intro hnone
      by_contra hne
      have hlt : binarySearch s k key < s := by omega
      exact hnone _ h0 hlt (h2 hlt)
  · constructor
    · rintro ⟨i, hi0, hi1, _⟩
      omega
    · intro _
      have h0 : s.toNat = 0 := by omega
      simp only [binarySearch, h0, binarySearchLoop]

theorem C11_binarySearch_lower_bound_witness :
    (∀ i j, 0 ≤ i → i ≤ j → j < 3 → keyLe (sampleKeys i) (sampleKeys j)) ∧
    binarySearch 3 sampleKeys (2, 7) = 1 ∧
    (((∃ i, 0 ≤ i ∧ i < 3 ∧ keyLe (2, 7) (sampleKeys i)) →
      0 ≤ binarySearch 3 sampleKeys (2, 7) ∧ binarySearch 3 sampleKeys (2, 7) < 3 ∧
      keyLe (2, 7) (sampleKeys (binarySearch 3 sampleKeys (2, 7))) ∧
      ∀ i, 0 ≤ i → i < 3 → keyLe (2, 7) (sampleKeys i) → binarySearch 3 sampleKeys (2, 7) ≤ i) ∧
    ((∀ i, 0 ≤ i → i < 3 → ¬ keyLe (2, 7) (sampleKeys i)) →
      binarySearch 3 sampleKeys (2, 7) = 3)) :=
  have hs : ∀ i j, 0 ≤ i → i ≤ j → j < 3 → keyLe (sampleKeys i) (sampleKeys j) := by
    intro i j h0 h1 h2
    have hi : i = 0 ∨ i = 1 ∨ i = 2 := by omega
    have hj : j = 0 ∨ j = 1 ∨ j = 2 := by omega
    rcases hi with rfl | rfl | rfl <;> rcases hj with rfl | rfl | rfl <;>
      first | decide | omega
  ⟨hs, by decide, C11_binarySearch_lower_bound 3 sampleKeys (2, 7) hs⟩

/-! ## searchUtil and the range scans on concrete runs -/

set_option maxRecDepth 100000 in
/-- With `B = 2`, on the tree built by the eleven inserts of the concrete
scenarios, the four range scans emit what the scenarios say. -/
theorem scenarioTree_scans :
    scanAfter greaterThanEquals 8 2 scenarioTree 20 = some [20, 71, 71, 71, 71, 71] ∧
    scanAfter greaterThanEquals 8 2 scenarioTree 71 = some [71, 71, 71, 71, 71] ∧
    scanAfter greaterThan 8 2 scenarioTree 71 = some [] ∧
    scanAfter smallerThanEquals 8 2 scenarioTree 11 = some [11, 11, 10, 5] ∧
    scanAfter smallerThan 8 2 scenarioTree 11 = some [10, 5] := by
  decide!

set_option maxRecDepth 100000 in
/-- C12: with `B = 2`, after the seven inserts and the remove of the absent pair
`(36, 36)`, the leaf chain visits the leaves 0, 7, 4, 3 and leaf 4 holds
`(7, 7)`; `searchUtil((7, -1))`, the probe of `greaterThanEquals(7)`, returns
index 0 in leaf 3, whose first entry is `(23, 23)`, although the entry
`(7, 7) >= (7, -1)` stands in the leaf to its left. -/
theorem C12_searchUtil_misses_lower_bound :
    chainAddrsAfter 8 2 borrowScenario = some [0, 7, 4, 3] ∧
    nodeKeysAfter 8 2 borrowScenario 4 = some [(7, 7)] ∧
    nodeKeysAfter 8 2 borrowScenario 3 = some [(23, 23), (33, 33)] ∧
    searchUtilAfter 8 2 borrowScenario (7, -1) = some (0, some 3) ∧
    keyLe (7, -1) (7, 7) := by
  decide!

set_option maxRecDepth 100000 in
/-- C13: with `B = 2`, after the seven inserts, the remove of the absent pair
`(36, 36)` and the insert of `(6, 8)` (all pairs distinct),
`greaterThanEquals(0)` emits `0, 3, 4, 6, 7, 6, 23, 33`, which is not in
ascending order. -/
theorem C13_greaterThanEquals_out_of_order :
    scanAfter greaterThanEquals 8 2 scanScenario 0 = some [0, 3, 4, 6, 7, 6, 23, 33] ∧
    ¬ List.Pairwise (fun a b : Int => a ≤ b) [0, 3, 4, 6, 7, 6, 23, 33] := by
  decide!

set_option maxRecDepth 100000 in
/-- C14: with `B = 2`, after the seven inserts, the remove of the absent pair
`(36, 36)` and the insert of `(6, 8)` (all pairs distinct),
`smallerThanEquals(100)` emits `33, 23, 6, 7, 6, 4, 3, 0`, which is not in
descending order. -/
theorem C14_smallerThanEquals_out_of_order :
    scanAfter smallerThanEquals 8 2 scanScenario 100 = some [33, 23, 6, 7, 6, 4, 3, 0] ∧
    ¬ List.Pairwise (fun a b : Int => b ≤ a) [33, 23, 6, 7, 6, 4, 3, 0] := by
  decide!

set_option maxRecDepth 100000 in
/-- C15: with `B = 2`, after the seven inserts, the remove of the absent pair
`(36, 36)` and the insert of `(6, 8)` (all pairs distinct), `greaterThan(5)`
emits `6, 7, 6, 23, 33`, which is not in ascending order. -/
theorem C15_greaterThan_out_of_order :
    scanAfter greaterThan 8 2 scanScenario 5 = some [6, 7, 6, 23, 33] ∧
    ¬ List.Pairwise (fun a b : Int => a ≤ b) [6, 7, 6, 23, 33] := by
  decide!

set_option maxRecDepth 100000 in
/-- C16: with `B = 2`, after the seven inserts, the remove of the absent pair
`(36, 36)` and the insert of `(6, 8)` (all pairs distinct), `smallerThan(23)`
emits `6, 7, 6, 4, 3, 0`, which is not in descending order. -/
theorem C16_smallerThan_out_of_order :
    scanAfter smallerThan 8 2 scanScenario 23 = some [6, 7, 6, 4, 3, 0] ∧
    ¬ List.Pairwise (fun a b : Int => b ≤ a) [6, 7, 6, 4, 3, 0] := by
  decide!

/-! ## The empty tree -/

/-- C17: for every `B >= 2`, `remove(e)` on a tree whose root is a leaf holding
exactly the entry `e` returns true and leaves the root null; and `insert(e')`
on the empty tree returns true and leaves a root that is a leaf of size 1
holding exactly `e'`, with null sibling pointers. -/
theorem C17_empty_tree_round_trip (B : Int) (_hB : 2 ≤ B) (fuel : Nat) (a : Nat)
    (k : Int → keyRNPair) (c : Int → BPTNode) (L : Links) (e e' : keyRNPair) (hk : k 0 = e) :
    remove (fuel + 1) { root := BPTNode.node a true 1 k c, branchingFactor := B, links := L } e =
      Except.ok (true, { root := BPTNode.null, branchingFactor := B, links := L }) ∧
    ∃ t', insert fuel { root := BPTNode.null, branchingFactor := B, links := L } e' =
        Except.ok (true, t') ∧
      t'.root.isLeaf = true ∧ t'.root.size = 1 ∧ t'.root.keys 0 = e' ∧ t'.root.entries = [e'] ∧
      t'.branchingFactor = B ∧
      ∃ a', t'.root.addr? = some a' ∧ t'.links.leftSibling_ a' = none ∧
        t'.links.rightSibling_ a' = none := by
  constructor
  · have hb : binarySearch 1 k e = 0 := by
      have hle : keyLe e (k 0) := by rw [hk]; exact keyLe_refl e
      simp [binarySearch, binarySearchLoop, hle]
    simp [remove, removeLoop, hb, hk]
  · refine ⟨_, rfl, rfl, rfl, ?_, ?_, rfl, L.next, rfl, ?_, ?_⟩
    · simp [BPTNode.keys, setAt]
    · simp [BPTNode.entries, keysFrom, setAt, List.range_succ]
    · simp [Links.alloc, setLink]
    · simp [Links.alloc, setLink]

theorem C17_empty_tree_round_trip_witness :
    (2 : Int) ≤ 2 ∧ sampleKeys 0 = (1, 0) ∧
    (remove (0 + 1)
        { root := BPTNode.node 0 true 1 sampleKeys nullChild, branchingFactor := 2,
          links := (BPTree.empty 2).links } (1, 0) =
      Except.ok (true,
        { root := BPTNode.null, branchingFactor := 2, links := (BPTree.empty 2).links }) ∧
    ∃ t', insert 0
          { root := BPTNode.null, branchingFactor := 2, links := (BPTree.empty 2).links }
          (9, 4) = Except.ok (true, t') ∧
      t'.root.isLeaf = true ∧ t'.root.size = 1 ∧ t'.root.keys 0 = (9, 4) ∧
      t'.root.entries = [(9, 4)] ∧ t'.branchingFactor = 2 ∧
      ∃ a', t'.root.addr? = some a' ∧ t'.links.leftSibling_ a' = none ∧
        t'.links.rightSibling_ a' = none) :=
  ⟨by decide, rfl,
    C17_empty_tree_round_trip 2 (by decide) 0 0 sampleKeys nullChild (BPTree.empty 2).links
      (1, 0) (9, 4) rfl⟩

/-! ## The split key convention -/

/-- C18: for every `B >= 2` and every full node `c` (size `2B-1`, keys `e`),
`splitNode(parent, c, i)` on a parent that is not full and `splitRoot` on the
root `c` leave `c` with `e[0..B-1]` (size `B`) if it is a leaf and with
`e[0..B-2]` (size `B-1`) and its children `0..B-1` if it is internal; the new
right sibling holds `e[B..2B-2]` (size `B-1`) and the children `B..2B-1` of
`c` in order; the separator `e[B-1]` is written at index `i` of the parent,
whose former `keys[i..]` and `child[i+1..]` move right by one (at index 0 of
the new root); and the new sibling is child `i+1` of the parent (child 1 of
the new root). -/
theorem C18_split_key_convention (B : Int) (_hB : 2 ≤ B) (pa : Nat) (pl : Bool) (ps : Int)
    (pk : Int → keyRNPair) (pc : Int → BPTNode) (i : Int) (L : Links)
    (ca : Nat) (cl : Bool) (ck : Int → keyRNPair) (cc : Int → BPTNode)
    (_hi0 : 0 ≤ i) (hi1 : i ≤ ps) (_hps : ps < 2 * B - 1)
    (hc : pc i = BPTNode.node ca cl (2 * B - 1) ck cc) :
    (∃ p' L', splitNode B (BPTNode.node pa pl ps pk pc) i L = Except.ok (p', L') ∧
      p'.addr? = some pa ∧ p'.isLeaf = pl ∧ p'.size = ps + 1 ∧
      (∀ j, 0 ≤ j → j < i → p'.keys j = pk j) ∧ p'.keys i = ck (B - 1) ∧
      (∀ j, i ≤ j → j < ps → p'.keys (j + 1) = pk j) ∧
      (∀ j, 0 ≤ j → j < i → p'.child j = pc j) ∧
      (∀ j, i < j → j ≤ ps → p'.child (j + 1) = pc j) ∧
      (p'.child i).addr? = some ca ∧ (p'.child i).isLeaf = cl ∧
      (p'.child i).size = (if cl = true then B else B - 1) ∧
      (∀ j, 0 ≤ j → j < (p'.child i).size → (p'.child i).keys j = ck j) ∧
      (∀ j, 0 ≤ j → j < B → (p'.child i).child j = cc j) ∧
      (p'.child (i + 1)).addr? = some L.next ∧ (p'.child (i + 1)).isLeaf = cl ∧
      (p'.child (i + 1)).size = B - 1 ∧
      (∀ j, 0 ≤ j → j < B - 1 → (p'.child (i + 1)).keys j = ck (B + j)) ∧
      (∀ j, 0 ≤ j → j ≤ B - 1 → (p'.child (i + 1)).child j = cc (B + j))) ∧
    (∃ r' L', splitRoot B (BPTNode.node ca cl (2 * B - 1) ck cc) L = Except.ok (r', L') ∧
      r'.isLeaf = false ∧ r'.size = 1 ∧ r'.keys 0 = ck (B - 1) ∧
      (r'.child 0).addr? = some ca ∧ (r'.child 0).isLeaf = cl ∧
      (r'.child 0).size = (if cl = true then B else B - 1) ∧
      (∀ j, 0 ≤ j → j < (r'.child 0).size → (r'.child 0).keys j = ck j) ∧
      (∀ j, 0 ≤ j → j < B → (r'.child 0).child j = cc j) ∧
      (r'.child 1).isLeaf = cl ∧ (r'.child 1).size = B - 1 ∧
      (∀ j, 0 ≤ j → j < B - 1 → (r'.child 1).keys j = ck (B + j)) ∧
      (∀ j, 0 ≤ j → j ≤ B - 1 → (r'.child 1).child j = cc (B + j))) := by
  have hright : ∀ j, 0 ≤ j → j ≤ B - 1 →
      setAt (splitCopyC B (nullChild, cc)).1 (B - 1) ((splitCopyC B (nullChild, cc)).2 (2 * B - 1)) j
        = cc (B + j) := by
    intro j h0 h1
    rw [setAt_apply]
    by_cases hj : j = B - 1
    · rw [if_pos hj, splitCopyC_snd, if_neg (by omega)]
      congr 1; omega
    · rw [if_neg hj, splitCopyC_fst, if_pos (by omega)]
      congr 1; omega
  have hleft : ∀ j, 0 ≤ j → j < B →
      setAt (splitCopyC B (nullChild, cc)).2 (2 * B - 1) BPTNode.null j = cc j := by
    intro j h0 h1
    rw [setAt_apply, if_neg (by omega), splitCopyC_snd, if_neg (by omega)]
  have hkeys : ∀ j, 0 ≤ j → j < B - 1 → splitCopyK B ck zeroKeys j = ck (B + j) := by
    intro j h0 h1
    rw [splitCopyK_apply, if_pos (by omega)]
    congr 1; omega
  have hsz : (if (!cl) = true then B - 1 else B) = (if cl = true then B else B - 1) := by
    cases cl <;> simp
  constructor
  · simp only [splitNode, hc, Links.alloc]
    refine ⟨_, _, rfl, rfl, rfl, rfl, ?_, ?_, ?_, ?_, ?_, ?_⟩
    · intro j h0 h1
      simp only [BPTNode.keys]
      rw [setAt_apply, if_neg (by omega), shiftRightK_apply _ _ _ _ hi1, if_neg (by omega)]
    · simp only [BPTNode.keys]
      rw [setAt_apply, if_pos rfl]
    · intro j h0 h1
      simp only [BPTNode.keys]
      rw [setAt_apply, if_neg (by omega), shiftRightK_apply _ _ _ _ hi1, if_pos (by omega)]
      congr 1; omega
    · intro j h0 h1
      simp only [BPTNode.child]
      rw [setAt_apply, if_neg (by omega), setAt_apply, if_neg (by omega),
        shiftRightC_apply _ _ _ _ hi1, if_neg (by omega), if_neg (by omega)]
    · intro j h0 h1
      simp only [BPTNode.child]
      rw [setAt_apply, if_neg (by omega), setAt_apply, if_neg (by omega),
        shiftRightC_apply _ _ _ _ hi1, if_pos (by omega)]
      congr 1; omega
    · have e1 : (setAt (setAt (shiftRightC i ps pc) i
          (BPTNode.node ca cl (if (!cl) = true then B - 1 else B) ck
            (setAt (splitCopyC B (nullChild, cc)).2 (2 * B - 1) BPTNode.null))) (i + 1)
          (BPTNode.node L.next cl (B - 1) (splitCopyK B ck zeroKeys)
            (setAt (splitCopyC B (nullChild, cc)).1 (B - 1)
              ((splitCopyC B (nullChild, cc)).2 (2 * B - 1))))) i
          = BPTNode.node ca cl (if (!cl) = true then B - 1 else B) ck
            (setAt (splitCopyC B (nullChild, cc)).2 (2 * B - 1) BPTNode.null) := by
        rw [setAt_apply, if_neg (by omega), setAt_apply, if_pos rfl]
      have e2 : (setAt (setAt (shiftRightC i ps pc) i
          (BPTNode.node ca cl (if (!cl) = true then B - 1 else B) ck
            (setAt (splitCopyC B (nullChild, cc)).2 (2 * B - 1) BPTNode.null))) (i + 1)
          (BPTNode.node L.next cl (B - 1) (splitCopyK B ck zeroKeys)
            (setAt (splitCopyC B (nullChild, cc)).1 (B - 1)
              ((splitCopyC B (nullChild, cc)).2 (2 * B - 1))))) (i + 1)
          = BPTNode.node L.next cl (B - 1) (splitCopyK B ck zeroKeys)
            (setAt (splitCopyC B (nullChild, cc)).1 (B - 1)
              ((splitCopyC B (nullChild, cc)).2 (2 * B - 1))) := by
        rw [setAt_apply, if_pos rfl]
      simp only [BPTNode.child, e1, e2, BPTNode.addr?, BPTNode.isLeaf, BPTNode.size,
        BPTNode.keys]
      exact ⟨trivial, trivial, hsz, fun _ _ _ => trivial, hleft, trivial, trivial, trivial,
        hkeys, hright⟩
  · simp only [splitRoot, Links.alloc]
    refine ⟨_, _, rfl, rfl, rfl, ?_, ?_⟩
    · simp only [BPTNode.keys]
      rw [setAt_apply, if_pos rfl]
    · have e1 : ∀ (x y : BPTNode), setAt (setAt nullChild 1 x) 0 y 0 = y := by
        intro x y; rw [setAt_apply, if_pos rfl]
      have e2 : ∀ (x y : BPTNode), setAt (setAt nullChild 1 x) 0 y 1 = x := by
        intro x y; rw [setAt_apply, if_neg (by omega), setAt_apply, if_pos rfl]
      simp only [BPTNode.child, e1, e2, BPTNode.addr?, BPTNode.isLeaf, BPTNode.size,
        BPTNode.keys]
      exact ⟨trivial, trivial, hsz, fun _ _ _ => trivial, hleft, trivial, trivial, hkeys, hright⟩

theorem C18_split_key_convention_witness :
    (2 : Int) ≤ 2 ∧ (0 : Int) ≤ 0 ∧ (0 : Int) ≤ 1 ∧ (1 : Int) < 2 * 2 - 1 ∧
    sampleChildren 0 = BPTNode.node 1 true (2 * 2 - 1) sampleKeys nullChild ∧
    ∃ p' L', splitNode 2 (BPTNode.node 0 false 1 (setAt zeroKeys 0 (5, 0)) sampleChildren) 0
        (BPTree.empty 2).links = Except.ok (p', L') ∧
      p'.size = 1 + 1 ∧ p'.keys 0 = sampleKeys (2 - 1) ∧
      (p'.child 0).size = (if true = true then 2 else 2 - 1) ∧ (p'.child (0 + 1)).size = 2 - 1 :=
  ⟨by decide, by decide, by decide, by decide, rfl,
    match (C18_split_key_convention 2 (by decide) 0 false 1 (setAt zeroKeys 0 (5, 0))
      sampleChildren 0 (BPTree.empty 2).links 1 true sampleKeys nullChild (by decide)
      (by decide) (by decide) rfl).1 with
    | ⟨p', L', h⟩ =>
      ⟨p', L', h.1, h.2.2.2.1, h.2.2.2.2.2.1, h.2.2.2.2.2.2.2.2.2.2.2.1,
        h.2.2.2.2.2.2.2.2.2.2.2.2.2.2.2.2.1⟩⟩

/-! ## The recorded descents return what insert and remove return -/

theorem insertLoop_leaf (B : Int) (key : keyRNPair) (fuel : Nat) (a : Nat) (s : Int)
    (k : Int → keyRNPair) (c : Int → BPTNode) (L : Links) :
    insertLoop B key (fuel + 1) (BPTNode.node a true s k c) L =
      insertLoop B key 1 (BPTNode.node a true s k c) L := by
  simp only [insertLoop]

theorem insertLoopT_snd (B : Int) (key : keyRNPair) (fuel : Nat) :
    ∀ (n : BPTNode) (L : Links), (insertLoopT B key fuel n L).2 = insertLoop B key fuel n L := by
  induction fuel with
  | zero => intro n L; rfl
  | succ fuel ih =>
    intro n L
    cases n with
    | null => rfl
    | node a l s k c =>
      cases l with
      | true => simp only [insertLoopT, insertLoop]
      | false =>
        simp only [insertLoopT, insertLoop]
        split
        · rfl
        · split
          · simp only [ih]
          · split
            · rfl
            · simp only [ih]

theorem insertT_snd (fuel : Nat) (t : BPTree) (key : keyRNPair) :
    (insertT fuel t key).2 = insert fuel t key := by
  unfold insertT insert
  split
  · rfl
  · simp only
    split
    · rfl
    · simp only [insertLoopT_snd]

theorem removeLoopT_snd (B : Int) (key : keyRNPair) (fuel : Nat) :
    ∀ (isRoot : Bool) (n : BPTNode) (L : Links),
      (removeLoopT B key fuel isRoot n L).2 = removeLoop B key fuel isRoot n L := by
  induction fuel with
  | zero => intro isRoot n L; rfl
  | succ fuel ih =>
    intro isRoot n L
    cases n with
    | null => rfl
    | node a l s k c =>
      cases l with
      | true => simp only [removeLoopT, removeLoop]
      | false =>
        simp only [removeLoopT, removeLoop]
        split
        · rfl
        · split
          · simp only [ih]
          · split
            · rfl
            · split
              · rfl
              · simp only [ih]
            · split
              · rfl
              · split
                · rfl
                · simp only [ih]
              · split
                · rfl
                · simp only [ih]
                · simp only [ih]
                · simp only [ih]

theorem removeT_snd (fuel : Nat) (t : BPTree) (key : keyRNPair) :
    (removeT fuel t key).2 = remove fuel t key := by
  unfold removeT remove
  split
  · rfl
  · simp only [removeLoopT_snd]

/-! ## The descent of insert enters nodes with room -/

theorem insertLoopT_steps {B : Int} {ord : Bool} (hB : 2 ≤ B) (key : keyRNPair) (fuel : Nat) :
    ∀ (h : Nat) (P Q : keyRNPair → Prop) (n : BPTNode) (L : Links),
      (∀ e, P e → Q e) → WF B ord h P Q n → 0 ≤ n.size → n.size < 2 * B - 1 →
      (∀ m, InsertStep.current m ∈ (insertLoopT B key fuel n L).1 →
        0 ≤ m.size ∧ m.size < 2 * B - 1) ∧
      (∀ p i, InsertStep.splitNode p i ∈ (insertLoopT B key fuel n L).1 →
        p.size < 2 * B - 1 ∧ 0 ≤ i ∧ i ≤ p.size) := by
  induction fuel with
  | zero =>
    intro h P Q n L _ _ _ _
    simp [insertLoopT]
  | succ fuel ih =>
    intro h P Q n L hPQ hwf hs0 hs
    cases n with
    | null => simp [insertLoopT]
    | node a l s k c =>
      cases l with
      | true =>
        simp only [insertLoopT, List.mem_singleton, InsertStep.current.injEq, reduceCtorEq,
          false_imp_iff, implies_true, and_true]
        intro m hm
        rw [hm]; exact ⟨hs0, hs⟩
      | false =>
        simp only [BPTNode.size] at hs0 hs
        obtain ⟨h', hh⟩ := WF_internal_height hwf
        subst hh
        obtain ⟨hb0, hb1, _, _⟩ := binarySearch_spec s k key hs0
        have hwf' := hwf
        simp only [WF] at hwf'
        obtain ⟨_, _, _, _, hch⟩ := hwf'
        have hhere : 0 ≤ (BPTNode.node a false s k c).size ∧
            (BPTNode.node a false s k c).size < 2 * B - 1 := ⟨hs0, hs⟩
        cases hc : c (binarySearch s k key) with
        | null =>
          simp only [insertLoopT, hc, List.mem_singleton, InsertStep.current.injEq, reduceCtorEq,
            false_imp_iff, implies_true, and_true]
          intro m hm
          rw [hm]; exact hhere
        | node ca cl cs ck cc =>
          have hcs := hch _ hb0 hb1
          rw [hc] at hcs
          have hcsz : B - 1 ≤ cs := by
            rcases hcs.1 with h1 | h1
            · exact absurd h1 (by simp)
            · exact h1
          simp only [insertLoopT, hc]
          by_cases hfull : cs < 2 * B - 1
          · simp only [if_pos hfull]
            have hih := ih h' _ _ (BPTNode.node ca cl cs ck cc) L (childPQ hPQ k s _) hcs.2
              (by simp only [BPTNode.size]; omega) (by simp only [BPTNode.size]; omega)
            constructor
            · intro m hm
              rcases List.mem_cons.mp hm with h1 | h1
              · rw [InsertStep.current.injEq] at h1
                rw [h1]; exact hhere
              · exact hih.1 m h1
            · intro p i hp
              rcases List.mem_cons.mp hp with h1 | h1
              · exact absurd h1 (by simp)
              · exact hih.2 p i h1
          · simp only [if_neg hfull]
            cases hsp : splitNode B (BPTNode.node a false s k c) (binarySearch s k key) L with
            | error e =>
              simp only [List.mem_cons, InsertStep.current.injEq, reduceCtorEq, false_or, or_false,
                List.mem_singleton, InsertStep.splitNode.injEq, List.not_mem_nil]
              constructor
              · intro m hm
                rw [hm]; exact hhere
              · intro p i hp
                rw [hp.1, hp.2]; exact ⟨hs, hb0, hb1⟩
            | ok r =>
              obtain ⟨cur, L2⟩ := r
              have hcfull : (c (binarySearch s k key)).size = 2 * B - 1 := by
                rw [hc]; simp only [BPTNode.size]
                have := WF_size_le hcs.2
                omega
              obtain ⟨k', c', hcur, hwfcur, _, _, _, hci, hci1⟩ :=
                splitNode_WF hB h' hPQ (binarySearch s k key) L hwf hb0 hb1 hs hcfull hsp
              subst hcur
              have hwfcur' := hwfcur
              simp only [WF] at hwfcur'
              obtain ⟨_, _, _, _, hch'⟩ := hwfcur'
              have hih : ∀ (nx : Int), 0 ≤ nx → nx ≤ s + 1 → B - 1 ≤ (c' nx).size →
                  (c' nx).size < 2 * B - 1 →
                  (∀ m, InsertStep.current m ∈ (insertLoopT B key fuel (c' nx) L2).1 →
                    0 ≤ m.size ∧ m.size < 2 * B - 1) ∧
                  (∀ p i, InsertStep.splitNode p i ∈ (insertLoopT B key fuel (c' nx) L2).1 →
                    p.size < 2 * B - 1 ∧ 0 ≤ i ∧ i ≤ p.size) := by
                intro nx h0 h1 h2 h3
                exact ih h' _ _ (c' nx) L2 (childPQ hPQ k' (s + 1) _) (hch' nx h0 h1).2
                  (by omega) h3
              simp only [BPTNode.keys, BPTNode.child]
              have hnext := hih (if keyLe key (k' (binarySearch s k key)) then binarySearch s k key
                  else binarySearch s k key + 1)
                (by split_ifs <;> omega) (by split_ifs <;> omega)
                (by split_ifs; exact hci.2.2; exact hci1.2.2)
                (by split_ifs; exact hci.2.1; exact hci1.2.1)
              constructor
              · intro m hm
                rcases List.mem_cons.mp hm with h1 | h1
                · rw [InsertStep.current.injEq] at h1
                  rw [h1]; exact hhere
                · rcases List.mem_cons.mp h1 with h2 | h2
                  · exact absurd h2 (by simp)
                  · exact hnext.1 m h2
              · intro p i hp
                rcases List.mem_cons.mp hp with h1 | h1
                · exact absurd h1 (by simp)
                · rcases List.mem_cons.mp h1 with h2 | h2
                  · rw [InsertStep.splitNode.injEq] at h2
                    rw [h2.1, h2.2]; exact ⟨hs, hb0, hb1⟩
                  · exact hnext.2 p i h2

/-! ## The descent of remove enters nodes with at least `B` entries -/

theorem RemoveStepsOK_nil (B : Int) : RemoveStepsOK B [] := by
  simp [RemoveStepsOK]

theorem RemoveStepsOK_current {B : Int} {isRoot : Bool} {n : BPTNode} {steps : List RemoveStep}
    (hn : isRoot = false → B ≤ n.size) (hs : RemoveStepsOK B steps) :
    RemoveStepsOK B (RemoveStep.current isRoot n :: steps) := by
  refine ⟨fun m hm => ?_, fun m hm => ?_, fun m hm => ?_⟩
  · rcases List.mem_cons.mp hm with h1 | h1
    · rw [RemoveStep.current.injEq] at h1
      rw [h1.2]; exact hn h1.1.symm
    · exact hs.1 m h1
  · rcases List.mem_cons.mp hm with h1 | h1
    · exact absurd h1 (by simp)
    · exact hs.2.1 m h1
  · rcases List.mem_cons.mp hm with h1 | h1
    · exact absurd h1 (by simp)
    · exact hs.2.2 m h1

theorem RemoveStepsOK_borrowed {B : Int} {n : BPTNode} {steps : List RemoveStep}
    (hn : n.size = B) (hs : RemoveStepsOK B steps) :
    RemoveStepsOK B (RemoveStep.borrowed n :: steps) := by
  refine ⟨fun m hm => ?_, fun m hm => ?_, fun m hm => ?_⟩
  · rcases List.mem_cons.mp hm with h1 | h1
    · exact absurd h1 (by simp)
    · exact hs.1 m h1
  · rcases List.mem_cons.mp hm with h1 | h1
    · rw [RemoveStep.borrowed.injEq] at h1
      rw [h1]; exact hn
    · exact hs.2.1 m h1
  · rcases List.mem_cons.mp hm with h1 | h1
    · exact absurd h1 (by simp)
    · exact hs.2.2 m h1

theorem RemoveStepsOK_merged {B : Int} {n : BPTNode} {steps : List RemoveStep}
    (hn : n.size = if n.isLeaf = true then 2 * B - 2 else 2 * B - 1)
    (hs : RemoveStepsOK B steps) :
    RemoveStepsOK B (RemoveStep.merged n :: steps) := by
  refine ⟨fun m hm => ?_, fun m hm => ?_, fun m hm => ?_⟩
  · rcases List.mem_cons.mp hm with h1 | h1
    · exact absurd h1 (by simp)
    · exact hs.1 m h1
  · rcases List.mem_cons.mp hm with h1 | h1
    · exact absurd h1 (by simp)
    · exact hs.2.1 m h1
  · rcases List.mem_cons.mp hm with h1 | h1
    · rw [RemoveStep.merged.injEq] at h1
      rw [h1]; exact hn
    · exact hs.2.2 m h1

/-- In a subtree that satisfies the invariant, a node is a leaf exactly at
height 0. -/
theorem WF_isLeaf {B : Int} {ord : Bool} {h : Nat} {P Q : keyRNPair → Prop} {a : Nat} {l : Bool}
    {s : Int} {k : Int → keyRNPair} {c : Int → BPTNode}
    (hwf : WF B ord h P Q (BPTNode.node a l s k c)) : l = decide (h = 0) := by
  cases h with
  | zero => simp only [WF] at hwf; simp [hwf.1]
  | succ h => simp only [WF] at hwf; simp [hwf.1]

/-- The size that `mergeWithSibling` leaves in the merged node: `2B-2` for a
leaf, `2B-1` for an internal node. -/
theorem mergeWithSibling_size {B : Int} {ord : Bool} (h : Nat) {P Q : keyRNPair → Prop}
    {pa : Nat} {ps : Int} {pk : Int → keyRNPair} {pc : Int → BPTNode} (idx : Int) (L : Links)
    {out : MergeOut} {L' : Links}
    (hwf : WF B ord (h + 1) P Q (BPTNode.node pa false ps pk pc))
    (hi0 : 0 ≤ idx) (hi1 : idx ≤ ps)
    (hres : mergeWithSibling B idx (BPTNode.node pa false ps pk pc) L = Except.ok (out, L')) :
    (∀ cur i, out = MergeOut.kept cur i →
      (cur.child i).size = if (cur.child i).isLeaf = true then 2 * B - 2 else 2 * B - 1) ∧
    (∀ m, out = MergeOut.collapsed m →
      m.size = if m.isLeaf = true then 2 * B - 2 else 2 * B - 1) := by
  have hwf' := hwf
  simp only [WF] at hwf'
  obtain ⟨_, _, _, _, hch⟩ := hwf'
  have fin : ∀ (m : BPTNode) (k' : Int → keyRNPair) (c' : Int → BPTNode) (i : Int) (Lx : Links),
      c' i = m → m.size = (if m.isLeaf = true then 2 * B - 2 else 2 * B - 1) →
      (if ps - 1 = 0 then Except.ok (MergeOut.collapsed m, Lx)
        else (Except.ok (MergeOut.kept (BPTNode.node pa false (ps - 1) k' c') i, Lx) :
          Except Fault (MergeOut × Links))) = Except.ok (out, L') →
      (∀ cur i, out = MergeOut.kept cur i →
        (cur.child i).size = if (cur.child i).isLeaf = true then 2 * B - 2 else 2 * B - 1) ∧
      (∀ m, out = MergeOut.collapsed m →
        m.size = if m.isLeaf = true then 2 * B - 2 else 2 * B - 1) := by
    intro m k' c' i Lx hci hm hr
    subst hci
    by_cases hp : ps - 1 = 0
    · rw [if_pos hp] at hr
      simp only [Except.ok.injEq, Prod.mk.injEq] at hr
      rw [← hr.1]
      refine ⟨fun cur i' he => absurd he (by simp), fun m' he => ?_⟩
      rw [MergeOut.collapsed.injEq] at he
      rw [← he]; exact hm
    · rw [if_neg hp] at hr
      simp only [Except.ok.injEq, Prod.mk.injEq] at hr
      rw [← hr.1]
      refine ⟨fun cur i' he => ?_, fun m' he => absurd he (by simp)⟩
      rw [MergeOut.kept.injEq] at he
      rw [← he.1, ← he.2]
      simp only [BPTNode.child]
      exact hm
  unfold mergeWithSibling at hres
  by_cases hpos : idx > 0
  · simp only [if_pos hpos] at hres
    cases hl : pc (idx - 1) with
    | null => simp [hl] at hres
    | node la ll ls lk lc =>
      cases hc : pc idx with
      | null => simp [hl, hc] at hres
      | node ca cl cs ck cc =>
        simp only [hl, hc] at hres
        cases ll with
        | true =>
          simp only [if_true] at hres
          refine fin _ _ _ _ _ ?_ ?_ hres
          · rw [setAt_apply, if_pos rfl]
          · simp only [BPTNode.size, BPTNode.isLeaf, if_true]; omega
        | false =>
          simp only [Bool.false_eq_true, if_false] at hres
          refine fin _ _ _ _ _ ?_ ?_ hres
          · rw [setAt_apply, if_pos rfl]
          · simp only [BPTNode.size, BPTNode.isLeaf, Bool.false_eq_true, if_false]
  · simp only [if_neg hpos] at hres
    by_cases hlt : idx < ps
    · simp only [if_pos hlt] at hres
      cases hc : pc idx with
      | null => simp [hc] at hres
      | node ca cl cs ck cc =>
        cases hr : pc (idx + 1) with
        | null => simp [hc, hr] at hres
        | node ra rl rs rk rc =>
          simp only [hc, hr] at hres
          have h1 := (hch idx hi0 hi1).2
          have h2 := (hch (idx + 1) (by omega) (by omega)).2
          rw [hc] at h1
          rw [hr] at h2
          have hflag : cl = rl := by rw [WF_isLeaf h1, WF_isLeaf h2]
          subst hflag
          cases cl with
          | true =>
            simp only [if_true] at hres
            refine fin _ _ _ _ _ ?_ ?_ hres
            · rw [setAt_apply, if_pos rfl]
            · simp only [BPTNode.size, BPTNode.isLeaf, if_true]; omega
          | false =>
            simp only [Bool.false_eq_true, if_false] at hres
            refine fin _ _ _ _ _ ?_ ?_ hres
            · rw [setAt_apply, if_pos rfl]
            · simp only [BPTNode.size, BPTNode.isLeaf, Bool.false_eq_true, if_false]
    · simp only [if_neg hlt, Except.ok.injEq, Prod.mk.injEq] at hres
      rw [← hres.1]
      exact ⟨fun cur i he => absurd he (by simp), fun m he => absurd he (by simp)⟩

theorem removeLoopT_steps {B : Int} {ord : Bool} (hB : 2 ≤ B) (key : keyRNPair) (fuel : Nat) :
    ∀ (isRoot : Bool) (h : Nat) (P Q : keyRNPair → Prop) (n : BPTNode) (L : Links),
      (∀ e, P e → Q e) → WF B ord h P Q n →
      (if isRoot = true then 1 ≤ n.size else B ≤ n.size) →
      RemoveStepsOK B (removeLoopT B key fuel isRoot n L).1 := by
  induction fuel with
  | zero =>
    intro isRoot h P Q n L _ _ _
    exact RemoveStepsOK_nil B
  | succ fuel ih =>
    intro isRoot h P Q n L hPQ hwf hsz
    cases n with
    | null => exact RemoveStepsOK_nil B
    | node a l s k c =>
      simp only [BPTNode.size] at hsz
      have hs1 : 1 ≤ s := by
        cases isRoot <;> simp at hsz <;> omega
      have hhere : isRoot = false → B ≤ (BPTNode.node a l s k c).size := by
        intro hr
        subst hr
        simpa using hsz
      cases l with
      | true =>
        simp only [removeLoopT]
        exact RemoveStepsOK_current hhere (RemoveStepsOK_nil B)
      | false =>
        obtain ⟨h', hh⟩ := WF_internal_height hwf
        subst hh
        have hbs := binarySearch_spec s k key (by omega)
        obtain ⟨hb0, hb1, _, _⟩ := hbs
        have hwf' := hwf
        simp only [WF] at hwf'
        obtain ⟨_, _, _, _, hch⟩ := hwf'
        cases hc : c (binarySearch s k key) with
        | null =>
          simp only [removeLoopT, hc]
          exact RemoveStepsOK_current hhere (RemoveStepsOK_nil B)
        | node ca cl cs ck cc =>
          have hcs := hch _ hb0 hb1
          rw [hc] at hcs
          have hcsz : B - 1 ≤ cs := by
            rcases hcs.1 with h1 | h1
            · exact absurd h1 (by simp)
            · exact h1
          simp only [removeLoopT, hc]
          by_cases hmin : cs ≠ B - 1
          · simp only [if_pos hmin]
            exact RemoveStepsOK_current hhere (ih false h' _ _ _ L (childPQ hPQ k s _) hcs.2
              (by simp only [BPTNode.size, Bool.false_eq_true, if_false]; omega))
          · simp only [if_neg hmin]
            have hcsEq : (c (binarySearch s k key)).size = B - 1 := by
              rw [hc]; simp only [BPTNode.size]; omega
            have descend : ∀ (cur : BPTNode) (i : Int) (L1 : Links) (s' : Int)
                (k' : Int → keyRNPair) (c' : Int → BPTNode),
                cur = BPTNode.node a false s' k' c' →
                WF B ord (h' + 1) P Q cur → B ≤ (c' i).size → 0 ≤ i → i ≤ s' →
                RemoveStepsOK B (removeLoopT B key fuel false (cur.child i) L1).1 := by
              intro cur i L1 s' k' c' hcur hw hsz' hi0 hi1
              subst hcur
              simp only [BPTNode.child]
              have hw' := hw
              simp only [WF] at hw'
              exact ih false h' _ _ _ L1 (childPQ hPQ k' s' _) (hw'.2.2.2.2 i hi0 hi1).2
                (by simp only [Bool.false_eq_true, if_false]; exact hsz')
            by_cases hbigL : 0 < binarySearch s k key ∧
                B - 1 < (c (binarySearch s k key - 1)).size
            · have hleftBig : (if binarySearch s k key > 0 then
                  (match c (binarySearch s k key - 1) with
                    | BPTNode.null => Except.error Fault.nullDeref
                    | BPTNode.node _ _ ls _ _ => Except.ok (decide (ls > B - 1)))
                  else (Except.ok false : Except Fault Bool)) = Except.ok true := by
                rw [if_pos hbigL.1]
                cases hl : c (binarySearch s k key - 1) with
                | null => rw [hl] at hbigL; simp [BPTNode.size] at hbigL; omega
                | node la ll ls lk lc =>
                  rw [hl] at hbigL
                  simp only [BPTNode.size] at hbigL
                  simp only [Except.ok.injEq, decide_eq_true_eq]
                  omega
              simp only [hleftBig]
              cases hbl : borrowFromLeftSibling (binarySearch s k key) (BPTNode.node a false s k c) with
              | error e => exact RemoveStepsOK_current hhere (RemoveStepsOK_nil B)
              | ok cur =>
                obtain ⟨k', c', hcur, hw, hnn, hsz'⟩ :=
                  borrowFromLeftSibling_WF hB h' hPQ _ hwf hbigL.1 hb1 hcsEq hbigL.2 hbl
                refine RemoveStepsOK_current hhere (RemoveStepsOK_borrowed ?_
                  (descend cur _ L s k' c' hcur hw (by omega) hb0 hb1))
                rw [hcur]; exact hsz'
            · have hleftBig : (if binarySearch s k key > 0 then
                  (match c (binarySearch s k key - 1) with
                    | BPTNode.null => Except.error Fault.nullDeref
                    | BPTNode.node _ _ ls _ _ => Except.ok (decide (ls > B - 1)))
                  else (Except.ok false : Except Fault Bool)) = Except.ok false ∨
                  ∃ e, (if binarySearch s k key > 0 then
                  (match c (binarySearch s k key - 1) with
                    | BPTNode.null => Except.error Fault.nullDeref
                    | BPTNode.node _ _ ls _ _ => Except.ok (decide (ls > B - 1)))
                  else (Except.ok false : Except Fault Bool)) = Except.error e := by
                by_cases hp : binarySearch s k key > 0
                · rw [if_pos hp]
                  cases hl : c (binarySearch s k key - 1) with
                  | null => exact Or.inr ⟨_, rfl⟩
                  | node la ll ls lk lc =>
                    left
                    rw [hl] at hbigL
                    simp only [BPTNode.size] at hbigL
                    simp only [Except.ok.injEq, decide_eq_false_iff_not]
                    omega
                · rw [if_neg hp]; exact Or.inl rfl
              rcases hleftBig with hlb | ⟨e, hlb⟩
              swap
              · simp only [hlb]
                exact RemoveStepsOK_current hhere (RemoveStepsOK_nil B)
              simp only [hlb]
              by_cases hbigR : binarySearch s k key < s ∧
                  B - 1 < (c (binarySearch s k key + 1)).size
              · have hrightBig : (if binarySearch s k key < s then
                    (match c (binarySearch s k key + 1) with
                      | BPTNode.null => Except.error Fault.nullDeref
                      | BPTNode.node _ _ rs _ _ => Except.ok (decide (rs > B - 1)))
                    else (Except.ok false : Except Fault Bool)) = Except.ok true := by
                  rw [if_pos hbigR.1]
                  cases hr : c (binarySearch s k key + 1) with
                  | null => rw [hr] at hbigR; simp [BPTNode.size] at hbigR; omega
                  | node ra rl rs rk rc =>
                    rw [hr] at hbigR
                    simp only [BPTNode.size] at hbigR
                    simp only [Except.ok.injEq, decide_eq_true_eq]
                    omega
                simp only [hrightBig]
                cases hbr : borrowFromRightSibling (binarySearch s k key)
                    (BPTNode.node a false s k c) with
                | error e => exact RemoveStepsOK_current hhere (RemoveStepsOK_nil B)
                | ok cur =>
                  obtain ⟨k', c', hcur, hw, hnn, hsz'⟩ :=
                    borrowFromRightSibling_WF hB h' hPQ _ hwf hb0 hbigR.1 hcsEq hbigR.2 hbr
                  refine RemoveStepsOK_current hhere (RemoveStepsOK_borrowed ?_
                    (descend cur _ L s k' c' hcur hw (by omega) hb0 hb1))
                  rw [hcur]; exact hsz'
              · have hrightBig : (if binarySearch s k key < s then
                    (match c (binarySearch s k key + 1) with
                      | BPTNode.null => Except.error Fault.nullDeref
                      | BPTNode.node _ _ rs _ _ => Except.ok (decide (rs > B - 1)))
                    else (Except.ok false : Except Fault Bool)) = Except.ok false ∨
                    ∃ e, (if binarySearch s k key < s then
                    (match c (binarySearch s k key + 1) with
                      | BPTNode.null => Except.error Fault.nullDeref
                      | BPTNode.node _ _ rs _ _ => Except.ok (decide (rs > B - 1)))
                    else (Except.ok false : Except Fault Bool)) = Except.error e := by
                  by_cases hp : binarySearch s k key < s
                  · rw [if_pos hp]
                    cases hr : c (binarySearch s k key + 1) with
                    | null => exact Or.inr ⟨_, rfl⟩
                    | node ra rl rs rk rc =>
                      left
                      rw [hr] at hbigR
                      simp only [BPTNode.size] at hbigR
                      simp only [Except.ok.injEq, decide_eq_false_iff_not]
                      omega
                  · rw [if_neg hp]; exact Or.inl rfl
                rcases hrightBig with hrb | ⟨e, hrb⟩
                swap
                · simp only [hrb]
                  exact RemoveStepsOK_current hhere (RemoveStepsOK_nil B)
                simp only [hrb]
                have hleft : 0 < binarySearch s k key →
                    (c (binarySearch s k key - 1)).size ≤ B - 1 := by
                  intro hp
                  by_contra hcon
                  exact hbigL ⟨hp, by omega⟩
                have hright : ¬ 0 < binarySearch s k key →
                    (c (binarySearch s k key + 1)).size ≤ B - 1 := by
                  intro hp
                  by_contra hcon
                  exact hbigR ⟨by omega, by omega⟩
                cases hmg : mergeWithSibling B (binarySearch s k key) (BPTNode.node a false s k c) L with
                | error e => exact RemoveStepsOK_current hhere (RemoveStepsOK_nil B)
                | ok r =>
                  obtain ⟨mo, L2⟩ := r
                  have hsize := mergeWithSibling_size h' _ L hwf hb0 hb1 hmg
                  rcases mergeWithSibling_WF hB h' _ L hwf hb0 hb1 hs1 hcsEq hleft hright hmg with
                    ⟨hne, k', c', i, hmo, hw, hnn, hsz', hi0, hi1⟩ | ⟨hs1', m, hmo, hnn, hsz', hw⟩
                  · subst hmo
                    exact RemoveStepsOK_current hhere (RemoveStepsOK_merged (hsize.1 _ _ rfl)
                      (descend _ i L2 (s - 1) k' c' rfl hw hsz' hi0 hi1))
                  · subst hmo
                    exact RemoveStepsOK_current hhere (RemoveStepsOK_merged (hsize.2 _ rfl)
                      (ih true h' P Q m L2 hPQ hw (by simp only [if_true]; omega)))

theorem sevenTree_reachable : ReachableBy true 2 sevenTree := by
  unfold sevenTree
  cases h : checkedCalls true 8 (BPTree.empty 2) sevenInserts with
  | none => exact ReachableBy.empty
  | some t => exact ReachableBy_checkedCalls true 2 8 _ _ _ ReachableBy.empty h

set_option maxRecDepth 100000 in
/-- With `B = 2`, on the tree built by the seven inserts, `insert((1, 1))` enters
the root (size 1) and its first child (size 2), splits the full leaf below it
and enters a leaf of size 2; `remove((36, 36))` enters the root, borrows for
its second child (size 2 afterwards), enters it, merges two leaves (size 2
afterwards) and enters the merged leaf. -/
theorem sevenTree_steps :
    (insertT 8 sevenTree (1, 1)).1.map InsertStep.summary = [(0, 1), (0, 2), (1, 2), (0, 2)] ∧
    (removeT 8 sevenTree (36, 36)).1.map RemoveStep.summary =
      [(0, 1), (2, 2), (1, 2), (3, 2), (1, 2)] := by
  decide!

/-- C19: for every `B >= 2`, every tree that satisfies the occupancy invariant
and every pair, every node that becomes `current` during `insert` has fewer
than `2B-1` entries; so the parent of every `splitNode` call is not full, the
writes `keys[i+1]`, `child[i+2]` (for `indexFound <= i <= size-1`) and
`keys[indexFound]` of `splitNode` and the writes `keys[i+1]` (for
`0 <= i <= size-1`) and `keys[insertAtIndex]` of the leaf loop stay inside the
arrays of `2B-1` keys and `2B` children, and no node of the resulting tree has
more than `2B-1` entries. -/
theorem C19_proactive_split_leaves_room (fuel : Nat) (t : BPTree) (key : keyRNPair)
    (hB : 2 ≤ t.branchingFactor) (htw : TreeWF false t) :
    (∀ n, InsertStep.current n ∈ (insertT fuel t key).1 →
      n.size < 2 * t.branchingFactor - 1 ∧
      (n.isLeaf = true →
        (∀ i, 0 ≤ i → i ≤ n.size - 1 → i + 1 < 2 * t.branchingFactor - 1) ∧
        0 ≤ (leafShift key n.size.toNat (n.size - 1) n.keys).2 ∧
        (leafShift key n.size.toNat (n.size - 1) n.keys).2 < 2 * t.branchingFactor - 1)) ∧
    (∀ p i, InsertStep.splitNode p i ∈ (insertT fuel t key).1 →
      p.size < 2 * t.branchingFactor - 1 ∧ 0 ≤ i ∧ i < 2 * t.branchingFactor - 1 ∧
      ∀ j, i ≤ j → j ≤ p.size - 1 →
        j + 1 < 2 * t.branchingFactor - 1 ∧ j + 2 < 2 * t.branchingFactor) ∧
    (∀ b t', insert fuel t key = Except.ok (b, t') →
      t'.root.size ≤ 2 * t.branchingFactor - 1 ∧
      ∀ n, BPTNode.Below t'.root n → n.size ≤ 2 * t.branchingFactor - 1) := by
  have hsteps : (∀ m, InsertStep.current m ∈ (insertT fuel t key).1 →
        0 ≤ m.size ∧ m.size < 2 * t.branchingFactor - 1) ∧
      (∀ p i, InsertStep.splitNode p i ∈ (insertT fuel t key).1 →
        p.size < 2 * t.branchingFactor - 1 ∧ 0 ≤ i ∧ i ≤ p.size) := by
    unfold insertT
    cases hr : t.root with
    | null => simp
    | node ra rl rs rk rc =>
      simp only
      rcases htw with hnull | ⟨hsz, h, hwf⟩
      · rw [hr] at hnull; exact absurd hnull (by simp)
      rw [hr] at hsz hwf
      simp only [BPTNode.size] at hsz
      by_cases hfull : rs = 2 * t.branchingFactor - 1
      · simp only [if_pos hfull]
        cases hsp : splitRoot t.branchingFactor (BPTNode.node ra rl rs rk rc) t.links with
        | error e => simp
        | ok r =>
          obtain ⟨root1, L1⟩ := r
          have hs := splitRoot_WF hB h (fun e he => he) t.links hwf hfull hsp
          exact insertLoopT_steps hB key fuel (h + 1) _ _ root1 L1 (fun e he => he) hs.1
            (by omega) (by omega)
      · simp only [if_neg hfull]
        have := WF_size_le hwf
        exact insertLoopT_steps hB key fuel h _ _ _ t.links (fun e he => he) hwf
          (by simp only [BPTNode.size]; omega) (by simp only [BPTNode.size]; omega)
  refine ⟨fun n hn => ?_, fun p i hp => ?_, fun b t' hres => ?_⟩
  · obtain ⟨h0, h1⟩ := hsteps.1 n hn
    refine ⟨h1, fun _ => ⟨fun i _ _ => by omega, ?_⟩⟩
    have hspec := leafShift_spec key n.size.toNat n.keys
    have hcast : ((n.size.toNat : Nat) : Int) = n.size := Int.toNat_of_nonneg h0
    rw [hcast] at hspec
    exact ⟨hspec.1, by have := hspec.2.1; omega⟩
  · obtain ⟨h0, h1, h2⟩ := hsteps.2 p i hp
    exact ⟨h0, h1, by omega, fun j _ _ => ⟨by omega, by omega⟩⟩
  · obtain ⟨htw', hBt⟩ := insert_TreeWF hB htw (fun hf => absurd hf (by decide)) hres
    rcases htw' with h0 | ⟨h1, h, hwf⟩
    · rw [h0]
      refine ⟨by simp only [BPTNode.size]; omega, fun n hn => ?_⟩
      cases hn
    · rw [hBt] at hwf
      refine ⟨WF_size_le_of_ne hwf ?_, fun n hn => (Below_WF hn h _ _ hwf).2.2.1⟩
      intro hn; rw [hn] at h1; simp [BPTNode.size] at h1

theorem C19_proactive_split_leaves_room_witness :
    2 ≤ sevenTree.branchingFactor ∧ TreeWF false sevenTree ∧
    ((∀ n, InsertStep.current n ∈ (insertT 8 sevenTree (1, 1)).1 →
      n.size < 2 * sevenTree.branchingFactor - 1 ∧
      (n.isLeaf = true →
        (∀ i, 0 ≤ i → i ≤ n.size - 1 → i + 1 < 2 * sevenTree.branchingFactor - 1) ∧
        0 ≤ (leafShift (1, 1) n.size.toNat (n.size - 1) n.keys).2 ∧
        (leafShift (1, 1) n.size.toNat (n.size - 1) n.keys).2 <
          2 * sevenTree.branchingFactor - 1)) ∧
    (∀ p i, InsertStep.splitNode p i ∈ (insertT 8 sevenTree (1, 1)).1 →
      p.size < 2 * sevenTree.branchingFactor - 1 ∧ 0 ≤ i ∧
      i < 2 * sevenTree.branchingFactor - 1 ∧
      ∀ j, i ≤ j → j ≤ p.size - 1 →
        j + 1 < 2 * sevenTree.branchingFactor - 1 ∧ j + 2 < 2 * sevenTree.branchingFactor) ∧
    (∀ b t', insert 8 sevenTree (1, 1) = Except.ok (b, t') →
      t'.root.size ≤ 2 * sevenTree.branchingFactor - 1 ∧
      ∀ n, BPTNode.Below t'.root n → n.size ≤ 2 * sevenTree.branchingFactor - 1)) :=
  have h := ReachableBy_TreeWF (by decide : (2 : Int) ≤ 2) (ReachableBy_of_false sevenTree_reachable)
  ⟨le_of_eq h.2.symm, h.1,
    C19_proactive_split_leaves_room 8 sevenTree (1, 1) (le_of_eq h.2.symm) h.1⟩

/-- C20: for every `B >= 2`, every tree that satisfies the occupancy invariant
and every pair, every non-root node that becomes `current` during `remove` has
at least `B` entries when the descent enters it: a child of size `B-1` is first
enlarged by a borrow to size `B` or by a merge to size `2B-2` (leaf) or `2B-1`
(internal node); and when `remove` returns, every node below the root, leaves
included, has at least `B-1` entries. -/
theorem C20_proactive_rebalance (fuel : Nat) (t : BPTree) (key : keyRNPair)
    (hB : 2 ≤ t.branchingFactor) (htw : TreeWF false t) :
    (∀ n, RemoveStep.current false n ∈ (removeT fuel t key).1 → t.branchingFactor ≤ n.size) ∧
    (∀ n, RemoveStep.borrowed n ∈ (removeT fuel t key).1 → n.size = t.branchingFactor) ∧
    (∀ n, RemoveStep.merged n ∈ (removeT fuel t key).1 →
      n.size = if n.isLeaf = true then 2 * t.branchingFactor - 2
        else 2 * t.branchingFactor - 1) ∧
    (∀ b t', remove fuel t key = Except.ok (b, t') →
      ∀ n, BPTNode.Below t'.root n → t.branchingFactor - 1 ≤ n.size) := by
  have hsteps : RemoveStepsOK t.branchingFactor (removeT fuel t key).1 := by
    unfold removeT
    cases hr : t.root with
    | null => exact RemoveStepsOK_nil _
    | node ra rl rs rk rc =>
      simp only
      rcases htw with hnull | ⟨hsz, h, hwf⟩
      · rw [hr] at hnull; exact absurd hnull (by simp)
      rw [hr] at hsz hwf
      exact removeLoopT_steps hB key fuel true h _ _ _ t.links (fun e he => he) hwf
        (by simp only [if_true]; exact hsz)
  refine ⟨hsteps.1, hsteps.2.1, hsteps.2.2, fun b t' hres n hn => ?_⟩
  obtain ⟨htw', hBt⟩ := remove_TreeWF hB htw hres
  rcases htw' with h0 | ⟨_, h, hwf⟩
  · rw [h0] at hn; cases hn
  · rw [hBt] at hwf
    exact (Below_WF hn h _ _ hwf).2.1

theorem C20_proactive_rebalance_witness :
    2 ≤ sevenTree.branchingFactor ∧ TreeWF false sevenTree ∧
    ((∀ n, RemoveStep.current false n ∈ (removeT 8 sevenTree (36, 36)).1 →
      sevenTree.branchingFactor ≤ n.size) ∧
    (∀ n, RemoveStep.borrowed n ∈ (removeT 8 sevenTree (36, 36)).1 →
      n.size = sevenTree.branchingFactor) ∧
    (∀ n, RemoveStep.merged n ∈ (removeT 8 sevenTree (36, 36)).1 →
      n.size = if n.isLeaf = true then 2 * sevenTree.branchingFactor - 2
        else 2 * sevenTree.branchingFactor - 1) ∧
    (∀ b t', remove 8 sevenTree (36, 36) = Except.ok (b, t') →
      ∀ n, BPTNode.Below t'.root n → sevenTree.branchingFactor - 1 ≤ n.size)) :=
  have h := ReachableBy_TreeWF (by decide : (2 : Int) ≤ 2) (ReachableBy_of_false sevenTree_reachable)
  ⟨le_of_eq h.2.symm, h.1, C20_proactive_rebalance 8 sevenTree (36, 36) (le_of_eq h.2.symm) h.1⟩

/-! ## The internal left borrow, bfsTraverse and the scenarios on concrete runs -/

set_option maxRecDepth 100000 in
/-- C21: with `B = 2`, on the root of the tree built by the seven inserts (the
call that `remove((36, 36))` makes), the parent has the separator `(7, 7)`, its
left child `l` has the keys `(4, 4), (6, 6)` and the children 0, 7, 4, and the
child `c` has the key `(23, 23)`.  After `borrowFromLeftSibling(1, parent, c)`,
`c.keys[0]` is `(6, 6)` and not the old separator `(7, 7)`, `c.child[0]` is
node 7 (`l.child[1]`) and not node 4 (`l.child[2]`), the separator is `(4, 4)`
and not `(6, 6)`, `l.child[1]` is null, and the entries below the parent have
lost `(7, 7)`. -/
theorem C21_internal_left_borrow_moves_wrong_child :
    sevenTree.root.keys 0 = (7, 7) ∧ (sevenTree.root.child 0).size = 2 ∧
    (sevenTree.root.child 0).keys 1 = (6, 6) ∧
    ((sevenTree.root.child 0).child 1).addr? = some 7 ∧
    ((sevenTree.root.child 0).child 2).addr? = some 4 ∧
    (sevenTree.root.child 1).size = 1 ∧ (sevenTree.root.child 0).isLeaf = false ∧
    (sevenTree.root.child 1).isLeaf = false ∧
    sevenTree.root.entries = [(0, 0), (3, 3), (4, 4), (6, 6), (7, 7), (23, 23), (33, 33)] ∧
    (borrowFromLeftSibling 1 sevenTree.root).toOption.map
        (fun p => ((p.child 1).size, (p.child 1).keys 0)) = some (2, (6, 6)) ∧
    (borrowFromLeftSibling 1 sevenTree.root).toOption.map
        (fun p => ((p.child 1).child 0).addr?) = some (some 7) ∧
    (borrowFromLeftSibling 1 sevenTree.root).toOption.map (fun p => p.keys 0) = some (4, 4) ∧
    (borrowFromLeftSibling 1 sevenTree.root).toOption.map
        (fun p => ((p.child 0).size, ((p.child 0).child 1).isNull)) = some (1, true) ∧
    (borrowFromLeftSibling 1 sevenTree.root).toOption.map BPTNode.entries =
      some [(0, 0), (3, 3), (4, 4), (6, 6), (23, 23), (33, 33)] := by
  decide!

set_option maxRecDepth 100000 in
/-- C27: with `B = 2`, on the tree of height 3 built by the seven inserts,
`bfsTraverse` prints the nodes 5, 1, 0, 7, 4, 6, 3, 2 in this order: the leaf 0
(depth 2) is printed before the internal node 6 (depth 1). -/
theorem C27_bfsTraverse_is_depth_first :
    (bfsTraverse sevenTree).map BPTNode.addr? =
      [some 5, some 1, some 0, some 7, some 4, some 6, some 3, some 2] ∧
    (bfsTraverse sevenTree).map printedLine =
      [(1, [(7, 7)]), (2, [(4, 4), (6, 6)]), (3, [(0, 0), (3, 3), (4, 4)]), (1, [(6, 6)]),
       (1, [(7, 7)]), (1, [(23, 23)]), (1, [(23, 23)]), (1, [(33, 33)])] ∧
    sevenTree.root.depthOf 0 = some 2 ∧ sevenTree.root.depthOf 6 = some 1 := by
  decide!

set_option maxRecDepth 100000 in
/-- C28 (as stated, refuted): with `B = 2`, after the five inserts of scenario 1
the tree has two leaves, not four. -/
theorem C28_scenario_one_not_four_leaves :
    (leavesAfter 8 2 scenarioOne).map List.length = some 2 ∧ (2 : Nat) ≠ 4 := by
  decide!

set_option maxRecDepth 100000 in
/-- C28 (amended): with `B = 2`, inserting `10(1), 20(2), 5(3), 15(4), 11(5)` in
that order into an empty tree gives a tree of depth 2, an internal root with
one separator over leaves, with exactly two leaves, which hold
`5(3), 10(1)` and `11(5), 15(4), 20(2)`. -/
theorem C28_scenario_one_shape :
    (treeAfter 8 2 scenarioOne).map
        (fun t => (t.root.depth, t.root.isLeaf, t.root.size, (t.root.child 0).isLeaf,
          (t.root.child 1).isLeaf, t.root.leaves.length)) =
      some (2, false, 1, true, true, 2) ∧
    leavesAfter 8 2 scenarioOne = some [0, 2] ∧
    nodeKeysAfter 8 2 scenarioOne 0 = some [(5, 3), (10, 1)] ∧
    nodeKeysAfter 8 2 scenarioOne 2 = some [(11, 5), (15, 4), (20, 2)] := by
  decide!

set_option maxRecDepth 100000 in
/-- C29: with `B = 2`, after the ten inserts of scenarios 1 and 2, the five
removes of `71(5)`, ..., `71(9)` each return true; afterwards `search(71)`
returns false, the entries below the root and along the leaf chain are
`5(3), 10(1), 11(5), 15(4), 20(2)`, and the tree has three leaves where it had
five. -/
theorem C29_scenario_six :
    returnsAfter 8 2 (tenInserts ++ removeAll71) =
      some [true, true, true, true, true, true, true, true, true, true,
            true, true, true, true, true] ∧
    searchAfter 8 2 (tenInserts ++ removeAll71) 71 = some false ∧
    entriesAfter 8 2 (tenInserts ++ removeAll71) =
      some [(5, 3), (10, 1), (11, 5), (15, 4), (20, 2)] ∧
    chainAfter 8 2 (tenInserts ++ removeAll71) =
      some [(5, 3), (10, 1), (11, 5), (15, 4), (20, 2)] ∧
    (leavesAfter 8 2 tenInserts).map List.length = some 5 ∧
    (leavesAfter 8 2 (tenInserts ++ removeAll71)).map List.length = some 3 := by
  decide!

/-! ## The leaf insertion slot -/

/-- C26: for every leaf whose `keys[0..size)` are sorted, with `size < 2B-1`,
and every pair, the index `insertAtIndex` found by the right-to-left scan of
`insert` equals `binarySearch(leaf, key)`; after the insertion the leaf holds
its old entries `0..idx-1`, then the pair, then its old entries `idx..size-1`,
and its size has grown by one. -/
theorem C26_leaf_slot_is_binarySearch (B : Int) (fuel : Nat) (a : Nat) (s : Int)
    (k : Int → keyRNPair) (c : Int → BPTNode) (L : Links) (key : keyRNPair)
    (hs0 : 0 ≤ s) (_hs : s < 2 * B - 1)
    (hsorted : ∀ i j, 0 ≤ i → i ≤ j → j < s → keyLe (k i) (k j)) :
    (leafShift key s.toNat (s - 1) k).2 = binarySearch s k key ∧
    ∃ k', insertLoop B key (fuel + 1) (BPTNode.node a true s k c) L =
        Except.ok (BPTNode.node a true (s + 1) k' c, L) ∧
      (∀ j, 0 ≤ j → j < binarySearch s k key → k' j = k j) ∧
      k' (binarySearch s k key) = key ∧
      (∀ j, binarySearch s k key ≤ j → j < s → k' (j + 1) = k j) := by
  have hspec := leafShift_spec key s.toNat k
  have hcast : ((s.toNat : Nat) : Int) = s := Int.toNat_of_nonneg hs0
  rw [hcast] at hspec
  obtain ⟨h0, h1, hform, hge, hlt⟩ := hspec
  obtain ⟨b0, b1, b2, b3⟩ := binarySearch_spec s k key hs0
  have heq : (leafShift key s.toNat (s - 1) k).2 = binarySearch s k key := by
    rcases lt_trichotomy (leafShift key s.toNat (s - 1) k).2 (binarySearch s k key) with h | h | h
    · exfalso
      have h2 := b3 (by omega)
      have h3 := hge (binarySearch s k key - 1) (by omega) (by omega)
      exact (keyLt_iff_not_keyLe _ _).mp h2 h3
    · exact h
    · exfalso
      have h2 := hlt (by omega)
      have h3 := b2 (by omega)
      have h4 := hsorted (binarySearch s k key) ((leafShift key s.toNat (s - 1) k).2 - 1) b0
        (by omega) (by omega)
      exact (keyLt_iff_not_keyLe _ _).mp h2 (keyLe_trans h3 h4)
  refine ⟨heq, setAt (leafShift key s.toNat (s - 1) k).1 (leafShift key s.toNat (s - 1) k).2 key,
    by simp only [insertLoop], ?_, ?_, ?_⟩
  · intro j hj0 hj1
    rw [setAt_apply, if_neg (by omega), hform, if_neg (by omega)]
  · rw [← heq, setAt_apply, if_pos rfl]
  · intro j hj0 hj1
    rw [setAt_apply, if_neg (by omega), hform, if_pos (by omega)]
    congr 1; omega

theorem C26_leaf_slot_is_binarySearch_witness :
    (0 : Int) ≤ 3 ∧ (3 : Int) < 2 * 3 - 1 ∧
    (∀ i j, 0 ≤ i → i ≤ j → j < 3 → keyLe (sampleKeys i) (sampleKeys j)) ∧
    ((leafShift (2, 7) (3 : Int).toNat (3 - 1) sampleKeys).2 = binarySearch 3 sampleKeys (2, 7) ∧
    ∃ k', insertLoop 3 (2, 7) (0 + 1) (BPTNode.node 0 true 3 sampleKeys nullChild)
          (BPTree.empty 3).links =
        Except.ok (BPTNode.node 0 true (3 + 1) k' nullChild, (BPTree.empty 3).links) ∧
      (∀ j, 0 ≤ j → j < binarySearch 3 sampleKeys (2, 7) → k' j = sampleKeys j) ∧
      k' (binarySearch 3 sampleKeys (2, 7)) = (2, 7) ∧
      (∀ j, binarySearch 3 sampleKeys (2, 7) ≤ j → j < 3 → k' (j + 1) = sampleKeys j)) :=
  have hs : ∀ i j, 0 ≤ i → i ≤ j → j < 3 → keyLe (sampleKeys i) (sampleKeys j) := by
    intro i j h0 h1 h2
    have hi : i = 0 ∨ i = 1 ∨ i = 2 := by omega
    have hj : j = 0 ∨ j = 1 ∨ j = 2 := by omega
    rcases hi with rfl | rfl | rfl <;> rcases hj with rfl | rfl | rfl <;>
      first | decide | omega
  ⟨by decide, by decide, hs,
    C26_leaf_slot_is_binarySearch 3 0 0 3 sampleKeys nullChild (BPTree.empty 3).links (2, 7)
      (by decide) (by decide) hs⟩

/-! ## The index that searchUtil returns -/

theorem oneLeafTree_reachable : ReachableBy true 2 oneLeafTree := by
  unfold oneLeafTree
  cases h : checkedCalls true 8 (BPTree.empty 2) [Call.insert (10, 1)] with
  | none => exact ReachableBy.empty
  | some t => exact ReachableBy_checkedCalls true 2 8 _ _ _ ReachableBy.empty h

/-- The descent of `searchUtil` in a subtree that satisfies the invariant ends
in a leaf, with an index between 0 and the size of that leaf. -/
theorem searchLoop_index {B : Int} {ord : Bool} (hB : 2 ≤ B) (key : keyRNPair) (fuel : Nat) :
    ∀ (h : Nat) (P Q : keyRNPair → Prop) (n : BPTNode) (i : Int) (m : BPTNode),
      WF B ord h P Q n → 0 ≤ n.size →
      searchLoop key fuel n = Except.ok (i, m) →
      m.isLeaf = true ∧ m ≠ BPTNode.null ∧ 0 ≤ i ∧ i ≤ m.size ∧ m.size ≤ 2 * B - 1 := by
  induction fuel with
  | zero =>
    intro h P Q n i m _ _ hres
    simp [searchLoop] at hres
  | succ fuel ih =>
    intro h P Q n i m hwf hs0 hres
    cases n with
    | null => simp [searchLoop] at hres
    | node a l s k c =>
      simp only [BPTNode.size] at hs0
      obtain ⟨hb0, hb1, _, _⟩ := binarySearch_spec s k key hs0
      cases l with
      | true =>
        simp only [searchLoop, if_true, Except.ok.injEq, Prod.mk.injEq] at hres
        rw [← hres.1, ← hres.2]
        exact ⟨rfl, by simp, hb0, hb1, WF_size_le hwf⟩
      | false =>
        simp only [searchLoop, Bool.false_eq_true, if_false] at hres
        obtain ⟨h', hh⟩ := WF_internal_height hwf
        subst hh
        simp only [WF] at hwf
        have hc := hwf.2.2.2.2 _ hb0 hb1
        cases hcn : c (binarySearch s k key) with
        | null =>
          rw [hcn] at hres
          cases fuel <;> simp [searchLoop] at hres
        | node ca cl cs ck cc =>
          rw [hcn] at hc hres
          have hcs : B - 1 ≤ cs := by
            rcases hc.1 with h1 | h1
            · exact absurd h1 (by simp)
            · exact h1
          exact ih h' _ _ _ i m hc.2 (by simp only [BPTNode.size]; omega) hres

set_option maxRecDepth 100000 in
/-- C30: with `B = 2`, on the tree that holds only `(10, 1)`,
`searchUtil((5, -1))` returns the index 0, which is below `B - 1 = 1`, the
lower end of the range that the comment on `SearchResult.index` documents. -/
theorem C30_index_below_documented_range :
    searchUtilAfter 8 2 [Call.insert (10, 1)] (5, -1) = some (0, some 0) ∧
    ¬ ((2 : Int) - 1 ≤ 0) := by
  decide!

/-- The index that `searchUtil` gives when it returns, for every `B >= 2`, every
tree reachable from the empty tree by `insert` and `remove` calls and every
probe: -1 with a null node on the empty tree, and otherwise a leaf and an
index between 0 and the size of that leaf, which is at most `2B-1`. -/
theorem searchUtil_index_range (B : Int) (hB : 2 ≤ B) (t : BPTree) (hr : ReachableBy false B t)
    (fuel : Nat) (key : keyRNPair) (i : Int) (n : BPTNode)
    (hres : searchUtil fuel t key = Except.ok (i, n)) :
    (t.root = BPTNode.null ∧ i = -1 ∧ n = BPTNode.null) ∨
    (t.root ≠ BPTNode.null ∧ n.isLeaf = true ∧ n ≠ BPTNode.null ∧ 0 ≤ i ∧ i ≤ n.size ∧
      n.size ≤ 2 * B - 1) := by
  obtain ⟨htw, hBt⟩ := ReachableBy_TreeWF hB hr
  unfold searchUtil at hres
  cases hroot : t.root with
  | null =>
    simp only [hroot, Except.ok.injEq, Prod.mk.injEq] at hres
    exact Or.inl ⟨rfl, hres.1.symm, hres.2.symm⟩
  | node ra rl rs rk rc =>
    simp only [hroot] at hres
    rcases htw with hnull | ⟨hsz, h, hwf⟩
    · rw [hroot] at hnull; exact absurd hnull (by simp)
    rw [hroot] at hsz hwf
    rw [hBt] at hwf
    simp only [BPTNode.size] at hsz
    exact Or.inr ⟨by simp, searchLoop_index hB key fuel h _ _ _ i n hwf
      (by simp only [BPTNode.size]; omega) hres⟩

/-- The range of `searchUtil_index_range` on the tree that holds one entry. -/
theorem searchUtil_index_range_oneLeaf :
    (2 : Int) ≤ 2 ∧ ReachableBy false 2 oneLeafTree ∧
    searchUtil 1 oneLeafTree (5, -1) = Except.ok (0, oneLeafTree.root) ∧
    ((oneLeafTree.root = BPTNode.null ∧ (0 : Int) = -1 ∧ oneLeafTree.root = BPTNode.null) ∨
    (oneLeafTree.root ≠ BPTNode.null ∧ oneLeafTree.root.isLeaf = true ∧
      oneLeafTree.root ≠ BPTNode.null ∧ (0 : Int) ≤ 0 ∧ 0 ≤ oneLeafTree.root.size ∧
      oneLeafTree.root.size ≤ 2 * 2 - 1)) :=
  ⟨by decide, ReachableBy_of_false oneLeafTree_reachable, rfl,
    searchUtil_index_range 2 (by decide) oneLeafTree (ReachableBy_of_false oneLeafTree_reachable) 1
      (5, -1) 0 oneLeafTree.root rfl⟩

/-! ## Lists of entries -/

theorem keysFrom_congr (k k' : Int → keyRNPair) (s : Int)
    (h : ∀ j, 0 ≤ j → j < s → k j = k' j) : keysFrom k 0 s = keysFrom k' 0 s := by
  unfold keysFrom
  apply List.map_congr_left
  intro n hn
  rw [List.mem_range] at hn
  exact h _ (by omega) (by omega)

theorem keysFrom_append (k : Int → keyRNPair) (a b : Int) (ha : 0 ≤ a) (hb : 0 ≤ b) :
    keysFrom k 0 (a + b) = keysFrom k 0 a ++ keysFrom (fun j => k (a + j)) 0 b := by
  unfold keysFrom
  have e1 : (a + b - 0).toNat = (a - 0).toNat + (b - 0).toNat := by omega
  rw [e1, List.range_add, List.map_append, List.map_map]
  congr 1
  apply List.map_congr_left
  intro n _
  simp only [Function.comp]
  congr 1
  omega

theorem keysFrom_one (k : Int → keyRNPair) : keysFrom k 0 1 = [k 0] := by
  simp [keysFrom, List.range_succ]

theorem keysFrom_snoc (k : Int → keyRNPair) (s : Int) (hs : 0 ≤ s) :
    keysFrom k 0 (s + 1) = keysFrom k 0 s ++ [k s] := by
  rw [keysFrom_append k s 1 hs (by omega), keysFrom_one]
  simp

theorem keysFrom_cons (k : Int → keyRNPair) (s : Int) (hs : 0 ≤ s) :
    keysFrom k 0 (s + 1) = k 0 :: keysFrom (fun j => k (j + 1)) 0 s := by
  have e : s + 1 = 1 + s := by omega
  rw [e, keysFrom_append k 1 s (by omega) hs, keysFrom_one]
  simp only [List.singleton_append, List.cons.injEq, true_and]
  apply keysFrom_congr
  intro j _ _
  congr 1
  omega

/-- Two families of lists that agree on `0..n-1` have the same concatenation
over that range. -/
theorem flatMap_range_congr {α : Type} (f g : Int → List α) (n : Nat)
    (h : ∀ j : Int, 0 ≤ j → j < n → f j = g j) :
    (List.range n).flatMap (fun (j : Nat) => f (j : Int)) =
      (List.range n).flatMap (fun (j : Nat) => g (j : Int)) := by
  induction n with
  | zero => rfl
  | succ n ih =>
    rw [List.range_succ, List.flatMap_append, List.flatMap_append, ih (fun j h0 h1 =>
      h j h0 (by push_cast; omega))]
    simp only [List.flatMap_cons, List.flatMap_nil, List.append_nil]
    rw [h n (by omega) (by push_cast; omega)]

theorem flatMap_range_two {α : Type} (f g : Int → List α) (n : Nat) (i : Int)
    (h0 : 0 ≤ i) (h1 : i + 1 < n)
    (hsame : ∀ j : Int, j ≠ i → j ≠ i + 1 → f j = g j)
    (hcat : f i ++ f (i + 1) = g i ++ g (i + 1)) :
    (List.range n).flatMap (fun (j : Nat) => f (j : Int)) =
      (List.range n).flatMap (fun (j : Nat) => g (j : Int)) := by
  induction n with
  | zero => rfl
  | succ n ih =>
    rw [List.range_succ, List.flatMap_append, List.flatMap_append]
    simp only [List.flatMap_cons, List.flatMap_nil, List.append_nil]
    by_cases hlast : i + 1 = n
    · cases n with
      | zero => omega
      | succ m =>
        have hm : (m : Int) = i := by push_cast at hlast; omega
        rw [List.range_succ, List.flatMap_append, List.flatMap_append]
        simp only [List.flatMap_cons, List.flatMap_nil, List.append_nil, List.append_assoc]
        rw [flatMap_range_congr f g m (fun j hj0 hj1 => hsame j (by omega) (by omega))]
        have e1 : ((m + 1 : Nat) : Int) = i + 1 := by push_cast; omega
        rw [e1, hm, hcat]
    · rw [ih (by omega), hsame n (by omega) (by omega)]

theorem flatMap_range_succ_left {α : Type} (f : Int → List α) (n : Nat) :
    (List.range (n + 1)).flatMap (fun (j : Nat) => f (j : Int)) =
      f 0 ++ (List.range n).flatMap (fun (j : Nat) => f ((j : Int) + 1)) := by
  rw [List.range_succ_eq_map, List.flatMap_cons, List.flatMap_map]
  simp only [Nat.cast_zero, Function.comp, Nat.cast_succ]

/-! ## The borrows -/

/-- C22: for every `B >= 2`, every parent, index `i > 0`, leaf child
`c = child[i]` of size `B-1` and leaf left sibling `l = child[i-1]` of size
`s > B-1`, after `borrowFromLeftSibling(i, parent, c)`: `c` has size `B`, with
`l`'s old last entry at `keys[0]` followed by `c`'s old entries; `l` has size
`s-1` and keeps `keys[0..s-2]`; the separator `keys[i-1]` of the parent is
`l.keys[s-2]`; nothing else in the parent changes; and the concatenation of
the entries of `l` and `c` is unchanged. -/
theorem C22_leaf_left_borrow (B : Int) (hB : 2 ≤ B) (pa : Nat) (pl : Bool) (ps : Int)
    (pk : Int → keyRNPair) (pc : Int → BPTNode) (i : Int)
    (ca : Nat) (ck : Int → keyRNPair) (cc : Int → BPTNode)
    (la : Nat) (ls : Int) (lk : Int → keyRNPair) (lc : Int → BPTNode)
    (_hi : 0 < i) (hc : pc i = BPTNode.node ca true (B - 1) ck cc)
    (hl : pc (i - 1) = BPTNode.node la true ls lk lc) (hls : B - 1 < ls) :
    ∃ p', borrowFromLeftSibling i (BPTNode.node pa pl ps pk pc) = Except.ok p' ∧
      p'.addr? = some pa ∧ p'.isLeaf = pl ∧ p'.size = ps ∧
      p'.keys (i - 1) = lk (ls - 2) ∧ (∀ j, j ≠ i - 1 → p'.keys j = pk j) ∧
      (∀ j, j ≠ i - 1 → j ≠ i → p'.child j = pc j) ∧
      (p'.child i).addr? = some ca ∧ (p'.child i).isLeaf = true ∧ (p'.child i).size = B ∧
      (p'.child i).keys 0 = lk (ls - 1) ∧
      (∀ j, 0 ≤ j → j < B - 1 → (p'.child i).keys (j + 1) = ck j) ∧
      (p'.child (i - 1)).addr? = some la ∧ (p'.child (i - 1)).isLeaf = true ∧
      (p'.child (i - 1)).size = ls - 1 ∧
      (∀ j, 0 ≤ j → j < ls - 1 → (p'.child (i - 1)).keys j = lk j) ∧
      (p'.child (i - 1)).entries ++ (p'.child i).entries =
        (pc (i - 1)).entries ++ (pc i).entries := by
  simp only [borrowFromLeftSibling, hc, hl, if_true]
  have e1 : ∀ (x y : BPTNode), setAt (setAt pc (i - 1) x) i y i = y := by
    intro x y; rw [setAt_apply, if_pos rfl]
  have e2 : ∀ (x y : BPTNode), setAt (setAt pc (i - 1) x) i y (i - 1) = x := by
    intro x y; rw [setAt_apply, if_neg (by omega), setAt_apply, if_pos rfl]
  refine ⟨_, rfl, rfl, rfl, rfl, ?_, ?_, ?_, ?_⟩
  · simp only [BPTNode.keys]; rw [setAt_apply, if_pos rfl]
  · intro j hj
    simp only [BPTNode.keys]; rw [setAt_apply, if_neg hj]
  · intro j hj1 hj2
    simp only [BPTNode.child]
    rw [setAt_apply, if_neg hj2, setAt_apply, if_neg hj1]
  · simp only [BPTNode.child, e1, e2, BPTNode.addr?, BPTNode.isLeaf, BPTNode.size, BPTNode.keys]
    have hk0 : setAt (shiftRightK 0 (B - 1) ck) 0 (lk (ls - 1)) 0 = lk (ls - 1) := by
      rw [setAt_apply, if_pos rfl]
    have hkj : ∀ j, 0 ≤ j → j < B - 1 →
        setAt (shiftRightK 0 (B - 1) ck) 0 (lk (ls - 1)) (j + 1) = ck j := by
      intro j h0 h1
      rw [setAt_apply, if_neg (by omega), shiftRightK_apply _ _ _ _ (by omega), if_pos (by omega)]
      congr 1; omega
    refine ⟨trivial, trivial, by omega, hk0, hkj, trivial, trivial, trivial,
      fun _ _ _ => trivial, ?_⟩
    simp only [BPTNode.entries, if_true]
    have hB1 : B - 1 + 1 = B := by omega
    rw [hB1]
    have hX : keysFrom (setAt (shiftRightK 0 (B - 1) ck) 0 (lk (ls - 1))) 0 B =
        lk (ls - 1) :: keysFrom ck 0 (B - 1) := by
      have h := keysFrom_cons (setAt (shiftRightK 0 (B - 1) ck) 0 (lk (ls - 1))) (B - 1)
        (by omega)
      rw [hB1] at h
      rw [h, hk0]
      congr 1
      apply keysFrom_congr
      intro j h0 h1
      exact hkj j h0 h1
    have hL : keysFrom lk 0 ls = keysFrom lk 0 (ls - 1) ++ [lk (ls - 1)] := by
      have h := keysFrom_snoc lk (ls - 1) (by omega)
      rwa [show ls - 1 + 1 = ls by omega] at h
    rw [hX, hL]
    simp

theorem C22_leaf_left_borrow_witness :
    (2 : Int) ≤ 2 ∧ (0 : Int) < 1 ∧
    sampleChildren 1 = BPTNode.node 2 true (2 - 1) (setAt zeroKeys 0 (9, 0)) nullChild ∧
    sampleChildren (1 - 1) = BPTNode.node 1 true (2 * 2 - 1) sampleKeys nullChild ∧
    (2 : Int) - 1 < 2 * 2 - 1 ∧
    ∃ p', borrowFromLeftSibling 1 (BPTNode.node 0 false 1 (setAt zeroKeys 0 (5, 0))
        sampleChildren) = Except.ok p' ∧
      p'.keys (1 - 1) = sampleKeys (2 * 2 - 1 - 2) ∧ (p'.child 1).size = 2 ∧
      (p'.child 1).keys 0 = sampleKeys (2 * 2 - 1 - 1) ∧
      (p'.child (1 - 1)).size = 2 * 2 - 1 - 1 ∧
      (p'.child (1 - 1)).entries ++ (p'.child 1).entries =
        (sampleChildren (1 - 1)).entries ++ (sampleChildren 1).entries :=
  ⟨by decide, by decide, rfl, rfl, by decide,
    match C22_leaf_left_borrow 2 (by decide) 0 false 1 (setAt zeroKeys 0 (5, 0)) sampleChildren 1
      2 (setAt zeroKeys 0 (9, 0)) nullChild 1 (2 * 2 - 1) sampleKeys nullChild (by decide) rfl rfl
      (by decide) with
    | ⟨p', h⟩ =>
      ⟨p', h.1, h.2.2.2.2.1, h.2.2.2.2.2.2.2.2.2.1, h.2.2.2.2.2.2.2.2.2.2.1,
        h.2.2.2.2.2.2.2.2.2.2.2.2.2.2.1, h.2.2.2.2.2.2.2.2.2.2.2.2.2.2.2.2⟩⟩

/-- The entries below an internal node are the same when only `child[i]` and
`child[i+1]` change and the concatenation of their entries does not. -/
theorem entries_two_children (a a' : Nat) (s : Int) (k k' : Int → keyRNPair)
    (c c' : Int → BPTNode) (i : Int) (h0 : 0 ≤ i) (h1 : i < s)
    (hsame : ∀ j, j ≠ i → j ≠ i + 1 → c' j = c j)
    (hcat : (c' i).entries ++ (c' (i + 1)).entries = (c i).entries ++ (c (i + 1)).entries) :
    (BPTNode.node a' false s k' c').entries = (BPTNode.node a false s k c).entries := by
  simp only [BPTNode.entries, Bool.false_eq_true, if_false]
  exact flatMap_range_two (fun j => (c' j).entries) (fun j => (c j).entries) _ i h0
    (by omega) (fun j hj1 hj2 => by simp only [hsame j hj1 hj2]) hcat

/-- C23: for every `B >= 2`, internal parent, index `i < parent.size`, child
`c = child[i]` of size `B-1` and right sibling `r = child[i+1]` of size
`s > B-1`, after `borrowFromRightSibling(i, parent, c)`: `c` has size `B` and
`r` has size `s-1`.  In the leaf case `c` gains `r`'s old first entry at its
end, `r` keeps its old entries `1..s-1` shifted left, and the separator
`keys[i]` of the parent is that entry.  In the internal case `c` gains the old
separator `keys[i]` as its last key and `r`'s old first child as its last
child, the separator becomes `r`'s old first key, and `r` keeps its keys
`1..s-1` and children `1..s` shifted left.  In both cases the entries below the
parent are the same sequence as before. -/
theorem C23_right_borrow (B : Int) (hB : 2 ≤ B) (pa : Nat) (ps : Int)
    (pk : Int → keyRNPair) (pc : Int → BPTNode) (i : Int)
    (ca : Nat) (cl : Bool) (ck : Int → keyRNPair) (cc : Int → BPTNode)
    (ra : Nat) (rs : Int) (rk : Int → keyRNPair) (rc : Int → BPTNode)
    (hi0 : 0 ≤ i) (hi1 : i < ps) (hc : pc i = BPTNode.node ca cl (B - 1) ck cc)
    (hr : pc (i + 1) = BPTNode.node ra cl rs rk rc) (hrs : B - 1 < rs) :
    ∃ p', borrowFromRightSibling i (BPTNode.node pa false ps pk pc) = Except.ok p' ∧
      p'.addr? = some pa ∧ p'.isLeaf = false ∧ p'.size = ps ∧
      p'.keys i = rk 0 ∧ (∀ j, j ≠ i → p'.keys j = pk j) ∧
      (∀ j, j ≠ i → j ≠ i + 1 → p'.child j = pc j) ∧
      (p'.child i).addr? = some ca ∧ (p'.child i).isLeaf = cl ∧ (p'.child i).size = B ∧
      (∀ j, 0 ≤ j → j < B - 1 → (p'.child i).keys j = ck j) ∧
      (p'.child i).keys (B - 1) = (if cl = true then rk 0 else pk i) ∧
      (cl = false → (∀ j, 0 ≤ j → j ≤ B - 1 → (p'.child i).child j = cc j) ∧
        (p'.child i).child B = rc 0) ∧
      (p'.child (i + 1)).addr? = some ra ∧ (p'.child (i + 1)).isLeaf = cl ∧
      (p'.child (i + 1)).size = rs - 1 ∧
      (∀ j, 0 ≤ j → j < rs - 1 → (p'.child (i + 1)).keys j = rk (j + 1)) ∧
      (cl = false → ∀ j, 0 ≤ j → j ≤ rs - 1 → (p'.child (i + 1)).child j = rc (j + 1)) ∧
      p'.entries = (BPTNode.node pa false ps pk pc).entries := by
  have e1 : ∀ (x y : BPTNode), setAt (setAt pc i x) (i + 1) y i = x := by
    intro x y; rw [setAt_apply, if_neg (by omega), setAt_apply, if_pos rfl]
  have e2 : ∀ (x y : BPTNode), setAt (setAt pc i x) (i + 1) y (i + 1) = y := by
    intro x y; rw [setAt_apply, if_pos rfl]
  have e3 : ∀ (x y : BPTNode) (j : Int), j ≠ i → j ≠ i + 1 →
      setAt (setAt pc i x) (i + 1) y j = pc j := by
    intro x y j hj1 hj2
    rw [setAt_apply, if_neg hj2, setAt_apply, if_neg hj1]
  have hB1 : B - 1 + 1 = B := by omega
  have hrk : ∀ j, 0 ≤ j → j < rs - 1 → shiftLeftK 0 rs rk j = rk (j + 1) := by
    intro j h0 h1
    rw [shiftLeftK_apply, if_pos (by omega)]
  have hR : keysFrom rk 0 rs = rk 0 :: keysFrom (shiftLeftK 0 rs rk) 0 (rs - 1) := by
    have h := keysFrom_cons rk (rs - 1) (by omega)
    rw [show rs - 1 + 1 = rs by omega] at h
    rw [h]
    congr 1
    apply keysFrom_congr
    intro j h0 h1
    exact (hrk j h0 h1).symm
  cases cl with
  | true =>
    simp only [borrowFromRightSibling, hc, hr, if_true]
    have hk1 : ∀ j, 0 ≤ j → j < B - 1 →
        setAt ck (B - 1) (setAt pk i (rk 0) i) j = ck j := by
      intro j h0 h1
      rw [setAt_apply, if_neg (by omega)]
    have hk2 : setAt ck (B - 1) (setAt pk i (rk 0) i) (B - 1) = rk 0 := by
      rw [setAt_apply, if_pos rfl, setAt_apply, if_pos rfl]
    refine ⟨_, rfl, rfl, rfl, rfl, ?_, ?_, ?_, ?_⟩
    · simp only [BPTNode.keys]; rw [setAt_apply, if_pos rfl]
    · intro j hj
      simp only [BPTNode.keys]; rw [setAt_apply, if_neg hj]
    · intro j hj1 hj2
      simp only [BPTNode.child]
      exact e3 _ _ j hj1 hj2
    · simp only [BPTNode.child, e1, e2, BPTNode.addr?, BPTNode.isLeaf, BPTNode.size,
        BPTNode.keys, if_true]
      refine ⟨trivial, trivial, hB1, hk1, hk2, fun hf => absurd hf (by decide), trivial, trivial,
        trivial, hrk, fun hf => absurd hf (by decide), ?_⟩
      apply entries_two_children _ _ _ _ _ _ _ i hi0 hi1 (fun j hj1 hj2 => e3 _ _ j hj1 hj2)
      rw [e1, e2, hc, hr]
      simp only [BPTNode.entries, if_true]
      rw [hR, hB1]
      have hC : keysFrom (setAt ck (B - 1) (setAt pk i (rk 0) i)) 0 B =
          keysFrom ck 0 (B - 1) ++ [rk 0] := by
        have h := keysFrom_snoc (setAt ck (B - 1) (setAt pk i (rk 0) i)) (B - 1) (by omega)
        rw [hB1] at h
        rw [h, hk2]
        congr 1
        exact keysFrom_congr _ _ _ hk1
      rw [hC]
      simp
  | false =>
    simp only [borrowFromRightSibling, hc, hr, Bool.false_eq_true, if_false]
    have hk1 : ∀ j, 0 ≤ j → j < B - 1 → setAt ck (B - 1) (pk i) j = ck j := by
      intro j h0 h1
      rw [setAt_apply, if_neg (by omega)]
    have hk2 : setAt ck (B - 1) (pk i) (B - 1) = pk i := by
      rw [setAt_apply, if_pos rfl]
    have hc1 : ∀ j, 0 ≤ j → j ≤ B - 1 → setAt cc (B - 1 + 1) (rc 0) j = cc j := by
      intro j h0 h1
      rw [setAt_apply, if_neg (by omega)]
    have hc2 : setAt cc (B - 1 + 1) (rc 0) B = rc 0 := by
      rw [setAt_apply, if_pos (by omega)]
    have hrc : ∀ j, 0 ≤ j → j ≤ rs - 1 →
        setAt (setAt (shiftLeftC 0 0 rs (setAt rc 0 BPTNode.null)) rs BPTNode.null) (rs - 1)
          (shiftLeftC 0 0 rs (setAt rc 0 BPTNode.null) rs) j = rc (j + 1) := by
      intro j h0 h1
      rw [setAt_apply]
      by_cases hj : j = rs - 1
      · rw [if_pos hj, shiftLeftC_apply, if_neg (by omega), if_neg (by omega), setAt_apply,
          if_neg (by omega)]
        congr 1; omega
      · rw [if_neg hj, setAt_apply, if_neg (by omega), shiftLeftC_apply, if_pos (by omega),
          setAt_apply, if_neg (by omega)]
    refine ⟨_, rfl, rfl, rfl, rfl, ?_, ?_, ?_, ?_⟩
    · simp only [BPTNode.keys]; rw [setAt_apply, if_pos rfl]
    · intro j hj
      simp only [BPTNode.keys]; rw [setAt_apply, if_neg hj]
    · intro j hj1 hj2
      simp only [BPTNode.child]
      exact e3 _ _ j hj1 hj2
    · simp only [BPTNode.child, e1, e2, BPTNode.addr?, BPTNode.isLeaf, BPTNode.size,
        BPTNode.keys, Bool.false_eq_true, if_false]
      refine ⟨trivial, trivial, hB1, hk1, hk2, fun _ => ⟨hc1, hc2⟩, trivial, trivial, trivial,
        hrk, fun _ => hrc, ?_⟩
      apply entries_two_children _ _ _ _ _ _ _ i hi0 hi1 (fun j hj1 hj2 => e3 _ _ j hj1 hj2)
      rw [e1, e2, hc, hr]
      simp only [BPTNode.entries, Bool.false_eq_true, if_false]
      have n1 : (B - 1 + 1 + 1).toNat = (B - 1 + 1).toNat + 1 := by omega
      have n2 : (rs + 1).toNat = (rs - 1 + 1).toNat + 1 := by omega
      rw [n1, n2, List.range_succ, List.flatMap_append, flatMap_range_succ_left
        (fun j => (rc j).entries)]
      simp only [List.flatMap_cons, List.flatMap_nil, List.append_nil, List.append_assoc]
      have c1 : ((B - 1 + 1).toNat : Int) = B := by omega
      rw [c1, hc2]
      rw [flatMap_range_congr (fun j => (setAt cc (B - 1 + 1) (rc 0) j).entries)
        (fun j => (cc j).entries) _ (fun j h0 h1 => by
          simp only
          rw [hc1 j h0 (by omega)])]
      congr 2
      exact flatMap_range_congr
        (fun j => (setAt (setAt (shiftLeftC 0 0 rs (setAt rc 0 BPTNode.null)) rs BPTNode.null)
          (rs - 1) (shiftLeftC 0 0 rs (setAt rc 0 BPTNode.null) rs) j).entries)
        (fun j => (rc (j + 1)).entries) _ (fun j h0 h1 => by
          simp only
          rw [hrc j h0 (by omega)])

theorem C23_right_borrow_witness :
    (2 : Int) ≤ 2 ∧ (0 : Int) ≤ 0 ∧ (0 : Int) < 1 ∧
    sampleChildrenR 0 = BPTNode.node 2 true (2 - 1) (setAt zeroKeys 0 (0, 5)) nullChild ∧
    sampleChildrenR (0 + 1) = BPTNode.node 1 true (2 * 2 - 1) sampleKeys nullChild ∧
    (2 : Int) - 1 < 2 * 2 - 1 ∧
    ∃ p', borrowFromRightSibling 0 (BPTNode.node 0 false 1 (setAt zeroKeys 0 (0, 5))
        sampleChildrenR) = Except.ok p' ∧
      p'.keys 0 = sampleKeys 0 ∧ (p'.child 0).size = 2 ∧
      (p'.child 0).keys (2 - 1) = (if true = true then sampleKeys 0 else setAt zeroKeys 0 (0, 5) 0) ∧
      (p'.child (0 + 1)).size = 2 * 2 - 1 - 1 ∧
      p'.entries = (BPTNode.node 0 false 1 (setAt zeroKeys 0 (0, 5)) sampleChildrenR).entries :=
  ⟨by decide, by decide, by decide, rfl, rfl, by decide,
    match C23_right_borrow 2 (by decide) 0 1 (setAt zeroKeys 0 (0, 5)) sampleChildrenR 0
      2 true (setAt zeroKeys 0 (0, 5)) nullChild 1 (2 * 2 - 1) sampleKeys nullChild (by decide)
      (by decide) rfl rfl (by decide) with
    | ⟨p', h⟩ =>
      ⟨p', h.1, h.2.2.2.2.1, h.2.2.2.2.2.2.2.2.2.1, h.2.2.2.2.2.2.2.2.2.2.2.1,
        h.2.2.2.2.2.2.2.2.2.2.2.2.2.2.2.1, h.2.2.2.2.2.2.2.2.2.2.2.2.2.2.2.2.2.2⟩⟩

/-! ## The merge -/

theorem flatMap_range_add {α : Type} (f : Int → List α) (a b : Nat) :
    (List.range (a + b)).flatMap (fun (j : Nat) => f (j : Int)) =
      (List.range a).flatMap (fun (j : Nat) => f (j : Int)) ++
        (List.range b).flatMap (fun (j : Nat) => f ((a : Int) + (j : Int))) := by
  rw [List.range_add, List.flatMap_append, List.flatMap_map]
  simp only [Function.comp, Nat.cast_add]

/-- The leaf that a merge leaves: the keys of the left node followed by the
keys of the right node. -/
theorem mergedLeaf_spec (B : Int) (hB : 2 ≤ B) (xa : Nat) (xk yk : Int → keyRNPair)
    (xc : Int → BPTNode) :
    (∀ j, 0 ≤ j → j < B - 1 → copyKeys (B - 1) (B - 1) yk xk j = xk j) ∧
    (∀ j, 0 ≤ j → j < B - 1 → copyKeys (B - 1) (B - 1) yk xk (B - 1 + j) = yk j) ∧
    (BPTNode.node xa true (2 * B - 1 - 1) (copyKeys (B - 1) (B - 1) yk xk) xc).entries =
      keysFrom xk 0 (B - 1) ++ keysFrom yk 0 (B - 1) := by
  have h1 : ∀ j, 0 ≤ j → j < B - 1 → copyKeys (B - 1) (B - 1) yk xk j = xk j := by
    intro j h0 h1
    rw [copyKeys_apply, if_neg (by omega)]
  have h2 : ∀ j, 0 ≤ j → j < B - 1 → copyKeys (B - 1) (B - 1) yk xk (B - 1 + j) = yk j := by
    intro j h0 h1
    rw [copyKeys_apply, if_pos (by omega)]
    congr 1; omega
  refine ⟨h1, h2, ?_⟩
  simp only [BPTNode.entries, if_true]
  rw [show 2 * B - 1 - 1 = (B - 1) + (B - 1) by omega,
    keysFrom_append _ (B - 1) (B - 1) (by omega) (by omega)]
  congr 1
  · exact keysFrom_congr _ _ _ h1
  · exact keysFrom_congr _ _ _ h2

/-- The internal node that a merge leaves: the keys of the left node, the
separator, the keys of the right node; the children of the left node followed
by the children of the right node. -/
theorem mergedInternal_spec (B : Int) (hB : 2 ≤ B) (xa : Nat) (S : keyRNPair)
    (xk yk : Int → keyRNPair) (xc yc : Int → BPTNode) :
    (∀ j, 0 ≤ j → j < B - 1 → copyKeys B (B - 1) yk (setAt xk (B - 1) S) j = xk j) ∧
    copyKeys B (B - 1) yk (setAt xk (B - 1) S) (B - 1) = S ∧
    (∀ j, 0 ≤ j → j < B - 1 → copyKeys B (B - 1) yk (setAt xk (B - 1) S) (B + j) = yk j) ∧
    (∀ j, 0 ≤ j → j ≤ B - 1 →
      (moveChildren B (B - 1) (setAt xc B (yc 0), setAt yc 0 BPTNode.null)).1 j = xc j) ∧
    (∀ j, 0 ≤ j → j ≤ B - 1 →
      (moveChildren B (B - 1) (setAt xc B (yc 0), setAt yc 0 BPTNode.null)).1 (B + j) = yc j) ∧
    (BPTNode.node xa false (2 * B - 1) (copyKeys B (B - 1) yk (setAt xk (B - 1) S))
      (moveChildren B (B - 1) (setAt xc B (yc 0), setAt yc 0 BPTNode.null)).1).entries =
      (List.range (B - 1 + 1).toNat).flatMap (fun (j : Nat) => (xc (j : Int)).entries) ++
      (List.range (B - 1 + 1).toNat).flatMap (fun (j : Nat) => (yc (j : Int)).entries) := by
  obtain ⟨k1, k2, k3⟩ := mergeKeysInternal_spec B S yk xk
  obtain ⟨c1, c2⟩ := mergeChildren_spec B xc yc
  have hc2 : ∀ j, 0 ≤ j → j ≤ B - 1 →
      (moveChildren B (B - 1) (setAt xc B (yc 0), setAt yc 0 BPTNode.null)).1 (B + j) = yc j := by
    intro j h0 h1
    rw [c2 (B + j) (by omega) (by omega)]
    congr 1; omega
  refine ⟨fun j _ h1 => k1 j h1, k2, ?_, fun j h0 h1 => c1 j h0 (by omega), hc2, ?_⟩
  · intro j h0 h1
    rw [k3 (B + j) (by omega) (by omega)]
    congr 1; omega
  · simp only [BPTNode.entries, Bool.false_eq_true, if_false]
    have e : (2 * B - 1 + 1).toNat = (B - 1 + 1).toNat + (B - 1 + 1).toNat := by omega
    rw [e, flatMap_range_add (fun j =>
      ((moveChildren B (B - 1) (setAt xc B (yc 0), setAt yc 0 BPTNode.null)).1 j).entries)]
    congr 1
    · apply flatMap_range_congr
        (fun j => ((moveChildren B (B - 1) (setAt xc B (yc 0), setAt yc 0 BPTNode.null)).1
          j).entries) (fun j => (xc j).entries) _
      intro j h0 h1
      show ((moveChildren B (B - 1) (setAt xc B (yc 0), setAt yc 0 BPTNode.null)).1 j).entries =
        (xc j).entries
      rw [c1 j h0 (by omega)]
    · apply flatMap_range_congr
        (fun j => ((moveChildren B (B - 1) (setAt xc B (yc 0), setAt yc 0 BPTNode.null)).1
          (((B - 1 + 1).toNat : Int) + j)).entries) (fun j => (yc j).entries) _
      intro j h0 h1
      show ((moveChildren B (B - 1) (setAt xc B (yc 0), setAt yc 0 BPTNode.null)).1
          (((B - 1 + 1).toNat : Int) + j)).entries = (yc j).entries
      have e2 : ((B - 1 + 1).toNat : Int) = B := by omega
      rw [e2, hc2 j h0 (by omega)]

/-- The parent after a merge of `child[m]` and `child[m+1]`: the keys after
`keys[m]` and the children after `child[m+1]` have moved left by one, and
`child[m]` is the merged node. -/
theorem mergeParent_spec (m ps : Int) (pk : Int → keyRNPair) (pc pcX : Int → BPTNode)
    (S : BPTNode) (hX : ∀ j, j ≠ m + 1 → pcX j = pc j) (hm1 : m + 1 ≤ ps) :
    (∀ j, 0 ≤ j → j < m → shiftLeftK m ps pk j = pk j) ∧
    (∀ j, m ≤ j → j < ps - 1 → shiftLeftK m ps pk j = pk (j + 1)) ∧
    (∀ j, 0 ≤ j → j < m → setAt (shiftLeftC 1 m ps pcX) m S j = pc j) ∧
    setAt (shiftLeftC 1 m ps pcX) m S m = S ∧
    (∀ j, m < j → j ≤ ps - 1 → setAt (shiftLeftC 1 m ps pcX) m S j = pc (j + 1)) := by
  refine ⟨?_, ?_, ?_, ?_, ?_⟩
  · intro j h0 h1
    rw [shiftLeftK_apply, if_neg (by omega)]
  · intro j h0 h1
    rw [shiftLeftK_apply, if_pos (by omega)]
  · intro j h0 h1
    rw [setAt_apply, if_neg (by omega), shiftLeftC_apply, if_neg (by omega), if_neg (by omega),
      hX j (by omega)]
  · rw [setAt_apply, if_pos rfl]
  · intro j h0 h1
    rw [setAt_apply, if_neg (by omega), shiftLeftC_apply, if_pos (by omega), hX (j + 1) (by omega)]

/-- The sibling tables after a merge whose surviving node has address `xa` and
whose right node has address `ya`. -/
theorem mergeLinks_spec (L L1 L2 : Links) (xa ya : Nat)
    (h1 : L1.rightSibling_ = setLink L.rightSibling_ xa (L.rightSibling_ ya))
    (h1l : L1.leftSibling_ = L.leftSibling_) (h1n : L1.next = L.next)
    (h2 : L2 = match L1.rightSibling_ xa with
      | some r => { L1 with leftSibling_ := setLink L1.leftSibling_ r (some xa) }
      | none => L1) :
    L2.rightSibling_ xa = L.rightSibling_ ya ∧
    (∀ r, L.rightSibling_ ya = some r → L2.leftSibling_ r = some xa) ∧
    (∀ a, a ≠ xa → L2.rightSibling_ a = L.rightSibling_ a) ∧
    (∀ a, L.rightSibling_ ya ≠ some a → L2.leftSibling_ a = L.leftSibling_ a) ∧
    L2.next = L.next := by
  have hx : L1.rightSibling_ xa = L.rightSibling_ ya := by
    rw [h1]; simp [setLink]
  rw [hx] at h2
  cases hr : L.rightSibling_ ya with
  | none =>
    rw [hr] at h2
    simp only at h2
    subst h2
    refine ⟨by rw [hx, hr], fun r h => absurd h (by simp), fun a ha => by rw [h1]; simp [setLink, ha],
      fun a _ => by rw [h1l], h1n⟩
  | some r =>
    rw [hr] at h2
    simp only at h2
    subst h2
    refine ⟨by simp only; rw [hx, hr], fun r' h => ?_, fun a ha => by simp only; rw [h1]; simp [setLink, ha],
      fun a ha => ?_, h1n⟩
    · simp only [Option.some.injEq] at h
      subst h
      simp [setLink]
    · have : a ≠ r := fun h => ha (by rw [h])
      simp only [setLink, if_neg this, h1l]

/-- The result of `mergeWithSibling` on a pair of neighbouring children of size
`B-1` with the same leaf flag: the surviving node, the parent without the
separator and the right node, and the sibling tables. -/
theorem mergeWithSibling_spec (B : Int) (hB : 2 ≤ B) (pa : Nat) (pl : Bool) (ps : Int)
    (pk : Int → keyRNPair) (pc : Int → BPTNode) (i m : Int) (L : Links)
    (xa : Nat) (fl : Bool) (xk : Int → keyRNPair) (xc : Int → BPTNode)
    (ya : Nat) (yk : Int → keyRNPair) (yc : Int → BPTNode)
    (hi0 : 0 ≤ i) (hi1 : i ≤ ps) (hps : 1 ≤ ps) (hm : m = if 0 < i then i - 1 else 0)
    (hx : pc m = BPTNode.node xa fl (B - 1) xk xc)
    (hy : pc (m + 1) = BPTNode.node ya fl (B - 1) yk yc) :
    ∃ S P' L',
      mergeWithSibling B i (BPTNode.node pa pl ps pk pc) L =
        Except.ok (if ps - 1 = 0 then MergeOut.collapsed S else MergeOut.kept P' m, L') ∧
      S.addr? = some xa ∧ S.isLeaf = fl ∧
      S.size = (if fl = true then 2 * B - 2 else 2 * B - 1) ∧
      (∀ j, 0 ≤ j → j < B - 1 → S.keys j = xk j) ∧
      (fl = true → ∀ j, 0 ≤ j → j < B - 1 → S.keys (B - 1 + j) = yk j) ∧
      (fl = false → S.keys (B - 1) = pk m ∧
        (∀ j, 0 ≤ j → j < B - 1 → S.keys (B + j) = yk j) ∧
        (∀ j, 0 ≤ j → j ≤ B - 1 → S.child j = xc j) ∧
        (∀ j, 0 ≤ j → j ≤ B - 1 → S.child (B + j) = yc j)) ∧
      S.entries = (pc m).entries ++ (pc (m + 1)).entries ∧
      P'.addr? = some pa ∧ P'.isLeaf = pl ∧ P'.size = ps - 1 ∧
      (∀ j, 0 ≤ j → j < m → P'.keys j = pk j) ∧
      (∀ j, m ≤ j → j < ps - 1 → P'.keys j = pk (j + 1)) ∧
      (∀ j, 0 ≤ j → j < m → P'.child j = pc j) ∧ P'.child m = S ∧
      (∀ j, m < j → j ≤ ps - 1 → P'.child j = pc (j + 1)) ∧
      L'.rightSibling_ xa = L.rightSibling_ ya ∧
      (∀ r, L.rightSibling_ ya = some r → L'.leftSibling_ r = some xa) ∧
      (∀ a, a ≠ xa → L'.rightSibling_ a = L.rightSibling_ a) ∧
      (∀ a, L.rightSibling_ ya ≠ some a → L'.leftSibling_ a = L.leftSibling_ a) ∧
      L'.next = L.next := by
  have hent : ∀ (kk : Int → keyRNPair) (cc : Int → BPTNode) (a : Nat),
      (BPTNode.node a fl (B - 1) kk cc).entries =
        if fl = true then keysFrom kk 0 (B - 1)
        else (List.range (B - 1 + 1).toNat).flatMap (fun (j : Nat) => (cc (j : Int)).entries) := by
    intro kk cc a
    simp only [BPTNode.entries]
  by_cases hpos : 0 < i
  · rw [if_pos hpos] at hm
    subst hm
    have hy' : pc i = BPTNode.node ya fl (B - 1) yk yc := by
      have e : i - 1 + 1 = i := by omega
      rw [e] at hy; exact hy
    cases fl with
    | true =>
      obtain ⟨s1, s2, s3⟩ := mergedLeaf_spec B hB xa xk yk xc
      obtain ⟨p1, p2, p3, p4, p5⟩ := mergeParent_spec (i - 1) ps pk pc
        pc
        (BPTNode.node xa true (2 * B - 1 - 1) (copyKeys (B - 1) (B - 1) yk xk) xc)
        (fun _ _ => rfl) (by omega)
      obtain ⟨l1, l2, l3, l4, l5⟩ := mergeLinks_spec L
        ⟨L.leftSibling_, setLink L.rightSibling_ xa (L.rightSibling_ ya), L.next⟩ _ xa ya
        rfl rfl rfl rfl
      refine ⟨(BPTNode.node xa true (2 * B - 1 - 1) (copyKeys (B - 1) (B - 1) yk xk) xc),
        BPTNode.node pa pl (ps - 1) (shiftLeftK (i - 1) ps pk)
          (setAt (shiftLeftC 1 (i - 1) ps pc) (i - 1)
            (BPTNode.node xa true (2 * B - 1 - 1) (copyKeys (B - 1) (B - 1) yk xk) xc)),
        _, ?_, rfl, rfl, ?_, s1, fun _ => s2,
          fun hf => absurd hf (by decide), ?_, rfl, rfl, rfl,
        p1, p2, p3, p4, p5, l1, l2, l3, l4, l5⟩
      · simp only [mergeWithSibling, if_pos hpos, hx, hy', if_true]
        split_ifs <;> rfl
      · simp only [BPTNode.size, if_true]; omega
      · rw [s3, hx, hy, hent, hent]; simp
    | false =>
      obtain ⟨s1, s2, s3, s4, s5, s6⟩ := mergedInternal_spec B hB xa (pk (i - 1)) xk yk xc yc
      obtain ⟨p1, p2, p3, p4, p5⟩ := mergeParent_spec (i - 1) ps pk pc
        (setAt pc i (BPTNode.node ya false (B - 1) yk
          (moveChildren B (B - 1) (setAt xc B (yc 0), setAt yc 0 BPTNode.null)).2))
        (BPTNode.node xa false (2 * B - 1) (copyKeys B (B - 1) yk (setAt xk (B - 1) (pk (i - 1))))
          (moveChildren B (B - 1) (setAt xc B (yc 0), setAt yc 0 BPTNode.null)).1)
        (fun j hj => by rw [setAt_apply, if_neg (by omega)]) (by omega)
      obtain ⟨l1, l2, l3, l4, l5⟩ := mergeLinks_spec L
        ⟨L.leftSibling_, setLink L.rightSibling_ xa (L.rightSibling_ ya), L.next⟩ _ xa ya
        rfl rfl rfl rfl
      refine ⟨(BPTNode.node xa false (2 * B - 1) (copyKeys B (B - 1) yk (setAt xk (B - 1) (pk (i - 1))))
          (moveChildren B (B - 1) (setAt xc B (yc 0), setAt yc 0 BPTNode.null)).1),
        BPTNode.node pa pl (ps - 1) (shiftLeftK (i - 1) ps pk)
          (setAt (shiftLeftC 1 (i - 1) ps (setAt pc i (BPTNode.node ya false (B - 1) yk
          (moveChildren B (B - 1) (setAt xc B (yc 0), setAt yc 0 BPTNode.null)).2))) (i - 1)
            (BPTNode.node xa false (2 * B - 1) (copyKeys B (B - 1) yk (setAt xk (B - 1) (pk (i - 1))))
          (moveChildren B (B - 1) (setAt xc B (yc 0), setAt yc 0 BPTNode.null)).1)),
        _, ?_, rfl, rfl, ?_, s1,
          fun hf => absurd hf (by decide), fun _ => ⟨s2, s3, s4, s5⟩, ?_, rfl, rfl, rfl,
        p1, p2, p3, p4, p5, l1, l2, l3, l4, l5⟩
      · simp only [mergeWithSibling, if_pos hpos, hx, hy', Bool.false_eq_true, if_false]
        split_ifs <;> rfl
      · simp only [BPTNode.size, Bool.false_eq_true, if_false]
      · rw [s6, hx, hy, hent, hent]; simp
  · rw [if_neg hpos] at hm
    subst hm
    have hi : i = 0 := by omega
    subst hi
    have hlt : (0 : Int) < ps := by omega
    cases fl with
    | true =>
      obtain ⟨s1, s2, s3⟩ := mergedLeaf_spec B hB xa xk yk xc
      obtain ⟨p1, p2, p3, p4, p5⟩ := mergeParent_spec (0) ps pk pc
        (setAt pc (0 + 1) BPTNode.null)
        (BPTNode.node xa true (2 * B - 1 - 1) (copyKeys (B - 1) (B - 1) yk xk) xc)
        (fun j hj => by rw [setAt_apply, if_neg (by omega)]) (by omega)
      obtain ⟨l1, l2, l3, l4, l5⟩ := mergeLinks_spec L
        ⟨L.leftSibling_, setLink L.rightSibling_ xa (L.rightSibling_ ya), L.next⟩ _ xa ya
        rfl rfl rfl rfl
      refine ⟨(BPTNode.node xa true (2 * B - 1 - 1) (copyKeys (B - 1) (B - 1) yk xk) xc),
        BPTNode.node pa pl (ps - 1) (shiftLeftK (0) ps pk)
          (setAt (shiftLeftC 1 (0) ps (setAt pc (0 + 1) BPTNode.null)) (0)
            (BPTNode.node xa true (2 * B - 1 - 1) (copyKeys (B - 1) (B - 1) yk xk) xc)),
        _, ?_, rfl, rfl, ?_, s1, fun _ => s2,
          fun hf => absurd hf (by decide), ?_, rfl, rfl, rfl,
        p1, p2, p3, p4, p5, l1, l2, l3, l4, l5⟩
      · simp only [mergeWithSibling, if_neg hpos, if_pos hlt, hx, hy, if_true]
        split_ifs <;> rfl
      · simp only [BPTNode.size, if_true]; omega
      · rw [s3, hx, hy, hent, hent]; simp
    | false =>
      obtain ⟨s1, s2, s3, s4, s5, s6⟩ := mergedInternal_spec B hB xa (pk 0) xk yk xc yc
      obtain ⟨p1, p2, p3, p4, p5⟩ := mergeParent_spec (0) ps pk pc
        (setAt pc (0 + 1) BPTNode.null)
        (BPTNode.node xa false (2 * B - 1) (copyKeys B (B - 1) yk (setAt xk (B - 1) (pk 0)))
          (moveChildren B (B - 1) (setAt xc B (yc 0), setAt yc 0 BPTNode.null)).1)
        (fun j hj => by rw [setAt_apply, if_neg (by omega)]) (by omega)
      obtain ⟨l1, l2, l3, l4, l5⟩ := mergeLinks_spec L
        ⟨L.leftSibling_, setLink L.rightSibling_ xa (L.rightSibling_ ya), L.next⟩ _ xa ya
        rfl rfl rfl rfl
      refine ⟨(BPTNode.node xa false (2 * B - 1) (copyKeys B (B - 1) yk (setAt xk (B - 1) (pk 0)))
          (moveChildren B (B - 1) (setAt xc B (yc 0), setAt yc 0 BPTNode.null)).1),
        BPTNode.node pa pl (ps - 1) (shiftLeftK (0) ps pk)
          (setAt (shiftLeftC 1 (0) ps (setAt pc (0 + 1) BPTNode.null)) (0)
            (BPTNode.node xa false (2 * B - 1) (copyKeys B (B - 1) yk (setAt xk (B - 1) (pk 0)))
          (moveChildren B (B - 1) (setAt xc B (yc 0), setAt yc 0 BPTNode.null)).1)),
        _, ?_, rfl, rfl, ?_, s1,
          fun hf => absurd hf (by decide), fun _ => ⟨s2, s3, s4, s5⟩, ?_, rfl, rfl, rfl,
        p1, p2, p3, p4, p5, l1, l2, l3, l4, l5⟩
      · simp only [mergeWithSibling, if_neg hpos, if_pos hlt, hx, hy, Bool.false_eq_true, if_false]
        split_ifs <;> rfl
      · simp only [BPTNode.size, Bool.false_eq_true, if_false]
      · rw [s6, hx, hy, hent, hent]; simp

/-- C24: for every `B >= 2`, parent, index `i` and child `c = child[i]` of size
`B-1` whose chosen sibling (`child[i-1]` if `i > 0`, otherwise `child[1]`) also
has size `B-1`, `mergeWithSibling` leaves a surviving node, the left node
`child[m]` of the pair: it holds the left node's keys, then (internal case
only) the separator `keys[m]`, then the right node's keys (size `2B-2` for
leaves, `2B-1` for internal nodes, with the `B + B` children in order), so that
its entries are those of the left node followed by those of the right node;
the parent loses `keys[m]` and the pointer to the right node (size minus one,
later keys and children moved left by one); the survivor's `rightSibling_` is
the right node's old `rightSibling_`, whose `leftSibling_` now points at the
survivor; and `current` becomes the survivor (child `m` of the parent, or the
new root when the parent's size has dropped to 0). -/
theorem C24_merge_postcondition (B : Int) (hB : 2 ≤ B) (pa : Nat) (pl : Bool) (ps : Int)
    (pk : Int → keyRNPair) (pc : Int → BPTNode) (i m : Int) (L : Links)
    (xa : Nat) (fl : Bool) (xk : Int → keyRNPair) (xc : Int → BPTNode)
    (ya : Nat) (yk : Int → keyRNPair) (yc : Int → BPTNode)
    (hi0 : 0 ≤ i) (hi1 : i ≤ ps) (hps : 1 ≤ ps) (hm : m = if 0 < i then i - 1 else 0)
    (hx : pc m = BPTNode.node xa fl (B - 1) xk xc)
    (hy : pc (m + 1) = BPTNode.node ya fl (B - 1) yk yc) :
    ∃ S P' L',
      mergeWithSibling B i (BPTNode.node pa pl ps pk pc) L =
        Except.ok (if ps - 1 = 0 then MergeOut.collapsed S else MergeOut.kept P' m, L') ∧
      S.addr? = some xa ∧ S.isLeaf = fl ∧
      S.size = (if fl = true then 2 * B - 2 else 2 * B - 1) ∧
      (∀ j, 0 ≤ j → j < B - 1 → S.keys j = xk j) ∧
      (fl = true → ∀ j, 0 ≤ j → j < B - 1 → S.keys (B - 1 + j) = yk j) ∧
      (fl = false → S.keys (B - 1) = pk m ∧
        (∀ j, 0 ≤ j → j < B - 1 → S.keys (B + j) = yk j) ∧
        (∀ j, 0 ≤ j → j ≤ B - 1 → S.child j = xc j) ∧
        (∀ j, 0 ≤ j → j ≤ B - 1 → S.child (B + j) = yc j)) ∧
      S.entries = (pc m).entries ++ (pc (m + 1)).entries ∧
      P'.addr? = some pa ∧ P'.isLeaf = pl ∧ P'.size = ps - 1 ∧
      (∀ j, 0 ≤ j → j < m → P'.keys j = pk j) ∧
      (∀ j, m ≤ j → j < ps - 1 → P'.keys j = pk (j + 1)) ∧
      (∀ j, 0 ≤ j → j < m → P'.child j = pc j) ∧ P'.child m = S ∧
      (∀ j, m < j → j ≤ ps - 1 → P'.child j = pc (j + 1)) ∧
      L'.rightSibling_ xa = L.rightSibling_ ya ∧
      (∀ r, L.rightSibling_ ya = some r → L'.leftSibling_ r = some xa) ∧
      (∀ a, a ≠ xa → L'.rightSibling_ a = L.rightSibling_ a) ∧
      (∀ a, L.rightSibling_ ya ≠ some a → L'.leftSibling_ a = L.leftSibling_ a) ∧
      L'.next = L.next :=
  mergeWithSibling_spec B hB pa pl ps pk pc i m L xa fl xk xc ya yk yc hi0 hi1 hps hm hx hy

theorem C24_merge_postcondition_witness :
    (2 : Int) ≤ 2 ∧ (0 : Int) ≤ 0 ∧ (0 : Int) ≤ 1 ∧ (1 : Int) ≤ 1 ∧
    (0 : Int) = (if (0 : Int) < 0 then 0 - 1 else 0) ∧
    sampleChildrenM 0 = BPTNode.node 1 true (2 - 1) (setAt zeroKeys 0 (1, 0)) nullChild ∧
    sampleChildrenM (0 + 1) = BPTNode.node 2 true (2 - 1) (setAt zeroKeys 0 (3, 0)) nullChild ∧
    ∃ S P' L',
      mergeWithSibling 2 0 (BPTNode.node 0 false 1 (setAt zeroKeys 0 (3, 0)) sampleChildrenM)
          (Links.mk (fun _ => none) (fun _ => none) 3) =
        Except.ok (if (1 : Int) - 1 = 0 then MergeOut.collapsed S else MergeOut.kept P' 0, L') ∧
      S.addr? = some 1 ∧ S.isLeaf = true ∧
      S.size = (if true = true then 2 * 2 - 2 else 2 * 2 - 1) ∧
      S.entries = (sampleChildrenM 0).entries ++ (sampleChildrenM (0 + 1)).entries ∧
      P'.size = 1 - 1 ∧ L'.rightSibling_ 1 = none :=
  ⟨by decide, by decide, by decide, by decide, by decide, rfl, rfl,
    match C24_merge_postcondition 2 (by decide) 0 false 1 (setAt zeroKeys 0 (3, 0)) sampleChildrenM
      0 0 (Links.mk (fun _ => none) (fun _ => none) 3) 1 true (setAt zeroKeys 0 (1, 0)) nullChild
      2 (setAt zeroKeys 0 (3, 0)) nullChild (by decide) (by decide) (by decide) (by decide)
      rfl rfl with
    | ⟨S, P', L', h⟩ =>
      ⟨S, P', L', h.1, h.2.1, h.2.2.1, h.2.2.2.1, h.2.2.2.2.2.2.2.1,
        h.2.2.2.2.2.2.2.2.2.2.1, h.2.2.2.2.2.2.2.2.2.2.2.2.2.2.2.2.1⟩⟩

/-! ## The sibling links of the nodes in use -/

theorem Owns_null (b : Nat) : ¬ BPTNode.null.Owns b := by
  intro h; cases h

theorem Owns_leaf {a : Nat} {s : Int} {k : Int → keyRNPair} {c : Int → BPTNode} {b : Nat} :
    (BPTNode.node a true s k c).Owns b ↔ b = a := by
  constructor
  · intro h; cases h; rfl
  · intro h; subst h; exact BPTNode.Owns.here

theorem Owns_node {a : Nat} {s : Int} {k : Int → keyRNPair} {c : Int → BPTNode} {b : Nat} :
    (BPTNode.node a false s k c).Owns b ↔ b = a ∨ ∃ j, 0 ≤ j ∧ j ≤ s ∧ (c j).Owns b := by
  constructor
  · intro h
    cases h with
    | here => exact Or.inl rfl
    | under i h0 h1 h => exact Or.inr ⟨i, h0, h1, h⟩
  · rintro (h | ⟨j, h0, h1, h⟩)
    · subst h; exact BPTNode.Owns.here
    · exact BPTNode.Owns.under j h0 h1 h

theorem OnLeft_null (b : Nat) : ¬ BPTNode.null.OnLeft b := by
  intro h; cases h

theorem OnLeft_leaf {a : Nat} {s : Int} {k : Int → keyRNPair} {c : Int → BPTNode} {b : Nat} :
    (BPTNode.node a true s k c).OnLeft b ↔ b = a := by
  constructor
  · intro h; cases h; rfl
  · intro h; subst h; exact BPTNode.OnLeft.here

theorem OnLeft_node {a : Nat} {s : Int} {k : Int → keyRNPair} {c : Int → BPTNode} {b : Nat} :
    (BPTNode.node a false s k c).OnLeft b ↔ b = a ∨ (0 ≤ s ∧ (c 0).OnLeft b) := by
  constructor
  · intro h
    cases h with
    | here => exact Or.inl rfl
    | under hs h => exact Or.inr ⟨hs, h⟩
  · rintro (h | ⟨hs, h⟩)
    · subst h; exact BPTNode.OnLeft.here
    · exact BPTNode.OnLeft.under hs h

theorem OnRight_null (b : Nat) : ¬ BPTNode.null.OnRight b := by
  intro h; cases h

theorem OnRight_leaf {a : Nat} {s : Int} {k : Int → keyRNPair} {c : Int → BPTNode} {b : Nat} :
    (BPTNode.node a true s k c).OnRight b ↔ b = a := by
  constructor
  · intro h; cases h; rfl
  · intro h; subst h; exact BPTNode.OnRight.here

theorem OnRight_node {a : Nat} {s : Int} {k : Int → keyRNPair} {c : Int → BPTNode} {b : Nat} :
    (BPTNode.node a false s k c).OnRight b ↔ b = a ∨ (0 ≤ s ∧ (c s).OnRight b) := by
  constructor
  · intro h
    cases h with
    | here => exact Or.inl rfl
    | under hs h => exact Or.inr ⟨hs, h⟩
  · rintro (h | ⟨hs, h⟩)
    · subst h; exact BPTNode.OnRight.here
    · exact BPTNode.OnRight.under hs h

theorem Uniq_leaf (a : Nat) (s : Int) (k : Int → keyRNPair) (c : Int → BPTNode) :
    (BPTNode.node a true s k c).Uniq := by
  simp [BPTNode.Uniq]

theorem Uniq_node {a : Nat} {s : Int} {k : Int → keyRNPair} {c : Int → BPTNode} :
    (BPTNode.node a false s k c).Uniq ↔
      ((∀ i, 0 ≤ i → i ≤ s → (c i).Uniq) ∧
       (∀ i, 0 ≤ i → i ≤ s → ¬ (c i).Owns a) ∧
       ∀ i j b, 0 ≤ i → i ≤ s → 0 ≤ j → j ≤ s → (c i).Owns b → (c j).Owns b → i = j) := by
  simp [BPTNode.Uniq]

theorem OnLeft_Owns {n : BPTNode} {b : Nat} (h : n.OnLeft b) : n.Owns b := by
  induction h with
  | here => exact BPTNode.Owns.here
  | under hs _ ih => exact BPTNode.Owns.under 0 (le_refl 0) hs ih

theorem OnRight_Owns {n : BPTNode} {b : Nat} (h : n.OnRight b) : n.Owns b := by
  induction h with
  | here => exact BPTNode.Owns.here
  | under hs _ ih => exact BPTNode.Owns.under _ hs (le_refl _) ih

theorem setAt_self {α : Type} (f : Int → α) (i : Int) : setAt f i (f i) = f := by
  funext j
  simp only [setAt_apply]
  split_ifs with h
  · rw [h]
  · rfl

theorem down_live {X : LinkCtx} {a : Nat} {s : Int} {k : Int → keyRNPair} {c : Int → BPTNode}
    {i : Int} (hi0 : 0 ≤ i) (hi1 : i ≤ s) (x : BPTNode) (b : Nat) :
    (X.out b ∨ (BPTNode.node a false s k (setAt c i x)).Owns b) ↔
      ((X.down a s c i).out b ∨ x.Owns b) := by
  rw [Owns_node]
  constructor
  · rintro (h | rfl | ⟨j, hj0, hj1, hj⟩)
    · exact Or.inl (Or.inl h)
    · exact Or.inl (Or.inr (Or.inl rfl))
    · by_cases hji : j = i
      · subst hji
        rw [setAt_apply, if_pos rfl] at hj
        exact Or.inr hj
      · rw [setAt_apply, if_neg hji] at hj
        exact Or.inl (Or.inr (Or.inr ⟨j, hj0, hj1, hji, hj⟩))
  · rintro ((h | rfl | ⟨j, hj0, hj1, hji, hj⟩) | h)
    · exact Or.inl h
    · exact Or.inr (Or.inl rfl)
    · refine Or.inr (Or.inr ⟨j, hj0, hj1, ?_⟩)
      rw [setAt_apply, if_neg hji]; exact hj
    · refine Or.inr (Or.inr ⟨i, hi0, hi1, ?_⟩)
      rw [setAt_apply, if_pos rfl]; exact h

theorem down_left {X : LinkCtx} {a : Nat} {s : Int} {k : Int → keyRNPair} {c : Int → BPTNode}
    {i : Int} (hi0 : 0 ≤ i) (hi1 : i ≤ s) (x : BPTNode) (b : Nat) :
    (X.outL b ∨ (X.onL ∧ (BPTNode.node a false s k (setAt c i x)).OnLeft b)) ↔
      ((X.down a s c i).outL b ∨ ((X.down a s c i).onL ∧ x.OnLeft b)) := by
  rw [OnLeft_node]
  have hs : 0 ≤ s := by omega
  constructor
  · rintro (h | ⟨hl, rfl | ⟨_, hb⟩⟩)
    · exact Or.inl (Or.inl h)
    · exact Or.inl (Or.inr ⟨hl, Or.inl rfl⟩)
    · by_cases h0 : i = 0
      · subst h0
        rw [setAt_apply, if_pos rfl] at hb
        exact Or.inr ⟨⟨hl, rfl⟩, hb⟩
      · rw [setAt_apply, if_neg (fun e => h0 e.symm)] at hb
        exact Or.inl (Or.inr ⟨hl, Or.inr ⟨h0, hb⟩⟩)
  · rintro ((h | ⟨hl, rfl | ⟨h0, hb⟩⟩) | ⟨⟨hl, h0⟩, hb⟩)
    · exact Or.inl h
    · exact Or.inr ⟨hl, Or.inl rfl⟩
    · refine Or.inr ⟨hl, Or.inr ⟨hs, ?_⟩⟩
      rw [setAt_apply, if_neg (fun e => h0 e.symm)]; exact hb
    · refine Or.inr ⟨hl, Or.inr ⟨hs, ?_⟩⟩
      subst h0
      rw [setAt_apply, if_pos rfl]; exact hb

theorem down_right {X : LinkCtx} {a : Nat} {s : Int} {k : Int → keyRNPair} {c : Int → BPTNode}
    {i : Int} (hi0 : 0 ≤ i) (hi1 : i ≤ s) (x : BPTNode) (b : Nat) :
    (X.outR b ∨ (X.onR ∧ (BPTNode.node a false s k (setAt c i x)).OnRight b)) ↔
      ((X.down a s c i).outR b ∨ ((X.down a s c i).onR ∧ x.OnRight b)) := by
  rw [OnRight_node]
  have hs : 0 ≤ s := by omega
  constructor
  · rintro (h | ⟨hl, rfl | ⟨_, hb⟩⟩)
    · exact Or.inl (Or.inl h)
    · exact Or.inl (Or.inr ⟨hl, Or.inl rfl⟩)
    · by_cases h0 : i = s
      · subst h0
        rw [setAt_apply, if_pos rfl] at hb
        exact Or.inr ⟨⟨hl, rfl⟩, hb⟩
      · rw [setAt_apply, if_neg (fun e => h0 e.symm)] at hb
        exact Or.inl (Or.inr ⟨hl, Or.inr ⟨h0, hb⟩⟩)
  · rintro ((h | ⟨hl, rfl | ⟨h0, hb⟩⟩) | ⟨⟨hl, h0⟩, hb⟩)
    · exact Or.inl h
    · exact Or.inr ⟨hl, Or.inl rfl⟩
    · refine Or.inr ⟨hl, Or.inr ⟨hs, ?_⟩⟩
      rw [setAt_apply, if_neg (fun e => h0 e.symm)]; exact hb
    · refine Or.inr ⟨hl, Or.inr ⟨hs, ?_⟩⟩
      subst h0
      rw [setAt_apply, if_pos rfl]; exact hb

/-- Going up: the invariant of `child[i]` in its surroundings, with the
siblings as they were, gives the invariant of the parent with that child. -/
theorem LinkInvAt_up {X : LinkCtx} {a : Nat} {s : Int} {k k' : Int → keyRNPair}
    {c : Int → BPTNode} {L L' : Links} {x : BPTNode}
    (h : LinkInvAt X (BPTNode.node a false s k c) L) (i : Int) (hi0 : 0 ≤ i) (hi1 : i ≤ s)
    (hx : LinkInvAt (X.down a s c i) x L') :
    LinkInvAt X (BPTNode.node a false s k' (setAt c i x)) L' := by
  obtain ⟨hu1, hu2, hu3⟩ := Uniq_node.mp h.uniq
  have hsib : ∀ j b, 0 ≤ j → j ≤ s → j ≠ i → (c j).Owns b → ¬ x.Owns b := by
    intro j b hj0 hj1 hji hj hxb
    exact hx.apart b hxb (Or.inr (Or.inr ⟨j, hj0, hj1, hji, hj⟩))
  refine ⟨?_, ?_, h.subL, h.subR, ?_, hx.freshR, ?_, ?_, ?_⟩
  · rw [Uniq_node]
    refine ⟨?_, ?_, ?_⟩
    · intro j hj0 hj1
      rw [setAt_apply]
      split_ifs with hji
      · exact hx.uniq
      · exact hu1 j hj0 hj1
    · intro j hj0 hj1
      rw [setAt_apply]
      split_ifs with hji
      · exact fun hb => hx.apart a hb (Or.inr (Or.inl rfl))
      · exact hu2 j hj0 hj1
    · intro j1 j2 b h10 h11 h20 h21
      rw [setAt_apply, setAt_apply]
      split_ifs with e1 e2 e2
      · intro _ _; rw [e1, e2]
      · intro hb1 hb2; exact absurd hb1 (hsib j2 b h20 h21 e2 hb2)
      · intro hb1 hb2; exact absurd hb2 (hsib j1 b h10 h11 e1 hb1)
      · exact hu3 j1 j2 b h10 h11 h20 h21
  · intro b hb hout
    rcases (down_live hi0 hi1 x b).mp (Or.inr hb) with h1 | h1
    · rcases h1 with h1 | rfl | ⟨j, hj0, hj1, hji, hj⟩
      · exact hx.apart b (by
          rcases Owns_node.mp hb with rfl | ⟨j, hj0, hj1, hj⟩
          · exact absurd hout (h.apart _ BPTNode.Owns.here)
          · rw [setAt_apply] at hj
            split_ifs at hj with hji
            · exact hj
            · exact absurd hout (h.apart b (BPTNode.Owns.under j hj0 hj1 hj))) (Or.inl h1)
      · exact h.apart _ BPTNode.Owns.here hout
      · exact h.apart b (BPTNode.Owns.under j hj0 hj1 hj) hout
    · exact hx.apart b h1 (Or.inl hout)
  · intro b hb
    exact hx.fresh b ((down_live hi0 hi1 x b).mp hb)
  · intro b r hb
    exact hx.back b r ((down_live hi0 hi1 x b).mp hb)
  · intro b hb
    exact hx.left b ((down_left hi0 hi1 x b).mp hb)
  · intro b hb
    exact hx.right b ((down_right hi0 hi1 x b).mp hb)

/-- Going down: the invariant of an internal node gives the invariant of
`child[i]` in its surroundings. -/
theorem LinkInvAt_down {X : LinkCtx} {a : Nat} {s : Int} {k : Int → keyRNPair}
    {c : Int → BPTNode} {L : Links}
    (h : LinkInvAt X (BPTNode.node a false s k c) L) (i : Int) (hi0 : 0 ≤ i) (hi1 : i ≤ s) :
    LinkInvAt (X.down a s c i) (c i) L := by
  obtain ⟨hu1, hu2, hu3⟩ := Uniq_node.mp h.uniq
  have h' : LinkInvAt X (BPTNode.node a false s k (setAt c i (c i))) L := by
    rw [setAt_self]; exact h
  refine ⟨hu1 i hi0 hi1, ?_, ?_, ?_, ?_, h.freshR, ?_, ?_, ?_⟩
  · rintro b hb (ho | rfl | ⟨j, hj0, hj1, hji, hj⟩)
    · exact h.apart b (BPTNode.Owns.under i hi0 hi1 hb) ho
    · exact hu2 i hi0 hi1 hb
    · exact hji (hu3 j i b hj0 hj1 hi0 hi1 hj hb)
  · rintro b (hb | ⟨_, rfl | ⟨hi, hb⟩⟩)
    · exact Or.inl (h.subL b hb)
    · exact Or.inr (Or.inl rfl)
    · exact Or.inr (Or.inr ⟨0, le_refl 0, by omega, fun e => hi e.symm, OnLeft_Owns hb⟩)
  · rintro b (hb | ⟨_, rfl | ⟨hi, hb⟩⟩)
    · exact Or.inl (h.subR b hb)
    · exact Or.inr (Or.inl rfl)
    · exact Or.inr (Or.inr ⟨s, by omega, le_refl s, fun e => hi e.symm, OnRight_Owns hb⟩)
  · intro b hb
    exact h'.fresh b ((down_live hi0 hi1 (c i) b).mpr hb)
  · intro b r hb
    exact h'.back b r ((down_live hi0 hi1 (c i) b).mpr hb)
  · intro b hb
    exact h'.left b ((down_left hi0 hi1 (c i) b).mpr hb)
  · intro b hb
    exact h'.right b ((down_right hi0 hi1 (c i) b).mpr hb)

/-- The invariant passes to a subtree that uses no more addresses and has no
more nodes on the edges. -/
theorem LinkInvAt_mono {X : LinkCtx} {n n' : BPTNode} {L : Links} (h : LinkInvAt X n L)
    (hu : n'.Uniq) (ho : ∀ b, n'.Owns b → n.Owns b)
    (hl : ∀ b, n'.OnLeft b → n.OnLeft b) (hr : ∀ b, n'.OnRight b → n.OnRight b) :
    LinkInvAt X n' L :=
  ⟨hu, fun b hb => h.apart b (ho b hb), h.subL, h.subR,
    fun b hb => h.fresh b (hb.imp id (ho b)), h.freshR,
    fun a r ha => h.back a r (ha.imp id (ho a)),
    fun a ha => h.left a (ha.imp id (fun x => ⟨x.1, hl a x.2⟩)),
    fun a ha => h.right a (ha.imp id (fun x => ⟨x.1, hr a x.2⟩))⟩

/-- The invariant of the only child of a root, in its surroundings, is the
invariant of that child as the root. -/
theorem LinkInvAt_top {a : Nat} {c : Int → BPTNode} {x : BPTNode} {L : Links}
    (h : LinkInvAt (LinkCtx.top.down a 0 c 0) x L) : LinkInvAt LinkCtx.top x L :=
  ⟨h.uniq, fun _ _ hf => hf, fun _ hf => hf.elim, fun _ hf => hf.elim,
    fun b hb => hb.elim (fun hf => hf.elim) (fun hb => h.fresh b (Or.inr hb)), h.freshR,
    fun a r ha => ha.elim (fun hf => hf.elim) (fun ha => h.back a r (Or.inr ha)),
    fun a ha => ha.elim (fun hf => hf.elim) (fun ha => h.left a (Or.inr ⟨⟨trivial, rfl⟩, ha.2⟩)),
    fun a ha => ha.elim (fun hf => hf.elim) (fun ha => h.right a (Or.inr ⟨⟨trivial, rfl⟩, ha.2⟩))⟩

/-- Replacing two neighbouring children by nodes that use the same addresses,
apart from each other, keeps the addresses distinct and the edges in place. -/
theorem Uniq_replace_pair {pa : Nat} {ps : Int} {pk pk' : Int → keyRNPair} {pc : Int → BPTNode}
    {j1 j2 : Int} {X1 X2 : BPTNode}
    (hu : (BPTNode.node pa false ps pk pc).Uniq) (h0 : 0 ≤ j1) (h12 : j2 = j1 + 1) (h1 : j2 ≤ ps)
    (hX1 : X1.Uniq) (hX2 : X2.Uniq)
    (ho1 : ∀ b, X1.Owns b → (pc j1).Owns b ∨ (pc j2).Owns b)
    (ho2 : ∀ b, X2.Owns b → (pc j1).Owns b ∨ (pc j2).Owns b)
    (hd : ∀ b, X1.Owns b → X2.Owns b → False)
    (hl : ∀ b, X1.OnLeft b → (pc j1).OnLeft b)
    (hr : ∀ b, X2.OnRight b → (pc j2).OnRight b) :
    (BPTNode.node pa false ps pk' (setAt (setAt pc j1 X1) j2 X2)).Uniq ∧
    (∀ b, (BPTNode.node pa false ps pk' (setAt (setAt pc j1 X1) j2 X2)).Owns b →
      (BPTNode.node pa false ps pk pc).Owns b) ∧
    (∀ b, (BPTNode.node pa false ps pk' (setAt (setAt pc j1 X1) j2 X2)).OnLeft b →
      (BPTNode.node pa false ps pk pc).OnLeft b) ∧
    (∀ b, (BPTNode.node pa false ps pk' (setAt (setAt pc j1 X1) j2 X2)).OnRight b →
      (BPTNode.node pa false ps pk pc).OnRight b) := by
  obtain ⟨hu1, hu2, hu3⟩ := Uniq_node.mp hu
  have hc2 : setAt (setAt pc j1 X1) j2 X2 j2 = X2 := by rw [setAt_apply, if_pos rfl]
  have hc1 : setAt (setAt pc j1 X1) j2 X2 j1 = X1 := by
    rw [setAt_apply, if_neg (by omega), setAt_apply, if_pos rfl]
  have hc3 : ∀ j, j ≠ j1 → j ≠ j2 → setAt (setAt pc j1 X1) j2 X2 j = pc j := by
    intro j n1 n2
    rw [setAt_apply, if_neg n2, setAt_apply, if_neg n1]
  -- every address below a new child lies below an old child of the same slot or of the pair
  have key : ∀ j b, 0 ≤ j → j ≤ ps → (setAt (setAt pc j1 X1) j2 X2 j).Owns b →
      ∃ j0, 0 ≤ j0 ∧ j0 ≤ ps ∧ (pc j0).Owns b ∧
        (j0 = j ∨ ((j = j1 ∨ j = j2) ∧ (j0 = j1 ∨ j0 = j2))) := by
    intro j b hj0 hj1 hb
    by_cases e2 : j = j2
    · subst e2
      rw [hc2] at hb
      rcases ho2 b hb with h | h
      · exact ⟨j1, h0, by omega, h, Or.inr ⟨Or.inr rfl, Or.inl rfl⟩⟩
      · exact ⟨j, hj0, hj1, h, Or.inl rfl⟩
    · by_cases e1 : j = j1
      · subst e1
        rw [hc1] at hb
        rcases ho1 b hb with h | h
        · exact ⟨j, hj0, hj1, h, Or.inl rfl⟩
        · exact ⟨j2, by omega, h1, h, Or.inr ⟨Or.inl rfl, Or.inr rfl⟩⟩
      · rw [hc3 j e1 e2] at hb
        exact ⟨j, hj0, hj1, hb, Or.inl rfl⟩
  refine ⟨?_, ?_, ?_, ?_⟩
  · rw [Uniq_node]
    refine ⟨?_, ?_, ?_⟩
    · intro j hj0 hj1
      by_cases e2 : j = j2
      · rw [e2, hc2]; exact hX2
      · by_cases e1 : j = j1
        · rw [e1, hc1]; exact hX1
        · rw [hc3 j e1 e2]; exact hu1 j hj0 hj1
    · intro j hj0 hj1 hb
      obtain ⟨j0, h00, h01, hb0, _⟩ := key j pa hj0 hj1 hb
      exact hu2 j0 h00 h01 hb0
    · intro i j b hi0 hi1 hj0 hj1 hbi hbj
      obtain ⟨i0, hi00, hi01, hbi0, hci⟩ := key i b hi0 hi1 hbi
      obtain ⟨j0, hj00, hj01, hbj0, hcj⟩ := key j b hj0 hj1 hbj
      have e := hu3 i0 j0 b hi00 hi01 hj00 hj01 hbi0 hbj0
      by_contra hne
      have hpair : (i = j1 ∧ j = j2) ∨ (i = j2 ∧ j = j1) := by omega
      rcases hpair with ⟨ei, ej⟩ | ⟨ei, ej⟩
      · rw [ei, hc1] at hbi
        rw [ej, hc2] at hbj
        exact hd b hbi hbj
      · rw [ei, hc2] at hbi
        rw [ej, hc1] at hbj
        exact hd b hbj hbi
  · intro b hb
    rcases Owns_node.mp hb with rfl | ⟨j, hj0, hj1, hj⟩
    · exact BPTNode.Owns.here
    · obtain ⟨j0, h00, h01, hb0, _⟩ := key j b hj0 hj1 hj
      exact BPTNode.Owns.under j0 h00 h01 hb0
  · intro b hb
    rcases OnLeft_node.mp hb with rfl | ⟨hs, hb⟩
    · exact BPTNode.OnLeft.here
    · refine BPTNode.OnLeft.under hs ?_
      by_cases e1 : (0 : Int) = j1
      · rw [e1, hc1] at hb
        rw [e1]; exact hl b hb
      · rw [hc3 0 e1 (by omega)] at hb
        exact hb
  · intro b hb
    rcases OnRight_node.mp hb with rfl | ⟨hs, hb⟩
    · exact BPTNode.OnRight.here
    · refine BPTNode.OnRight.under hs ?_
      by_cases e2 : ps = j2
      · rw [e2, hc2] at hb
        rw [e2]; exact hr b hb
      · rw [hc3 ps (by omega) e2] at hb
        exact hb

theorem Owns_sub_of_children {n : BPTNode} {a : Nat} {l : Bool} {s : Int} {k : Int → keyRNPair}
    {c : Int → BPTNode} (ha : n.Owns a)
    (hc : l = false → ∀ j, 0 ≤ j → j ≤ s → ∀ b, (c j).Owns b → n.Owns b) :
    ∀ b, (BPTNode.node a l s k c).Owns b → n.Owns b := by
  intro b hb
  cases l with
  | true => rw [Owns_leaf.mp hb]; exact ha
  | false =>
    rcases Owns_node.mp hb with rfl | ⟨j, hj0, hj1, hj⟩
    · exact ha
    · exact hc rfl j hj0 hj1 b hj

/-- What `borrowFromLeftSibling` does to the nodes in use: no address is used
twice afterwards, none is new, and the edges gain no node. -/
theorem borrowFromLeftSibling_Uniq {B : Int} {ord : Bool} (h : Nat) {P Q : keyRNPair → Prop}
    {pa : Nat} {ps : Int} {pk : Int → keyRNPair} {pc : Int → BPTNode} (idx : Int) {cur : BPTNode}
    (hwf : WF B ord (h + 1) P Q (BPTNode.node pa false ps pk pc))
    (hu : (BPTNode.node pa false ps pk pc).Uniq)
    (hi0 : 0 < idx) (hi1 : idx ≤ ps) (hcs : 0 ≤ (pc idx).size) (hls : 1 ≤ (pc (idx - 1)).size)
    (hres : borrowFromLeftSibling idx (BPTNode.node pa false ps pk pc) = Except.ok cur) :
    cur.Uniq ∧ (∀ b, cur.Owns b → (BPTNode.node pa false ps pk pc).Owns b) ∧
    (∀ b, cur.OnLeft b → (BPTNode.node pa false ps pk pc).OnLeft b) ∧
    (∀ b, cur.OnRight b → (BPTNode.node pa false ps pk pc).OnRight b) := by
  have hwf' := hwf
  simp only [WF] at hwf'
  obtain ⟨_, _, _, _, hch⟩ := hwf'
  obtain ⟨hu1, hu2, hu3⟩ := Uniq_node.mp hu
  cases hc : pc idx with
  | null => simp [borrowFromLeftSibling, hc] at hres
  | node ca cl cs ck cc =>
    cases hl : pc (idx - 1) with
    | null => simp [borrowFromLeftSibling, hc, hl] at hres
    | node la ll ls lk lc =>
      rw [hc] at hcs
      rw [hl] at hls
      simp only [BPTNode.size] at hcs hls
      have hcwf := (hch idx (by omega) hi1).2
      have hlwf := (hch (idx - 1) (by omega) (by omega)).2
      rw [hc] at hcwf
      rw [hl] at hlwf
      have hfl : ll = cl := by rw [WF_isLeaf hcwf, WF_isLeaf hlwf]
      subst hfl
      have hcu := hu1 idx (by omega) hi1
      have hlu := hu1 (idx - 1) (by omega) (by omega)
      rw [hc] at hcu
      rw [hl] at hlu
      have hapart : ∀ b, (pc (idx - 1)).Owns b → (pc idx).Owns b → False := by
        intro b h1 h2
        have := hu3 (idx - 1) idx b (by omega) (by omega) (by omega) hi1 h1 h2
        omega
      cases ll with
      | true =>
        simp only [borrowFromLeftSibling, hc, hl, if_true, Except.ok.injEq] at hres
        rw [← hres]
        refine Uniq_replace_pair hu (by omega) (by omega) hi1 (Uniq_leaf _ _ _ _)
          (Uniq_leaf _ _ _ _) ?_ ?_ ?_ ?_ ?_
        · intro b hb; rw [Owns_leaf.mp hb, hl]; exact Or.inl BPTNode.Owns.here
        · intro b hb; rw [Owns_leaf.mp hb, hc]; exact Or.inr BPTNode.Owns.here
        · intro b h1 h2
          rw [Owns_leaf] at h1 h2
          apply hapart b
          · rw [hl, h1]; exact BPTNode.Owns.here
          · rw [hc, h2]; exact BPTNode.Owns.here
        · intro b hb; rw [OnLeft_leaf.mp hb, hl]; exact BPTNode.OnLeft.here
        · intro b hb; rw [OnRight_leaf.mp hb, hc]; exact BPTNode.OnRight.here
      | false =>
        simp only [borrowFromLeftSibling, hc, hl, Bool.false_eq_true, if_false,
          Except.ok.injEq] at hres
        rw [← hres]
        obtain ⟨hc1, hc2, hc3⟩ := Uniq_node.mp hcu
        obtain ⟨hl1, hl2, hl3⟩ := Uniq_node.mp hlu
        rw [hc, hl] at hapart
        -- the children of the enlarged child and of the shrunk sibling
        have hcc0 : setAt (setAt (setAt (shiftRightC 0 cs cc) 0 BPTNode.null) 1
            (shiftRightC 0 cs cc 0)) 0 (lc (ls - 1)) 0 = lc (ls - 1) := by
          rw [setAt_apply, if_pos rfl]
        have hccj : ∀ j, 1 ≤ j → j ≤ cs + 1 →
            setAt (setAt (setAt (shiftRightC 0 cs cc) 0 BPTNode.null) 1
              (shiftRightC 0 cs cc 0)) 0 (lc (ls - 1)) j = cc (j - 1) := by
          intro j h1 h2
          by_cases e : j = 1
          · subst e
            simp only [setAt_apply, shiftRightC_apply 0 cs cc _ hcs]
            simp
          · simp only [setAt_apply, shiftRightC_apply 0 cs cc _ hcs]
            rw [if_neg (by omega), if_neg e, if_neg (by omega), if_pos (by omega)]
        have hlcj : ∀ j, 0 ≤ j → j ≤ ls - 1 → ∀ b,
            (setAt lc (ls - 1) BPTNode.null j).Owns b → j < ls - 1 ∧ (lc j).Owns b := by
          intro j h0 h1 b hb
          rw [setAt_apply] at hb
          split_ifs at hb with e
          · exact absurd hb (Owns_null b)
          · exact ⟨by omega, hb⟩
        have hlast : ∀ b, (lc (ls - 1)).Owns b → (BPTNode.node la false ls lk lc).Owns b :=
          fun b hb => BPTNode.Owns.under (ls - 1) (by omega) (by omega) hb
        refine Uniq_replace_pair hu (by omega) (by omega) hi1 ?_ ?_ ?_ ?_ ?_ ?_ ?_
        · -- the shrunk sibling
          rw [Uniq_node]
          refine ⟨?_, ?_, ?_⟩
          · intro j h0 h1
            rw [setAt_apply]
            split_ifs
            · trivial
            · exact hl1 j h0 (by omega)
          · intro j h0 h1 hb
            exact hl2 j h0 (by omega) (hlcj j h0 h1 la hb).2
          · intro i j b hi0' hi1' hj0 hj1 hbi hbj
            exact hl3 i j b hi0' (by omega) hj0 (by omega) (hlcj i hi0' hi1' b hbi).2
              (hlcj j hj0 hj1 b hbj).2
        · -- the enlarged child
          rw [Uniq_node]
          refine ⟨?_, ?_, ?_⟩
          · intro j h0 h1
            by_cases e : j = 0
            · rw [e, hcc0]; exact hl1 (ls - 1) (by omega) (by omega)
            · rw [hccj j (by omega) h1]; exact hc1 (j - 1) (by omega) (by omega)
          · intro j h0 h1 hb
            by_cases e : j = 0
            · rw [e, hcc0] at hb
              exact hapart ca (hlast ca hb) BPTNode.Owns.here
            · rw [hccj j (by omega) h1] at hb
              exact hc2 (j - 1) (by omega) (by omega) hb
          · intro i j b hi0' hi1' hj0 hj1 hbi hbj
            by_cases ei : i = 0
            · by_cases ej : j = 0
              · rw [ei, ej]
              · rw [ei, hcc0] at hbi
                rw [hccj j (by omega) hj1] at hbj
                exact absurd (BPTNode.Owns.under (j - 1) (by omega) (by omega) hbj)
                  (fun hcb => hapart b (hlast b hbi) hcb)
            · by_cases ej : j = 0
              · rw [ej, hcc0] at hbj
                rw [hccj i (by omega) hi1'] at hbi
                exact absurd (BPTNode.Owns.under (i - 1) (by omega) (by omega) hbi)
                  (fun hcb => hapart b (hlast b hbj) hcb)
              · rw [hccj i (by omega) hi1'] at hbi
                rw [hccj j (by omega) hj1] at hbj
                have := hc3 (i - 1) (j - 1) b (by omega) (by omega) (by omega) (by omega) hbi hbj
                omega
        · intro b hb
          rw [hl]
          rcases Owns_node.mp hb with rfl | ⟨j, h0, h1, hj⟩
          · exact Or.inl BPTNode.Owns.here
          · exact Or.inl (BPTNode.Owns.under j h0 (by omega) (hlcj j h0 h1 b hj).2)
        · intro b hb
          rw [hl, hc]
          rcases Owns_node.mp hb with rfl | ⟨j, h0, h1, hj⟩
          · exact Or.inr BPTNode.Owns.here
          · by_cases e : j = 0
            · rw [e, hcc0] at hj
              exact Or.inl (hlast b hj)
            · rw [hccj j (by omega) h1] at hj
              exact Or.inr (BPTNode.Owns.under (j - 1) (by omega) (by omega) hj)
        · intro b h1 h2
          have hbl : (BPTNode.node la false ls lk lc).Owns b ∧
              (b = la ∨ ∃ j, 0 ≤ j ∧ j < ls - 1 ∧ (lc j).Owns b) := by
            rcases Owns_node.mp h1 with rfl | ⟨j, h0, h1', hj⟩
            · exact ⟨BPTNode.Owns.here, Or.inl rfl⟩
            · have := hlcj j h0 h1' b hj
              exact ⟨BPTNode.Owns.under j h0 (by omega) this.2, Or.inr ⟨j, h0, this.1, this.2⟩⟩
          rcases Owns_node.mp h2 with rfl | ⟨j, h0, h1', hj⟩
          · exact hapart _ hbl.1 BPTNode.Owns.here
          · by_cases e : j = 0
            · rw [e, hcc0] at hj
              rcases hbl.2 with rfl | ⟨i, hi0', hi1', hi⟩
              · exact hl2 (ls - 1) (by omega) (by omega) hj
              · have := hl3 i (ls - 1) b hi0' (by omega) (by omega) (by omega) hi hj
                omega
            · rw [hccj j (by omega) h1'] at hj
              exact hapart b hbl.1 (BPTNode.Owns.under (j - 1) (by omega) (by omega) hj)
        · intro b hb
          rw [hl]
          rcases OnLeft_node.mp hb with rfl | ⟨hs, hb⟩
          · exact BPTNode.OnLeft.here
          · rw [setAt_apply] at hb
            split_ifs at hb with e
            · exact absurd hb (OnLeft_null b)
            · exact BPTNode.OnLeft.under (by omega) hb
        · intro b hb
          rw [hc]
          rcases OnRight_node.mp hb with rfl | ⟨hs, hb⟩
          · exact BPTNode.OnRight.here
          · rw [hccj (cs + 1) (by omega) (by omega)] at hb
            have e : cs + 1 - 1 = cs := by omega
            rw [e] at hb
            exact BPTNode.OnRight.under hcs hb

/-- What `borrowFromRightSibling` does to the nodes in use: no address is used
twice afterwards, none is new, and the edges gain no node. -/
theorem borrowFromRightSibling_Uniq {B : Int} {ord : Bool} (h : Nat) {P Q : keyRNPair → Prop}
    {pa : Nat} {ps : Int} {pk : Int → keyRNPair} {pc : Int → BPTNode} (idx : Int) {cur : BPTNode}
    (hwf : WF B ord (h + 1) P Q (BPTNode.node pa false ps pk pc))
    (hu : (BPTNode.node pa false ps pk pc).Uniq)
    (hi0 : 0 ≤ idx) (hi1 : idx < ps) (hcs : 0 ≤ (pc idx).size) (hrs : 1 ≤ (pc (idx + 1)).size)
    (hres : borrowFromRightSibling idx (BPTNode.node pa false ps pk pc) = Except.ok cur) :
    cur.Uniq ∧ (∀ b, cur.Owns b → (BPTNode.node pa false ps pk pc).Owns b) ∧
    (∀ b, cur.OnLeft b → (BPTNode.node pa false ps pk pc).OnLeft b) ∧
    (∀ b, cur.OnRight b → (BPTNode.node pa false ps pk pc).OnRight b) := by
  have hwf' := hwf
  simp only [WF] at hwf'
  obtain ⟨_, _, _, _, hch⟩ := hwf'
  obtain ⟨hu1, hu2, hu3⟩ := Uniq_node.mp hu
  cases hc : pc idx with
  | null => simp [borrowFromRightSibling, hc] at hres
  | node ca cl cs ck cc =>
    cases hr : pc (idx + 1) with
    | null => simp [borrowFromRightSibling, hc, hr] at hres
    | node ra rl rs rk rc =>
      rw [hc] at hcs
      rw [hr] at hrs
      simp only [BPTNode.size] at hcs hrs
      have hcwf := (hch idx (by omega) (by omega)).2
      have hrwf := (hch (idx + 1) (by omega) (by omega)).2
      rw [hc] at hcwf
      rw [hr] at hrwf
      have hfl : rl = cl := by rw [WF_isLeaf hcwf, WF_isLeaf hrwf]
      subst hfl
      have hcu := hu1 idx (by omega) (by omega)
      have hru := hu1 (idx + 1) (by omega) (by omega)
      rw [hc] at hcu
      rw [hr] at hru
      have hapart : ∀ b, (pc idx).Owns b → (pc (idx + 1)).Owns b → False := by
        intro b h1 h2
        have := hu3 idx (idx + 1) b (by omega) (by omega) (by omega) (by omega) h1 h2
        omega
      cases rl with
      | true =>
        simp only [borrowFromRightSibling, hc, hr, if_true, Except.ok.injEq] at hres
        rw [← hres]
        refine Uniq_replace_pair hu hi0 rfl (by omega) (Uniq_leaf _ _ _ _)
          (Uniq_leaf _ _ _ _) ?_ ?_ ?_ ?_ ?_
        · intro b hb; rw [Owns_leaf.mp hb, hc]; exact Or.inl BPTNode.Owns.here
        · intro b hb; rw [Owns_leaf.mp hb, hr]; exact Or.inr BPTNode.Owns.here
        · intro b h1 h2
          rw [Owns_leaf] at h1 h2
          apply hapart b
          · rw [hc, h1]; exact BPTNode.Owns.here
          · rw [hr, h2]; exact BPTNode.Owns.here
        · intro b hb; rw [OnLeft_leaf.mp hb, hc]; exact BPTNode.OnLeft.here
        · intro b hb; rw [OnRight_leaf.mp hb, hr]; exact BPTNode.OnRight.here
      | false =>
        simp only [borrowFromRightSibling, hc, hr, Bool.false_eq_true, if_false,
          Except.ok.injEq] at hres
        rw [← hres]
        obtain ⟨hc1, hc2, hc3⟩ := Uniq_node.mp hcu
        obtain ⟨hr1, hr2, hr3⟩ := Uniq_node.mp hru
        rw [hc, hr] at hapart
        -- the children of the enlarged child and of the shrunk sibling
        have hccl : setAt cc (cs + 1) (rc 0) (cs + 1) = rc 0 := by
          rw [setAt_apply, if_pos rfl]
        have hccj : ∀ j, j ≤ cs → setAt cc (cs + 1) (rc 0) j = cc j := by
          intro j h1
          rw [setAt_apply, if_neg (by omega)]
        have hrcj : ∀ j, 0 ≤ j → j ≤ rs - 1 →
            setAt (setAt (shiftLeftC 0 0 rs (setAt rc 0 BPTNode.null)) rs BPTNode.null) (rs - 1)
              (shiftLeftC 0 0 rs (setAt rc 0 BPTNode.null) rs) j = rc (j + 1) := by
          intro j h0 h1
          simp only [setAt_apply, shiftLeftC_apply]
          split_ifs <;> first | rfl | omega | (congr 1; omega)
        have hfirst : ∀ b, (rc 0).Owns b → (BPTNode.node ra false rs rk rc).Owns b :=
          fun b hb => BPTNode.Owns.under 0 (le_refl 0) (by omega) hb
        refine Uniq_replace_pair hu hi0 rfl (by omega) ?_ ?_ ?_ ?_ ?_ ?_ ?_
        · -- the enlarged child
          rw [Uniq_node]
          refine ⟨?_, ?_, ?_⟩
          · intro j h0 h1
            by_cases e : j = cs + 1
            · rw [e, hccl]; exact hr1 0 (le_refl 0) (by omega)
            · rw [hccj j (by omega)]; exact hc1 j h0 (by omega)
          · intro j h0 h1 hb
            by_cases e : j = cs + 1
            · rw [e, hccl] at hb
              exact hapart ca BPTNode.Owns.here (hfirst ca hb)
            · rw [hccj j (by omega)] at hb
              exact hc2 j h0 (by omega) hb
          · intro i j b hi0' hi1' hj0 hj1 hbi hbj
            by_cases ei : i = cs + 1
            · by_cases ej : j = cs + 1
              · rw [ei, ej]
              · rw [ei, hccl] at hbi
                rw [hccj j (by omega)] at hbj
                exact absurd (hfirst b hbi)
                  (fun hrb => hapart b (BPTNode.Owns.under j hj0 (by omega) hbj) hrb)
            · by_cases ej : j = cs + 1
              · rw [ej, hccl] at hbj
                rw [hccj i (by omega)] at hbi
                exact absurd (hfirst b hbj)
                  (fun hrb => hapart b (BPTNode.Owns.under i hi0' (by omega) hbi) hrb)
              · rw [hccj i (by omega)] at hbi
                rw [hccj j (by omega)] at hbj
                exact hc3 i j b hi0' (by omega) hj0 (by omega) hbi hbj
        · -- the shrunk sibling
          rw [Uniq_node]
          refine ⟨?_, ?_, ?_⟩
          · intro j h0 h1
            rw [hrcj j h0 h1]; exact hr1 (j + 1) (by omega) (by omega)
          · intro j h0 h1 hb
            rw [hrcj j h0 h1] at hb
            exact hr2 (j + 1) (by omega) (by omega) hb
          · intro i j b hi0' hi1' hj0 hj1 hbi hbj
            rw [hrcj i hi0' hi1'] at hbi
            rw [hrcj j hj0 hj1] at hbj
            have := hr3 (i + 1) (j + 1) b (by omega) (by omega) (by omega) (by omega) hbi hbj
            omega
        · intro b hb
          rw [hc, hr]
          rcases Owns_node.mp hb with rfl | ⟨j, h0, h1, hj⟩
          · exact Or.inl BPTNode.Owns.here
          · by_cases e : j = cs + 1
            · rw [e, hccl] at hj
              exact Or.inr (hfirst b hj)
            · rw [hccj j (by omega)] at hj
              exact Or.inl (BPTNode.Owns.under j h0 (by omega) hj)
        · intro b hb
          rw [hr]
          rcases Owns_node.mp hb with rfl | ⟨j, h0, h1, hj⟩
          · exact Or.inr BPTNode.Owns.here
          · rw [hrcj j h0 h1] at hj
            exact Or.inr (BPTNode.Owns.under (j + 1) (by omega) (by omega) hj)
        · intro b h1 h2
          have hbr : (BPTNode.node ra false rs rk rc).Owns b ∧
              (b = ra ∨ ∃ j, 1 ≤ j ∧ j ≤ rs ∧ (rc j).Owns b) := by
            rcases Owns_node.mp h2 with rfl | ⟨j, h0, h1', hj⟩
            · exact ⟨BPTNode.Owns.here, Or.inl rfl⟩
            · rw [hrcj j h0 h1'] at hj
              exact ⟨BPTNode.Owns.under (j + 1) (by omega) (by omega) hj,
                Or.inr ⟨j + 1, by omega, by omega, hj⟩⟩
          rcases Owns_node.mp h1 with rfl | ⟨j, h0, h1', hj⟩
          · exact hapart _ BPTNode.Owns.here hbr.1
          · by_cases e : j = cs + 1
            · rw [e, hccl] at hj
              rcases hbr.2 with rfl | ⟨i, hi0', hi1', hi⟩
              · exact hr2 0 (le_refl 0) (by omega) hj
              · have := hr3 0 i b (le_refl 0) (by omega) (by omega) (by omega) hj hi
                omega
            · rw [hccj j (by omega)] at hj
              exact hapart b (BPTNode.Owns.under j h0 (by omega) hj) hbr.1
        · intro b hb
          rw [hc]
          rcases OnLeft_node.mp hb with rfl | ⟨hs, hb⟩
          · exact BPTNode.OnLeft.here
          · rw [hccj 0 hcs] at hb
            exact BPTNode.OnLeft.under hcs hb
        · intro b hb
          rw [hr]
          rcases OnRight_node.mp hb with rfl | ⟨hs, hb⟩
          · exact BPTNode.OnRight.here
          · rw [hrcj (rs - 1) (by omega) (le_refl _)] at hb
            have e : rs - 1 + 1 = rs := by omega
            rw [e] at hb
            exact BPTNode.OnRight.under (by omega) hb

/-- The nodes in use below the node that a merge leaves: those of the left
node and those below the right node. -/
theorem merged_Owns {B : Int} (hB : 2 ≤ B) (ss : Int) (sk : Int → keyRNPair)
    (sc : Int → BPTNode) {xa ya : Nat} {fl : Bool}
    {xk yk : Int → keyRNPair} {xc yc : Int → BPTNode}
    (hxu : (BPTNode.node xa fl (B - 1) xk xc).Uniq) (hyu : (BPTNode.node ya fl (B - 1) yk yc).Uniq)
    (hxy : ∀ b, (BPTNode.node xa fl (B - 1) xk xc).Owns b →
      (BPTNode.node ya fl (B - 1) yk yc).Owns b → False)
    (hss : fl = false → ss = 2 * B - 1)
    (hsx : fl = false → ∀ j, 0 ≤ j → j ≤ B - 1 → sc j = xc j)
    (hsy : fl = false → ∀ j, 0 ≤ j → j ≤ B - 1 → sc (B + j) = yc j) :
    (BPTNode.node xa fl ss sk sc).Uniq ∧
    (∀ b, (BPTNode.node xa fl ss sk sc).Owns b →
      (BPTNode.node xa fl (B - 1) xk xc).Owns b ∨
        ((BPTNode.node ya fl (B - 1) yk yc).Owns b ∧ b ≠ ya)) ∧
    (∀ b, (BPTNode.node xa fl ss sk sc).OnLeft b → (BPTNode.node xa fl (B - 1) xk xc).OnLeft b) ∧
    (∀ b, (BPTNode.node xa fl ss sk sc).OnRight b →
      b = xa ∨ (BPTNode.node ya fl (B - 1) yk yc).OnRight b) := by
  cases fl with
  | true =>
    refine ⟨Uniq_leaf _ _ _ _, ?_, ?_, ?_⟩
    · intro b hb; rw [Owns_leaf.mp hb]; exact Or.inl BPTNode.Owns.here
    · intro b hb; rw [OnLeft_leaf.mp hb]; exact BPTNode.OnLeft.here
    · intro b hb; exact Or.inl (OnRight_leaf.mp hb)
  | false =>
    have hss := hss rfl
    have hsx := hsx rfl
    have hsy := hsy rfl
    subst hss
    obtain ⟨hx1, hx2, hx3⟩ := Uniq_node.mp hxu
    obtain ⟨hy1, hy2, hy3⟩ := Uniq_node.mp hyu
    -- every child of the merged node is a child of one of the two nodes
    have key : ∀ j, 0 ≤ j → j ≤ 2 * B - 1 →
        (j ≤ B - 1 ∧ sc j = xc j) ∨ (B ≤ j ∧ sc j = yc (j - B)) := by
      intro j h0 h1
      by_cases e : j ≤ B - 1
      · exact Or.inl ⟨e, hsx j h0 e⟩
      · refine Or.inr ⟨by omega, ?_⟩
        have := hsy (j - B) (by omega) (by omega)
        have e2 : B + (j - B) = j := by omega
        rw [e2] at this
        exact this
    have inX : ∀ j b, 0 ≤ j → j ≤ B - 1 → (xc j).Owns b →
        (BPTNode.node xa false (B - 1) xk xc).Owns b :=
      fun j b h0 h1 hb => BPTNode.Owns.under j h0 h1 hb
    have inY : ∀ j b, B ≤ j → j ≤ 2 * B - 1 → (yc (j - B)).Owns b →
        (BPTNode.node ya false (B - 1) yk yc).Owns b :=
      fun j b h0 h1 hb => BPTNode.Owns.under (j - B) (by omega) (by omega) hb
    refine ⟨?_, ?_, ?_, ?_⟩
    · rw [Uniq_node]
      refine ⟨?_, ?_, ?_⟩
      · intro j h0 h1
        rcases key j h0 h1 with ⟨e, hj⟩ | ⟨e, hj⟩
        · rw [hj]; exact hx1 j h0 e
        · rw [hj]; exact hy1 (j - B) (by omega) (by omega)
      · intro j h0 h1 hb
        rcases key j h0 h1 with ⟨e, hj⟩ | ⟨e, hj⟩
        · rw [hj] at hb; exact hx2 j h0 e hb
        · rw [hj] at hb; exact hxy xa BPTNode.Owns.here (inY j xa e h1 hb)
      · intro i j b hi0 hi1 hj0 hj1 hbi hbj
        rcases key i hi0 hi1 with ⟨ei, hi⟩ | ⟨ei, hi⟩ <;>
          rcases key j hj0 hj1 with ⟨ej, hj⟩ | ⟨ej, hj⟩
        · rw [hi] at hbi; rw [hj] at hbj
          exact hx3 i j b hi0 ei hj0 ej hbi hbj
        · rw [hi] at hbi; rw [hj] at hbj
          exact absurd (inY j b ej hj1 hbj) (fun hyb => hxy b (inX i b hi0 ei hbi) hyb)
        · rw [hi] at hbi; rw [hj] at hbj
          exact absurd (inY i b ei hi1 hbi) (fun hyb => hxy b (inX j b hj0 ej hbj) hyb)
        · rw [hi] at hbi; rw [hj] at hbj
          have := hy3 (i - B) (j - B) b (by omega) (by omega) (by omega) (by omega) hbi hbj
          omega
    · intro b hb
      rcases Owns_node.mp hb with rfl | ⟨j, h0, h1, hj⟩
      · exact Or.inl BPTNode.Owns.here
      · rcases key j h0 h1 with ⟨e, hjc⟩ | ⟨e, hjc⟩
        · rw [hjc] at hj; exact Or.inl (inX j b h0 e hj)
        · rw [hjc] at hj
          refine Or.inr ⟨inY j b e h1 hj, ?_⟩
          rintro rfl
          exact hy2 (j - B) (by omega) (by omega) hj
    · intro b hb
      rcases OnLeft_node.mp hb with rfl | ⟨_, hb⟩
      · exact BPTNode.OnLeft.here
      · rw [hsx 0 (le_refl 0) (by omega)] at hb
        exact BPTNode.OnLeft.under (by omega) hb
    · intro b hb
      rcases OnRight_node.mp hb with rfl | ⟨_, hb⟩
      · exact Or.inl rfl
      · have := hsy (B - 1) (by omega) (le_refl _)
        have e : B + (B - 1) = 2 * B - 1 := by omega
        rw [e] at this
        rw [this] at hb
        exact Or.inr (BPTNode.OnRight.under (by omega) hb)

/-- The nodes in use below a parent that has lost `child[m+1]` to a merge into
`child[m]`. -/
theorem contract_Owns {pa : Nat} {ps : Int} {pk : Int → keyRNPair} (k' : Int → keyRNPair)
    {pc c' : Int → BPTNode}
    {m : Int} {S : BPTNode} {xa ya : Nat}
    (hu : (BPTNode.node pa false ps pk pc).Uniq) (hm0 : 0 ≤ m) (hm1 : m + 1 ≤ ps)
    (hxa : (pc m).Owns xa) (hyR : (pc (m + 1)).OnRight ya)
    (hc1 : ∀ j, 0 ≤ j → j < m → c' j = pc j) (hc2 : c' m = S)
    (hc3 : ∀ j, m < j → j ≤ ps - 1 → c' j = pc (j + 1))
    (hSu : S.Uniq)
    (hSo : ∀ b, S.Owns b → (pc m).Owns b ∨ ((pc (m + 1)).Owns b ∧ b ≠ ya))
    (hSl : ∀ b, S.OnLeft b → (pc m).OnLeft b)
    (hSr : ∀ b, S.OnRight b → b = xa ∨ (pc (m + 1)).OnRight b) :
    (BPTNode.node pa false (ps - 1) k' c').Uniq ∧
    (∀ b, (BPTNode.node pa false (ps - 1) k' c').Owns b →
      (BPTNode.node pa false ps pk pc).Owns b ∧ b ≠ ya) ∧
    (∀ b, (BPTNode.node pa false (ps - 1) k' c').OnLeft b →
      (BPTNode.node pa false ps pk pc).OnLeft b) ∧
    (∀ b, (BPTNode.node pa false (ps - 1) k' c').OnRight b →
      (b ≠ xa ∧ (BPTNode.node pa false ps pk pc).OnRight b) ∨
        (b = xa ∧ (BPTNode.node pa false ps pk pc).OnRight ya)) := by
  obtain ⟨hu1, hu2, hu3⟩ := Uniq_node.mp hu
  have hya : (pc (m + 1)).Owns ya := OnRight_Owns hyR
  have hnya : ∀ j b, 0 ≤ j → j ≤ ps → j ≠ m + 1 → (pc j).Owns b → b ≠ ya := by
    rintro j b h0 h1 hne hb rfl
    exact hne (hu3 j (m + 1) b h0 h1 (by omega) hm1 hb hya)
  have key : ∀ j b, 0 ≤ j → j ≤ ps - 1 → (c' j).Owns b →
      ∃ j0, 0 ≤ j0 ∧ j0 ≤ ps ∧ (pc j0).Owns b ∧ b ≠ ya ∧
        ((j < m ∧ j0 = j) ∨ (j = m ∧ (j0 = m ∨ j0 = m + 1)) ∨ (m < j ∧ j0 = j + 1)) := by
    intro j b h0 h1 hb
    by_cases e1 : j < m
    · rw [hc1 j h0 e1] at hb
      exact ⟨j, h0, by omega, hb, hnya j b h0 (by omega) (by omega) hb, Or.inl ⟨e1, rfl⟩⟩
    · by_cases e2 : j = m
      · rw [e2, hc2] at hb
        rcases hSo b hb with h | ⟨h, hne⟩
        · exact ⟨m, hm0, by omega, h, hnya m b hm0 (by omega) (by omega) h,
            Or.inr (Or.inl ⟨e2, Or.inl rfl⟩)⟩
        · exact ⟨m + 1, by omega, hm1, h, hne, Or.inr (Or.inl ⟨e2, Or.inr rfl⟩)⟩
      · rw [hc3 j (by omega) h1] at hb
        exact ⟨j + 1, by omega, by omega, hb, hnya (j + 1) b (by omega) (by omega) (by omega) hb,
          Or.inr (Or.inr ⟨by omega, rfl⟩)⟩
  refine ⟨?_, ?_, ?_, ?_⟩
  · rw [Uniq_node]
    refine ⟨?_, ?_, ?_⟩
    · intro j h0 h1
      by_cases e1 : j < m
      · rw [hc1 j h0 e1]; exact hu1 j h0 (by omega)
      · by_cases e2 : j = m
        · rw [e2, hc2]; exact hSu
        · rw [hc3 j (by omega) h1]; exact hu1 (j + 1) (by omega) (by omega)
    · intro j h0 h1 hb
      obtain ⟨j0, h00, h01, hb0, _⟩ := key j pa h0 h1 hb
      exact hu2 j0 h00 h01 hb0
    · intro i j b hi0 hi1 hj0 hj1 hbi hbj
      obtain ⟨i0, hi00, hi01, hbi0, _, hci⟩ := key i b hi0 hi1 hbi
      obtain ⟨j0, hj00, hj01, hbj0, _, hcj⟩ := key j b hj0 hj1 hbj
      have e := hu3 i0 j0 b hi00 hi01 hj00 hj01 hbi0 hbj0
      omega
  · intro b hb
    rcases Owns_node.mp hb with rfl | ⟨j, h0, h1, hj⟩
    · refine ⟨BPTNode.Owns.here, ?_⟩
      rintro rfl
      exact hu2 (m + 1) (by omega) hm1 hya
    · obtain ⟨j0, h00, h01, hb0, hne, _⟩ := key j b h0 h1 hj
      exact ⟨BPTNode.Owns.under j0 h00 h01 hb0, hne⟩
  · intro b hb
    rcases OnLeft_node.mp hb with rfl | ⟨hs, hb⟩
    · exact BPTNode.OnLeft.here
    · refine BPTNode.OnLeft.under (by omega) ?_
      by_cases e : (0 : Int) = m
      · rw [e, hc2] at hb
        rw [e]; exact hSl b hb
      · rw [hc1 0 (le_refl 0) (by omega)] at hb
        exact hb
  · intro b hb
    have hxa_not : ∀ j, 0 ≤ j → j ≤ ps → j ≠ m → ¬ (pc j).Owns xa := by
      intro j h0 h1 hne hj
      exact hne (hu3 j m xa h0 h1 hm0 (by omega) hj hxa)
    rcases OnRight_node.mp hb with rfl | ⟨hs, hb⟩
    · refine Or.inl ⟨?_, BPTNode.OnRight.here⟩
      rintro rfl
      exact hu2 m hm0 (by omega) hxa
    · by_cases e : ps - 1 = m
      · rw [e, hc2] at hb
        have e2 : m + 1 = ps := by omega
        rw [e2] at hyR
        rcases hSr b hb with rfl | h
        · exact Or.inr ⟨rfl, BPTNode.OnRight.under (by omega) hyR⟩
        · rw [e2] at h
          refine Or.inl ⟨?_, BPTNode.OnRight.under (by omega) h⟩
          rintro rfl
          exact hxa_not ps (by omega) (le_refl _) (by omega) (OnRight_Owns h)
      · rw [hc3 (ps - 1) (by omega) (le_refl _)] at hb
        have e2 : ps - 1 + 1 = ps := by omega
        rw [e2] at hb
        refine Or.inl ⟨?_, BPTNode.OnRight.under (by omega) hb⟩
        rintro rfl
        exact hxa_not ps (by omega) (le_refl _) (by omega) (OnRight_Owns hb)

/-- The invariant after a merge: the node `ya` has left the tree, the node `xa`
has taken over its `rightSibling_` and stands on the right edge where `ya`
stood. -/
theorem merge_LinkInvAt {X : LinkCtx} {n n' : BPTNode} {L L' : Links} {xa ya : Nat}
    (h : LinkInvAt X n L) (hxa : n.Owns xa) (hya : n.Owns ya) (hu : n'.Uniq)
    (ho : ∀ b, n'.Owns b → n.Owns b ∧ b ≠ ya)
    (hl : ∀ b, n'.OnLeft b → n.OnLeft b)
    (hr : ∀ b, n'.OnRight b → (b ≠ xa ∧ n.OnRight b) ∨ (b = xa ∧ n.OnRight ya))
    (l1 : L'.rightSibling_ xa = L.rightSibling_ ya)
    (l2 : ∀ r, L.rightSibling_ ya = some r → L'.leftSibling_ r = some xa)
    (l3 : ∀ a, a ≠ xa → L'.rightSibling_ a = L.rightSibling_ a)
    (l4 : ∀ a, L.rightSibling_ ya ≠ some a → L'.leftSibling_ a = L.leftSibling_ a)
    (l5 : L'.next = L.next) : LinkInvAt X n' L' := by
  refine ⟨hu, fun b hb => h.apart b (ho b hb).1, h.subL, h.subR, ?_, ?_, ?_, ?_, ?_⟩
  · intro b hb
    rw [l5]
    exact h.fresh b (hb.imp id (fun x => (ho b x).1))
  · intro a r har
    rw [l5]
    by_cases e : a = xa
    · rw [e, l1] at har; exact h.freshR ya r har
    · rw [l3 a e] at har; exact h.freshR a r har
  · intro a r ha har
    by_cases e : a = xa
    · rw [e, l1] at har
      rw [e]; exact l2 r har
    · rw [l3 a e] at har
      have old := h.back a r (ha.imp id (fun x => (ho a x).1)) har
      rw [l4 r ?_]
      · exact old
      · intro hyr
        have := h.back ya r (Or.inr hya) hyr
        rw [old] at this
        have e2 : a = ya := Option.some.inj this
        rcases ha with ha | ha
        · exact h.apart ya hya (e2 ▸ ha)
        · exact (ho a ha).2 e2
  · intro a ha
    have old := h.left a (ha.imp id (fun x => ⟨x.1, hl a x.2⟩))
    rw [l4 a ?_]
    · exact old
    · intro hyr
      have := h.back ya a (Or.inr hya) hyr
      rw [old] at this
      exact Option.noConfusion this
  · intro a ha
    rcases ha with ha | ⟨hon, ha⟩
    · have e : a ≠ xa := by
        rintro rfl
        exact h.apart a hxa (h.subR a ha)
      rw [l3 a e]
      exact h.right a (Or.inl ha)
    · rcases hr a ha with ⟨e, ha'⟩ | ⟨e, ha'⟩
      · rw [l3 a e]
        exact h.right a (Or.inr ⟨hon, ha'⟩)
      · rw [e, l1]
        exact h.right ya (Or.inr ⟨hon, ha'⟩)

theorem node_of_addr {n : BPTNode} {a : Nat} (h : n.addr? = some a) :
    ∃ l s k c, n = BPTNode.node a l s k c := by
  cases n with
  | null => simp [BPTNode.addr?] at h
  | node a' l s k c =>
    simp only [BPTNode.addr?, Option.some.injEq] at h
    exact ⟨l, s, k, c, by rw [h]⟩

/-- The invariant of the sibling links after `mergeWithSibling`: for the parent
that keeps a key, and for the merged node that becomes the root. -/
theorem mergeWithSibling_LinkInv {B : Int} {ord : Bool} (hB : 2 ≤ B) (h : Nat)
    {P Q : keyRNPair → Prop} {X : LinkCtx} {pa : Nat} {ps : Int}
    {pk : Int → keyRNPair} {pc : Int → BPTNode} (idx : Int) (L : Links) {out : MergeOut}
    {L' : Links}
    (hwf : WF B ord (h + 1) P Q (BPTNode.node pa false ps pk pc))
    (hinv : LinkInvAt X (BPTNode.node pa false ps pk pc) L)
    (hi0 : 0 ≤ idx) (hi1 : idx ≤ ps) (hps : 1 ≤ ps)
    (hcs : (pc idx).size = B - 1)
    (hleft : 0 < idx → (pc (idx - 1)).size ≤ B - 1)
    (hright : ¬ 0 < idx → (pc (idx + 1)).size ≤ B - 1)
    (hres : mergeWithSibling B idx (BPTNode.node pa false ps pk pc) L = Except.ok (out, L')) :
    (∀ cur i, out = MergeOut.kept cur i → LinkInvAt X cur L') ∧
    (∀ m, out = MergeOut.collapsed m → X = LinkCtx.top → LinkInvAt LinkCtx.top m L') := by
  have hwf' := hwf
  simp only [WF] at hwf'
  obtain ⟨_, _, _, _, hch⟩ := hwf'
  obtain ⟨hu1, hu2, hu3⟩ := Uniq_node.mp hinv.uniq
  -- the pair that is merged
  obtain ⟨m, hm, hm0, hm1, hmi⟩ : ∃ m : Int, m = (if 0 < idx then idx - 1 else 0) ∧ 0 ≤ m ∧
      m + 1 ≤ ps ∧ (idx = m ∨ idx = m + 1) := by
    by_cases hpos : 0 < idx
    · exact ⟨idx - 1, by rw [if_pos hpos], by omega, by omega, by omega⟩
    · exact ⟨0, by rw [if_neg hpos], le_refl 0, by omega, by omega⟩
  have hxs : (pc m).size ≤ B - 1 := by
    by_cases hpos : 0 < idx
    · rw [if_pos hpos] at hm; rw [hm]; exact hleft hpos
    · rw [if_neg hpos] at hm
      have : idx = m := by omega
      rw [← this, hcs]
  have hys : (pc (m + 1)).size ≤ B - 1 := by
    by_cases hpos : 0 < idx
    · rw [if_pos hpos] at hm
      have : m + 1 = idx := by omega
      rw [this, hcs]
    · rw [if_neg hpos] at hm
      have : idx = m := by omega
      rw [← this]; exact hright hpos
  cases hx : pc m with
  | null =>
    exfalso
    by_cases hpos : 0 < idx
    · rw [if_pos hpos] at hm; rw [hm] at hx
      simp [mergeWithSibling, hpos, hx] at hres
    · rw [if_neg hpos] at hm
      have e : idx = 0 := by omega
      subst e; rw [hm] at hx
      have hlt : (0 : Int) < ps := by omega
      simp [mergeWithSibling, hx, hlt] at hres
  | node xa xl xs xk xc =>
    cases hy : pc (m + 1) with
    | null =>
      exfalso
      by_cases hpos : 0 < idx
      · rw [if_pos hpos] at hm
        have e : m + 1 = idx := by omega
        rw [e] at hy; rw [hm] at hx
        simp [mergeWithSibling, hpos, hx, hy] at hres
      · rw [if_neg hpos] at hm
        have e : idx = 0 := by omega
        subst e; rw [hm] at hx hy
        have hlt : (0 : Int) < ps := by omega
        simp only [zero_add] at hy
        simp [mergeWithSibling, hx, hy, hlt] at hres
    | node ya yl ys yk yc =>
      have hxw := hch m hm0 (by omega)
      have hyw := hch (m + 1) (by omega) hm1
      rw [hx] at hxw hxs
      rw [hy] at hyw hys
      simp only [BPTNode.size] at hxw hyw hxs hys
      have exs : xs = B - 1 := by
        rcases hxw.1 with hn | hge
        · exact absurd hn (by simp)
        · omega
      have eys : ys = B - 1 := by
        rcases hyw.1 with hn | hge
        · exact absurd hn (by simp)
        · omega
      have efl : yl = xl := by rw [WF_isLeaf hxw.2, WF_isLeaf hyw.2]
      subst exs eys efl
      obtain ⟨S, P', L2, hmerge, hSa, hSl, hSs, _, _, hSc, _, hPa, hPl, hPs, _, _, hP1, hP2, hP3,
        l1, l2, l3, l4, l5⟩ := mergeWithSibling_spec B hB pa false ps pk pc idx m L xa yl xk xc
          ya yk yc hi0 hi1 hps hm hx hy
      obtain ⟨sl, ss, sk, sc, rfl⟩ := node_of_addr hSa
      obtain ⟨pl', ps', pk', pc', rfl⟩ := node_of_addr hPa
      simp only [BPTNode.isLeaf, BPTNode.size, BPTNode.child] at hSl hSs hSc hPl hPs hP1 hP2 hP3
      subst hSl hPl hPs
      have hxu := hu1 m hm0 (by omega)
      have hyu := hu1 (m + 1) (by omega) hm1
      rw [hx] at hxu
      rw [hy] at hyu
      have hxy : ∀ b, (BPTNode.node xa sl (B - 1) xk xc).Owns b →
          (BPTNode.node ya sl (B - 1) yk yc).Owns b → False := by
        intro b h1 h2
        rw [← hx] at h1
        rw [← hy] at h2
        have := hu3 m (m + 1) b hm0 (by omega) (by omega) hm1 h1 h2
        omega
      obtain ⟨hSu, hSo, hSL, hSR⟩ := merged_Owns hB ss sk sc hxu hyu hxy
        (fun hf => by rw [hSs, if_neg (by rw [hf]; decide)])
        (fun hf => (hSc hf).2.2.1) (fun hf => (hSc hf).2.2.2)
      have hxa : (pc m).Owns xa := by rw [hx]; exact BPTNode.Owns.here
      have hyR : (pc (m + 1)).OnRight ya := by rw [hy]; exact BPTNode.OnRight.here
      obtain ⟨hPu, hPo, hPL, hPR⟩ := contract_Owns pk' hinv.uniq hm0 hm1 hxa hyR hP1 hP2 hP3
        hSu (by rw [hx, hy]; exact hSo) (by rw [hx]; exact hSL) (by rw [hy]; exact hSR)
      have hP : LinkInvAt X (BPTNode.node pa false (ps - 1) pk' pc') L2 :=
        merge_LinkInvAt hinv (BPTNode.Owns.under m hm0 (by omega) hxa)
          (BPTNode.Owns.under (m + 1) (by omega) hm1 (OnRight_Owns hyR)) hPu hPo hPL hPR
          l1 l2 l3 l4 l5
      rw [hmerge] at hres
      simp only [Except.ok.injEq, Prod.mk.injEq] at hres
      obtain ⟨hout, hL⟩ := hres
      subst hL
      refine ⟨?_, ?_⟩
      · intro cur i hc
        rw [hc] at hout
        split_ifs at hout
        simp only [MergeOut.kept.injEq] at hout
        rw [← hout.1]; exact hP
      · intro mm hc hX
        rw [hc] at hout
        split_ifs at hout with hz
        simp only [MergeOut.collapsed.injEq] at hout
        subst hX
        have em : m = 0 := by omega
        subst em
        have hd := LinkInvAt_down hP 0 (le_refl 0) (by omega)
        rw [hP2, hout, hz] at hd
        exact LinkInvAt_top hd

/-- One iteration of the `while` loop of `remove` at an internal node with at
least one key, read off a run that returns: the child is entered as it is, or
after a borrow from the left or the right sibling, or after a merge, which
either keeps the parent or moves the merged node into the root. -/
theorem removeLoop_inv {B : Int} {key : keyRNPair} {fuel : Nat} {isRoot : Bool} {a : Nat} {s : Int}
    {k : Int → keyRNPair} {c : Int → BPTNode} {L : Links} {out : RemoveOut} (hB : 2 ≤ B)
    (hs : 1 ≤ s)
    (hres : removeLoop B key (fuel + 1) isRoot (BPTNode.node a false s k c) L = Except.ok out) :
    c (binarySearch s k key) ≠ BPTNode.null ∧
    (((c (binarySearch s k key)).size ≠ B - 1 ∧
        ∃ out0, removeLoop B key fuel false (c (binarySearch s k key)) L = Except.ok out0 ∧
          out = out0.into (BPTNode.node a false s k c) (binarySearch s k key)) ∨
     ((c (binarySearch s k key)).size = B - 1 ∧ 0 < binarySearch s k key ∧
        B - 1 < (c (binarySearch s k key - 1)).size ∧
        ∃ cur out0, borrowFromLeftSibling (binarySearch s k key) (BPTNode.node a false s k c) =
            Except.ok cur ∧
          removeLoop B key fuel false (cur.child (binarySearch s k key)) L = Except.ok out0 ∧
          out = out0.into cur (binarySearch s k key)) ∨
     ((c (binarySearch s k key)).size = B - 1 ∧ binarySearch s k key < s ∧
        B - 1 < (c (binarySearch s k key + 1)).size ∧
        ∃ cur out0, borrowFromRightSibling (binarySearch s k key) (BPTNode.node a false s k c) =
            Except.ok cur ∧
          removeLoop B key fuel false (cur.child (binarySearch s k key)) L = Except.ok out0 ∧
          out = out0.into cur (binarySearch s k key)) ∨
     ((c (binarySearch s k key)).size = B - 1 ∧
        (0 < binarySearch s k key → (c (binarySearch s k key - 1)).size ≤ B - 1) ∧
        (¬ 0 < binarySearch s k key → (c (binarySearch s k key + 1)).size ≤ B - 1) ∧
        ∃ mo L2, mergeWithSibling B (binarySearch s k key) (BPTNode.node a false s k c) L =
            Except.ok (mo, L2) ∧
          ((∃ cur j out0, mo = MergeOut.kept cur j ∧
              removeLoop B key fuel false (cur.child j) L2 = Except.ok out0 ∧
              out = out0.into cur j) ∨
           (∃ m out0, mo = MergeOut.collapsed m ∧
              removeLoop B key fuel true m L2 = Except.ok out0 ∧
              out = { out0 with rootMoved := true })))) := by
  have hbs := binarySearch_spec s k key (by omega)
  obtain ⟨hb0, hb1, _, _⟩ := hbs
  cases hc : c (binarySearch s k key) with
  | null => simp [removeLoop, hc] at hres
  | node ca cl cs ck cc =>
    refine ⟨by simp, ?_⟩
    simp only [removeLoop, hc] at hres
    simp only [BPTNode.size]
    by_cases hmin : cs ≠ B - 1
    · rw [if_pos hmin] at hres
      left
      refine ⟨hmin, ?_⟩
      cases hrec : removeLoop B key fuel false (BPTNode.node ca cl cs ck cc) L with
      | error e => simp [hrec] at hres
      | ok out0 =>
        simp only [hrec, Except.ok.injEq] at hres
        exact ⟨out0, rfl, hres.symm⟩
    · rw [if_neg hmin] at hres
      right
      have hcsEq : cs = B - 1 := by omega
      by_cases hbigL : 0 < binarySearch s k key ∧ B - 1 < (c (binarySearch s k key - 1)).size
      · have hleftBig : (if binarySearch s k key > 0 then
            (match c (binarySearch s k key - 1) with
              | BPTNode.null => Except.error Fault.nullDeref
              | BPTNode.node _ _ ls _ _ => Except.ok (decide (ls > B - 1)))
            else (Except.ok false : Except Fault Bool)) = Except.ok true := by
          rw [if_pos hbigL.1]
          cases hl : c (binarySearch s k key - 1) with
          | null => rw [hl] at hbigL; simp [BPTNode.size] at hbigL; omega
          | node la ll ls lk lc =>
            rw [hl] at hbigL
            simp only [BPTNode.size] at hbigL
            simp only [Except.ok.injEq, decide_eq_true_eq]
            omega
        simp only [hleftBig] at hres
        left
        refine ⟨hcsEq, hbigL.1, hbigL.2, ?_⟩
        cases hbl : borrowFromLeftSibling (binarySearch s k key) (BPTNode.node a false s k c) with
        | error e => simp [hbl] at hres
        | ok cur =>
          simp only [hbl] at hres
          cases hrec : removeLoop B key fuel false (cur.child (binarySearch s k key)) L with
          | error e => simp [hrec] at hres
          | ok out0 =>
            simp only [hrec, Except.ok.injEq] at hres
            exact ⟨cur, out0, rfl, hrec, hres.symm⟩
      · have hleftBig : (if binarySearch s k key > 0 then
            (match c (binarySearch s k key - 1) with
              | BPTNode.null => Except.error Fault.nullDeref
              | BPTNode.node _ _ ls _ _ => Except.ok (decide (ls > B - 1)))
            else (Except.ok false : Except Fault Bool)) = Except.ok false ∨
            ∃ e, (if binarySearch s k key > 0 then
            (match c (binarySearch s k key - 1) with
              | BPTNode.null => Except.error Fault.nullDeref
              | BPTNode.node _ _ ls _ _ => Except.ok (decide (ls > B - 1)))
            else (Except.ok false : Except Fault Bool)) = Except.error e := by
          by_cases hp : binarySearch s k key > 0
          · rw [if_pos hp]
            cases hl : c (binarySearch s k key - 1) with
            | null => exact Or.inr ⟨_, rfl⟩
            | node la ll ls lk lc =>
              left
              rw [hl] at hbigL
              simp only [BPTNode.size] at hbigL
              simp only [Except.ok.injEq, decide_eq_false_iff_not]
              omega
          · rw [if_neg hp]; exact Or.inl rfl
        rcases hleftBig with hlb | ⟨e, hlb⟩
        swap
        · simp [hlb] at hres
        simp only [hlb] at hres
        right
        have hleft : 0 < binarySearch s k key →
            (c (binarySearch s k key - 1)).size ≤ B - 1 := by
          intro hp
          by_contra hcon
          exact hbigL ⟨hp, by omega⟩
        by_cases hbigR : binarySearch s k key < s ∧ B - 1 < (c (binarySearch s k key + 1)).size
        · have hrightBig : (if binarySearch s k key < s then
              (match c (binarySearch s k key + 1) with
                | BPTNode.null => Except.error Fault.nullDeref
                | BPTNode.node _ _ rs _ _ => Except.ok (decide (rs > B - 1)))
              else (Except.ok false : Except Fault Bool)) = Except.ok true := by
            rw [if_pos hbigR.1]
            cases hr : c (binarySearch s k key + 1) with
            | null => rw [hr] at hbigR; simp [BPTNode.size] at hbigR; omega
            | node ra rl rs rk rc =>
              rw [hr] at hbigR
              simp only [BPTNode.size] at hbigR
              simp only [Except.ok.injEq, decide_eq_true_eq]
              omega
          simp only [hrightBig] at hres
          left
          refine ⟨hcsEq, hbigR.1, hbigR.2, ?_⟩
          cases hbr : borrowFromRightSibling (binarySearch s k key)
              (BPTNode.node a false s k c) with
          | error e => simp [hbr] at hres
          | ok cur =>
            simp only [hbr] at hres
            cases hrec : removeLoop B key fuel false (cur.child (binarySearch s k key)) L with
            | error e => simp [hrec] at hres
            | ok out0 =>
              simp only [hrec, Except.ok.injEq] at hres
              exact ⟨cur, out0, rfl, hrec, hres.symm⟩
        · have hrightBig : (if binarySearch s k key < s then
              (match c (binarySearch s k key + 1) with
                | BPTNode.null => Except.error Fault.nullDeref
                | BPTNode.node _ _ rs _ _ => Except.ok (decide (rs > B - 1)))
              else (Except.ok false : Except Fault Bool)) = Except.ok false ∨
              ∃ e, (if binarySearch s k key < s then
              (match c (binarySearch s k key + 1) with
                | BPTNode.null => Except.error Fault.nullDeref
                | BPTNode.node _ _ rs _ _ => Except.ok (decide (rs > B - 1)))
              else (Except.ok false : Except Fault Bool)) = Except.error e := by
            by_cases hp : binarySearch s k key < s
            · rw [if_pos hp]
              cases hr : c (binarySearch s k key + 1) with
              | null => exact Or.inr ⟨_, rfl⟩
              | node ra rl rs rk rc =>
                left
                rw [hr] at hbigR
                simp only [BPTNode.size] at hbigR
                simp only [Except.ok.injEq, decide_eq_false_iff_not]
                omega
            · rw [if_neg hp]; exact Or.inl rfl
          rcases hrightBig with hrb | ⟨e, hrb⟩
          swap
          · simp [hrb] at hres
          simp only [hrb] at hres
          right
          have hright : ¬ 0 < binarySearch s k key →
              (c (binarySearch s k key + 1)).size ≤ B - 1 := by
            intro hp
            by_contra hcon
            exact hbigR ⟨by omega, by omega⟩
          refine ⟨hcsEq, hleft, hright, ?_⟩
          cases hmg : mergeWithSibling B (binarySearch s k key) (BPTNode.node a false s k c) L with
          | error e => simp [hmg] at hres
          | ok r =>
            obtain ⟨mo, L2⟩ := r
            refine ⟨mo, L2, rfl, ?_⟩
            simp only [hmg] at hres
            cases mo with
            | kept cur j =>
              left
              simp only at hres
              cases hrec : removeLoop B key fuel false (cur.child j) L2 with
              | error e => simp [hrec] at hres
              | ok out0 =>
                simp only [hrec, Except.ok.injEq] at hres
                exact ⟨cur, j, out0, rfl, hrec, hres.symm⟩
            | collapsed m =>
              right
              simp only at hres
              cases hrec : removeLoop B key fuel true m L2 with
              | error e => simp [hrec] at hres
              | ok out0 =>
                simp only [hrec, Except.ok.injEq] at hres
                exact ⟨m, out0, rfl, hrec, hres.symm⟩
            | noop =>
              exfalso
              have hlt : binarySearch s k key < s ∨ 0 < binarySearch s k key := by omega
              simp only [mergeWithSibling] at hmg
              by_cases hp : binarySearch s k key > 0
              · rw [if_pos hp] at hmg
                split at hmg
                · split_ifs at hmg <;> simp at hmg
                · simp at hmg
              · rw [if_neg hp, if_pos (by omega)] at hmg
                split at hmg
                · split_ifs at hmg <;> simp at hmg
                · simp at hmg

/-- The descent of `remove` keeps the invariant of the sibling links. -/
theorem removeLoop_LinkInv {B : Int} {ord : Bool} (hB : 2 ≤ B) (key : keyRNPair) (fuel : Nat) :
    ∀ (isRoot : Bool) (h : Nat) (P Q : keyRNPair → Prop) (X : LinkCtx) (n : BPTNode) (L : Links)
      (out : RemoveOut),
      (∀ e, P e → Q e) → WF B ord h P Q n →
      (if isRoot = true then 1 ≤ n.size else B ≤ n.size) →
      (isRoot = true → X = LinkCtx.top) → LinkInvAt X n L →
      removeLoop B key fuel isRoot n L = Except.ok out →
      LinkInvAt X out.node out.links := by
  induction fuel with
  | zero =>
    intro isRoot h P Q X n L out _ _ _ _ _ hres
    simp [removeLoop] at hres
  | succ fuel ih =>
    intro isRoot h P Q X n L out hPQ hwf hsz hX hinv hres
    cases n with
    | null => simp [removeLoop] at hres
    | node a l s k c =>
      simp only [BPTNode.size] at hsz
      have hs1 : 1 ≤ s := by
        cases isRoot <;> simp at hsz <;> omega
      cases l with
      | true =>
        simp only [removeLoop] at hres
        split_ifs at hres <;> simp only [Except.ok.injEq] at hres <;> rw [← hres]
        · exact LinkInvAt_mono hinv trivial (fun b hb => absurd hb (Owns_null b))
            (fun b hb => absurd hb (OnLeft_null b)) (fun b hb => absurd hb (OnRight_null b))
        · exact LinkInvAt_mono hinv (Uniq_leaf _ _ _ _)
            (fun b hb => by rw [Owns_leaf.mp hb]; exact BPTNode.Owns.here)
            (fun b hb => by rw [OnLeft_leaf.mp hb]; exact BPTNode.OnLeft.here)
            (fun b hb => by rw [OnRight_leaf.mp hb]; exact BPTNode.OnRight.here)
        · exact hinv
      | false =>
        obtain ⟨h', hh⟩ := WF_internal_height hwf
        subst hh
        obtain ⟨hb0, hb1, _, _⟩ := binarySearch_spec s k key (by omega)
        have hwf' := hwf
        simp only [WF] at hwf'
        obtain ⟨_, _, _, _, hch⟩ := hwf'
        -- entering a child of a node that satisfies both invariants
        have descend : ∀ (cur : BPTNode) (i : Int) (L1 : Links) (s' : Int)
            (k' : Int → keyRNPair) (c' : Int → BPTNode) (out0 : RemoveOut),
            cur = BPTNode.node a false s' k' c' →
            WF B ord (h' + 1) P Q cur → LinkInvAt X cur L1 → B ≤ (c' i).size →
            0 ≤ i → i ≤ s' →
            removeLoop B key fuel false (cur.child i) L1 = Except.ok out0 →
            LinkInvAt X (out0.into cur i).node (out0.into cur i).links := by
          intro cur i L1 s' k' c' out0 hcur hw hli hsz' hi0 hi1 hrec
          subst hcur
          simp only [BPTNode.child] at hrec
          have hw' := hw
          simp only [WF] at hw'
          have hok := removeLoop_WF hB key fuel false h' _ _ _ L1 out0 (childPQ hPQ k' s' i)
            (hw'.2.2.2.2 i hi0 hi1).2
            (by simp only [Bool.false_eq_true, if_false]; exact hsz') hrec
          have hm := (hok.1 rfl).1
          have hinto : out0.into (BPTNode.node a false s' k' c') i =
              { out0 with node := BPTNode.node a false s' k' (setAt c' i out0.node) } := by
            simp [RemoveOut.into, hm]
          rw [hinto]
          have hchild := ih false h' _ _ (X.down a s' c' i) (c' i) L1 out0 (childPQ hPQ k' s' i)
            (hw'.2.2.2.2 i hi0 hi1).2
            (by simp only [Bool.false_eq_true, if_false]; exact hsz')
            (fun hf => absurd hf (by decide)) (LinkInvAt_down hli i hi0 hi1) hrec
          exact LinkInvAt_up hli i hi0 hi1 hchild
        obtain ⟨hnn, hcase⟩ := removeLoop_inv hB hs1 hres
        have hcsz : B - 1 ≤ (c (binarySearch s k key)).size := by
          rcases (hch _ hb0 hb1).1 with h1 | h1
          · exact absurd h1 hnn
          · exact h1
        rcases hcase with ⟨hne, out0, hrec, hout⟩ | ⟨heq, hp, hbig, cur, out0, hbl, hrec, hout⟩ |
          ⟨heq, hp, hbig, cur, out0, hbr, hrec, hout⟩ | ⟨heq, hleft, hright, mo, L2, hmg, hmo⟩
        · rw [hout]
          exact descend _ _ L s k c out0 rfl hwf hinv (by omega) hb0 hb1 hrec
        · rw [hout]
          obtain ⟨k', c', hcur, hw, _, hsz'⟩ :=
            borrowFromLeftSibling_WF hB h' hPQ _ hwf hp hb1 heq hbig hbl
          obtain ⟨hu, ho, hl, hr⟩ := borrowFromLeftSibling_Uniq h' _ hwf hinv.uniq hp hb1
            (by omega) (by omega) hbl
          exact descend cur _ L s k' c' out0 hcur hw (LinkInvAt_mono hinv hu ho hl hr)
            (by omega) hb0 hb1 hrec
        · rw [hout]
          obtain ⟨k', c', hcur, hw, _, hsz'⟩ :=
            borrowFromRightSibling_WF hB h' hPQ _ hwf hb0 hp heq hbig hbr
          obtain ⟨hu, ho, hl, hr⟩ := borrowFromRightSibling_Uniq h' _ hwf hinv.uniq hb0 hp
            (by omega) (by omega) hbr
          exact descend cur _ L s k' c' out0 hcur hw (LinkInvAt_mono hinv hu ho hl hr)
            (by omega) hb0 hb1 hrec
        · have hli := mergeWithSibling_LinkInv hB h' _ L hwf hinv hb0 hb1 hs1 heq hleft hright hmg
          rcases mergeWithSibling_WF hB h' _ L hwf hb0 hb1 hs1 heq hleft hright hmg with
            ⟨hne, k', c', i, hmo', hw, _, hsz', hi0, hi1⟩ | ⟨hs1', m, hmo', _, hsz', hw⟩
          · rcases hmo with ⟨cur, j, out0, hk, hrec, hout⟩ | ⟨m, out0, hk, _, _⟩
            · rw [hout]
              rw [hk] at hmo'
              simp only [MergeOut.kept.injEq] at hmo'
              obtain ⟨hcur, hj⟩ := hmo'
              subst hj
              exact descend cur j L2 (s - 1) k' c' out0 hcur (hcur ▸ hw) (hli.1 cur j hk) hsz'
                hi0 hi1 hrec
            · rw [hk] at hmo'; exact absurd hmo' (by simp)
          · rcases hmo with ⟨cur, j, out0, hk, _, _⟩ | ⟨m', out0, hk, hrec, hout⟩
            · rw [hk] at hmo'; exact absurd hmo' (by simp)
            · rw [hk] at hmo'
              simp only [MergeOut.collapsed.injEq] at hmo'
              subst hmo'
              have hroot : isRoot = true := by
                cases isRoot with
                | true => rfl
                | false => simp at hsz; omega
              have hXt := hX hroot
              subst hXt
              rw [hout]
              exact ih true h' P Q LinkCtx.top m' L2 out0 hPQ hw
                (by simp only [if_true]; omega) (fun _ => rfl) (hli.2 m' hk rfl) hrec

/-- The nodes in use below the two halves that a split leaves: the lower half
keeps the address, the upper half has the new address. -/
theorem split_Owns {B : Int} (hB : 2 ≤ B) (newA : Nat) (k2 nk : Int → keyRNPair)
    (c2 nc : Int → BPTNode) (s2 : Int) {ca : Nat} {cl : Bool} {ck : Int → keyRNPair}
    {cc : Int → BPTNode}
    (hu : (BPTNode.node ca cl (2 * B - 1) ck cc).Uniq)
    (hnew : ¬ (BPTNode.node ca cl (2 * B - 1) ck cc).Owns newA)
    (hs2 : cl = false → s2 = B - 1)
    (hc2 : cl = false → ∀ j, 0 ≤ j → j ≤ B - 1 → c2 j = cc j)
    (hnc : cl = false → ∀ j, 0 ≤ j → j ≤ B - 1 → nc j = cc (j + B)) :
    (BPTNode.node ca cl s2 k2 c2).Uniq ∧ (BPTNode.node newA cl (B - 1) nk nc).Uniq ∧
    (∀ b, (BPTNode.node ca cl s2 k2 c2).Owns b → (BPTNode.node ca cl (2 * B - 1) ck cc).Owns b) ∧
    (∀ b, (BPTNode.node newA cl (B - 1) nk nc).Owns b →
      b = newA ∨ ((BPTNode.node ca cl (2 * B - 1) ck cc).Owns b ∧ b ≠ ca)) ∧
    (∀ b, (BPTNode.node ca cl s2 k2 c2).Owns b → (BPTNode.node newA cl (B - 1) nk nc).Owns b →
      False) ∧
    (∀ b, (BPTNode.node ca cl s2 k2 c2).OnLeft b →
      (BPTNode.node ca cl (2 * B - 1) ck cc).OnLeft b) ∧
    (∀ b, (BPTNode.node newA cl (B - 1) nk nc).OnRight b →
      b = newA ∨ ((BPTNode.node ca cl (2 * B - 1) ck cc).OnRight b ∧ b ≠ ca)) := by
  have hca : newA ≠ ca := by
    rintro rfl
    exact hnew BPTNode.Owns.here
  cases cl with
  | true =>
    refine ⟨Uniq_leaf _ _ _ _, Uniq_leaf _ _ _ _, ?_, ?_, ?_, ?_, ?_⟩
    · intro b hb; rw [Owns_leaf.mp hb]; exact BPTNode.Owns.here
    · intro b hb; exact Or.inl (Owns_leaf.mp hb)
    · intro b h1 h2
      rw [Owns_leaf] at h1 h2
      exact hca (h2.symm.trans h1)
    · intro b hb; rw [OnLeft_leaf.mp hb]; exact BPTNode.OnLeft.here
    · intro b hb; exact Or.inl (OnRight_leaf.mp hb)
  | false =>
    have hs2 := hs2 rfl
    have hc2 := hc2 rfl
    have hnc := hnc rfl
    subst hs2
    obtain ⟨hu1, hu2, hu3⟩ := Uniq_node.mp hu
    have lo : ∀ j b, 0 ≤ j → j ≤ B - 1 → (c2 j).Owns b →
        (cc j).Owns b ∧ (BPTNode.node ca false (2 * B - 1) ck cc).Owns b := by
      intro j b h0 h1 hb
      rw [hc2 j h0 h1] at hb
      exact ⟨hb, BPTNode.Owns.under j h0 (by omega) hb⟩
    have hi : ∀ j b, 0 ≤ j → j ≤ B - 1 → (nc j).Owns b →
        (cc (j + B)).Owns b ∧ (BPTNode.node ca false (2 * B - 1) ck cc).Owns b ∧ b ≠ ca := by
      intro j b h0 h1 hb
      rw [hnc j h0 h1] at hb
      refine ⟨hb, BPTNode.Owns.under (j + B) (by omega) (by omega) hb, ?_⟩
      rintro rfl
      exact hu2 (j + B) (by omega) (by omega) hb
    refine ⟨?_, ?_, ?_, ?_, ?_, ?_, ?_⟩
    · rw [Uniq_node]
      refine ⟨?_, ?_, ?_⟩
      · intro j h0 h1
        rw [hc2 j h0 h1]; exact hu1 j h0 (by omega)
      · intro j h0 h1 hb
        exact hu2 j h0 (by omega) (lo j ca h0 h1 hb).1
      · intro i j b hi0 hi1 hj0 hj1 hbi hbj
        exact hu3 i j b hi0 (by omega) hj0 (by omega) (lo i b hi0 hi1 hbi).1 (lo j b hj0 hj1 hbj).1
    · rw [Uniq_node]
      refine ⟨?_, ?_, ?_⟩
      · intro j h0 h1
        rw [hnc j h0 h1]; exact hu1 (j + B) (by omega) (by omega)
      · intro j h0 h1 hb
        exact hnew (hi j newA h0 h1 hb).2.1
      · intro i j b hi0 hi1 hj0 hj1 hbi hbj
        have := hu3 (i + B) (j + B) b (by omega) (by omega) (by omega) (by omega)
          (hi i b hi0 hi1 hbi).1 (hi j b hj0 hj1 hbj).1
        omega
    · intro b hb
      rcases Owns_node.mp hb with rfl | ⟨j, h0, h1, hj⟩
      · exact BPTNode.Owns.here
      · exact (lo j b h0 h1 hj).2
    · intro b hb
      rcases Owns_node.mp hb with rfl | ⟨j, h0, h1, hj⟩
      · exact Or.inl rfl
      · exact Or.inr (hi j b h0 h1 hj).2
    · intro b h1 h2
      rcases Owns_node.mp h2 with rfl | ⟨j, hj0, hj1, hj⟩
      · rcases Owns_node.mp h1 with e | ⟨i, hi0, hi1, hi'⟩
        · exact hca e
        · exact hnew (lo i _ hi0 hi1 hi').2
      · rcases Owns_node.mp h1 with rfl | ⟨i, hi0, hi1, hi'⟩
        · exact (hi j _ hj0 hj1 hj).2.2 rfl
        · have := hu3 i (j + B) b hi0 (by omega) (by omega) (by omega) (lo i b hi0 hi1 hi').1
            (hi j b hj0 hj1 hj).1
          omega
    · intro b hb
      rcases OnLeft_node.mp hb with rfl | ⟨_, hb⟩
      · exact BPTNode.OnLeft.here
      · rw [hc2 0 (le_refl 0) (by omega)] at hb
        exact BPTNode.OnLeft.under (by omega) hb
    · intro b hb
      rcases OnRight_node.mp hb with rfl | ⟨_, hb⟩
      · exact Or.inl rfl
      · rw [hnc (B - 1) (by omega) (le_refl _)] at hb
        have e : B - 1 + B = 2 * B - 1 := by omega
        rw [e] at hb
        refine Or.inr ⟨BPTNode.OnRight.under (by omega) hb, ?_⟩
        rintro rfl
        exact hu2 (2 * B - 1) (by omega) (le_refl _) (OnRight_Owns hb)

/-- The nodes in use below a parent in which `child[i]` has been split in two. -/
theorem expand_Owns (k' : Int → keyRNPair) (c' : Int → BPTNode) (ca newA : Nat)
    {pa : Nat} {ps : Int} {pk : Int → keyRNPair} {pc : Int → BPTNode}
    {i : Int} {C2 NS : BPTNode}
    (hu : (BPTNode.node pa false ps pk pc).Uniq) (hi0 : 0 ≤ i) (hi1 : i ≤ ps)
    (hnew : ¬ (BPTNode.node pa false ps pk pc).Owns newA)
    (hcL : (pc i).OnLeft ca) (hcR : (pc i).OnRight ca)
    (hc1 : ∀ j, 0 ≤ j → j < i → c' j = pc j) (hc2 : c' i = C2) (hc3 : c' (i + 1) = NS)
    (hc4 : ∀ j, i + 1 < j → j ≤ ps + 1 → c' j = pc (j - 1))
    (hCu : C2.Uniq) (hNu : NS.Uniq)
    (hCo : ∀ b, C2.Owns b → (pc i).Owns b)
    (hNo : ∀ b, NS.Owns b → b = newA ∨ ((pc i).Owns b ∧ b ≠ ca))
    (hCN : ∀ b, C2.Owns b → NS.Owns b → False)
    (hCl : ∀ b, C2.OnLeft b → (pc i).OnLeft b)
    (hNr : ∀ b, NS.OnRight b → b = newA ∨ ((pc i).OnRight b ∧ b ≠ ca)) :
    (BPTNode.node pa false (ps + 1) k' c').Uniq ∧
    (∀ b, (BPTNode.node pa false (ps + 1) k' c').Owns b →
      (BPTNode.node pa false ps pk pc).Owns b ∨ b = newA) ∧
    (∀ b, (BPTNode.node pa false (ps + 1) k' c').OnLeft b →
      (BPTNode.node pa false ps pk pc).OnLeft b) ∧
    (∀ b, (BPTNode.node pa false (ps + 1) k' c').OnRight b →
      (b = newA ∧ (BPTNode.node pa false ps pk pc).OnRight ca) ∨
        ((BPTNode.node pa false ps pk pc).OnRight b ∧ b ≠ ca)) := by
  obtain ⟨hu1, hu2, hu3⟩ := Uniq_node.mp hu
  have hca : (pc i).Owns ca := OnLeft_Owns hcL
  have hnewc : ∀ j, 0 ≤ j → j ≤ ps → ¬ (pc j).Owns newA :=
    fun j h0 h1 hb => hnew (BPTNode.Owns.under j h0 h1 hb)
  have key : ∀ j b, 0 ≤ j → j ≤ ps + 1 → (c' j).Owns b →
      (b = newA ∧ j = i + 1) ∨
      ∃ j0, 0 ≤ j0 ∧ j0 ≤ ps ∧ (pc j0).Owns b ∧
        ((j < i ∧ j0 = j) ∨ ((j = i ∨ j = i + 1) ∧ j0 = i) ∨ (i + 1 < j ∧ j0 = j - 1)) := by
    intro j b h0 h1 hb
    by_cases e1 : j < i
    · rw [hc1 j h0 e1] at hb
      exact Or.inr ⟨j, h0, by omega, hb, Or.inl ⟨e1, rfl⟩⟩
    · by_cases e2 : j = i
      · rw [e2, hc2] at hb
        exact Or.inr ⟨i, hi0, hi1, hCo b hb, Or.inr (Or.inl ⟨Or.inl e2, rfl⟩)⟩
      · by_cases e3 : j = i + 1
        · rw [e3, hc3] at hb
          rcases hNo b hb with h | ⟨h, _⟩
          · exact Or.inl ⟨h, e3⟩
          · exact Or.inr ⟨i, hi0, hi1, h, Or.inr (Or.inl ⟨Or.inr e3, rfl⟩)⟩
        · rw [hc4 j (by omega) h1] at hb
          exact Or.inr ⟨j - 1, by omega, by omega, hb, Or.inr (Or.inr ⟨by omega, rfl⟩)⟩
  refine ⟨?_, ?_, ?_, ?_⟩
  · rw [Uniq_node]
    refine ⟨?_, ?_, ?_⟩
    · intro j h0 h1
      by_cases e1 : j < i
      · rw [hc1 j h0 e1]; exact hu1 j h0 (by omega)
      · by_cases e2 : j = i
        · rw [e2, hc2]; exact hCu
        · by_cases e3 : j = i + 1
          · rw [e3, hc3]; exact hNu
          · rw [hc4 j (by omega) h1]; exact hu1 (j - 1) (by omega) (by omega)
    · intro j h0 h1 hb
      rcases key j pa h0 h1 hb with ⟨e, _⟩ | ⟨j0, h00, h01, hb0, _⟩
      · exact hnew (e ▸ BPTNode.Owns.here)
      · exact hu2 j0 h00 h01 hb0
    · intro j1 j2 b h10 h11 h20 h21 hb1 hb2
      rcases key j1 b h10 h11 hb1 with ⟨e1, f1⟩ | ⟨i0, hi00, hi01, hbi0, hci⟩ <;>
        rcases key j2 b h20 h21 hb2 with ⟨e2, f2⟩ | ⟨j0, hj00, hj01, hbj0, hcj⟩
      · omega
      · exact absurd (e1 ▸ hbj0) (hnewc j0 hj00 hj01)
      · exact absurd (e2 ▸ hbi0) (hnewc i0 hi00 hi01)
      · have e := hu3 i0 j0 b hi00 hi01 hj00 hj01 hbi0 hbj0
        by_contra hne
        have hpair : (j1 = i ∧ j2 = i + 1) ∨ (j1 = i + 1 ∧ j2 = i) := by omega
        rcases hpair with ⟨f1, f2⟩ | ⟨f1, f2⟩
        · rw [f1, hc2] at hb1
          rw [f2, hc3] at hb2
          exact hCN b hb1 hb2
        · rw [f1, hc3] at hb1
          rw [f2, hc2] at hb2
          exact hCN b hb2 hb1
  · intro b hb
    rcases Owns_node.mp hb with rfl | ⟨j, h0, h1, hj⟩
    · exact Or.inl BPTNode.Owns.here
    · rcases key j b h0 h1 hj with ⟨e, _⟩ | ⟨j0, h00, h01, hb0, _⟩
      · exact Or.inr e
      · exact Or.inl (BPTNode.Owns.under j0 h00 h01 hb0)
  · intro b hb
    rcases OnLeft_node.mp hb with rfl | ⟨hs, hb⟩
    · exact BPTNode.OnLeft.here
    · refine BPTNode.OnLeft.under (by omega) ?_
      by_cases e : (0 : Int) = i
      · rw [e, hc2] at hb
        rw [e]; exact hCl b hb
      · rw [hc1 0 (le_refl 0) (by omega)] at hb
        exact hb
  · intro b hb
    have hps : 0 ≤ ps := by omega
    rcases OnRight_node.mp hb with rfl | ⟨hs, hb⟩
    · refine Or.inr ⟨BPTNode.OnRight.here, ?_⟩
      rintro rfl
      exact hu2 i hi0 hi1 hca
    · by_cases e : ps = i
      · rw [e, hc3] at hb
        rcases hNr b hb with h | ⟨h, hne⟩
        · refine Or.inl ⟨h, BPTNode.OnRight.under hps ?_⟩
          rw [e]; exact hcR
        · refine Or.inr ⟨BPTNode.OnRight.under hps ?_, hne⟩
          rw [e]; exact h
      · rw [hc4 (ps + 1) (by omega) (le_refl _)] at hb
        have e2 : ps + 1 - 1 = ps := by omega
        rw [e2] at hb
        refine Or.inr ⟨BPTNode.OnRight.under hps hb, ?_⟩
        rintro rfl
        have := hu3 ps i _ hps (le_refl _) hi0 hi1 (OnRight_Owns hb) hca
        exact e this

/-- The invariant after a split: the new node `newA` stands right of `ca`, has
taken over its `rightSibling_`, and stands on the right edge if `ca` stood
there. -/
theorem split_LinkInvAt {X : LinkCtx} {n n' : BPTNode} {L L' : Links} {ca newA : Nat}
    (h : LinkInvAt X n L) (hca : n.Owns ca) (hnewA : newA = L.next) (hu : n'.Uniq)
    (ho : ∀ b, n'.Owns b → n.Owns b ∨ b = newA)
    (hl : ∀ b, n'.OnLeft b → n.OnLeft b)
    (hr : ∀ b, n'.OnRight b → (b = newA ∧ n.OnRight ca) ∨ (n.OnRight b ∧ b ≠ ca))
    (r1 : L'.rightSibling_ ca = some newA) (r2 : L'.rightSibling_ newA = L.rightSibling_ ca)
    (r3 : ∀ a, a ≠ ca → a ≠ newA → L'.rightSibling_ a = L.rightSibling_ a)
    (f1 : ∀ r, L.rightSibling_ ca = some r → L'.leftSibling_ r = some newA)
    (f2 : L.rightSibling_ ca ≠ some newA → L'.leftSibling_ newA = some ca)
    (f3 : ∀ a, a ≠ newA → L.rightSibling_ ca ≠ some a → L'.leftSibling_ a = L.leftSibling_ a)
    (hn : L'.next = L.next + 1) : LinkInvAt X n' L' := by
  have hold : ∀ b, X.out b ∨ n.Owns b → b ≠ newA := by
    intro b hb e
    have := h.fresh b hb
    omega
  have hcaN : ca ≠ newA := hold ca (Or.inr hca)
  have hval : L.rightSibling_ ca ≠ some newA := by
    intro e
    have := h.freshR ca newA e
    omega
  have live : ∀ b, X.out b ∨ n'.Owns b → b = newA ∨ (X.out b ∨ n.Owns b) := by
    rintro b (hb | hb)
    · exact Or.inr (Or.inl hb)
    · rcases ho b hb with h1 | h1
      · exact Or.inr (Or.inr h1)
      · exact Or.inl h1
  refine ⟨hu, ?_, h.subL, h.subR, ?_, ?_, ?_, ?_, ?_⟩
  · intro b hb hout
    rcases ho b hb with h1 | h1
    · exact h.apart b h1 hout
    · exact hold b (Or.inl hout) h1
  · intro b hb
    rw [hn]
    rcases live b hb with e | hb'
    · omega
    · have := h.fresh b hb'
      omega
  · intro a r har
    rw [hn]
    by_cases e1 : a = ca
    · rw [e1, r1] at har
      have := Option.some.inj har
      omega
    · by_cases e2 : a = newA
      · rw [e2, r2] at har
        have := h.freshR ca r har
        omega
      · rw [r3 a e1 e2] at har
        have := h.freshR a r har
        omega
  · intro a r ha har
    by_cases e1 : a = ca
    · rw [e1, r1] at har
      rw [← Option.some.inj har, e1]
      exact f2 hval
    · by_cases e2 : a = newA
      · rw [e2, r2] at har
        rw [e2]; exact f1 r har
      · rw [r3 a e1 e2] at har
        have ha' : X.out a ∨ n.Owns a := by
          rcases live a ha with e | h1
          · exact absurd e e2
          · exact h1
        have old := h.back a r ha' har
        rw [f3 r ?_ ?_]
        · exact old
        · intro e
          have := h.freshR a r har
          omega
        · intro hcr
          have := h.back ca r (Or.inr hca) hcr
          rw [old] at this
          exact e1 (Option.some.inj this)
  · intro a ha
    have ha' : X.outL a ∨ (X.onL ∧ n.OnLeft a) := ha.imp id (fun x => ⟨x.1, hl a x.2⟩)
    have old := h.left a ha'
    have hlive : X.out a ∨ n.Owns a := by
      rcases ha' with h1 | h1
      · exact Or.inl (h.subL a h1)
      · exact Or.inr (OnLeft_Owns h1.2)
    rw [f3 a (hold a hlive) ?_]
    · exact old
    · intro hcr
      have := h.back ca a (Or.inr hca) hcr
      rw [old] at this
      exact Option.noConfusion this
  · intro a ha
    rcases ha with ha | ⟨hon, ha⟩
    · have e1 : a ≠ ca := by
        rintro rfl
        exact h.apart a hca (h.subR a ha)
      rw [r3 a e1 (hold a (Or.inl (h.subR a ha)))]
      exact h.right a (Or.inl ha)
    · rcases hr a ha with ⟨e, hc⟩ | ⟨ha', e⟩
      · rw [e, r2]
        exact h.right ca (Or.inr ⟨hon, hc⟩)
      · rw [r3 a e (hold a (Or.inr (OnRight_Owns ha')))]
        exact h.right a (Or.inr ⟨hon, ha'⟩)

theorem splitLinks_spec (L L2 L3 L4 L5 : Links) (ca : Nat)
    (h2l : L2.leftSibling_ = setLink (setLink L.leftSibling_ L.next none) L.next (some ca))
    (h2r : L2.rightSibling_ = setLink L.rightSibling_ L.next none)
    (h3l : L3.leftSibling_ = L2.leftSibling_)
    (h3r : L3.rightSibling_ = setLink L2.rightSibling_ L.next (L2.rightSibling_ ca))
    (h4 : L4 = match L3.rightSibling_ L.next with
      | some r => { L3 with leftSibling_ := setLink L3.leftSibling_ r (some L.next) }
      | none => L3)
    (h5l : L5.leftSibling_ = L4.leftSibling_)
    (h5r : L5.rightSibling_ = setLink L4.rightSibling_ ca (some L.next))
    (hca : ca ≠ L.next) :
    L5.rightSibling_ ca = some L.next ∧
    L5.rightSibling_ L.next = L.rightSibling_ ca ∧
    (∀ a, a ≠ ca → a ≠ L.next → L5.rightSibling_ a = L.rightSibling_ a) ∧
    (∀ r, L.rightSibling_ ca = some r → L5.leftSibling_ r = some L.next) ∧
    (L.rightSibling_ ca ≠ some L.next → L5.leftSibling_ L.next = some ca) ∧
    (∀ a, a ≠ L.next → L.rightSibling_ ca ≠ some a → L5.leftSibling_ a = L.leftSibling_ a) := by
  have hx : L3.rightSibling_ L.next = L.rightSibling_ ca := by
    rw [h3r, h2r]; simp [setLink, hca]
  have h4r : L4.rightSibling_ = L3.rightSibling_ := by
    rw [h4]; split <;> rfl
  have hne : L.next ≠ ca := fun e => hca e.symm
  refine ⟨by rw [h5r]; simp [setLink], ?_, ?_, ?_, ?_, ?_⟩
  · rw [h5r, h4r]
    simp only [setLink, if_neg hne]
    exact hx
  · intro a h1 h2
    rw [h5r, h4r, h3r, h2r]
    simp [setLink, h1, h2]
  · intro r hr
    rw [h5l, h4, hx, hr]
    simp [setLink]
  · intro hr
    rw [h5l, h4, hx]
    cases hc : L.rightSibling_ ca with
    | none => simp only; rw [h3l, h2l]; simp [setLink]
    | some r =>
      have : L.next ≠ r := fun e => hr (by rw [hc, e])
      simp only [setLink, if_neg this]
      rw [h3l, h2l]; simp [setLink]
  · intro a ha hr
    rw [h5l, h4, hx]
    cases hc : L.rightSibling_ ca with
    | none => simp only; rw [h3l, h2l]; simp [setLink, ha]
    | some r =>
      have : a ≠ r := fun e => hr (by rw [hc, e])
      simp only [setLink, if_neg this]
      rw [h3l, h2l]; simp [setLink, ha]

/-- The function `splitNode` keeps the invariant of the sibling links. -/
theorem splitNode_LinkInv {B : Int} (hB : 2 ≤ B) {X : LinkCtx} {pa : Nat} {ps : Int}
    {pk : Int → keyRNPair} {pc : Int → BPTNode} (idx : Int) (L : Links) {cur : BPTNode}
    {L' : Links} (hinv : LinkInvAt X (BPTNode.node pa false ps pk pc) L)
    (hi0 : 0 ≤ idx) (hi1 : idx ≤ ps) (hfull : (pc idx).size = 2 * B - 1)
    (hres : splitNode B (BPTNode.node pa false ps pk pc) idx L = Except.ok (cur, L')) :
    LinkInvAt X cur L' := by
  obtain ⟨hu1, hu2, hu3⟩ := Uniq_node.mp hinv.uniq
  cases hc : pc idx with
  | null => simp [splitNode, hc] at hres
  | node ca cl cs ck cc =>
    rw [hc] at hfull
    simp only [BPTNode.size] at hfull
    subst hfull
    simp only [splitNode, hc, Links.alloc, Except.ok.injEq, Prod.mk.injEq] at hres
    obtain ⟨hcur, hL⟩ := hres
    subst hcur hL
    have hcu := hu1 idx hi0 hi1
    rw [hc] at hcu
    have hpnew : ¬ (BPTNode.node pa false ps pk pc).Owns L.next := by
      intro hb
      have := hinv.fresh _ (Or.inr hb)
      omega
    have hcnew : ¬ (BPTNode.node ca cl (2 * B - 1) ck cc).Owns L.next := by
      intro hb
      rw [← hc] at hb
      exact hpnew (BPTNode.Owns.under idx hi0 hi1 hb)
    have hcaP : (BPTNode.node pa false ps pk pc).Owns ca := by
      refine BPTNode.Owns.under idx hi0 hi1 ?_
      rw [hc]; exact BPTNode.Owns.here
    have hcaN : ca ≠ L.next := fun e => hpnew (e ▸ hcaP)
    obtain ⟨hCu, hNu, hCo, hNo, hCN, hCl, hNr⟩ :=
      split_Owns hB L.next ck (splitCopyK B ck zeroKeys)
        (setAt (splitCopyC B (nullChild, cc)).2 (2 * B - 1) BPTNode.null)
        (setAt (splitCopyC B (nullChild, cc)).1 (B - 1)
          ((splitCopyC B (nullChild, cc)).2 (2 * B - 1)))
        (if (!cl) = true then B - 1 else B) hcu hcnew
        (fun hf => by rw [hf]; simp)
        (fun _ j hj0 hj1 => by
          simp only [setAt_apply, splitCopyC_snd]
          rw [if_neg (by omega), if_neg (by omega)])
        (fun _ j hj0 hj1 => by
          simp only [setAt_apply, splitCopyC_snd, splitCopyC_fst]
          by_cases hj : j = B - 1
          · subst hj
            rw [if_pos rfl, if_neg (by omega)]
            congr 1; omega
          · rw [if_neg hj, if_pos ⟨hj0, by omega⟩])
    obtain ⟨hPu, hPo, hPL, hPR⟩ :=
      expand_Owns (setAt (shiftRightK idx ps pk) idx (ck (B - 1)))
        (setAt (setAt (shiftRightC idx ps pc) idx
            (BPTNode.node ca cl (if (!cl) = true then B - 1 else B) ck
              (setAt (splitCopyC B (nullChild, cc)).2 (2 * B - 1) BPTNode.null))) (idx + 1)
            (BPTNode.node L.next cl (B - 1) (splitCopyK B ck zeroKeys)
              (setAt (splitCopyC B (nullChild, cc)).1 (B - 1)
                ((splitCopyC B (nullChild, cc)).2 (2 * B - 1)))))
        ca L.next hinv.uniq hi0 hi1 hpnew
        (by rw [hc]; exact BPTNode.OnLeft.here) (by rw [hc]; exact BPTNode.OnRight.here)
        (fun j hj0 hj1 => by
          rw [setAt_apply, if_neg (by omega), setAt_apply, if_neg (by omega),
            shiftRightC_apply idx ps pc j hi1, if_neg (by omega), if_neg (by omega)])
        (by rw [setAt_apply, if_neg (by omega), setAt_apply, if_pos rfl])
        (by rw [setAt_apply, if_pos rfl])
        (fun j hj0 hj1 => by
          rw [setAt_apply, if_neg (by omega), setAt_apply, if_neg (by omega),
            shiftRightC_apply idx ps pc j hi1, if_pos ⟨hj0, hj1⟩])
        hCu hNu (by rw [hc]; exact hCo) (by rw [hc]; exact hNo) hCN (by rw [hc]; exact hCl)
        (by rw [hc]; exact hNr)
    obtain ⟨r1, r2, r3, f1, f2, f3⟩ := splitLinks_spec L
      ⟨setLink (setLink L.leftSibling_ L.next none) L.next (some ca),
        setLink L.rightSibling_ L.next none, L.next + 1⟩
      ⟨setLink (setLink L.leftSibling_ L.next none) L.next (some ca),
        setLink (setLink L.rightSibling_ L.next none) L.next
          (setLink L.rightSibling_ L.next none ca), L.next + 1⟩ _
      ⟨_, _, L.next + 1⟩ ca rfl rfl rfl rfl rfl rfl rfl hcaN
    refine split_LinkInvAt hinv hcaP rfl hPu hPo hPL hPR r1 r2 r3 f1 f2 f3 ?_
    split <;> rfl

/-- The function `splitRoot` keeps the invariant of the sibling links. -/
theorem splitRoot_LinkInv {B : Int} (hB : 2 ≤ B) {ra : Nat} {rl : Bool} {rs : Int}
    {rk : Int → keyRNPair} {rc : Int → BPTNode} (L : Links) {cur : BPTNode} {L' : Links}
    (hinv : LinkInvAt LinkCtx.top (BPTNode.node ra rl rs rk rc) L) (hfull : rs = 2 * B - 1)
    (hres : splitRoot B (BPTNode.node ra rl rs rk rc) L = Except.ok (cur, L')) :
    LinkInvAt LinkCtx.top cur L' := by
  subst hfull
  simp only [splitRoot, Links.alloc, Except.ok.injEq, Prod.mk.injEq] at hres
  obtain ⟨hcur, hL⟩ := hres
  subst hcur hL
  have hold : ∀ b, (BPTNode.node ra rl (2 * B - 1) rk rc).Owns b → b < L.next :=
    fun b hb => hinv.fresh b (Or.inr hb)
  have hra : ra < L.next := hold ra BPTNode.Owns.here
  have hnew : ¬ (BPTNode.node ra rl (2 * B - 1) rk rc).Owns (L.next + 1) := by
    intro hb
    have := hold _ hb
    omega
  obtain ⟨hCu, hNu, hCo, hNo, hCN, hCl, hNr⟩ :=
    split_Owns hB (L.next + 1) rk (splitCopyK B rk zeroKeys)
      (setAt (splitCopyC B (nullChild, rc)).2 (2 * B - 1) BPTNode.null)
      (setAt (splitCopyC B (nullChild, rc)).1 (B - 1)
        ((splitCopyC B (nullChild, rc)).2 (2 * B - 1)))
      (if (!rl) = true then B - 1 else B) hinv.uniq hnew
      (fun hf => by rw [hf]; simp)
      (fun _ j hj0 hj1 => by
        simp only [setAt_apply, splitCopyC_snd]
        rw [if_neg (by omega), if_neg (by omega)])
      (fun _ j hj0 hj1 => by
        simp only [setAt_apply, splitCopyC_snd, splitCopyC_fst]
        by_cases hj : j = B - 1
        · subst hj
          rw [if_pos rfl, if_neg (by omega)]
          congr 1; omega
        · rw [if_neg hj, if_pos ⟨hj0, by omega⟩])
  -- the two children of the new root
  have own : ∀ j b, 0 ≤ j → j ≤ 1 →
      (setAt (setAt nullChild 1
        (BPTNode.node (L.next + 1) rl (B - 1) (splitCopyK B rk zeroKeys)
          (setAt (splitCopyC B (nullChild, rc)).1 (B - 1)
            ((splitCopyC B (nullChild, rc)).2 (2 * B - 1))))) 0
        (BPTNode.node ra rl (if (!rl) = true then B - 1 else B) rk
          (setAt (splitCopyC B (nullChild, rc)).2 (2 * B - 1) BPTNode.null)) j).Owns b →
      (j = 0 ∧ (BPTNode.node ra rl (if (!rl) = true then B - 1 else B) rk
          (setAt (splitCopyC B (nullChild, rc)).2 (2 * B - 1) BPTNode.null)).Owns b) ∨
      (j = 1 ∧ (BPTNode.node (L.next + 1) rl (B - 1) (splitCopyK B rk zeroKeys)
          (setAt (splitCopyC B (nullChild, rc)).1 (B - 1)
            ((splitCopyC B (nullChild, rc)).2 (2 * B - 1)))).Owns b) := by
    intro j b h0 h1 hb
    by_cases e : j = 0
    · subst e
      rw [setAt_apply, if_pos rfl] at hb
      exact Or.inl ⟨rfl, hb⟩
    · have e1 : j = 1 := by omega
      subst e1
      rw [setAt_apply, if_neg (by omega), setAt_apply, if_pos rfl] at hb
      exact Or.inr ⟨rfl, hb⟩
  have live : ∀ b, (BPTNode.node L.next false 1 (setAt zeroKeys 0 (rk (B - 1)))
      (setAt (setAt nullChild 1
        (BPTNode.node (L.next + 1) rl (B - 1) (splitCopyK B rk zeroKeys)
          (setAt (splitCopyC B (nullChild, rc)).1 (B - 1)
            ((splitCopyC B (nullChild, rc)).2 (2 * B - 1))))) 0
        (BPTNode.node ra rl (if (!rl) = true then B - 1 else B) rk
          (setAt (splitCopyC B (nullChild, rc)).2 (2 * B - 1) BPTNode.null)))).Owns b →
      b = L.next ∨ b = L.next + 1 ∨ (BPTNode.node ra rl (2 * B - 1) rk rc).Owns b := by
    intro b hb
    rcases Owns_node.mp hb with rfl | ⟨j, h0, h1, hj⟩
    · exact Or.inl rfl
    · rcases own j b h0 h1 hj with ⟨_, h⟩ | ⟨_, h⟩
      · exact Or.inr (Or.inr (hCo b h))
      · rcases hNo b h with e | ⟨h', _⟩
        · exact Or.inr (Or.inl e)
        · exact Or.inr (Or.inr h')
  have hr : ∀ a, a ≠ ra → a < L.next →
      setLink (setLink (setLink L.rightSibling_ L.next none) (L.next + 1) none) ra
        (some (L.next + 1)) a = L.rightSibling_ a := by
    intro a h1 h2
    simp only [setLink]
    rw [if_neg h1, if_neg (by omega), if_neg (by omega)]
  have hl : ∀ a, a < L.next →
      setLink (setLink (setLink L.leftSibling_ L.next none) (L.next + 1) none) (L.next + 1)
        (some ra) a = L.leftSibling_ a := by
    intro a h2
    simp only [setLink]
    rw [if_neg (by omega), if_neg (by omega), if_neg (by omega)]
  refine ⟨?_, fun _ _ hf => hf, fun _ hf => hf.elim, fun _ hf => hf.elim, ?_, ?_, ?_, ?_, ?_⟩
  · rw [Uniq_node]
    refine ⟨?_, ?_, ?_⟩
    · intro j h0 h1
      by_cases e : j = 0
      · subst e
        rw [setAt_apply, if_pos rfl]; exact hCu
      · have e1 : j = 1 := by omega
        subst e1
        rw [setAt_apply, if_neg (by omega), setAt_apply, if_pos rfl]; exact hNu
    · intro j h0 h1 hb
      rcases own j _ h0 h1 hb with ⟨_, h⟩ | ⟨_, h⟩
      · have := hold _ (hCo _ h)
        omega
      · rcases hNo _ h with e | ⟨h', _⟩
        · omega
        · have := hold _ h'
          omega
    · intro i j b hi0 hi1 hj0 hj1 hbi hbj
      rcases own i b hi0 hi1 hbi with ⟨ei, hi⟩ | ⟨ei, hi⟩ <;>
        rcases own j b hj0 hj1 hbj with ⟨ej, hj⟩ | ⟨ej, hj⟩
      · omega
      · exact absurd hj (fun hn => hCN b hi hn)
      · exact absurd hi (fun hn => hCN b hj hn)
      · omega
  · rintro b (hf | hb)
    · exact hf.elim
    · show b < L.next + 1 + 1
      rcases live b hb with e | e | h
      · omega
      · omega
      · have := hold b h
        omega
  · intro a r har
    show r < L.next + 1 + 1
    simp only [setLink] at har
    split_ifs at har with e1 e2 e3
    · have := Option.some.inj har
      omega
    · have := hinv.freshR a r har
      omega
  · rintro a r (hf | ha) har
    · exact hf.elim
    · simp only [setLink] at har ⊢
      split_ifs at har with e1 e2 e3
      · have := Option.some.inj har
        rw [← this, if_pos rfl, e1]
      · have hao : (BPTNode.node ra rl (2 * B - 1) rk rc).Owns a := by
          rcases live a ha with e | e | h
          · exact absurd e e3
          · exact absurd e e2
          · exact h
        have := hinv.freshR a r har
        rw [if_neg (by omega), if_neg (by omega), if_neg (by omega)]
        exact hinv.back a r (Or.inr hao) har
  · rintro a (hf | ⟨_, ha⟩)
    · exact hf.elim
    · rcases OnLeft_node.mp ha with rfl | ⟨_, ha⟩
      · simp [setLink]
      · rw [setAt_apply, if_pos rfl] at ha
        have h1 := hCl a ha
        have := hold a (OnLeft_Owns h1)
        show setLink (setLink (setLink L.leftSibling_ L.next none) (L.next + 1) none)
          (L.next + 1) (some ra) a = none
        rw [hl a this]
        exact hinv.left a (Or.inr ⟨trivial, h1⟩)
  · rintro a (hf | ⟨_, ha⟩)
    · exact hf.elim
    · show setLink (setLink (setLink L.rightSibling_ L.next none) (L.next + 1) none) ra
        (some (L.next + 1)) a = none
      rcases OnRight_node.mp ha with rfl | ⟨_, ha⟩
      · have h1 : L.next ≠ ra := by omega
        simp [setLink, h1]
      · rw [setAt_apply, if_neg (by omega), setAt_apply, if_pos rfl] at ha
        rcases hNr a ha with e | ⟨h1, hne⟩
        · rw [e]
          have h1 : L.next + 1 ≠ ra := by omega
          simp [setLink, h1]
        · have := hold a (OnRight_Owns h1)
          rw [hr a hne this]
          exact hinv.right a (Or.inr ⟨trivial, h1⟩)

/-- The descent of `insert` keeps the invariant of the sibling links. -/
theorem insertLoop_LinkInv {B : Int} (hB : 2 ≤ B) (key : keyRNPair) (fuel : Nat) :
    ∀ (h : Nat) (P Q : keyRNPair → Prop) (X : LinkCtx) (n : BPTNode) (L : Links) (n' : BPTNode)
      (L' : Links),
      WF B false h P Q n → 0 ≤ n.size → n.size < 2 * B - 1 → (∀ e, P e → Q e) →
      LinkInvAt X n L → insertLoop B key fuel n L = Except.ok (n', L') →
      LinkInvAt X n' L' := by
  induction fuel with
  | zero =>
    intro h P Q X n L n' L' _ _ _ _ _ hres
    simp [insertLoop] at hres
  | succ fuel ih =>
    intro h P Q X n L n' L' hwf hs0 hs hPQ hinv hres
    cases n with
    | null => simp [insertLoop] at hres
    | node a l s k c =>
      simp only [BPTNode.size] at hs0 hs
      cases l with
      | true =>
        simp only [insertLoop, Except.ok.injEq, Prod.mk.injEq] at hres
        rw [← hres.1, ← hres.2]
        exact LinkInvAt_mono hinv (Uniq_leaf _ _ _ _)
          (fun b hb => by rw [Owns_leaf.mp hb]; exact BPTNode.Owns.here)
          (fun b hb => by rw [OnLeft_leaf.mp hb]; exact BPTNode.OnLeft.here)
          (fun b hb => by rw [OnRight_leaf.mp hb]; exact BPTNode.OnRight.here)
      | false =>
        obtain ⟨h', hh⟩ := WF_internal_height hwf
        subst hh
        obtain ⟨hb0, hb1, _, _⟩ := binarySearch_spec s k key hs0
        have hwf' := hwf
        simp only [WF] at hwf'
        obtain ⟨_, _, _, _, hch⟩ := hwf'
        cases hc : c (binarySearch s k key) with
        | null => simp [insertLoop, hc] at hres
        | node ca cl cs ck cc =>
          have hcs := hch _ hb0 hb1
          rw [hc] at hcs
          have hcsz : B - 1 ≤ cs := by
            rcases hcs.1 with h1 | h1
            · exact absurd h1 (by simp)
            · exact h1
          simp only [insertLoop, hc] at hres
          by_cases hfull : cs < 2 * B - 1
          · simp only [if_pos hfull] at hres
            cases hrec : insertLoop B key fuel (BPTNode.node ca cl cs ck cc) L with
            | error e => simp [hrec] at hres
            | ok r =>
              obtain ⟨child2, L2⟩ := r
              simp only [hrec, Except.ok.injEq, Prod.mk.injEq] at hres
              have hd := LinkInvAt_down hinv _ hb0 hb1
              rw [hc] at hd
              have hih := ih h' _ _ _ _ L child2 L2 hcs.2
                (by simp only [BPTNode.size]; omega) (by simp only [BPTNode.size]; omega)
                (childPQ hPQ k s _) hd hrec
              rw [← hres.1, ← hres.2]
              exact LinkInvAt_up hinv _ hb0 hb1 hih
          · simp only [if_neg hfull] at hres
            cases hsp : splitNode B (BPTNode.node a false s k c) (binarySearch s k key) L with
            | error e => simp [hsp] at hres
            | ok r =>
              obtain ⟨cur, L2⟩ := r
              simp only [hsp] at hres
              have hcfull : (c (binarySearch s k key)).size = 2 * B - 1 := by
                rw [hc]; simp only [BPTNode.size]
                have := WF_size_le hcs.2
                omega
              have hli := splitNode_LinkInv hB (binarySearch s k key) L hinv hb0 hb1 hcfull hsp
              obtain ⟨k', c', hcur, hwfcur, _, _, _, hci, hci1⟩ :=
                splitNode_WF hB h' hPQ (binarySearch s k key) L hwf hb0 hb1 hs hcfull hsp
              subst hcur
              simp only [BPTNode.keys, BPTNode.child, BPTNode.size] at hres
              have hwfcur' := hwfcur
              simp only [WF] at hwfcur'
              obtain ⟨_, _, _, _, hch'⟩ := hwfcur'
              by_cases hle : keyLe key (k' (binarySearch s k key))
              · simp only [if_pos hle] at hres
                cases hrec : insertLoop B key fuel (c' (binarySearch s k key)) L2 with
                | error e => simp [hrec] at hres
                | ok r =>
                  obtain ⟨child2, L3⟩ := r
                  simp only [hrec, Except.ok.injEq, Prod.mk.injEq] at hres
                  have hih := ih h' _ _ _ _ L2 child2 L3
                    (hch' _ hb0 (by omega)).2 (by omega) hci.2.1
                    (childPQ hPQ k' (s + 1) _)
                    (LinkInvAt_down hli _ hb0 (by omega)) hrec
                  rw [← hres.1, ← hres.2]
                  exact LinkInvAt_up hli _ hb0 (by omega) hih
              · simp only [if_neg hle] at hres
                cases hrec : insertLoop B key fuel (c' (binarySearch s k key + 1)) L2 with
                | error e => simp [hrec] at hres
                | ok r =>
                  obtain ⟨child2, L3⟩ := r
                  simp only [hrec, Except.ok.injEq, Prod.mk.injEq] at hres
                  have hih := ih h' _ _ _ _ L2 child2 L3
                    (hch' _ (by omega) (by omega)).2 (by omega) hci1.2.1
                    (childPQ hPQ k' (s + 1) _)
                    (LinkInvAt_down hli _ (by omega) (by omega)) hrec
                  rw [← hres.1, ← hres.2]
                  exact LinkInvAt_up hli _ (by omega) (by omega) hih

theorem empty_TreeLinks (B : Int) : TreeLinks (BPTree.empty B) := by
  refine ⟨trivial, fun _ _ hf => hf, fun _ hf => hf.elim, fun _ hf => hf.elim, ?_, ?_, ?_, ?_, ?_⟩
  · rintro b (hf | hb)
    · exact hf.elim
    · exact absurd hb (Owns_null b)
  · intro a r h
    simp [BPTree.empty] at h
  · intro a r _ h
    simp [BPTree.empty] at h
  · rintro a (hf | ⟨_, ha⟩)
    · exact hf.elim
    · exact absurd ha (OnLeft_null a)
  · rintro a (hf | ⟨_, ha⟩)
    · exact hf.elim
    · exact absurd ha (OnRight_null a)

/-- The method `insert` keeps the invariant of the sibling links. -/
theorem insert_TreeLinks {t t' : BPTree} {key : keyRNPair} {fuel : Nat} {b : Bool}
    (hB : 2 ≤ t.branchingFactor) (htw : TreeWF false t) (hl : TreeLinks t)
    (hres : insert fuel t key = Except.ok (b, t')) : TreeLinks t' := by
  unfold TreeLinks at hl ⊢
  unfold insert at hres
  cases hr : t.root with
  | null =>
    simp only [hr, Links.alloc, Except.ok.injEq, Prod.mk.injEq] at hres
    rw [← hres.2]
    refine ⟨Uniq_leaf _ _ _ _, fun _ _ hf => hf, fun _ hf => hf.elim, fun _ hf => hf.elim,
      ?_, ?_, ?_, ?_, ?_⟩
    · rintro b (hf | hb)
      · exact hf.elim
      · rw [Owns_leaf.mp hb]
        show t.links.next < t.links.next + 1
        omega
    · intro a r h
      show r < t.links.next + 1
      simp only [setLink] at h
      split_ifs at h
      have := hl.freshR a r h
      omega
    · rintro a r (hf | ha) h
      · exact hf.elim
      · rw [Owns_leaf.mp ha] at h
        simp [setLink] at h
    · rintro a (hf | ⟨_, ha⟩)
      · exact hf.elim
      · rw [OnLeft_leaf.mp ha]
        simp [setLink]
    · rintro a (hf | ⟨_, ha⟩)
      · exact hf.elim
      · rw [OnRight_leaf.mp ha]
        simp [setLink]
  | node ra rl rs rk rc =>
    simp only [hr] at hres
    rcases htw with hnull | ⟨hsz, h, hwf⟩
    · rw [hr] at hnull; exact absurd hnull (by simp)
    rw [hr] at hsz hwf hl
    simp only [BPTNode.size] at hsz
    have key1 : ∀ (root1 : BPTNode) (L1 : Links) (h1 : Nat),
        WF t.branchingFactor false h1 (fun _ => True) (fun _ => True) root1 →
        0 ≤ root1.size → root1.size < 2 * t.branchingFactor - 1 →
        LinkInvAt LinkCtx.top root1 L1 →
        (match insertLoop t.branchingFactor key fuel root1 L1 with
          | Except.error e => Except.error e
          | Except.ok (root2, L2) =>
            (Except.ok (true, { t with root := root2, links := L2 }) :
              Except Fault (Bool × BPTree))) = Except.ok (b, t') →
        LinkInvAt LinkCtx.top t'.root t'.links := by
      intro root1 L1 h1 hw h0 h2 hli hr2
      cases hrec : insertLoop t.branchingFactor key fuel root1 L1 with
      | error e => simp [hrec] at hr2
      | ok r =>
        obtain ⟨root2, L2⟩ := r
        simp only [hrec, Except.ok.injEq, Prod.mk.injEq] at hr2
        rw [← hr2.2]
        exact insertLoop_LinkInv hB key fuel h1 _ _ _ root1 L1 root2 L2 hw h0 h2
          (fun _ _ => trivial) hli hrec
    by_cases hfull : rs = 2 * t.branchingFactor - 1
    · simp only [if_pos hfull] at hres
      cases hsp : splitRoot t.branchingFactor (BPTNode.node ra rl rs rk rc) t.links with
      | error e => simp [hsp] at hres
      | ok r =>
        obtain ⟨root1, L1⟩ := r
        simp only [hsp] at hres
        have hw := splitRoot_WF hB h (fun _ _ => trivial) t.links hwf hfull hsp
        have hli := splitRoot_LinkInv hB t.links hl hfull hsp
        exact key1 root1 L1 (h + 1) hw.1 (by omega) (by omega) hli hres
    · simp only [if_neg hfull] at hres
      have := WF_size_le hwf
      exact key1 _ t.links h hwf (by simp only [BPTNode.size]; omega)
        (by simp only [BPTNode.size]; omega) hl hres

/-- The method `remove` keeps the invariant of the sibling links. -/
theorem remove_TreeLinks {t t' : BPTree} {key : keyRNPair} {fuel : Nat} {b : Bool}
    (hB : 2 ≤ t.branchingFactor) (htw : TreeWF false t) (hl : TreeLinks t)
    (hres : remove fuel t key = Except.ok (b, t')) : TreeLinks t' := by
  unfold TreeLinks at hl ⊢
  unfold remove at hres
  cases hr : t.root with
  | null =>
    simp only [hr, Except.ok.injEq, Prod.mk.injEq] at hres
    rw [← hres.2]
    exact hl
  | node ra rl rs rk rc =>
    simp only [hr] at hres
    rcases htw with hnull | ⟨hsz, h, hwf⟩
    · rw [hr] at hnull; exact absurd hnull (by simp)
    rw [hr] at hsz hwf hl
    cases hrec : removeLoop t.branchingFactor key fuel true (BPTNode.node ra rl rs rk rc)
        t.links with
    | error e => simp [hrec] at hres
    | ok out =>
      simp only [hrec, Except.ok.injEq, Prod.mk.injEq] at hres
      rw [← hres.2]
      exact removeLoop_LinkInv hB key fuel true h _ _ LinkCtx.top _ t.links out
        (fun _ _ => trivial) hwf (by simp only [if_true]; exact hsz) (fun _ => rfl) hl hrec

/-- Every tree reachable from the empty tree satisfies the invariant of the
sibling links. -/
theorem ReachableBy_TreeLinks {d : Bool} {B : Int} (hB : 2 ≤ B) {t : BPTree}
    (hr : ReachableBy d B t) : TreeLinks t := by
  have hr' := ReachableBy_of_false hr
  clear hr
  induction hr' with
  | empty => exact empty_TreeLinks B
  | insert fuel key hprev _ hi ih =>
    have hw := ReachableBy_TreeWF hB hprev
    exact insert_TreeLinks (by rw [hw.2]; exact hB) hw.1 ih hi
  | remove fuel key hprev hi ih =>
    have hw := ReachableBy_TreeWF hB hprev
    exact remove_TreeLinks (by rw [hw.2]; exact hB) hw.1 ih hi

/-! ## The merges that replace the root -/

theorem removeLoopC_snd (B : Int) (key : keyRNPair) (fuel : Nat) :
    ∀ (isRoot : Bool) (n : BPTNode) (L : Links),
      (removeLoopC B key fuel isRoot n L).2 = removeLoop B key fuel isRoot n L := by
  induction fuel with
  | zero => intro isRoot n L; rfl
  | succ fuel ih =>
    intro isRoot n L
    cases n with
    | null => rfl
    | node a l s k c =>
      cases l with
      | true => simp only [removeLoopC, removeLoop]
      | false =>
        simp only [removeLoopC, removeLoop]
        split
        · rfl
        · split
          · simp only [ih]
          · split
            · rfl
            · split
              · rfl
              · simp only [ih]
            · split
              · rfl
              · split
                · rfl
                · simp only [ih]
              · split
                · rfl
                · simp only [ih]
                · simp only [ih]
                · simp only [ih]

theorem removeC_snd (fuel : Nat) (t : BPTree) (key : keyRNPair) :
    (removeC fuel t key).2 = remove fuel t key := by
  unfold removeC remove
  split
  · rfl
  · simp only [removeLoopC_snd]

/-- Every merge that leaves its parent with size 0 during the descent of
`remove` is the merge of the two children of the node the descent started
from, which has one key and, being smaller than `B`, is the root; the descent
goes on from the merged node as the root. -/
theorem removeLoopC_events {B : Int} {ord : Bool} (hB : 2 ≤ B) (key : keyRNPair) (fuel : Nat) :
    ∀ (isRoot : Bool) (h : Nat) (P Q : keyRNPair → Prop) (n : BPTNode) (L : Links),
      (∀ e, P e → Q e) → WF B ord h P Q n →
      (if isRoot = true then 1 ≤ n.size else B ≤ n.size) →
      ∀ ev ∈ (removeLoopC B key fuel isRoot n L).1,
        n.size = 1 ∧ n.isLeaf = false ∧ ev.atRoot = isRoot ∧ ev.parent = n ∧
        (n.child (binarySearch n.size n.keys key)).size = B - 1 ∧
        (0 < binarySearch n.size n.keys key →
          (n.child (binarySearch n.size n.keys key - 1)).size ≤ B - 1) ∧
        (¬ 0 < binarySearch n.size n.keys key →
          (n.child (binarySearch n.size n.keys key + 1)).size ≤ B - 1) ∧
        mergeWithSibling B (binarySearch n.size n.keys key) n L =
          Except.ok (MergeOut.collapsed ev.merged, ev.links) ∧
        ∃ f, fuel = f + 1 ∧
          removeLoop B key fuel isRoot n L =
            match removeLoop B key f true ev.merged ev.links with
            | Except.error e => Except.error e
            | Except.ok out => Except.ok { out with rootMoved := true } := by
  induction fuel with
  | zero =>
    intro isRoot h P Q n L _ _ _ ev hev
    simp [removeLoopC] at hev
  | succ fuel ih =>
    intro isRoot h P Q n L hPQ hwf hsz ev hev
    cases n with
    | null => simp [removeLoopC] at hev
    | node a l s k c =>
      simp only [BPTNode.size] at hsz
      have hs1 : 1 ≤ s := by
        cases isRoot <;> simp at hsz <;> omega
      cases l with
      | true => simp [removeLoopC] at hev
      | false =>
        obtain ⟨h', hh⟩ := WF_internal_height hwf
        subst hh
        have hbs := binarySearch_spec s k key (by omega)
        obtain ⟨hb0, hb1, _, _⟩ := hbs
        have hwf' := hwf
        simp only [WF] at hwf'
        obtain ⟨_, _, _, _, hch⟩ := hwf'
        -- a descent that enters a node with at least `B` keys records nothing
        have none_of : ∀ (isRoot' : Bool) (h1 : Nat) (P1 Q1 : keyRNPair → Prop) (m : BPTNode)
            (L1 : Links), (∀ e, P1 e → Q1 e) → WF B ord h1 P1 Q1 m → B ≤ m.size →
            ∀ ev ∈ (removeLoopC B key fuel isRoot' m L1).1, False := by
          intro isRoot' h1 P1 Q1 m L1 hPQ1 hw hm ev' hev'
          have := (ih isRoot' h1 P1 Q1 m L1 hPQ1 hw (by split_ifs <;> omega) ev' hev').1
          omega
        cases hc : c (binarySearch s k key) with
        | null => simp [removeLoopC, hc] at hev
        | node ca cl cs ck cc =>
          have hcs := hch _ hb0 hb1
          rw [hc] at hcs
          have hcsz : B - 1 ≤ cs := by
            rcases hcs.1 with h1 | h1
            · exact absurd h1 (by simp)
            · exact h1
          simp only [removeLoopC, hc] at hev
          by_cases hmin : cs ≠ B - 1
          · simp only [if_pos hmin] at hev
            exact absurd hev (fun hx => none_of false h' _ _ _ L (childPQ hPQ k s _) hcs.2
              (by simp only [BPTNode.size]; omega) ev hx)
          · simp only [if_neg hmin] at hev
            have hcsEq : (c (binarySearch s k key)).size = B - 1 := by
              rw [hc]; simp only [BPTNode.size]; omega
            have descend : ∀ (cur : BPTNode) (i : Int) (L1 : Links) (s' : Int)
                (k' : Int → keyRNPair) (c' : Int → BPTNode),
                cur = BPTNode.node a false s' k' c' →
                WF B ord (h' + 1) P Q cur → B ≤ (c' i).size → 0 ≤ i → i ≤ s' →
                ∀ ev ∈ (removeLoopC B key fuel false (cur.child i) L1).1, False := by
              intro cur i L1 s' k' c' hcur hw hsz' hi0 hi1
              subst hcur
              simp only [BPTNode.child]
              have hw' := hw
              simp only [WF] at hw'
              exact none_of false h' _ _ _ L1 (childPQ hPQ k' s' _) (hw'.2.2.2.2 i hi0 hi1).2 hsz'
            by_cases hbigL : 0 < binarySearch s k key ∧
                B - 1 < (c (binarySearch s k key - 1)).size
            · have hleftBig : (if binarySearch s k key > 0 then
                  (match c (binarySearch s k key - 1) with
                    | BPTNode.null => Except.error Fault.nullDeref
                    | BPTNode.node _ _ ls _ _ => Except.ok (decide (ls > B - 1)))
                  else (Except.ok false : Except Fault Bool)) = Except.ok true := by
                rw [if_pos hbigL.1]
                cases hl : c (binarySearch s k key - 1) with
                | null => rw [hl] at hbigL; simp [BPTNode.size] at hbigL; omega
                | node la ll ls lk lc =>
                  rw [hl] at hbigL
                  simp only [BPTNode.size] at hbigL
                  simp only [Except.ok.injEq, decide_eq_true_eq]
                  omega
              simp only [hleftBig] at hev
              cases hbl : borrowFromLeftSibling (binarySearch s k key) (BPTNode.node a false s k c) with
              | error e => simp [hbl] at hev
              | ok cur =>
                simp only [hbl] at hev
                obtain ⟨k', c', hcur, hw, hnn, hsz'⟩ :=
                  borrowFromLeftSibling_WF hB h' hPQ _ hwf hbigL.1 hb1 hcsEq hbigL.2 hbl
                exact absurd hev (fun hx =>
                  descend cur _ L s k' c' hcur hw (by omega) hb0 hb1 ev hx)
            · have hleftBig : (if binarySearch s k key > 0 then
                  (match c (binarySearch s k key - 1) with
                    | BPTNode.null => Except.error Fault.nullDeref
                    | BPTNode.node _ _ ls _ _ => Except.ok (decide (ls > B - 1)))
                  else (Except.ok false : Except Fault Bool)) = Except.ok false ∨
                  ∃ e, (if binarySearch s k key > 0 then
                  (match c (binarySearch s k key - 1) with
                    | BPTNode.null => Except.error Fault.nullDeref
                    | BPTNode.node _ _ ls _ _ => Except.ok (decide (ls > B - 1)))
                  else (Except.ok false : Except Fault Bool)) = Except.error e := by
                by_cases hp : binarySearch s k key > 0
                · rw [if_pos hp]
                  cases hl : c (binarySearch s k key - 1) with
                  | null => exact Or.inr ⟨_, rfl⟩
                  | node la ll ls lk lc =>
                    left
                    rw [hl] at hbigL
                    simp only [BPTNode.size] at hbigL
                    simp only [Except.ok.injEq, decide_eq_false_iff_not]
                    omega
                · rw [if_neg hp]; exact Or.inl rfl
              rcases hleftBig with hlb | ⟨e, hlb⟩
              swap
              · simp [hlb] at hev
              simp only [hlb] at hev
              by_cases hbigR : binarySearch s k key < s ∧
                  B - 1 < (c (binarySearch s k key + 1)).size
              · have hrightBig : (if binarySearch s k key < s then
                    (match c (binarySearch s k key + 1) with
                      | BPTNode.null => Except.error Fault.nullDeref
                      | BPTNode.node _ _ rs _ _ => Except.ok (decide (rs > B - 1)))
                    else (Except.ok false : Except Fault Bool)) = Except.ok true := by
                  rw [if_pos hbigR.1]
                  cases hr : c (binarySearch s k key + 1) with
                  | null => rw [hr] at hbigR; simp [BPTNode.size] at hbigR; omega
                  | node ra rl rs rk rc =>
                    rw [hr] at hbigR
                    simp only [BPTNode.size] at hbigR
                    simp only [Except.ok.injEq, decide_eq_true_eq]
                    omega
                simp only [hrightBig] at hev
                cases hbr : borrowFromRightSibling (binarySearch s k key)
                    (BPTNode.node a false s k c) with
                | error e => simp [hbr] at hev
                | ok cur =>
                  simp only [hbr] at hev
                  obtain ⟨k', c', hcur, hw, hnn, hsz'⟩ :=
                    borrowFromRightSibling_WF hB h' hPQ _ hwf hb0 hbigR.1 hcsEq hbigR.2 hbr
                  exact absurd hev (fun hx =>
                    descend cur _ L s k' c' hcur hw (by omega) hb0 hb1 ev hx)
              · have hrightBig : (if binarySearch s k key < s then
                    (match c (binarySearch s k key + 1) with
                      | BPTNode.null => Except.error Fault.nullDeref
                      | BPTNode.node _ _ rs _ _ => Except.ok (decide (rs > B - 1)))
                    else (Except.ok false : Except Fault Bool)) = Except.ok false ∨
                    ∃ e, (if binarySearch s k key < s then
                    (match c (binarySearch s k key + 1) with
                      | BPTNode.null => Except.error Fault.nullDeref
                      | BPTNode.node _ _ rs _ _ => Except.ok (decide (rs > B - 1)))
                    else (Except.ok false : Except Fault Bool)) = Except.error e := by
                  by_cases hp : binarySearch s k key < s
                  · rw [if_pos hp]
                    cases hr : c (binarySearch s k key + 1) with
                    | null => exact Or.inr ⟨_, rfl⟩
                    | node ra rl rs rk rc =>
                      left
                      rw [hr] at hbigR
                      simp only [BPTNode.size] at hbigR
                      simp only [Except.ok.injEq, decide_eq_false_iff_not]
                      omega
                  · rw [if_neg hp]; exact Or.inl rfl
                rcases hrightBig with hrb | ⟨e, hrb⟩
                swap
                · simp [hrb] at hev
                simp only [hrb] at hev
                have hleft : 0 < binarySearch s k key →
                    (c (binarySearch s k key - 1)).size ≤ B - 1 := by
                  intro hp
                  by_contra hcon
                  exact hbigL ⟨hp, by omega⟩
                have hright : ¬ 0 < binarySearch s k key →
                    (c (binarySearch s k key + 1)).size ≤ B - 1 := by
                  intro hp
                  by_contra hcon
                  exact hbigR ⟨by omega, by omega⟩
                cases hmg : mergeWithSibling B (binarySearch s k key) (BPTNode.node a false s k c) L with
                | error e => simp [hmg] at hev
                | ok r =>
                  obtain ⟨mo, L2⟩ := r
                  rcases mergeWithSibling_WF hB h' _ L hwf hb0 hb1 hs1 hcsEq hleft hright hmg with
                    ⟨hne, k', c', i, hmo, hw, hnn, hsz', hi0, hi1⟩ | ⟨hs1', m, hmo, hnn, hsz', hw⟩
                  · subst hmo
                    simp only [hmg] at hev
                    exact absurd hev (fun hx =>
                      descend _ i L2 (s - 1) k' c' rfl hw hsz' hi0 hi1 ev hx)
                  · subst hmo
                    simp only [hmg, List.mem_cons] at hev
                    rcases hev with hev | hev
                    · subst hev
                      refine ⟨hs1', rfl, rfl, rfl, hcsEq, hleft, hright, hmg, fuel, rfl, ?_⟩
                      simp only [removeLoop, hc, if_neg hmin, hlb, hrb, hmg]
                    · exact absurd hev (fun hx => none_of true h' P Q m L2 hPQ hw hsz' ev hx)

/-- The pair of children that `mergeWithSibling` merges when `remove` calls
it: both are nodes of size `B-1` with the same leaf flag. -/
theorem merge_pair_shape {B : Int} {ord : Bool} (h : Nat) {P Q : keyRNPair → Prop} {pa : Nat}
    {ps : Int} {pk : Int → keyRNPair} {pc : Int → BPTNode} (idx : Int) (L : Links)
    {out : MergeOut} {L' : Links}
    (hwf : WF B ord (h + 1) P Q (BPTNode.node pa false ps pk pc))
    (hi0 : 0 ≤ idx) (hi1 : idx ≤ ps) (hps : 1 ≤ ps)
    (hcs : (pc idx).size = B - 1)
    (hleft : 0 < idx → (pc (idx - 1)).size ≤ B - 1)
    (hright : ¬ 0 < idx → (pc (idx + 1)).size ≤ B - 1)
    (hres : mergeWithSibling B idx (BPTNode.node pa false ps pk pc) L = Except.ok (out, L')) :
    ∃ m xa fl xk xc ya yk yc, m = (if 0 < idx then idx - 1 else 0) ∧ 0 ≤ m ∧ m + 1 ≤ ps ∧
      pc m = BPTNode.node xa fl (B - 1) xk xc ∧ pc (m + 1) = BPTNode.node ya fl (B - 1) yk yc := by
  have hwf' := hwf
  simp only [WF] at hwf'
  obtain ⟨_, _, _, _, hch⟩ := hwf'
  obtain ⟨m, hm, hm0, hm1, hmi⟩ : ∃ m : Int, m = (if 0 < idx then idx - 1 else 0) ∧ 0 ≤ m ∧
      m + 1 ≤ ps ∧ (idx = m ∨ idx = m + 1) := by
    by_cases hpos : 0 < idx
    · exact ⟨idx - 1, by rw [if_pos hpos], by omega, by omega, by omega⟩
    · exact ⟨0, by rw [if_neg hpos], le_refl 0, by omega, by omega⟩
  have hxs : (pc m).size ≤ B - 1 := by
    by_cases hpos : 0 < idx
    · rw [if_pos hpos] at hm; rw [hm]; exact hleft hpos
    · rw [if_neg hpos] at hm
      have : idx = m := by omega
      rw [← this, hcs]
  have hys : (pc (m + 1)).size ≤ B - 1 := by
    by_cases hpos : 0 < idx
    · rw [if_pos hpos] at hm
      have : m + 1 = idx := by omega
      rw [this, hcs]
    · rw [if_neg hpos] at hm
      have : idx = m := by omega
      rw [← this]; exact hright hpos
  cases hx : pc m with
  | null =>
    exfalso
    by_cases hpos : 0 < idx
    · rw [if_pos hpos] at hm; rw [hm] at hx
      simp [mergeWithSibling, hpos, hx] at hres
    · rw [if_neg hpos] at hm
      have e : idx = 0 := by omega
      subst e; rw [hm] at hx
      have hlt : (0 : Int) < ps := by omega
      simp [mergeWithSibling, hx, hlt] at hres
  | node xa xl xs xk xc =>
    cases hy : pc (m + 1) with
    | null =>
      exfalso
      by_cases hpos : 0 < idx
      · rw [if_pos hpos] at hm
        have e : m + 1 = idx := by omega
        rw [e] at hy; rw [hm] at hx
        simp [mergeWithSibling, hpos, hx, hy] at hres
      · rw [if_neg hpos] at hm
        have e : idx = 0 := by omega
        subst e; rw [hm] at hx hy
        have hlt : (0 : Int) < ps := by omega
        simp only [zero_add] at hy
        simp [mergeWithSibling, hx, hy, hlt] at hres
    | node ya yl ys yk yc =>
      have hxw := hch m hm0 (by omega)
      have hyw := hch (m + 1) (by omega) hm1
      rw [hx] at hxw hxs
      rw [hy] at hyw hys
      simp only [BPTNode.size] at hxw hyw hxs hys
      have exs : xs = B - 1 := by
        rcases hxw.1 with hn | hge
        · exact absurd hn (by simp)
        · omega
      have eys : ys = B - 1 := by
        rcases hyw.1 with hn | hge
        · exact absurd hn (by simp)
        · omega
      have efl : yl = xl := by rw [WF_isLeaf hxw.2, WF_isLeaf hyw.2]
      subst exs eys efl
      exact ⟨m, xa, yl, xk, xc, ya, yk, yc, hm, hm0, hm1, hx, hy⟩

theorem twoLeafTree_reachable : ReachableBy true 2 twoLeafTree := by
  unfold twoLeafTree
  cases h : checkedCalls true 8 (BPTree.empty 2) twoLeafCalls with
  | none => exact ReachableBy.empty
  | some t => exact ReachableBy_checkedCalls true 2 8 _ _ _ ReachableBy.empty h

/-- C25: for every `B >= 2`, every tree reachable from the empty tree by
insert/remove calls, every key and every merge that leaves its parent with size
0 during `remove(key)`: the parent is the root of the tree; the merged node
becomes the new root, from which the call goes on as a `remove` on the tree
with that root; the merged node has neither a `leftSibling_` nor a
`rightSibling_` and holds all entries of the tree; and the height of the tree
decreases by exactly one (the number of levels down `child[0]`, and the
height at which all leaves lie). -/
theorem C25_root_collapse (B : Int) (hB : 2 ≤ B) (d : Bool) (t : BPTree)
    (hr : ReachableBy d B t) (fuel : Nat) (key : keyRNPair) (ev : Collapse)
    (hev : ev ∈ (removeC fuel t key).1) :
    ev.atRoot = true ∧ ev.parent = t.root ∧
    (∃ f, fuel = f + 1 ∧
      remove fuel t key = remove f (BPTree.mk ev.merged t.branchingFactor ev.links) key) ∧
    (∃ a, ev.merged.addr? = some a ∧ ev.links.leftSibling_ a = none ∧
      ev.links.rightSibling_ a = none) ∧
    ev.merged.entries = t.root.entries ∧
    ev.merged.depth + 1 = t.root.depth ∧
    ∃ h, WF B false (h + 1) (fun _ => True) (fun _ => True) t.root ∧
      WF B false h (fun _ => True) (fun _ => True) ev.merged := by
  have hr' := ReachableBy_of_false hr
  obtain ⟨htw, hbf⟩ := ReachableBy_TreeWF hB hr'
  have hli := ReachableBy_TreeLinks hB hr
  subst hbf
  unfold TreeLinks at hli
  unfold removeC at hev
  cases hroot : t.root with
  | null => simp [hroot] at hev
  | node ra rl rs rk rc =>
    simp only [hroot] at hev
    rcases htw with hnull | ⟨hsz, h, hwf⟩
    · rw [hroot] at hnull; exact absurd hnull (by simp)
    rw [hroot] at hsz hwf hli
    obtain ⟨hs1, hlf, hat, hpar, hcs, hleft, hright, hmg, f, hf, hloop⟩ :=
      removeLoopC_events hB key fuel true h _ _ _ t.links (fun _ _ => trivial) hwf
        (by simp only [if_true]; exact hsz) ev hev
    have hs1' : rs = 1 := hs1
    have hlf' : rl = false := hlf
    subst hs1' hlf'
    have hcs' : (rc (binarySearch 1 rk key)).size = t.branchingFactor - 1 := hcs
    have hleft' : 0 < binarySearch 1 rk key →
        (rc (binarySearch 1 rk key - 1)).size ≤ t.branchingFactor - 1 := hleft
    have hright' : ¬ 0 < binarySearch 1 rk key →
        (rc (binarySearch 1 rk key + 1)).size ≤ t.branchingFactor - 1 := hright
    have hmg' : mergeWithSibling t.branchingFactor (binarySearch 1 rk key)
        (BPTNode.node ra false 1 rk rc) t.links =
        Except.ok (MergeOut.collapsed ev.merged, ev.links) := hmg
    clear hs1 hlf hcs hleft hright hmg
    obtain ⟨h', hh⟩ := WF_internal_height hwf
    subst hh
    obtain ⟨hb0, hb1, _, _⟩ := binarySearch_spec 1 rk key (by omega)
    obtain ⟨m, xa, fl, xk, xc, ya, yk, yc, hm, hm0, hm1, hx, hy⟩ :=
      merge_pair_shape h' _ t.links hwf hb0 hb1 (le_refl 1) hcs' hleft' hright' hmg'
    have em : m = 0 := by omega
    subst em
    obtain ⟨S, P', L2, hmerge, hSa, hSl, _, _, _, hSc, hSe, _, _, _, _, _, _, _, _,
      l1, _, _, l4, _⟩ := mergeWithSibling_spec t.branchingFactor hB ra false 1 rk rc _ 0 t.links
        xa fl xk xc ya yk yc hb0 hb1 (le_refl 1) hm hx hy
    rw [hmerge] at hmg'
    simp only [sub_self, if_true, Except.ok.injEq, Prod.mk.injEq,
      MergeOut.collapsed.injEq] at hmg'
    obtain ⟨hS, hL⟩ := hmg'
    subst hS hL
    obtain ⟨sl, ss, sk, sc, hSn⟩ := node_of_addr hSa
    have hyr : t.links.rightSibling_ ya = none := by
      apply hli.right ya (Or.inr ⟨trivial, ?_⟩)
      refine BPTNode.OnRight.under (by omega) ?_
      have e : (0 : Int) + 1 = 1 := by omega
      rw [← e, hy]; exact BPTNode.OnRight.here
    have hxl : t.links.leftSibling_ xa = none := by
      apply hli.left xa (Or.inr ⟨trivial, ?_⟩)
      refine BPTNode.OnLeft.under (by omega) ?_
      rw [hx]; exact BPTNode.OnLeft.here
    have hwm := mergeWithSibling_WF hB h' _ t.links hwf hb0 hb1 (le_refl 1) hcs' hleft'
      hright' hmerge
    refine ⟨hat, hpar, ⟨f, hf, ?_⟩, ⟨xa, hSa, ?_, ?_⟩, ?_, ?_, h', hwf, ?_⟩
    · -- the call goes on from the merged node as the root
      unfold remove
      simp only [hroot, hloop, hSn]
      cases removeLoop t.branchingFactor key f true (BPTNode.node xa sl ss sk sc) ev.links <;> rfl
    · rw [l4 xa (by rw [hyr]; simp)]; exact hxl
    · rw [l1]; exact hyr
    · rw [hSe]
      simp only [BPTNode.entries, Bool.false_eq_true, if_false]
      have e : ((1 : Int) + 1).toNat = 2 := by decide
      rw [e]
      simp [List.range_succ]
    · rw [hSn] at hSl hSc
      simp only [BPTNode.isLeaf, BPTNode.child] at hSl hSc
      subst hSl
      rw [hSn]
      simp only [BPTNode.depth, Bool.false_eq_true, if_false]
      rw [hx]
      cases sl with
      | true => simp [BPTNode.depth]
      | false =>
        simp only [BPTNode.depth, Bool.false_eq_true, if_false]
        rw [(hSc rfl).2.2.1 0 (le_refl 0) (by omega)]
    · rcases hwm with ⟨hne, _⟩ | ⟨_, m', hmo, _, _, hw⟩
      · exact absurd rfl hne
      · simp only [sub_self, if_true, MergeOut.collapsed.injEq] at hmo
        rw [hmo]; exact hw

set_option maxRecDepth 100000 in
theorem C25_root_collapse_witness :
    (2 : Int) ≤ 2 ∧ ReachableBy true 2 twoLeafTree ∧
    ∃ ev, ev ∈ (removeC 8 twoLeafTree (1, 1)).1 ∧
      ev.atRoot = true ∧ ev.parent = twoLeafTree.root ∧
      (∃ f, 8 = f + 1 ∧ remove 8 twoLeafTree (1, 1) =
        remove f (BPTree.mk ev.merged twoLeafTree.branchingFactor ev.links) (1, 1)) ∧
      (∃ a, ev.merged.addr? = some a ∧ ev.links.leftSibling_ a = none ∧
        ev.links.rightSibling_ a = none) ∧
      ev.merged.entries = twoLeafTree.root.entries ∧
      ev.merged.depth + 1 = twoLeafTree.root.depth ∧
      ∃ h, WF 2 false (h + 1) (fun _ => True) (fun _ => True) twoLeafTree.root ∧
        WF 2 false h (fun _ => True) (fun _ => True) ev.merged :=
  have hlen : 0 < (removeC 8 twoLeafTree (1, 1)).1.length := by decide!
  ⟨by decide, twoLeafTree_reachable,
    (removeC 8 twoLeafTree (1, 1)).1.get ⟨0, hlen⟩, List.get_mem _ _ _,
    C25_root_collapse 2 (by decide) true twoLeafTree twoLeafTree_reachable 8 (1, 1) _
      (List.get_mem _ _ _)⟩


/-! ## Parser and cursor -/

theorem strcmp_eq_zero (a b : List Char) : strcmp a b = 0 ↔ a = b := by
  induction a generalizing b with
  | nil => cases b <;> simp [strcmp]
  | cons x xs ih =>
    cases b with
    | nil => simp [strcmp]
    | cons y ys =>
      by_cases h : x = y
      · simp [strcmp, h, ih]
      · simp only [strcmp, if_neg h]
        constructor
        · intro h0
          split_ifs at h0
          all_goals simp at h0
        · intro he
          exact absurd (List.cons.inj he).1 h

theorem toList_eq_iff (a b : String) : a.toList = b.toList ↔ a = b :=
  ⟨fun h => String.ext h, fun h => by rw [h]⟩

/-- C32: `findComparisonType` returns `equal` exactly for "==", `notEqual` exactly for "!=",
`greaterThan` exactly for ">", `lessThan` exactly for "<", `greaterThanOrEqual` exactly for ">="
and `lessThanOrEqual` exactly for "<="; it returns `error` exactly for the strings that are none
of the six, among them "=", "=>", "=<", "<>" and the empty string; the six results are pairwise
distinct. -/
theorem C32_findComparisonType (op : String) :
    (findComparisonType op = ComparisonType.equal ↔ op = "==") ∧
    (findComparisonType op = ComparisonType.notEqual ↔ op = "!=") ∧
    (findComparisonType op = ComparisonType.greaterThan ↔ op = ">") ∧
    (findComparisonType op = ComparisonType.lessThan ↔ op = "<") ∧
    (findComparisonType op = ComparisonType.greaterThanOrEqual ↔ op = ">=") ∧
    (findComparisonType op = ComparisonType.lessThanOrEqual ↔ op = "<=") ∧
    (findComparisonType op = ComparisonType.error ↔ op ∉ ["==", "!=", ">", "<", ">=", "<="]) ∧
    findComparisonType "=" = ComparisonType.error ∧
    findComparisonType "=>" = ComparisonType.error ∧
    findComparisonType "=<" = ComparisonType.error ∧
    findComparisonType "<>" = ComparisonType.error ∧
    findComparisonType "" = ComparisonType.error ∧
    List.Pairwise (fun a b => a ≠ b)
      [findComparisonType "==", findComparisonType "!=", findComparisonType ">",
       findComparisonType "<", findComparisonType ">=", findComparisonType "<="] := by
  have key : ∀ s : String, findComparisonType s =
      if s = "==" then ComparisonType.equal
      else if s = "!=" then ComparisonType.notEqual
      else if s = ">" then ComparisonType.greaterThan
      else if s = "<" then ComparisonType.lessThan
      else if s = ">=" then ComparisonType.greaterThanOrEqual
      else if s = "<=" then ComparisonType.lessThanOrEqual
      else ComparisonType.error := by
    intro s
    simp only [findComparisonType, strcmp_eq_zero, toList_eq_iff]
  refine ⟨?_, ?_, ?_, ?_, ?_, ?_, ?_, ?_, ?_, ?_, ?_, ?_, ?_⟩
  · rw [key]; split_ifs <;> simp_all
  · rw [key]; split_ifs <;> simp_all
  · rw [key]; split_ifs <;> simp_all
  · rw [key]; split_ifs <;> simp_all
  · rw [key]; split_ifs <;> simp_all
  · rw [key]; split_ifs <;> simp_all
  · rw [key]; split_ifs <;> simp_all
  · rw [key]; decide
  · rw [key]; decide
  · rw [key]; decide
  · rw [key]; decide
  · rw [key]; decide
  · simp only [key]; decide


/-- C38: the page that `commitChanges` flushes is not the page that `value()` read. For every
table with `rowsPerPage ≥ 1` and every 32-bit row for which the read succeeds, `value()` passes
`p = row / rowsPerPage + 1` (in 32-bit arithmetic) to `pager->read` and keeps that page, and
`commitChanges` on the cursor so obtained passes `q = row / rowsPerPage` to `pager->flush`:
`p` is `q + 1`, never `q`. -/
theorem C38_commit_flushes_page_before (t : Table) (row : Nat) (eot : Bool) (pg : Option Nat)
    (pagerRead : Nat → Bool) (_hrpp : 1 ≤ t.rowsPerPage) (hrow : row < UINT32)
    (hread : pagerRead ((row / t.rowsPerPage + 1) % UINT32) = true) :
    ∃ p q, (Cursor.value pagerRead (Cursor.mk t pg row eot)).2.1 = [PagerCall.read p] ∧
      Cursor.commitChanges (Cursor.value pagerRead (Cursor.mk t pg row eot)).1
        = [PagerCall.flush q] ∧
      q = row / t.rowsPerPage ∧ p = (q + 1) % UINT32 ∧ q ≠ p := by
  have h1 : row / t.rowsPerPage ≤ row := Nat.div_le_self _ _
  have h2 : (row / t.rowsPerPage) % UINT32 = row / t.rowsPerPage :=
    Nat.mod_eq_of_lt (lt_of_le_of_lt h1 hrow)
  refine ⟨(row / t.rowsPerPage + 1) % UINT32, row / t.rowsPerPage, ?_, ?_, rfl, rfl, ?_⟩
  · simp only [Cursor.value, hread, if_true]
  · simp only [Cursor.value, hread, if_true, Cursor.commitChanges, h2]
  · generalize row / t.rowsPerPage = q at h1
    simp only [UINT32] at hrow ⊢
    omega

/-- Witness for C38: rows per page 4, row 5: page 2 is read and page 1 is flushed. -/
theorem C38_commit_flushes_page_before_witness :
    ∃ p q, (Cursor.value (fun _ => true) (Cursor.mk (Table.mk 8 4 16) none 5 false)).2.1
        = [PagerCall.read p] ∧
      Cursor.commitChanges (Cursor.value (fun _ => true) (Cursor.mk (Table.mk 8 4 16) none 5 false)).1
        = [PagerCall.flush q] ∧
      q = 5 / (Table.mk 8 4 16).rowsPerPage ∧ p = (q + 1) % UINT32 ∧ q ≠ p :=
  C38_commit_flushes_page_before (Table.mk 8 4 16) 5 false none (fun _ => true) (by decide)
    (by decide) rfl

/-- C39: for a table with `numRows ≥ 1` and a cursor on it with `row ≤ numRows - 1`, after
`++` the cursor still has `row ≤ numRows - 1`; when `row < numRows - 1` the row grows by exactly
one and `endOfTable` keeps its value, otherwise the row keeps its value and `endOfTable` is
true; a newly constructed cursor has `row = 0` and `endOfTable = false`. -/
theorem C39_cursor_increment (t : Table) (pg : Option Nat) (row : Nat) (eot : Bool)
    (hn : 1 ≤ t.numRows) (hn32 : t.numRows < UINT32) (hrow : row ≤ t.numRows - 1) :
    (Cursor.increment (Cursor.mk t pg row eot)).row ≤ t.numRows - 1 ∧
    (row < t.numRows - 1 →
      (Cursor.increment (Cursor.mk t pg row eot)).row = row + 1 ∧
      (Cursor.increment (Cursor.mk t pg row eot)).endOfTable = eot) ∧
    (¬ row < t.numRows - 1 →
      (Cursor.increment (Cursor.mk t pg row eot)).row = row ∧
      (Cursor.increment (Cursor.mk t pg row eot)).endOfTable = true) ∧
    (Cursor.init t).row = 0 ∧ (Cursor.init t).endOfTable = false ∧
    (Cursor.increment (Cursor.mk t pg row eot)).table = t ∧
    (Cursor.increment (Cursor.mk t pg row eot)).page = pg := by
  have h1 : (t.numRows + UINT32 - 1) % UINT32 = t.numRows - 1 := by
    simp only [UINT32] at hn32 ⊢
    omega
  by_cases h : row < t.numRows - 1
  · have h2 : (row + 1) % UINT32 = row + 1 := by
      simp only [UINT32] at hn32 ⊢
      omega
    have hinc : Cursor.increment (Cursor.mk t pg row eot) = Cursor.mk t pg (row + 1) eot := by
      simp only [Cursor.increment, h1, if_pos h, h2]
    rw [hinc]
    exact ⟨by show row + 1 ≤ t.numRows - 1; omega, fun _ => ⟨rfl, rfl⟩, fun hc => absurd h hc,
      rfl, rfl, rfl, rfl⟩
  · have hinc : Cursor.increment (Cursor.mk t pg row eot) = Cursor.mk t pg row true := by
      simp only [Cursor.increment, h1, if_neg h]
    rw [hinc]
    exact ⟨hrow, fun hc => absurd hc h, fun _ => ⟨rfl, rfl⟩, rfl, rfl, rfl, rfl⟩

/-- Witness for C39: a table of three rows, cursor on row 1. -/
theorem C39_cursor_increment_witness :
    (Cursor.increment (Cursor.mk (Table.mk 3 4 16) none 1 false)).row ≤ 3 - 1 ∧
    (Cursor.increment (Cursor.mk (Table.mk 3 4 16) none 1 false)).row = 1 + 1 ∧
    (Cursor.increment (Cursor.mk (Table.mk 3 4 16) none 2 false)).row = 2 ∧
    (Cursor.increment (Cursor.mk (Table.mk 3 4 16) none 2 false)).endOfTable = true :=
  ⟨(C39_cursor_increment (Table.mk 3 4 16) none 1 false (by decide) (by decide) (by decide)).1,
   ((C39_cursor_increment (Table.mk 3 4 16) none 1 false (by decide) (by decide)
      (by decide)).2.1 (by decide)).1,
   ((C39_cursor_increment (Table.mk 3 4 16) none 2 false (by decide) (by decide)
      (by decide)).2.2.1 (by decide)).1,
   ((C39_cursor_increment (Table.mk 3 4 16) none 2 false (by decide) (by decide)
      (by decide)).2.2.1 (by decide)).2⟩


/-! ## A failed remove; the empty tree -/

set_option maxRecDepth 100000 in
/-- C34: with `B = 2`, after the seven inserts the call `remove((36, 36))` of a pair that is
not stored returns false, and the leaf chain reads the same seven pairs before and after it,
but the entries reachable from the root have lost `(7, 7)`. -/
theorem C34_failed_remove_loses_entry :
    returnsAfter 8 2 borrowScenario =
      some [true, true, true, true, true, true, true, false] ∧
    chainAfter 8 2 sevenInserts =
      some [(0, 0), (3, 3), (4, 4), (6, 6), (7, 7), (23, 23), (33, 33)] ∧
    chainAfter 8 2 borrowScenario =
      some [(0, 0), (3, 3), (4, 4), (6, 6), (7, 7), (23, 23), (33, 33)] ∧
    entriesAfter 8 2 sevenInserts =
      some [(0, 0), (3, 3), (4, 4), (6, 6), (7, 7), (23, 23), (33, 33)] ∧
    entriesAfter 8 2 borrowScenario =
      some [(0, 0), (3, 3), (4, 4), (6, 6), (23, 23), (33, 33)] := by
  decide!

/-- C36: on the empty tree `searchUtil` returns index `-1` with a null node, and `search(k)`
and each of the four scans then read `searchRes.node->size` through that null pointer: none of
them returns, whatever the branching factor, the key and the fuel. -/
theorem C36_empty_tree_reads_null_node (B : Int) (fuel : Nat) (k : Int) :
    searchUtil fuel (BPTree.empty B) (k, -1) = Except.ok (-1, BPTNode.null) ∧
    searchUtil fuel (BPTree.empty B) (k, LONG_MAX) = Except.ok (-1, BPTNode.null) ∧
    search fuel (BPTree.empty B) k = Except.error Fault.nullDeref ∧
    greaterThanEquals fuel (BPTree.empty B) k = Except.error Fault.nullDeref ∧
    smallerThanEquals fuel (BPTree.empty B) k = Except.error Fault.nullDeref ∧
    greaterThan fuel (BPTree.empty B) k = Except.error Fault.nullDeref ∧
    smallerThan fuel (BPTree.empty B) k = Except.error Fault.nullDeref := by
  refine ⟨rfl, rfl, rfl, rfl, rfl, rfl, rfl⟩


/-! ## Reads outside the child array; the prototype tree -/

set_option maxRecDepth 100000 in
/-- C35: with `B = 2`, on the tree with one separator over the two leaves `[(1,1)]` and
`[(3,3)]`, `remove((1,1))` reads `current->child[-1]` and `remove((3,3))` reads
`current->child[2]` although `current->size` is 1; and the last remove of scenario 6 reads
`child[4]` of a node of size 3, one past the `2B = 4` slots of the array.  All three calls
return true. -/
theorem C35_remove_reads_outside_child_array :
    removeR 8 twoLeafTree (1, 1) = [ChildRead.mk 1 0, ChildRead.mk 1 (-1), ChildRead.mk 1 1] ∧
    removeR 8 twoLeafTree (3, 3) = [ChildRead.mk 1 1, ChildRead.mk 1 0, ChildRead.mk 1 2] ∧
    (remove 8 twoLeafTree (1, 1)).toOption.map Prod.fst = some true ∧
    (remove 8 twoLeafTree (3, 3)).toOption.map Prod.fst = some true ∧
    (treeAfter 8 2 (tenInserts ++ removeAll71.take 4)).map (fun t => removeR 8 t (71, 9)) =
      some [ChildRead.mk 1 1, ChildRead.mk 1 0, ChildRead.mk 1 2,
            ChildRead.mk 3 3, ChildRead.mk 3 2, ChildRead.mk 3 4] ∧
    returnsAfter 8 2 (tenInserts ++ removeAll71) =
      some [true, true, true, true, true, true, true, true, true, true,
            true, true, true, true, true] := by
  decide!

set_option maxRecDepth 100000 in
/-- C31: in the prototype with `t = 3`, the calls of `main` return true for the nine inserts
and true, true, false, true for the four deletions, but after inserting 1, ..., 6 and deleting
6 and 5 (both found) the key 3, inserted and never deleted, is no longer found by `search`,
while 1, 2 and 4 are; after one more insert, of 0, `findAndDelete(3)` returns false. -/
theorem C31_prototype_search_misses_stored_key :
    btreemain.returnsAfter 8 3 btreemain.mainCalls =
      some [true, true, true, true, true, true, true, true, true, true, true, false, true] ∧
    btreemain.returnsAfter 8 3 btreemain.leafBorrowCalls =
      some [true, true, true, true, true, true, true, true] ∧
    btreemain.storedAfter btreemain.leafBorrowCalls
      [true, true, true, true, true, true, true, true] [] = [1, 2, 3, 4] ∧
    [1, 2, 3, 4].map (btreemain.searchHitAfter 8 3 btreemain.leafBorrowCalls) =
      [some true, some true, some false, some true] ∧
    btreemain.returnsAfter 8 3
      (btreemain.leafBorrowCalls ++ [btreemain.Call.insert 0, btreemain.Call.findAndDelete 3]) =
      some [true, true, true, true, true, true, true, true, true, false] := by
  decide!


/-! ## Balance: the depth of the leaves -/

theorem leafDepths_leaf (a : Nat) (s : Int) (k : Int → keyRNPair) (c : Int → BPTNode) :
    (BPTNode.node a true s k c).leafDepths = [0] := by
  simp [BPTNode.leafDepths]

theorem mem_leafDepths_internal (a : Nat) (s : Int) (k : Int → keyRNPair) (c : Int → BPTNode)
    (x : Nat) :
    x ∈ (BPTNode.node a false s k c).leafDepths ↔
      ∃ i y, 0 ≤ i ∧ i ≤ s ∧ y ∈ (c i).leafDepths ∧ x = y + 1 := by
  simp only [BPTNode.leafDepths, Bool.false_eq_true, if_false, List.mem_flatMap, List.mem_range,
    List.mem_map]
  constructor
  · rintro ⟨n, hn, y, hy, rfl⟩
    exact ⟨n, y, by omega, by omega, hy, rfl⟩
  · rintro ⟨i, y, h1, h2, hy, rfl⟩
    refine ⟨i.toNat, by omega, y, ?_, rfl⟩
    have : ((i.toNat : Nat) : Int) = i := by omega
    rw [this]; exact hy

/-- Under the invariant at height `h` every leaf below the pointer is at depth `h`. -/
theorem WF_leafDepths (B : Int) (ord : Bool) (h : Nat) :
    ∀ (P Q : keyRNPair → Prop) (n : BPTNode), WF B ord h P Q n →
      ∀ x ∈ n.leafDepths, x = h := by
  induction h with
  | zero =>
    intro P Q n hwf x hx
    cases n with
    | null => simp [BPTNode.leafDepths] at hx
    | node a l s k c =>
      simp only [WF] at hwf
      rw [hwf.1, leafDepths_leaf] at hx
      simpa using hx
  | succ h ih =>
    intro P Q n hwf x hx
    cases n with
    | null => simp [BPTNode.leafDepths] at hx
    | node a l s k c =>
      simp only [WF] at hwf
      obtain ⟨hl, _, _, _, hch⟩ := hwf
      subst hl
      rw [mem_leafDepths_internal] at hx
      obtain ⟨i, y, h0, h1, hy, rfl⟩ := hx
      rw [ih _ _ _ (hch i h0 h1).2 y hy]

theorem leafDepths_ne_nil_of_child (a : Nat) (s : Int) (k : Int → keyRNPair)
    (c : Int → BPTNode) (i : Int) (h0 : 0 ≤ i) (h1 : i ≤ s) (hc : (c i).leafDepths ≠ []) :
    (BPTNode.node a false s k c).leafDepths ≠ [] := by
  obtain ⟨y, hy⟩ := List.exists_mem_of_ne_nil _ hc
  intro hnil
  have : y + 1 ∈ (BPTNode.node a false s k c).leafDepths :=
    (mem_leafDepths_internal a s k c (y + 1)).mpr ⟨i, y, h0, h1, hy, rfl⟩
  rw [hnil] at this
  exact absurd this (List.not_mem_nil _)

/-- The tree returned by the descent of `insert` has a leaf below its root: the one the pair
went into. -/
theorem insertLoop_hasLeaf {B : Int} {ord : Bool} (hB : 2 ≤ B) (key : keyRNPair) (fuel : Nat) :
    ∀ (h : Nat) (P Q : keyRNPair → Prop) (n : BPTNode) (L : Links) (n' : BPTNode) (L' : Links),
      WF B ord h P Q n → 0 ≤ n.size → n.size < 2 * B - 1 → (∀ e, P e → Q e) →
      insertLoop B key fuel n L = Except.ok (n', L') → n'.leafDepths ≠ [] := by
  induction fuel with
  | zero =>
    intro h P Q n L n' L' _ _ _ _ hres
    simp [insertLoop] at hres
  | succ fuel ih =>
    intro h P Q n L n' L' hwf hs0 hs hPQ hres
    cases n with
    | null => simp [insertLoop] at hres
    | node a l s k c =>
      simp only [BPTNode.size] at hs0 hs
      cases l with
      | true =>
        simp only [insertLoop, Except.ok.injEq, Prod.mk.injEq] at hres
        rw [← hres.1, leafDepths_leaf]
        simp
      | false =>
        obtain ⟨h', hh⟩ := WF_internal_height hwf
        subst hh
        obtain ⟨hb0, hb1, _, _⟩ := binarySearch_spec s k key hs0
        have hwf' := hwf
        simp only [WF] at hwf'
        obtain ⟨_, _, _, _, hch⟩ := hwf'
        cases hc : c (binarySearch s k key) with
        | null => simp [insertLoop, hc] at hres
        | node ca cl cs ck cc =>
          have hcs := hch _ hb0 hb1
          rw [hc] at hcs
          have hcsz : B - 1 ≤ cs := by
            rcases hcs.1 with h1 | h1
            · exact absurd h1 (by simp)
            · exact h1
          simp only [insertLoop, hc] at hres
          by_cases hfull : cs < 2 * B - 1
          · simp only [if_pos hfull] at hres
            cases hrec : insertLoop B key fuel (BPTNode.node ca cl cs ck cc) L with
            | error e => simp [hrec] at hres
            | ok r =>
              obtain ⟨child2, L2⟩ := r
              simp only [hrec, Except.ok.injEq, Prod.mk.injEq] at hres
              have hih := ih h' _ _ _ L child2 L2 hcs.2
                (by simp only [BPTNode.size]; omega) (by simp only [BPTNode.size]; omega)
                (childPQ hPQ k s _) hrec
              rw [← hres.1]
              apply leafDepths_ne_nil_of_child _ _ _ _ _ hb0 hb1
              rw [setAt_apply, if_pos rfl]
              exact hih
          · simp only [if_neg hfull] at hres
            cases hsp : splitNode B (BPTNode.node a false s k c) (binarySearch s k key) L with
            | error e => simp [hsp] at hres
            | ok r =>
              obtain ⟨cur, L2⟩ := r
              simp only [hsp] at hres
              have hcfull : (c (binarySearch s k key)).size = 2 * B - 1 := by
                rw [hc]; simp only [BPTNode.size]
                have := WF_size_le hcs.2
                omega
              obtain ⟨k', c', hcur, hwfcur, _, _, _, hci, hci1⟩ :=
                splitNode_WF hB h' hPQ (binarySearch s k key) L hwf hb0 hb1 hs hcfull hsp
              subst hcur
              simp only [BPTNode.keys, BPTNode.child, BPTNode.size] at hres
              have hwfcur' := hwfcur
              simp only [WF] at hwfcur'
              obtain ⟨_, _, _, _, hch'⟩ := hwfcur'
              by_cases hle : keyLe key (k' (binarySearch s k key))
              · simp only [if_pos hle] at hres
                cases hrec : insertLoop B key fuel (c' (binarySearch s k key)) L2 with
                | error e => simp [hrec] at hres
                | ok r =>
                  obtain ⟨child2, L3⟩ := r
                  simp only [hrec, Except.ok.injEq, Prod.mk.injEq] at hres
                  have hih := ih h' _ _ _ L2 child2 L3
                    (hch' _ hb0 (by omega)).2 (by omega) hci.2.1
                    (childPQ hPQ k' (s + 1) _) hrec
                  rw [← hres.1]
                  apply leafDepths_ne_nil_of_child _ _ _ _ _ hb0 (by omega)
                  rw [setAt_apply, if_pos rfl]
                  exact hih
              · simp only [if_neg hle] at hres
                cases hrec : insertLoop B key fuel (c' (binarySearch s k key + 1)) L2 with
                | error e => simp [hrec] at hres
                | ok r =>
                  obtain ⟨child2, L3⟩ := r
                  simp only [hrec, Except.ok.injEq, Prod.mk.injEq] at hres
                  have hih := ih h' _ _ _ L2 child2 L3
                    (hch' _ (by omega) (by omega)).2 (by omega) hci1.2.1
                    (childPQ hPQ k' (s + 1) _) hrec
                  rw [← hres.1]
                  apply leafDepths_ne_nil_of_child _ _ _ _ (binarySearch s k key + 1)
                    (by omega) (by omega)
                  rw [setAt_apply, if_pos rfl]
                  exact hih

/-- The height after `insert`: a tree of height `h` (0 for the empty tree) has height `h + 1`
afterwards when its root was full, so that `splitRoot` ran, and height `h` otherwise; and it
has a leaf. -/
theorem insert_height {t t' : BPTree} {key : keyRNPair} {fuel : Nat} {b : Bool} {h : Nat}
    (hB : 2 ≤ t.branchingFactor)
    (hwf : WF t.branchingFactor false h (fun _ => True) (fun _ => True) t.root)
    (hsz : t.root = BPTNode.null ∨ 1 ≤ t.root.size) (h0 : t.root = BPTNode.null → h = 0)
    (hres : insert fuel t key = Except.ok (b, t')) :
    t'.root.leafDepths ≠ [] ∧
    WF t.branchingFactor false (if t.root.size = 2 * t.branchingFactor - 1 then h + 1 else h)
      (fun _ => True) (fun _ => True) t'.root := by
  unfold insert at hres
  cases hr : t.root with
  | null =>
    simp only [hr, Links.alloc, Except.ok.injEq, Prod.mk.injEq] at hres
    rw [← hres.2, h0 hr]
    have hne : (0 : Int) ≠ 2 * t.branchingFactor - 1 := by omega
    simp only [BPTNode.size, if_neg hne]
    refine ⟨by rw [leafDepths_leaf]; simp, ?_⟩
    simp only [WF]
    refine ⟨trivial, by omega, fun _ _ _ => trivial, fun hf => absurd hf (by decide)⟩
  | node ra rl rs rk rc =>
    rw [hr] at hwf hsz
    have hs1 : 1 ≤ rs := by
      rcases hsz with h1 | h1
      · exact absurd h1 (by simp)
      · exact h1
    simp only [hr] at hres
    simp only [BPTNode.size]
    by_cases hfull : rs = 2 * t.branchingFactor - 1
    · rw [if_pos hfull] at hres ⊢
      cases hsp : splitRoot t.branchingFactor (BPTNode.node ra rl rs rk rc) t.links with
      | error e => simp [hsp] at hres
      | ok r =>
        obtain ⟨root1, L1⟩ := r
        simp only [hsp] at hres
        obtain ⟨hw1, hnn, hsz1⟩ := splitRoot_WF hB h (fun _ he => he) t.links hwf hfull hsp
        cases hrec : insertLoop t.branchingFactor key fuel root1 L1 with
        | error e => simp [hrec] at hres
        | ok r2 =>
          obtain ⟨root2, L2⟩ := r2
          simp only [hrec, Except.ok.injEq, Prod.mk.injEq] at hres
          rw [← hres.2]
          exact ⟨insertLoop_hasLeaf hB key fuel _ _ _ _ _ _ _ hw1 (by omega) (by omega)
              (fun _ he => he) hrec,
            (insertLoop_WF hB key fuel _ _ _ _ _ _ _ _ hw1 (by omega) (by omega)
              (fun _ he => he) (fun _ he => he) trivial (fun hf => absurd hf (by decide))
              hrec).1⟩
    · rw [if_neg hfull] at hres ⊢
      simp only at hres
      have hle := WF_size_le hwf
      cases hrec : insertLoop t.branchingFactor key fuel (BPTNode.node ra rl rs rk rc)
          t.links with
      | error e => simp [hrec] at hres
      | ok r2 =>
        obtain ⟨root2, L2⟩ := r2
        simp only [hrec, Except.ok.injEq, Prod.mk.injEq] at hres
        rw [← hres.2]
        exact ⟨insertLoop_hasLeaf hB key fuel _ _ _ _ _ _ _ hwf
            (by simp only [BPTNode.size]; omega) (by simp only [BPTNode.size]; omega)
            (fun _ he => he) hrec,
          (insertLoop_WF hB key fuel _ _ _ _ _ _ _ _ hwf
            (by simp only [BPTNode.size]; omega) (by simp only [BPTNode.size]; omega)
            (fun _ he => he) (fun _ he => he) trivial (fun hf => absurd hf (by decide))
            hrec).1⟩


theorem into_rootMoved (parent : BPTNode) (i : Int) (out : RemoveOut) :
    (out.into parent i).rootMoved = out.rootMoved := by
  unfold RemoveOut.into
  split
  · rfl
  · cases parent <;> rfl

theorem into_found (parent : BPTNode) (i : Int) (out : RemoveOut) :
    (out.into parent i).found = out.found := by
  unfold RemoveOut.into
  split
  · rfl
  · cases parent <;> rfl

/-- The descent of `remove` has assigned `this->root` exactly when it has recorded a merge
that left its parent with size 0. -/
theorem removeLoopC_moved (B : Int) (key : keyRNPair) (fuel : Nat) :
    ∀ (isRoot : Bool) (n : BPTNode) (L : Links) (r : List Collapse × Except Fault RemoveOut)
      (out : RemoveOut), removeLoopC B key fuel isRoot n L = r → r.2 = Except.ok out →
      (out.rootMoved = true ↔ r.1 ≠ []) := by
  induction fuel with
  | zero =>
    intro isRoot n L r out hr h2
    subst hr
    simp [removeLoopC] at h2
  | succ fuel ih =>
    intro isRoot n L r out hr h2
    have descend : ∀ (rc : List Collapse × Except Fault RemoveOut) (cur : BPTNode) (i : Int)
        (isR : Bool) (m : BPTNode) (L1 : Links) (out0 : RemoveOut),
        removeLoopC B key fuel isR m L1 = rc → rc.2 = Except.ok out0 →
        out = out0.into cur i → (out.rootMoved = true ↔ rc.1 ≠ []) := by
      intro rc cur i isR m L1 out0 hrc hrc2 ho
      rw [ho, into_rootMoved]
      exact ih isR m L1 rc out0 hrc hrc2
    cases n with
    | null => subst hr; simp [removeLoopC] at h2
    | node a l s k c =>
      cases l with
      | true =>
        subst hr
        simp only [removeLoopC, removeLoop] at h2 ⊢
        split_ifs at h2 <;> simp only [Except.ok.injEq] at h2 <;> rw [← h2] <;> simp
      | false =>
        simp only [removeLoopC] at hr
        split at hr
        · subst hr; simp at h2
        · split at hr
          · subst hr
            simp only at h2 ⊢
            split at h2
            · simp at h2
            · rename_i out0 hrec
              simp only [Except.ok.injEq] at h2
              exact descend _ _ _ _ _ _ out0 rfl hrec h2.symm
          · split at hr
            · subst hr; simp at h2
            · split at hr
              · subst hr; simp at h2
              · subst hr
                simp only at h2 ⊢
                split at h2
                · simp at h2
                · rename_i out0 hrec
                  simp only [Except.ok.injEq] at h2
                  exact descend _ _ _ _ _ _ out0 rfl hrec h2.symm
            · split at hr
              · subst hr; simp at h2
              · split at hr
                · subst hr; simp at h2
                · subst hr
                  simp only at h2 ⊢
                  split at h2
                  · simp at h2
                  · rename_i out0 hrec
                    simp only [Except.ok.injEq] at h2
                    exact descend _ _ _ _ _ _ out0 rfl hrec h2.symm
              · split at hr
                · subst hr; simp at h2
                · subst hr
                  simp only at h2 ⊢
                  split at h2
                  · simp at h2
                  · rename_i out0 hrec
                    simp only [Except.ok.injEq] at h2
                    exact descend _ _ _ _ _ _ out0 rfl hrec h2.symm
                · subst hr
                  simp only at h2 ⊢
                  split at h2
                  · simp at h2
                  · simp only [Except.ok.injEq] at h2
                    rw [← h2]
                    simp
                · exact ih _ _ _ _ _ hr h2


theorem into_height {B : Int} {ord : Bool} (h' : Nat) {P Q : keyRNPair → Prop}
    {pa : Nat} {s' : Int} {k' : Int → keyRNPair} {c' : Int → BPTNode} (i : Int)
    (out0 : RemoveOut)
    (hwf : WF B ord (h' + 1) P Q (BPTNode.node pa false s' k' c'))
    (hrec : RemoveOK B ord false h' (childP ord P k' s' i) (childQ ord Q k' s' i) out0) :
    (out0.into (BPTNode.node pa false s' k' c') i).rootMoved = false ∧
    WF B ord (h' + 1) P Q (out0.into (BPTNode.node pa false s' k' c') i).node := by
  obtain ⟨hm, hw, hnn, hs⟩ := hrec.1 rfl
  have hinto : out0.into (BPTNode.node pa false s' k' c') i =
      { out0 with node := BPTNode.node pa false s' k' (setAt c' i out0.node) } := by
    simp [RemoveOut.into, hm]
  rw [hinto]
  exact ⟨hm, WF_setChild i _ hwf hw (Or.inr hs)⟩

/-- The height after the descent of `remove` from the root: the new root is null, or the
descent has not assigned `this->root` and the height is the same, or it has, the old root had
one key, and the height is one less. -/
theorem removeLoop_height {B : Int} {ord : Bool} (hB : 2 ≤ B) (key : keyRNPair) (fuel : Nat) :
    ∀ (h : Nat) (P Q : keyRNPair → Prop) (n : BPTNode) (L : Links) (out : RemoveOut),
      (∀ e, P e → Q e) → WF B ord h P Q n → 1 ≤ n.size →
      removeLoop B key fuel true n L = Except.ok out →
      out.node = BPTNode.null ∨ (out.rootMoved = false ∧ WF B ord h P Q out.node) ∨
      (out.rootMoved = true ∧ n.size = 1 ∧ ∃ h', h = h' + 1 ∧ WF B ord h' P Q out.node) := by
  induction fuel with
  | zero =>
    intro h P Q n L out _ _ _ hres
    simp [removeLoop] at hres
  | succ fuel ih =>
    intro h P Q n L out hPQ hwf hsz hres
    cases n with
    | null => simp [removeLoop] at hres
    | node a l s k c =>
      simp only [BPTNode.size] at hsz
      cases l with
      | true =>
        have h0 := WF_leaf_height hwf
        subst h0
        simp only [removeLoop] at hres
        have hbs := binarySearch_spec s k key (by omega)
        by_cases hfound : binarySearch s k key < s ∧ k (binarySearch s k key) = key
        · rw [if_pos hfound] at hres
          by_cases hlast : True ∧ s = 1
          · rw [if_pos hlast] at hres
            simp only [Except.ok.injEq] at hres
            rw [← hres]
            exact Or.inl rfl
          · rw [if_neg hlast] at hres
            simp only [Except.ok.injEq] at hres
            rw [← hres]
            exact Or.inr (Or.inl ⟨rfl, deleteAtLeaf_WF (binarySearch s k key) hwf hbs.1⟩)
        · rw [if_neg hfound] at hres
          simp only [Except.ok.injEq] at hres
          rw [← hres]
          exact Or.inr (Or.inl ⟨rfl, hwf⟩)
      | false =>
        obtain ⟨h', hh⟩ := WF_internal_height hwf
        subst hh
        obtain ⟨hb0, hb1, _, _⟩ := binarySearch_spec s k key (by omega)
        have hwf' := hwf
        simp only [WF] at hwf'
        obtain ⟨_, _, _, _, hch⟩ := hwf'
        obtain ⟨hnn, hcases⟩ := removeLoop_inv hB hsz hres
        have hcB : B - 1 ≤ (c (binarySearch s k key)).size := by
          rcases (hch _ hb0 hb1).1 with h1 | h1
          · exact absurd h1 hnn
          · exact h1
        have descend : ∀ (s' : Int) (k' : Int → keyRNPair) (c' : Int → BPTNode) (i : Int)
            (L1 : Links) (out0 : RemoveOut),
            WF B ord (h' + 1) P Q (BPTNode.node a false s' k' c') → 0 ≤ i → i ≤ s' →
            B ≤ (c' i).size →
            removeLoop B key fuel false (c' i) L1 = Except.ok out0 →
            out = out0.into (BPTNode.node a false s' k' c') i →
            out.node = BPTNode.null ∨ (out.rootMoved = false ∧ WF B ord (h' + 1) P Q out.node) ∨
            (out.rootMoved = true ∧ s = 1 ∧ ∃ h'', h' + 1 = h'' + 1 ∧ WF B ord h'' P Q out.node) := by
          intro s' k' c' i L1 out0 hw hi0 hi1 hsz' hrec ho
          have hw' := hw
          simp only [WF] at hw'
          have hok := removeLoop_WF hB key fuel false h' _ _ _ L1 out0
            (childPQ hPQ k' s' i) (hw'.2.2.2.2 i hi0 hi1).2
            (by simp only [Bool.false_eq_true, if_false]; exact hsz') hrec
          rw [ho]
          exact Or.inr (Or.inl (into_height h' i out0 hw hok))
        rcases hcases with ⟨hne, out0, hrec, ho⟩ | ⟨hcs, hpos, hbig, cur, out0, hbl, hrec, ho⟩ |
          ⟨hcs, hlt, hbig, cur, out0, hbr, hrec, ho⟩ | ⟨hcs, hleft, hright, mo, L2, hmg, hrest⟩
        · exact descend s k c _ L out0 hwf hb0 hb1 (by omega) hrec ho
        · obtain ⟨k', c', hcur, hw, _, hsz'⟩ :=
            borrowFromLeftSibling_WF hB h' hPQ _ hwf hpos hb1 hcs hbig hbl
          subst hcur
          exact descend s k' c' _ L out0 hw hb0 hb1 (by omega) hrec ho
        · obtain ⟨k', c', hcur, hw, _, hsz'⟩ :=
            borrowFromRightSibling_WF hB h' hPQ _ hwf hb0 hlt hcs hbig hbr
          subst hcur
          exact descend s k' c' _ L out0 hw hb0 hb1 (by omega) hrec ho
        · rcases mergeWithSibling_WF hB h' _ L hwf hb0 hb1 hsz hcs hleft hright hmg with
            ⟨hne1, k', c', i, hmo, hw, _, hsz', hi0, hi1⟩ | ⟨hs1, m, hmo, hmnn, hmsz, hw⟩
          · subst hmo
            rcases hrest with ⟨cur, j, out0, hk, hrec, ho⟩ | ⟨m, out0, hk, _, _⟩
            · simp only [MergeOut.kept.injEq] at hk
              obtain ⟨hk1, hk2⟩ := hk
              subst hk1
              subst hk2
              exact descend (s - 1) k' c' _ L2 out0 hw hi0 hi1 hsz' hrec ho
            · exact absurd hk (by simp)
          · subst hmo
            rcases hrest with ⟨cur, j, out0, hk, _, _⟩ | ⟨m', out0, hk, hrec, ho⟩
            · exact absurd hk (by simp)
            · simp only [MergeOut.collapsed.injEq] at hk
              subst hk
              have hih := ih h' P Q m L2 out0 hPQ hw (by omega) hrec
              rw [ho]
              rcases hih with h1 | ⟨_, h2⟩ | ⟨_, h3, _⟩
              · exact Or.inl h1
              · exact Or.inr (Or.inr ⟨rfl, hs1, h', rfl, h2⟩)
              · omega


/-- The height after `remove`: when the descent records no merge that empties the root, the
leaves of the new tree are at the depth of those of the old one; when it records one, they are
one level higher. -/
theorem remove_height {t t' : BPTree} {key : keyRNPair} {fuel : Nat} {b : Bool} {h : Nat}
    (hB : 2 ≤ t.branchingFactor)
    (hwf : WF t.branchingFactor false h (fun _ => True) (fun _ => True) t.root)
    (hsz : t.root = BPTNode.null ∨ 1 ≤ t.root.size)
    (hres : remove fuel t key = Except.ok (b, t')) :
    ((removeC fuel t key).1 = [] → ∀ x ∈ t'.root.leafDepths, x = h) ∧
    ((removeC fuel t key).1 ≠ [] → ∀ x ∈ t'.root.leafDepths, x + 1 = h) := by
  unfold remove at hres
  cases hr : t.root with
  | null =>
    simp only [hr, Except.ok.injEq, Prod.mk.injEq] at hres
    rw [← hres.2, hr]
    simp [BPTNode.leafDepths]
  | node ra rl rs rk rc =>
    rw [hr] at hwf hsz
    have hs1 : 1 ≤ (BPTNode.node ra rl rs rk rc).size := by
      rcases hsz with h1 | h1
      · exact absurd h1 (by simp)
      · exact h1
    simp only [hr] at hres
    cases hrec : removeLoop t.branchingFactor key fuel true (BPTNode.node ra rl rs rk rc)
        t.links with
    | error e => simp [hrec] at hres
    | ok out =>
      simp only [hrec, Except.ok.injEq, Prod.mk.injEq] at hres
      have hev : (removeC fuel t key).1 =
          (removeLoopC t.branchingFactor key fuel true (BPTNode.node ra rl rs rk rc)
            t.links).1 := by
        simp only [removeC, hr]
      have hmoved := removeLoopC_moved t.branchingFactor key fuel true _ t.links _ out rfl
        (by rw [removeLoopC_snd]; exact hrec)
      rw [hev, ← hres.2]
      rcases removeLoop_height hB key fuel h _ _ _ t.links out (fun _ he => he) hwf hs1 hrec with
        h1 | ⟨h1, h2⟩ | ⟨h1, _, h', h2, h3⟩
      · simp only [h1]
        simp [BPTNode.leafDepths]
      · constructor
        · intro _
          exact WF_leafDepths _ _ _ _ _ _ h2
        · intro hne
          have := hmoved.mpr hne
          rw [h1] at this
          exact absurd this (by decide)
      · constructor
        · intro hnil
          have := hmoved.mp h1
          exact absurd hnil this
        · intro _ x hx
          rw [h2, WF_leafDepths _ _ _ _ _ _ h3 x hx]

/-- C33: every tree reachable by insert and remove calls with `B ≥ 2` is balanced, and its
height changes only as follows.  There is a height `h` such that every leaf below the root is
at depth `h`; after an `insert` the tree has a leaf and every leaf is at depth `h + 1` when the
root was full (the test under which `insert` calls `splitRoot`) and at depth `h` otherwise;
after a `remove` every leaf is at depth `h` when the descent has made no merge that leaves the
root without keys, and at depth `h - 1` when it has made one; a tree emptied by the remove has
no leaf. -/
theorem C33_balanced_height (B : Int) (hB : 2 ≤ B) (d : Bool) (t : BPTree)
    (hr : ReachableBy d B t) :
    ∃ h : Nat, (∀ x ∈ t.root.leafDepths, x = h) ∧
      (∀ (fuel : Nat) (key : keyRNPair) (b : Bool) (t' : BPTree),
        insert fuel t key = Except.ok (b, t') →
        t'.root.leafDepths ≠ [] ∧
        ∀ x ∈ t'.root.leafDepths, x = if t.root.size = 2 * B - 1 then h + 1 else h) ∧
      (∀ (fuel : Nat) (key : keyRNPair) (b : Bool) (t' : BPTree),
        remove fuel t key = Except.ok (b, t') →
        ((removeC fuel t key).1 = [] → ∀ x ∈ t'.root.leafDepths, x = h) ∧
        ((removeC fuel t key).1 ≠ [] → ∀ x ∈ t'.root.leafDepths, x + 1 = h) ∧
        (t'.root = BPTNode.null → t'.root.leafDepths = [])) := by
  obtain ⟨htw, hBt⟩ := ReachableBy_TreeWF hB (ReachableBy_of_false hr)
  have hB' : 2 ≤ t.branchingFactor := by rw [hBt]; exact hB
  have key : ∃ h : Nat, WF t.branchingFactor false h (fun _ => True) (fun _ => True) t.root ∧
      (t.root = BPTNode.null ∨ 1 ≤ t.root.size) ∧ (t.root = BPTNode.null → h = 0) := by
    rcases htw with hnull | ⟨hsz, h, hwf⟩
    · exact ⟨0, by rw [hnull]; exact WF_null _ _ _ _ _, Or.inl hnull, fun _ => rfl⟩
    · refine ⟨h, hwf, Or.inr hsz, fun hn => ?_⟩
      rw [hn] at hsz
      simp [BPTNode.size] at hsz
  obtain ⟨h, hwf, hsz, h0⟩ := key
  refine ⟨h, WF_leafDepths _ _ _ _ _ _ hwf, ?_, ?_⟩
  · intro fuel key b t' hres
    obtain ⟨h1, h2⟩ := insert_height hB' hwf hsz h0 hres
    rw [hBt] at h2
    exact ⟨h1, WF_leafDepths _ _ _ _ _ _ h2⟩
  · intro fuel key b t' hres
    obtain ⟨h1, h2⟩ := remove_height hB' hwf hsz hres
    exact ⟨h1, h2, fun hn => by rw [hn]; simp [BPTNode.leafDepths]⟩

/-- Witness for C33: the tree built by the seven inserts of `borrowScenario` with `B = 2`. -/
theorem C33_balanced_height_witness :
    ∃ h : Nat, (∀ x ∈ sevenTree.root.leafDepths, x = h) ∧
      (∀ (fuel : Nat) (key : keyRNPair) (b : Bool) (t' : BPTree),
        insert fuel sevenTree key = Except.ok (b, t') →
        t'.root.leafDepths ≠ [] ∧
        ∀ x ∈ t'.root.leafDepths, x = if sevenTree.root.size = 2 * 2 - 1 then h + 1 else h) ∧
      (∀ (fuel : Nat) (key : keyRNPair) (b : Bool) (t' : BPTree),
        remove fuel sevenTree key = Except.ok (b, t') →
        ((removeC fuel sevenTree key).1 = [] → ∀ x ∈ t'.root.leafDepths, x = h) ∧
        ((removeC fuel sevenTree key).1 ≠ [] → ∀ x ∈ t'.root.leafDepths, x + 1 = h) ∧
        (t'.root = BPTNode.null → t'.root.leafDepths = [])) :=
  C33_balanced_height 2 (by decide) true sevenTree sevenTree_reachable


/-! ## The scans on an intact tree -/

theorem childCountOK_ne_null {cap : Nat} {n : BPTNode} (h : n.childCountOK cap = true) :
    n ≠ BPTNode.null := by
  intro hn
  rw [hn] at h
  simp [BPTNode.childCountOK] at h

theorem childCountOK_child {cap : Nat} {a : Nat} {s : Int} {k : Int → keyRNPair}
    {c : Int → BPTNode} (h : (BPTNode.node a false s k c).childCountOK cap = true)
    (i : Int) (h0 : 0 ≤ i) (h1 : i ≤ s) : (c i).childCountOK cap = true := by
  simp only [BPTNode.childCountOK, List.all_eq_true, List.mem_range] at h
  have := h i.toNat (by omega)
  have hc : ((i.toNat : Nat) : Int) = i := by omega
  rw [hc] at this
  exact this

theorem leafNodes_leaf (a : Nat) (s : Int) (k : Int → keyRNPair) (c : Int → BPTNode) :
    (BPTNode.node a true s k c).leafNodes = [BPTNode.node a true s k c] := by
  simp [BPTNode.leafNodes]

theorem leafNodes_internal (a : Nat) (s : Int) (k : Int → keyRNPair) (c : Int → BPTNode) :
    (BPTNode.node a false s k c).leafNodes =
      (List.range (s + 1).toNat).flatMap (fun (i : Nat) => (c (i : Int)).leafNodes) := by
  simp [BPTNode.leafNodes]

/-- The leaves of an internal node, split at the child `i`. -/
theorem leafNodes_split (a : Nat) (s : Int) (k : Int → keyRNPair) (c : Int → BPTNode)
    (i : Int) (h0 : 0 ≤ i) (h1 : i ≤ s) :
    (BPTNode.node a false s k c).leafNodes =
      (List.range i.toNat).flatMap (fun (j : Nat) => (c (j : Int)).leafNodes) ++
        ((c i).leafNodes ++
          (List.range (s - i).toNat).flatMap
            (fun (j : Nat) => (c (i + 1 + (j : Int))).leafNodes)) := by
  rw [leafNodes_internal]
  have e1 : (s + 1).toNat = i.toNat + ((s - i).toNat + 1) := by omega
  rw [e1, flatMap_range_add (fun j => (c j).leafNodes)]
  congr 1
  have e2 : (s - i).toNat + 1 = 1 + (s - i).toNat := by omega
  rw [e2, flatMap_range_add (fun j => (c ((i.toNat : Int) + j)).leafNodes)]
  have hc : ((i.toNat : Nat) : Int) = i := by omega
  have r1 : List.range 1 = [0] := rfl
  simp only [r1, List.flatMap_cons, List.flatMap_nil, List.append_nil, Nat.cast_zero,
    add_zero, Nat.cast_one, hc]
  congr 1
  apply List.flatMap_congr
  intro j _
  congr 2
  omega

/-- The entries below a node that satisfies the invariant are the keys of its leaves. -/
theorem entries_eq_leafNodes (B : Int) (ord : Bool) (h : Nat) :
    ∀ (P Q : keyRNPair → Prop) (n : BPTNode), WF B ord h P Q n →
      n.entries = n.leafNodes.flatMap (fun l => keysFrom l.keys 0 l.size) := by
  induction h with
  | zero =>
    intro P Q n hwf
    cases n with
    | null => simp [BPTNode.entries, BPTNode.leafNodes]
    | node a l s k c =>
      simp only [WF] at hwf
      rw [hwf.1, leafNodes_leaf]
      simp [BPTNode.entries, BPTNode.keys, BPTNode.size]
  | succ h ih =>
    intro P Q n hwf
    cases n with
    | null => simp [BPTNode.entries, BPTNode.leafNodes]
    | node a l s k c =>
      simp only [WF] at hwf
      obtain ⟨hl, _, _, _, hch⟩ := hwf
      subst hl
      rw [leafNodes_internal, List.flatMap_assoc]
      simp only [BPTNode.entries, Bool.false_eq_true, if_false]
      apply List.flatMap_congr
      intro j hj
      rw [List.mem_range] at hj
      exact ih _ _ _ (hch j (by omega) (by omega)).2

/-- Every leaf listed below a node that satisfies the invariant is a leaf, and its keys are
entries of the node. -/
theorem leafNodes_sub (B : Int) (ord : Bool) (h : Nat) :
    ∀ (P Q : keyRNPair → Prop) (n : BPTNode), WF B ord h P Q n → ∀ l ∈ n.leafNodes,
      l.isLeaf = true ∧ ∀ e ∈ keysFrom l.keys 0 l.size, e ∈ n.entries := by
  induction h with
  | zero =>
    intro P Q n hwf l hl
    cases n with
    | null => simp [BPTNode.leafNodes] at hl
    | node a lf s k c =>
      simp only [WF] at hwf
      rw [hwf.1, leafNodes_leaf] at hl
      simp only [List.mem_singleton] at hl
      rw [hl, hwf.1]
      exact ⟨rfl, fun e he => by simpa [BPTNode.entries, BPTNode.keys, BPTNode.size] using he⟩
  | succ h ih =>
    intro P Q n hwf l hl
    cases n with
    | null => simp [BPTNode.leafNodes] at hl
    | node a lf s k c =>
      simp only [WF] at hwf
      obtain ⟨hlf, _, _, _, hch⟩ := hwf
      subst hlf
      rw [leafNodes_internal, List.mem_flatMap] at hl
      obtain ⟨j, hj, hl⟩ := hl
      rw [List.mem_range] at hj
      obtain ⟨g1, g2⟩ := ih _ _ _ (hch j (by omega) (by omega)).2 l hl
      refine ⟨g1, fun e he => ?_⟩
      rw [mem_entries_internal]
      exact ⟨j, by omega, by omega, g2 e he⟩


/-- The descent of `searchUtil` in an intact subtree that satisfies the ordered invariant ends
in a leaf with the index `binarySearch` finds there; every entry of a leaf to its left is
below the probe and every entry of a leaf to its right is at least the probe. -/
theorem searchLoop_split {B : Int} (hB : 2 ≤ B) (cap : Nat) (q : keyRNPair) (h : Nat) :
    ∀ (P Q : keyRNPair → Prop) (n : BPTNode) (fuel : Nat),
      WF B true h P Q n → n.childCountOK cap = true → 1 ≤ n.size → h < fuel →
      ∃ (a : Nat) (s : Int) (k : Int → keyRNPair) (c : Int → BPTNode)
        (pre post : List BPTNode),
        searchLoop q fuel n = Except.ok (binarySearch s k q, BPTNode.node a true s k c) ∧
        n.leafNodes = pre ++ BPTNode.node a true s k c :: post ∧ 1 ≤ s ∧
        (∀ i j, 0 ≤ i → i < j → j < s → keyLt (k i) (k j)) ∧
        (∀ l ∈ pre, ∀ e ∈ keysFrom l.keys 0 l.size, keyLt e q) ∧
        (∀ l ∈ post, ∀ e ∈ keysFrom l.keys 0 l.size, keyLe q e) := by
  induction h with
  | zero =>
    intro P Q n fuel hwf _ hsz hf
    cases n with
    | null => simp [BPTNode.size] at hsz
    | node a l s k c =>
      simp only [WF] at hwf
      obtain ⟨hl, _, _, hsorted⟩ := hwf
      subst hl
      obtain ⟨f, rfl⟩ : ∃ f, fuel = f + 1 := ⟨fuel - 1, by omega⟩
      refine ⟨a, s, k, c, [], [], by simp [searchLoop], by simp [leafNodes_leaf], hsz,
        hsorted trivial, by simp, by simp⟩
  | succ h ih =>
    intro P Q n fuel hwf hcc hsz hf
    cases n with
    | null => simp [BPTNode.size] at hsz
    | node a l s k c =>
      simp only [BPTNode.size] at hsz
      have hwf' := hwf
      simp only [WF] at hwf'
      obtain ⟨hl, _, _, hsorted, hch⟩ := hwf'
      subst hl
      obtain ⟨f, rfl⟩ : ∃ f, fuel = f + 1 := ⟨fuel - 1, by omega⟩
      obtain ⟨hb0, hb1, hb2, hb3⟩ := binarySearch_spec s k q (by omega)
      have hcci := childCountOK_child hcc _ hb0 hb1
      have hnn := childCountOK_ne_null hcci
      have hcsz : 1 ≤ (c (binarySearch s k q)).size := by
        rcases (hch _ hb0 hb1).1 with h1 | h1
        · exact absurd h1 hnn
        · omega
      obtain ⟨la, ls, lk, lc, pre, post, hsl, hln, hs1, hso, hpre, hpost⟩ :=
        ih _ _ _ f (hch _ hb0 hb1).2 hcci hcsz (by omega)
      refine ⟨la, ls, lk, lc,
        (List.range (binarySearch s k q).toNat).flatMap
          (fun (j : Nat) => (c (j : Int)).leafNodes) ++ pre,
        post ++ (List.range (s - binarySearch s k q).toNat).flatMap
          (fun (j : Nat) => (c (binarySearch s k q + 1 + (j : Int))).leafNodes),
        ?_, ?_, hs1, hso, ?_, ?_⟩
      · simp only [searchLoop, Bool.false_eq_true, if_false]
        exact hsl
      · rw [leafNodes_split a s k c _ hb0 hb1, hln]
        simp only [List.append_assoc, List.cons_append]
      · intro l hl e he
        rw [List.mem_append] at hl
        rcases hl with hl | hl
        · rw [List.mem_flatMap] at hl
          obtain ⟨j, hj, hl⟩ := hl
          rw [List.mem_range] at hj
          have hjc := (hch j (by omega) (by omega)).2
          have hmem := (leafNodes_sub _ _ _ _ _ _ hjc l hl).2 e he
          have h1 := (WF_separators hwf j (by omega) (by omega)).1 e hmem
          have h2 := hsorted trivial j (binarySearch s k q - 1) (by omega) (by omega) (by omega)
          exact keyLt_of_le_of_lt (keyLe_trans h1 h2) (hb3 (by omega))
        · exact hpre l hl e he
      · intro l hl e he
        rw [List.mem_append] at hl
        rcases hl with hl | hl
        · exact hpost l hl e he
        · rw [List.mem_flatMap] at hl
          obtain ⟨j, hj, hl⟩ := hl
          rw [List.mem_range] at hj
          have hjc := (hch (binarySearch s k q + 1 + j) (by omega) (by omega)).2
          have hmem := (leafNodes_sub _ _ _ _ _ _ hjc l hl).2 e he
          have h1 := (WF_separators hwf (binarySearch s k q + j) (by omega) (by omega)).2 e
            (by
              have : binarySearch s k q + j + 1 = binarySearch s k q + 1 + j := by omega
              rw [this]; exact hmem)
          have h2 := hsorted trivial (binarySearch s k q) (binarySearch s k q + j) hb0 (by omega)
            (by omega)
          exact keyLe_of_keyLt (keyLt_of_le_of_lt (keyLe_trans (hb2 (by omega)) h2) h1)


theorem view_eq {n m : BPTNode} (h : n.view = m.view) :
    n.size = m.size ∧ ∀ j, 0 ≤ j → j < m.size → n.keys j = m.keys j := by
  simp only [BPTNode.view, Prod.mk.injEq] at h
  obtain ⟨h1, h2⟩ := h
  refine ⟨h1, fun j hj0 hj1 => ?_⟩
  rw [h1] at h2
  unfold keysFrom at h2
  have := (List.map_inj_left.mp h2) j.toNat (by rw [List.mem_range]; omega)
  have hc : ((j.toNat : Nat) : Int) = j := by omega
  simpa [hc] using this

theorem keysFrom_congr_from (k k' : Int → keyRNPair) (i s : Int) (hi : 0 ≤ i)
    (h : ∀ j, 0 ≤ j → j < s → k j = k' j) : keysFrom k i s = keysFrom k' i s := by
  unfold keysFrom
  apply List.map_congr_left
  intro n hn
  rw [List.mem_range] at hn
  exact h _ (by omega) (by omega)

theorem keysDownFrom_congr (k k' : Int → keyRNPair) (i s : Int) (hi : i < s)
    (h : ∀ j, 0 ≤ j → j < s → k j = k' j) : keysDownFrom k i = keysDownFrom k' i := by
  unfold keysDownFrom
  apply List.map_congr_left
  intro n hn
  rw [List.mem_range] at hn
  rw [h _ (by omega) (by omega)]

theorem mem_keysDownFrom (k : Int → keyRNPair) (i : Int) (x : Int) :
    x ∈ keysDownFrom k i ↔ ∃ j, 0 ≤ j ∧ j ≤ i ∧ (k j).1 = x := by
  simp only [keysDownFrom, List.mem_map, List.mem_range]
  constructor
  · rintro ⟨n, hn, rfl⟩
    exact ⟨i - n, by omega, by omega, rfl⟩
  · rintro ⟨j, h1, h2, rfl⟩
    refine ⟨(i - j).toNat, by omega, ?_⟩
    congr 2; omega

theorem mem_leftOut (pre : List BPTNode) (x : Int) :
    x ∈ leftOut pre ↔ ∃ l ∈ pre, ∃ j, 0 ≤ j ∧ j < l.size ∧ (l.keys j).1 = x := by
  simp only [leftOut, List.mem_flatMap, List.mem_reverse, mem_keysDownFrom]
  constructor
  · rintro ⟨l, hl, j, h1, h2, h3⟩
    exact ⟨l, hl, j, h1, by omega, h3⟩
  · rintro ⟨l, hl, j, h1, h2, h3⟩
    exact ⟨l, hl, j, h1, by omega, h3⟩

theorem linkedB_cons {t : BPTree} {prev : Option Nat} {n : BPTNode} {rest : List BPTNode}
    (h : linkedB t prev (n :: rest) = true) :
    ∃ a n', n.addr? = some a ∧ t.links.leftSibling_ a = prev ∧
      t.links.rightSibling_ a = rest.head?.bind BPTNode.addr? ∧
      t.root.find (2 * t.branchingFactor).toNat a = some n' ∧ n'.view = n.view ∧
      linkedB t (some a) rest = true := by
  unfold linkedB at h
  cases ha : n.addr? with
  | none => simp [ha] at h
  | some a =>
    simp only [ha, Bool.and_eq_true, decide_eq_true_eq] at h
    obtain ⟨⟨⟨h1, h2⟩, h3⟩, h4⟩ := h
    cases hf : t.root.find (2 * t.branchingFactor).toNat a with
    | none => simp [hf] at h3
    | some n' =>
      simp only [hf, Option.map_some', Option.some.injEq] at h3
      exact ⟨a, n', rfl, h1, h2, hf, h3, h4⟩

theorem lastAddr_nil (prev : Option Nat) : lastAddr prev [] = prev := rfl

theorem lastAddr_snoc (prev : Option Nat) (pre : List BPTNode) (m : BPTNode) :
    lastAddr prev (pre ++ [m]) = m.addr? := by
  simp [lastAddr]

theorem linkedB_append {t : BPTree} (pre : List BPTNode) :
    ∀ (prev : Option Nat) (rest : List BPTNode), linkedB t prev (pre ++ rest) = true →
      linkedB t (lastAddr prev pre) rest = true := by
  induction pre with
  | nil => intro prev rest h; exact h
  | cons n pre ih =>
    intro prev rest h
    obtain ⟨a, n', ha, _, _, _, _, hrest⟩ := linkedB_cons h
    have := ih (some a) rest hrest
    cases pre with
    | nil =>
      simp only [lastAddr, List.getLast?_singleton] at this ⊢
      rw [ha]; exact this
    | cons m pre' =>
      have e : lastAddr prev (n :: m :: pre') = lastAddr (some a) (m :: pre') := by
        unfold lastAddr
        rw [List.getLast?_cons_cons]
        cases hq : (m :: pre').getLast? with
        | none => simp at hq
        | some x => rfl
      rw [e]; exact this

/-- The walk of `iterateRightLeaf` along linked leaves reads their keys in order. -/
theorem chainFrom_linked {t : BPTree} (ls : List BPTNode) :
    ∀ (prev : Option Nat) (fuel : Nat), linkedB t prev ls = true → ls.length < fuel →
      chainFrom t fuel (ls.head?.bind BPTNode.addr?) 0 =
        Except.ok (ls.flatMap (fun l => keysFrom l.keys 0 l.size)) := by
  induction ls with
  | nil =>
    intro prev fuel _ hf
    obtain ⟨f, rfl⟩ : ∃ f, fuel = f + 1 := ⟨fuel - 1, by omega⟩
    simp [chainFrom]
  | cons n rest ih =>
    intro prev fuel h hf
    obtain ⟨f, rfl⟩ : ∃ f, fuel = f + 1 := ⟨fuel - 1, by omega⟩
    obtain ⟨a, n', ha, _, hright, hfind, hview, hrest⟩ := linkedB_cons h
    obtain ⟨hsz, hkeys⟩ := view_eq hview
    have hrec := ih (some a) f hrest (by simp only [List.length_cons] at hf; omega)
    simp only [List.head?_cons, Option.some_bind, ha, chainFrom, hfind, hright, hrec,
      List.flatMap_cons]
    rw [hsz, keysFrom_congr n'.keys n.keys n.size hkeys]

/-- The walk of `iterateRightLeaf` from an index of a linked leaf. -/
theorem chainFrom_at {t : BPTree} (prev : Option Nat) (leaf : BPTNode) (post : List BPTNode)
    (i : Int) (hi : 0 ≤ i) (fuel : Nat) (h : linkedB t prev (leaf :: post) = true)
    (hf : post.length + 1 < fuel) :
    chainFrom t fuel leaf.addr? i =
      Except.ok (keysFrom leaf.keys i leaf.size ++
        post.flatMap (fun l => keysFrom l.keys 0 l.size)) := by
  obtain ⟨f, rfl⟩ : ∃ f, fuel = f + 1 := ⟨fuel - 1, by omega⟩
  obtain ⟨a, n', ha, _, hright, hfind, hview, hrest⟩ := linkedB_cons h
  obtain ⟨hsz, hkeys⟩ := view_eq hview
  have hrec := chainFrom_linked post (some a) f hrest (by omega)
  simp only [ha, chainFrom, hfind, hright, hrec]
  rw [hsz, keysFrom_congr_from n'.keys leaf.keys i leaf.size hi hkeys]


theorem leftOut_snoc (pre : List BPTNode) (m : BPTNode) :
    leftOut (pre ++ [m]) = keysDownFrom m.keys (m.size - 1) ++ leftOut pre := by
  simp [leftOut]

theorem deref_of_find {t : BPTree} {a : Nat} {n : BPTNode}
    (h : t.root.find (2 * t.branchingFactor).toNat a = some n) :
    deref t (some a) = Except.ok n := by
  simp [deref, h]

/-- The walk of `iterateLeftLeaf` from an index of a linked leaf reads its keys from that
index down and then those of the leaves to its left, nearest first. -/
theorem iterateLeftLeaf_linked {t : BPTree} (pre : List BPTNode) :
    ∀ (leaf : BPTNode) (rest : List BPTNode) (i : Int) (fuel : Nat),
      linkedB t none (pre ++ leaf :: rest) = true → i < leaf.size → pre.length < fuel →
      iterateLeftLeaf t fuel leaf.addr? i =
        Except.ok (keysDownFrom leaf.keys i ++ leftOut pre) := by
  induction pre using List.reverseRecOn with
  | nil =>
    intro leaf rest i fuel h hi hf
    obtain ⟨f, rfl⟩ : ∃ f, fuel = f + 1 := ⟨fuel - 1, by omega⟩
    obtain ⟨a, n', ha, hleft, _, hfind, hview, _⟩ := linkedB_cons h
    obtain ⟨hsz, hkeys⟩ := view_eq hview
    simp only [ha, iterateLeftLeaf, deref_of_find hfind, hleft, leftOut, List.reverse_nil,
      List.flatMap_nil, List.append_nil]
    rw [keysDownFrom_congr n'.keys leaf.keys i leaf.size hi hkeys]
  | append_singleton pre m ih =>
    intro leaf rest i fuel h hi hf
    obtain ⟨f, rfl⟩ : ∃ f, fuel = f + 1 := ⟨fuel - 1, by omega⟩
    have h' : linkedB t none (pre ++ m :: leaf :: rest) = true := by
      rw [List.append_assoc] at h
      exact h
    have hm := linkedB_append pre none (m :: leaf :: rest) h'
    obtain ⟨l, m', hml, _, _, hfindm, hviewm, hrest1⟩ := linkedB_cons hm
    obtain ⟨a, n', ha, hleft, _, hfind, hview, _⟩ := linkedB_cons hrest1
    obtain ⟨hsz, hkeys⟩ := view_eq hview
    obtain ⟨hszm, _⟩ := view_eq hviewm
    have hrec := ih m (leaf :: rest) (m'.size - 1) f h' (by omega)
      (by simp only [List.length_append, List.length_singleton] at hf; omega)
    rw [hml] at hrec
    simp only [ha, iterateLeftLeaf, deref_of_find hfind, hleft, deref_of_find hfindm, hrec,
      leftOut_snoc]
    rw [keysDownFrom_congr n'.keys leaf.keys i leaf.size hi hkeys, hszm]

/-- The right walk of a scan when the probe lies beyond the last key of the leaf found:
`rightPosition` moves to the next leaf and the walk reads the leaves to the right. -/
theorem rightWalk_next {t : BPTree} (prev : Option Nat) (a : Nat) (s : Int)
    (k : Int → keyRNPair) (c : Int → BPTNode) (post : List BPTNode) (fuel : Nat)
    (h : linkedB t prev (BPTNode.node a true s k c :: post) = true)
    (hf : post.length + 1 < fuel) :
    ∃ pos, rightPosition t (s - 1, some a) = Except.ok pos ∧
      iterateRightLeaf t fuel pos.2 pos.1 =
        Except.ok ((post.flatMap (fun l => keysFrom l.keys 0 l.size)).map Prod.fst) := by
  obtain ⟨a', n', ha, _, hright, hfind, hview, hrest⟩ := linkedB_cons h
  simp only [BPTNode.addr?, Option.some.injEq] at ha
  subst ha
  obtain ⟨hsz0, _⟩ := view_eq hview
  have hsz : n'.size = s := hsz0
  have hrec := chainFrom_linked post (some a) fuel hrest (by omega)
  rw [← hright] at hrec
  have hnot : ¬ (s - 1 < n'.size - 1) := by omega
  obtain ⟨f, hfuel⟩ : ∃ f, fuel = f + 1 := ⟨fuel - 1, by omega⟩
  cases hr : t.links.rightSibling_ a with
  | none =>
    refine ⟨(-1, none), by simp [rightPosition, deref_of_find hfind, hnot, hr], ?_⟩
    rw [hr] at hrec
    have h0 : chainFrom t fuel none (-1) = chainFrom t fuel none 0 := by
      rw [hfuel]; simp [chainFrom]
    simp only [iterateRightLeaf, h0, hrec]
  | some r =>
    refine ⟨(0, some r), by simp [rightPosition, deref_of_find hfind, hnot, hr], ?_⟩
    rw [hr] at hrec
    simp only [iterateRightLeaf, hrec]

/-- The right walk of a scan from an index of the leaf found. -/
theorem rightWalk_here {t : BPTree} (prev : Option Nat) (a : Nat) (s : Int)
    (k : Int → keyRNPair) (c : Int → BPTNode) (post : List BPTNode) (i : Int) (hi : 0 ≤ i)
    (fuel : Nat) (h : linkedB t prev (BPTNode.node a true s k c :: post) = true)
    (hf : post.length + 1 < fuel) :
    iterateRightLeaf t fuel (some a) i =
      Except.ok ((keysFrom k i s ++ post.flatMap (fun l => keysFrom l.keys 0 l.size)).map
        Prod.fst) := by
  have h2 : chainFrom t fuel (some a) i = Except.ok (keysFrom k i s ++
      post.flatMap (fun l => keysFrom l.keys 0 l.size)) :=
    chainFrom_at prev (BPTNode.node a true s k c) post i hi fuel h hf
  simp only [iterateRightLeaf, h2]

/-- The left walk of a scan when the probe is not beyond the last key of the leaf found:
`leftPosition` steps one entry back, into the previous leaf if need be. -/
theorem leftWalk_prev {t : BPTree} (pre : List BPTNode) (a : Nat) (s : Int)
    (k : Int → keyRNPair) (c : Int → BPTNode) (post : List BPTNode) (i : Int) (hi0 : 0 ≤ i)
    (hi : i < s) (fuel : Nat)
    (h : linkedB t none (pre ++ BPTNode.node a true s k c :: post) = true)
    (hf : pre.length + 1 < fuel) :
    ∃ pos, leftPosition t (i, some a) = Except.ok pos ∧
      iterateLeftLeaf t fuel pos.2 pos.1 = Except.ok (keysDownFrom k (i - 1) ++ leftOut pre) := by
  by_cases hpos : i > 0
  · refine ⟨(i - 1, some a), by simp [leftPosition, hpos], ?_⟩
    have h2 : iterateLeftLeaf t fuel (some a) (i - 1) =
        Except.ok (keysDownFrom k (i - 1) ++ leftOut pre) :=
      iterateLeftLeaf_linked pre (BPTNode.node a true s k c) post (i - 1) fuel h
        (by show i - 1 < s; omega) (by omega)
    exact h2
  · have hi00 : i = 0 := by omega
    subst hi00
    have hempty : keysDownFrom k (0 - 1) = [] := by simp [keysDownFrom]
    rw [hempty, List.nil_append]
    have hm := linkedB_append pre none _ h
    obtain ⟨a', n', ha, hleft, _, _, _, _⟩ := linkedB_cons hm
    simp only [BPTNode.addr?, Option.some.injEq] at ha
    subst ha
    obtain ⟨f, rfl⟩ : ∃ f, fuel = f + 1 := ⟨fuel - 1, by omega⟩
    rcases List.eq_nil_or_concat pre with hnil | ⟨pre', m, hcat⟩
    · subst hnil
      rw [lastAddr_nil] at hleft
      refine ⟨(-1, none), by simp [leftPosition, hleft], ?_⟩
      simp [iterateLeftLeaf, leftOut]
    · rw [List.concat_eq_append] at hcat
      subst hcat
      rw [lastAddr_snoc] at hleft
      have h' : linkedB t none (pre' ++ m :: BPTNode.node a true s k c :: post) = true := by
        rw [List.append_assoc] at h
        exact h
      have hm2 := linkedB_append pre' none _ h'
      obtain ⟨l, m', hml, _, _, hfindm, hviewm, _⟩ := linkedB_cons hm2
      obtain ⟨hszm, _⟩ := view_eq hviewm
      rw [hml] at hleft
      refine ⟨(m'.size - 1, some l),
        by simp [leftPosition, hleft, deref_of_find hfindm], ?_⟩
      have hrec := iterateLeftLeaf_linked pre' m _ (m'.size - 1) (f + 1) h' (by omega)
        (by simp only [List.length_append, List.length_singleton] at hf; omega)
      rw [hml] at hrec
      rw [leftOut_snoc, ← hszm]
      exact hrec


theorem keysFrom_self (k : Int → keyRNPair) (s : Int) : keysFrom k s s = [] := by
  simp [keysFrom]

/-- What `searchUtil` finds in an intact tree that satisfies the ordered invariant: a leaf
of the tree, with the leaves before and after it, and the position the scans start from. -/
theorem searchPosition_split {B : Int} (hB : 2 ≤ B) {t : BPTree} {h : Nat} (q : keyRNPair)
    (fuel : Nat)
    (hwf : WF B true h (fun _ => True) (fun _ => True) t.root) (hsz : 1 ≤ t.root.size)
    (hint : Intact t) (hf : h < fuel) :
    ∃ (a : Nat) (s : Int) (k : Int → keyRNPair) (c : Int → BPTNode)
      (pre post : List BPTNode),
      searchPosition fuel t q = Except.ok (binarySearch s k q, some a, s) ∧
      linkedB t none (pre ++ BPTNode.node a true s k c :: post) = true ∧
      t.root.leafNodes = pre ++ BPTNode.node a true s k c :: post ∧ 1 ≤ s ∧
      (∀ i j, 0 ≤ i → i < j → j < s → keyLt (k i) (k j)) ∧
      (∀ l ∈ pre, ∀ e ∈ keysFrom l.keys 0 l.size, keyLt e q) ∧
      (∀ l ∈ post, ∀ e ∈ keysFrom l.keys 0 l.size, keyLe q e) := by
  obtain ⟨a, s, k, c, pre, post, hsl, hln, hs1, hso, hpre, hpost⟩ :=
    searchLoop_split hB _ q h _ _ _ fuel hwf hint.1 hsz hf
  refine ⟨a, s, k, c, pre, post, ?_, ?_, hln, hs1, hso, hpre, hpost⟩
  · cases hr : t.root with
    | null => rw [hr] at hsz; simp [BPTNode.size] at hsz
    | node ra rl rs rk rc =>
      rw [hr] at hsl
      simp only [searchPosition, searchUtil, hr, hsl]
  · rw [← hln]; exact hint.2

/-- The output of `greaterThanEquals` on an intact tree. -/
theorem greaterThanEquals_out {B : Int} (hB : 2 ≤ B) {t : BPTree} {h : Nat} (key : Int)
    (fuel : Nat)
    (hwf : WF B true h (fun _ => True) (fun _ => True) t.root) (hsz : 1 ≤ t.root.size)
    (hint : Intact t) (hf : h + t.root.leafNodes.length + 1 < fuel) :
    ∃ (a : Nat) (s : Int) (k : Int → keyRNPair) (c : Int → BPTNode)
      (pre post : List BPTNode),
      t.root.leafNodes = pre ++ BPTNode.node a true s k c :: post ∧ 1 ≤ s ∧
      (∀ i j, 0 ≤ i → i < j → j < s → keyLt (k i) (k j)) ∧
      (∀ l ∈ pre, ∀ e ∈ keysFrom l.keys 0 l.size, keyLt e (key, -1)) ∧
      (∀ l ∈ post, ∀ e ∈ keysFrom l.keys 0 l.size, keyLe (key, -1) e) ∧
      greaterThanEquals fuel t key =
        Except.ok ((keysFrom k (binarySearch s k (key, -1)) s ++
          post.flatMap (fun l => keysFrom l.keys 0 l.size)).map Prod.fst) := by
  obtain ⟨a, s, k, c, pre, post, hsp, hlk, hln, hs1, hso, hpre, hpost⟩ :=
    searchPosition_split hB (key, -1) fuel hwf hsz hint (by omega)
  refine ⟨a, s, k, c, pre, post, hln, hs1, hso, hpre, hpost, ?_⟩
  have hlen : pre.length + 1 + post.length = t.root.leafNodes.length := by
    rw [hln]; simp only [List.length_append, List.length_cons]; omega
  have hm := linkedB_append pre none _ hlk
  obtain ⟨hb0, hb1, _, _⟩ := binarySearch_spec s k (key, -1) (by omega)
  simp only [greaterThanEquals, hsp]
  by_cases hs : s = binarySearch s k (key, -1)
  · rw [if_pos hs, ← hs]
    obtain ⟨pos, hp1, hp2⟩ := rightWalk_next _ a s k c post fuel hm (by omega)
    simp only [hp1, hp2, keysFrom_self, List.nil_append]
  · rw [if_neg hs]
    exact rightWalk_here _ a s k c post _ hb0 fuel hm (by omega)

/-- The output of `greaterThan` on an intact tree. -/
theorem greaterThan_out {B : Int} (hB : 2 ≤ B) {t : BPTree} {h : Nat} (key : Int)
    (fuel : Nat)
    (hwf : WF B true h (fun _ => True) (fun _ => True) t.root) (hsz : 1 ≤ t.root.size)
    (hint : Intact t) (hf : h + t.root.leafNodes.length + 1 < fuel) :
    ∃ (a : Nat) (s : Int) (k : Int → keyRNPair) (c : Int → BPTNode)
      (pre post : List BPTNode),
      t.root.leafNodes = pre ++ BPTNode.node a true s k c :: post ∧ 1 ≤ s ∧
      (∀ i j, 0 ≤ i → i < j → j < s → keyLt (k i) (k j)) ∧
      (∀ l ∈ pre, ∀ e ∈ keysFrom l.keys 0 l.size, keyLt e (key, LONG_MAX)) ∧
      (∀ l ∈ post, ∀ e ∈ keysFrom l.keys 0 l.size, keyLe (key, LONG_MAX) e) ∧
      greaterThan fuel t key =
        Except.ok ((keysFrom k (binarySearch s k (key, LONG_MAX)) s ++
          post.flatMap (fun l => keysFrom l.keys 0 l.size)).map Prod.fst) := by
  obtain ⟨a, s, k, c, pre, post, hsp, hlk, hln, hs1, hso, hpre, hpost⟩ :=
    searchPosition_split hB (key, LONG_MAX) fuel hwf hsz hint (by omega)
  refine ⟨a, s, k, c, pre, post, hln, hs1, hso, hpre, hpost, ?_⟩
  have hlen : pre.length + 1 + post.length = t.root.leafNodes.length := by
    rw [hln]; simp only [List.length_append, List.length_cons]; omega
  have hm := linkedB_append pre none _ hlk
  obtain ⟨hb0, hb1, _, _⟩ := binarySearch_spec s k (key, LONG_MAX) (by omega)
  simp only [greaterThan, hsp]
  by_cases hs : s = binarySearch s k (key, LONG_MAX)
  · rw [if_pos hs, ← hs]
    obtain ⟨pos, hp1, hp2⟩ := rightWalk_next _ a s k c post fuel hm (by omega)
    simp only [hp1, hp2, keysFrom_self, List.nil_append]
  · rw [if_neg hs]
    exact rightWalk_here _ a s k c post _ hb0 fuel hm (by omega)

/-- The output of `smallerThanEquals` on an intact tree. -/
theorem smallerThanEquals_out {B : Int} (hB : 2 ≤ B) {t : BPTree} {h : Nat} (key : Int)
    (fuel : Nat)
    (hwf : WF B true h (fun _ => True) (fun _ => True) t.root) (hsz : 1 ≤ t.root.size)
    (hint : Intact t) (hf : h + t.root.leafNodes.length + 1 < fuel) :
    ∃ (a : Nat) (s : Int) (k : Int → keyRNPair) (c : Int → BPTNode)
      (pre post : List BPTNode),
      t.root.leafNodes = pre ++ BPTNode.node a true s k c :: post ∧ 1 ≤ s ∧
      (∀ i j, 0 ≤ i → i < j → j < s → keyLt (k i) (k j)) ∧
      (∀ l ∈ pre, ∀ e ∈ keysFrom l.keys 0 l.size, keyLt e (key, LONG_MAX)) ∧
      (∀ l ∈ post, ∀ e ∈ keysFrom l.keys 0 l.size, keyLe (key, LONG_MAX) e) ∧
      smallerThanEquals fuel t key =
        Except.ok (keysDownFrom k (binarySearch s k (key, LONG_MAX) - 1) ++ leftOut pre) := by
  obtain ⟨a, s, k, c, pre, post, hsp, hlk, hln, hs1, hso, hpre, hpost⟩ :=
    searchPosition_split hB (key, LONG_MAX) fuel hwf hsz hint (by omega)
  refine ⟨a, s, k, c, pre, post, hln, hs1, hso, hpre, hpost, ?_⟩
  have hlen : pre.length + 1 + post.length = t.root.leafNodes.length := by
    rw [hln]; simp only [List.length_append, List.length_cons]; omega
  obtain ⟨hb0, hb1, _, _⟩ := binarySearch_spec s k (key, LONG_MAX) (by omega)
  simp only [smallerThanEquals, hsp]
  by_cases hs : s = binarySearch s k (key, LONG_MAX)
  · rw [if_pos hs]
    exact iterateLeftLeaf_linked pre (BPTNode.node a true s k c) post _ fuel hlk
      (by show binarySearch s k (key, LONG_MAX) - 1 < s; omega) (by omega)
  · rw [if_neg hs]
    obtain ⟨pos, hp1, hp2⟩ := leftWalk_prev pre a s k c post _ hb0 (by omega) fuel hlk
      (by omega)
    simp only [hp1, hp2]

/-- The output of `smallerThan` on an intact tree. -/
theorem smallerThan_out {B : Int} (hB : 2 ≤ B) {t : BPTree} {h : Nat} (key : Int)
    (fuel : Nat)
    (hwf : WF B true h (fun _ => True) (fun _ => True) t.root) (hsz : 1 ≤ t.root.size)
    (hint : Intact t) (hf : h + t.root.leafNodes.length + 1 < fuel) :
    ∃ (a : Nat) (s : Int) (k : Int → keyRNPair) (c : Int → BPTNode)
      (pre post : List BPTNode),
      t.root.leafNodes = pre ++ BPTNode.node a true s k c :: post ∧ 1 ≤ s ∧
      (∀ i j, 0 ≤ i → i < j → j < s → keyLt (k i) (k j)) ∧
      (∀ l ∈ pre, ∀ e ∈ keysFrom l.keys 0 l.size, keyLt e (key, -1)) ∧
      (∀ l ∈ post, ∀ e ∈ keysFrom l.keys 0 l.size, keyLe (key, -1) e) ∧
      smallerThan fuel t key =
        Except.ok (keysDownFrom k (binarySearch s k (key, -1) - 1) ++ leftOut pre) := by
  obtain ⟨a, s, k, c, pre, post, hsp, hlk, hln, hs1, hso, hpre, hpost⟩ :=
    searchPosition_split hB (key, -1) fuel hwf hsz hint (by omega)
  refine ⟨a, s, k, c, pre, post, hln, hs1, hso, hpre, hpost, ?_⟩
  have hlen : pre.length + 1 + post.length = t.root.leafNodes.length := by
    rw [hln]; simp only [List.length_append, List.length_cons]; omega
  obtain ⟨hb0, hb1, _, _⟩ := binarySearch_spec s k (key, -1) (by omega)
  simp only [smallerThan, hsp]
  by_cases hs : s = binarySearch s k (key, -1)
  · rw [if_pos hs]
    exact iterateLeftLeaf_linked pre (BPTNode.node a true s k c) post _ fuel hlk
      (by show binarySearch s k (key, -1) - 1 < s; omega) (by omega)
  · rw [if_neg hs]
    obtain ⟨pos, hp1, hp2⟩ := leftWalk_prev pre a s k c post _ hb0 (by omega) fuel hlk
      (by omega)
    simp only [hp1, hp2]


theorem keyLt_same_key {e : keyRNPair} {k x : Int} (h : keyLt e (k, x)) (hk : e.1 = k) :
    e.2 < x := by
  simp only [keyLt] at h
  omega

theorem keyLe_same_key {e : keyRNPair} {k x : Int} (h : keyLe (k, x) e) (hk : e.1 = k) :
    x ≤ e.2 := by
  simp only [keyLe] at h
  omega

/-- In a sorted leaf the keys before the index `binarySearch` returns are below the probe and
those from it on are at least the probe. -/
theorem leaf_lower_bound (s : Int) (k : Int → keyRNPair) (q : keyRNPair) (hs : 0 ≤ s)
    (hso : ∀ i j, 0 ≤ i → i < j → j < s → keyLt (k i) (k j)) :
    (∀ j, 0 ≤ j → j < binarySearch s k q → keyLt (k j) q) ∧
    (∀ j, binarySearch s k q ≤ j → j < s → keyLe q (k j)) := by
  obtain ⟨hb0, hb1, hb2, hb3⟩ := binarySearch_spec s k q hs
  constructor
  · intro j h0 h1
    by_cases hj : j = binarySearch s k q - 1
    · rw [hj]; exact hb3 (by omega)
    · exact keyLt_trans (hso j (binarySearch s k q - 1) h0 (by omega) (by omega))
        (hb3 (by omega))
  · intro j h0 h1
    by_cases hj : j = binarySearch s k q
    · rw [hj]; exact hb2 (by omega)
    · exact keyLe_trans (hb2 (by omega))
        (keyLe_of_keyLt (hso (binarySearch s k q) j hb0 (by omega) h1))

theorem mem_leafKeys_entries {B : Int} {ord : Bool} {h : Nat} {P Q : keyRNPair → Prop}
    {n : BPTNode} (hwf : WF B ord h P Q n) (l : BPTNode) (hl : l ∈ n.leafNodes)
    (e : keyRNPair) (he : e ∈ keysFrom l.keys 0 l.size) : e ∈ n.entries :=
  (leafNodes_sub B ord h P Q n hwf l hl).2 e he

/-- The four scans on an intact tree that satisfies the ordered invariant, for the user key
of a stored entry: each returns, and what it emits depends on the pkeys stored with that key. -/
theorem scans_bound_pkeys {B : Int} (hB : 2 ≤ B) {t : BPTree} {h : Nat}
    (hwf : WF B true h (fun _ => True) (fun _ => True) t.root) (hsz : 1 ≤ t.root.size)
    (hint : Intact t) (k p : Int) (hst : (k, p) ∈ t.root.entries) (fuel : Nat)
    (hf : h + t.root.leafNodes.length + 1 < fuel) :
    ∃ ge le gt lt,
      greaterThanEquals fuel t k = Except.ok ge ∧ (-1 ≤ p → k ∈ ge) ∧
      smallerThanEquals fuel t k = Except.ok le ∧ (p < LONG_MAX → k ∈ le) ∧
      greaterThan fuel t k = Except.ok gt ∧
        ((∀ e ∈ t.root.entries, e.1 = k → e.2 < LONG_MAX) → k ∉ gt) ∧
      smallerThan fuel t k = Except.ok lt ∧
        ((∀ e ∈ t.root.entries, e.1 = k → -1 ≤ e.2) → k ∉ lt) := by
  have hent := entries_eq_leafNodes B true h _ _ _ hwf
  have hloc : ∀ (pre post : List BPTNode) (leaf : BPTNode),
      t.root.leafNodes = pre ++ leaf :: post →
      (∃ l ∈ pre, (k, p) ∈ keysFrom l.keys 0 l.size) ∨ (k, p) ∈ keysFrom leaf.keys 0 leaf.size ∨
      (∃ l ∈ post, (k, p) ∈ keysFrom l.keys 0 l.size) := by
    intro pre post leaf hln
    rw [hent, hln, List.mem_flatMap] at hst
    obtain ⟨l, hl, he⟩ := hst
    rw [List.mem_append, List.mem_cons] at hl
    rcases hl with hl | hl | hl
    · exact Or.inl ⟨l, hl, he⟩
    · rw [hl] at he; exact Or.inr (Or.inl he)
    · exact Or.inr (Or.inr ⟨l, hl, he⟩)
  have hsub : ∀ (pre post : List BPTNode) (leaf : BPTNode),
      t.root.leafNodes = pre ++ leaf :: post → ∀ l, (l ∈ pre ∨ l = leaf ∨ l ∈ post) →
      ∀ e ∈ keysFrom l.keys 0 l.size, e ∈ t.root.entries := by
    intro pre post leaf hln l hl e he
    apply mem_leafKeys_entries hwf l _ e he
    rw [hln, List.mem_append, List.mem_cons]
    exact hl
  obtain ⟨a1, s1, k1, c1, pre1, post1, hln1, hs1, hso1, hpre1, hpost1, hge⟩ :=
    greaterThanEquals_out hB k fuel hwf hsz hint hf
  obtain ⟨a2, s2, k2, c2, pre2, post2, hln2, hs2, hso2, hpre2, hpost2, hle⟩ :=
    smallerThanEquals_out hB k fuel hwf hsz hint hf
  obtain ⟨a3, s3, k3, c3, pre3, post3, hln3, hs3, hso3, hpre3, hpost3, hgt⟩ :=
    greaterThan_out hB k fuel hwf hsz hint hf
  obtain ⟨a4, s4, k4, c4, pre4, post4, hln4, hs4, hso4, hpre4, hpost4, hlt⟩ :=
    smallerThan_out hB k fuel hwf hsz hint hf
  refine ⟨_, _, _, _, hge, ?_, hle, ?_, hgt, ?_, hlt, ?_⟩
  · -- greaterThanEquals emits the entry
    intro hp
    obtain ⟨hlow, _⟩ := leaf_lower_bound s1 k1 (k, -1) (by omega) hso1
    rw [List.mem_map]
    refine ⟨(k, p), ?_, rfl⟩
    rw [List.mem_append]
    rcases hloc pre1 post1 _ hln1 with ⟨l, hl, he⟩ | he | ⟨l, hl, he⟩
    · have := keyLt_same_key (hpre1 l hl _ he) rfl
      simp only at this
      omega
    · left
      simp only [BPTNode.keys, BPTNode.size] at he
      rw [mem_keysFrom] at he ⊢
      obtain ⟨j, hj0, hj1, hj⟩ := he
      refine ⟨j, ?_, hj1, hj⟩
      by_contra hcon
      have := keyLt_same_key (hlow j hj0 (by omega)) (by rw [hj])
      rw [hj] at this
      simp only at this
      omega
    · right
      rw [List.mem_flatMap]
      exact ⟨l, hl, he⟩
  · -- smallerThanEquals emits the entry
    intro hp
    obtain ⟨_, hhigh⟩ := leaf_lower_bound s2 k2 (k, LONG_MAX) (by omega) hso2
    rw [List.mem_append]
    rcases hloc pre2 post2 _ hln2 with ⟨l, hl, he⟩ | he | ⟨l, hl, he⟩
    · right
      rw [mem_leftOut]
      rw [mem_keysFrom] at he
      obtain ⟨j, hj0, hj1, hj⟩ := he
      exact ⟨l, hl, j, hj0, hj1, by rw [hj]⟩
    · left
      simp only [BPTNode.keys, BPTNode.size] at he
      rw [mem_keysFrom] at he
      obtain ⟨j, hj0, hj1, hj⟩ := he
      rw [mem_keysDownFrom]
      refine ⟨j, hj0, ?_, by rw [hj]⟩
      by_contra hcon
      have := keyLe_same_key (hhigh j (by omega) hj1) (by rw [hj])
      rw [hj] at this
      simp only at this
      omega
    · have := keyLe_same_key (hpost2 l hl _ he) rfl
      simp only at this
      omega
  · -- greaterThan does not emit the key
    intro hall hmem
    obtain ⟨_, hhigh⟩ := leaf_lower_bound s3 k3 (k, LONG_MAX) (by omega) hso3
    rw [List.mem_map] at hmem
    obtain ⟨e, he, hek⟩ := hmem
    rw [List.mem_append] at he
    rcases he with he | he
    · have hin := hsub pre3 post3 _ hln3 _ (Or.inr (Or.inl rfl)) e (by
        simp only [BPTNode.keys, BPTNode.size]
        rw [mem_keysFrom] at he ⊢
        obtain ⟨j, hj0, hj1, hj⟩ := he
        obtain ⟨hb0, _, _, _⟩ := binarySearch_spec s3 k3 (k, LONG_MAX) (by omega)
        exact ⟨j, by omega, hj1, hj⟩)
      rw [mem_keysFrom] at he
      obtain ⟨j, hj0, hj1, hj⟩ := he
      have h1 := keyLe_same_key (hhigh j hj0 hj1) (by rw [hj]; exact hek)
      have h2 := hall e hin hek
      rw [hj] at h1
      omega
    · rw [List.mem_flatMap] at he
      obtain ⟨l, hl, he⟩ := he
      have hin := hsub pre3 post3 _ hln3 l (Or.inr (Or.inr hl)) e he
      have h1 := keyLe_same_key (hpost3 l hl e he) hek
      have h2 := hall e hin hek
      omega
  · -- smallerThan does not emit the key
    intro hall hmem
    obtain ⟨hlow, _⟩ := leaf_lower_bound s4 k4 (k, -1) (by omega) hso4
    obtain ⟨_, hb1, _, _⟩ := binarySearch_spec s4 k4 (k, -1) (by omega)
    rw [List.mem_append] at hmem
    rcases hmem with he | he
    · rw [mem_keysDownFrom] at he
      obtain ⟨j, hj0, hj1, hj⟩ := he
      have hin := hsub pre4 post4 _ hln4 _ (Or.inr (Or.inl rfl)) (k4 j) (by
        simp only [BPTNode.keys, BPTNode.size]
        rw [mem_keysFrom]
        exact ⟨j, hj0, by omega, rfl⟩)
      have h1 := keyLt_same_key (hlow j hj0 (by omega)) hj
      have h2 := hall _ hin hj
      omega
    · rw [mem_leftOut] at he
      obtain ⟨l, hl, j, hj0, hj1, hj⟩ := he
      have hmemk : l.keys j ∈ keysFrom l.keys 0 l.size := by
        rw [mem_keysFrom]
        exact ⟨j, hj0, hj1, rfl⟩
      have hin := hsub pre4 post4 _ hln4 l (Or.inl hl) _ hmemk
      have h1 := keyLt_same_key (hpre4 l hl _ hmemk) hj
      have h2 := hall _ hin hj
      omega


set_option maxRecDepth 100000 in
/-- C37 (as stated, refuted): with `B = 2`, on the tree that holds the single entry `(5, -5)`,
`greaterThanEquals(5)` emits nothing and `smallerThan(5)` emits 5; on the tree that holds the
single entry `(5, LONG_MAX)`, `smallerThanEquals(5)` emits nothing and `greaterThan(5)`
emits 5. -/
theorem C37_probes_are_not_infinities :
    entriesAfter 8 2 [Call.insert (5, -5)] = some [(5, -5)] ∧
    scanAfter greaterThanEquals 8 2 [Call.insert (5, -5)] 5 = some [] ∧
    scanAfter smallerThan 8 2 [Call.insert (5, -5)] 5 = some [5] ∧
    entriesAfter 8 2 [Call.insert (5, LONG_MAX)] = some [(5, LONG_MAX)] ∧
    scanAfter smallerThanEquals 8 2 [Call.insert (5, LONG_MAX)] 5 = some [] ∧
    scanAfter greaterThan 8 2 [Call.insert (5, LONG_MAX)] 5 = some [5] := by
  decide!

/-- C37 (amended): the probe pkeys `-1` and `LONG_MAX` bound the pkeys from `-1` up to, but not
including, `LONG_MAX`.  For every tree reachable by insert and remove calls on pairwise
distinct pairs (`B ≥ 2`) whose structure is intact (every internal node has all its children
and the sibling pointers link the leaves in tree order) and every stored entry `(k, p)`, with
enough fuel each of the four scans returns, and: `greaterThanEquals(k)` emits `k` when
`p ≥ -1`; `smallerThanEquals(k)` emits `k` when `p < LONG_MAX`; `greaterThan(k)` does not emit
`k` when every stored entry with user key `k` has a pkey below `LONG_MAX`; `smallerThan(k)`
does not emit `k` when every stored entry with user key `k` has a pkey of at least `-1`. -/
theorem C37_sentinel_probes_bound_pkeys (B : Int) (hB : 2 ≤ B) (t : BPTree)
    (hr : ReachableBy true B t) (hint : Intact t) (k p : Int)
    (hst : (k, p) ∈ t.root.entries) :
    ∃ fuel0 : Nat, ∀ fuel : Nat, fuel0 ≤ fuel →
      ∃ ge le gt lt,
        greaterThanEquals fuel t k = Except.ok ge ∧ (-1 ≤ p → k ∈ ge) ∧
        smallerThanEquals fuel t k = Except.ok le ∧ (p < LONG_MAX → k ∈ le) ∧
        greaterThan fuel t k = Except.ok gt ∧
          ((∀ e ∈ t.root.entries, e.1 = k → e.2 < LONG_MAX) → k ∉ gt) ∧
        smallerThan fuel t k = Except.ok lt ∧
          ((∀ e ∈ t.root.entries, e.1 = k → -1 ≤ e.2) → k ∉ lt) := by
  obtain ⟨htw, hBt⟩ := ReachableBy_TreeWF hB hr
  rcases htw with hnull | ⟨hsz, h, hwf⟩
  · rw [hnull] at hst
    simp [BPTNode.entries] at hst
  · rw [hBt] at hwf
    refine ⟨h + t.root.leafNodes.length + 2, fun fuel hfuel => ?_⟩
    exact scans_bound_pkeys hB hwf hsz hint k p hst fuel (by omega)

set_option maxRecDepth 100000 in
/-- Witness for C37 (amended): the tree built by the seven inserts of `borrowScenario` with
`B = 2` is intact and stores `(7, 7)`. -/
theorem C37_sentinel_probes_bound_pkeys_witness :
    Intact sevenTree ∧ (7, 7) ∈ sevenTree.root.entries ∧
    ∃ fuel0 : Nat, ∀ fuel : Nat, fuel0 ≤ fuel →
      ∃ ge le gt lt,
        greaterThanEquals fuel sevenTree 7 = Except.ok ge ∧ (-1 ≤ (7 : Int) → (7 : Int) ∈ ge) ∧
        smallerThanEquals fuel sevenTree 7 = Except.ok le ∧
          ((7 : Int) < LONG_MAX → (7 : Int) ∈ le) ∧
        greaterThan fuel sevenTree 7 = Except.ok gt ∧
          ((∀ e ∈ sevenTree.root.entries, e.1 = 7 → e.2 < LONG_MAX) → (7 : Int) ∉ gt) ∧
        smallerThan fuel sevenTree 7 = Except.ok lt ∧
          ((∀ e ∈ sevenTree.root.entries, e.1 = 7 → -1 ≤ e.2) → (7 : Int) ∉ lt) :=
  have hint : Intact sevenTree := by
    unfold Intact
    decide!
  have hmem : ((7, 7) : keyRNPair) ∈ sevenTree.root.entries := by
    decide!
  ⟨hint, hmem, C37_sentinel_probes_bound_pkeys 2 (by decide) sevenTree sevenTree_reachable
    hint 7 7 hmem⟩

end BPT
